import Mathlib

/-!
# Rev-C compatible experiment runner of `zynq_toolbox` (shim-test)

Shallow embedding of

* `validate_rev_c_file_format_amps`, `rev_c_dac_cmd_stream_thread`,
  `rev_c_adc_cmd_stream_thread` and `cmd_rev_c_compat`
  (`shim-test/src/commands/rev_c_compat.c`),
* the trigger command codecs (`shim-test/src/sys/trigger_ctrl.c`),

together with the parts of the C library they rely on (`fgets`, `strtof`,
single- and double-precision arithmetic), followed by the theorems that settle the
specification claims.

Conventions.  A C string is a `List Char`; the end of the list plays the role
of the terminating NUL, and a NUL character inside the list is tested the way
the C code tests it.  Machine integers are `Nat`/`Int` with explicit wrapping
where the C code can overflow.
-/

namespace RevC

/-! ## Single-precision floats -/

/-- IEEE-754 binary32 value.  A finite value is `± mag · 2^-149`: every finite
binary32 number is an integer multiple of the smallest subnormal `2^-149`. -/
inductive F32 where
  | fin (neg : Bool) (mag : Nat)
  | inf (neg : Bool)
  | nan
  deriving DecidableEq, Repr

/-- The number of units `2^-149` in `1.0f`. -/
def F32.one : Nat := 2 ^ 149

/-- Floor of the binary logarithm, by halving (`fuel` bounds the number of halvings). -/
def log2Fuel : Nat → Nat → Nat
  | 0, _ => 0
  | fuel + 1, n => if 2 ≤ n then log2Fuel fuel (n / 2) + 1 else 0

/-- Floor of the binary logarithm of `n` (0 for `n = 0`). -/
def ilog2 (n : Nat) : Nat := log2Fuel n n

/-- Round the non-negative rational `n / q` to the nearest integer, ties to even. -/
def rne (n q : Nat) : Nat :=
  let f := n / q
  let r := n % q
  if 2 * r < q then f else if q < 2 * r then f + 1 else if f % 2 = 0 then f else f + 1

/-- Round the non-negative rational `num / den` to binary32 (round to nearest,
ties to even, unbounded exponent); the result is in units of `2^-149`.
Below `2^24` units the spacing of binary32 numbers is one unit (subnormals and
the first normal binade); from there on a binade `[2^L, 2^(L+1))` has spacing
`2^(L-23)`. -/
def roundUnits (num den : Nat) : Nat :=
  let n := num * 2 ^ 149
  let shift := ilog2 (n / den) - 23
  rne n (den * 2 ^ shift) * 2 ^ shift

/-- The binary32 number nearest to `± num / den`; magnitudes that round to
`2^128` or more overflow to infinity. -/
def F32.ofRatio (neg : Bool) (num den : Nat) : F32 :=
  let u := roundUnits num den
  if 2 ^ 277 ≤ u then F32.inf neg else F32.fin neg u

/-- Conversion `(float) i` of an integer. -/
def F32.ofInt (i : Int) : F32 := F32.ofRatio (decide (i < 0)) i.natAbs 1

/-- Position of a float on the extended line, in units of `2^-149`
(`none` for NaN; infinities are placed beyond every finite value). -/
def F32.key : F32 → Option Int
  | .fin neg mag => some (if neg then -(mag : Int) else (mag : Int))
  | .inf neg => some (if neg then -(2 ^ 300 : Int) else (2 ^ 300 : Int))
  | .nan => none

/-- The C comparison `a < b` on floats (false when an operand is NaN). -/
def F32.lt (a b : F32) : Bool :=
  match a.key, b.key with
  | some x, some y => decide (x < y)
  | _, _ => false

/-- The C comparison `a > b` on floats. -/
def F32.gt (a b : F32) : Bool := F32.lt b a

/-- Float multiplication `a * b`, correctly rounded. -/
def F32.mul : F32 → F32 → F32
  | .fin s m, .fin t k => F32.ofRatio (s != t) (m * k) (2 ^ 298)
  | .fin s m, .inf t => if m = 0 then .nan else .inf (s != t)
  | .inf s, .fin t k => if k = 0 then .nan else .inf (s != t)
  | .inf s, .inf t => .inf (s != t)
  | _, _ => .nan

/-- Float division `a / b`, correctly rounded. -/
def F32.div : F32 → F32 → F32
  | .fin s m, .fin t k =>
      if k = 0 then (if m = 0 then .nan else .inf (s != t)) else F32.ofRatio (s != t) m k
  | .fin s _, .inf t => .fin (s != t) 0
  | .inf s, .fin t _ => .inf (s != t)
  | _, _ => .nan

/-- Integral part of a finite float, truncated toward zero (the value of a
C float-to-integer conversion when it is representable); 0 for infinities and NaN. -/
def F32.trunc : F32 → Int
  | .fin neg mag => if neg then -((mag / 2 ^ 149 : Nat) : Int) else ((mag / 2 ^ 149 : Nat) : Int)
  | _ => 0

/-- The constant `5.0f`. -/
def five : F32 := F32.fin false (5 * 2 ^ 149)

/-- The constant `-5.0f`. -/
def negFive : F32 := F32.fin true (5 * 2 ^ 149)

/-- `m` units is a binary32 number: every spacing up to that of its own binade divides it. -/
def Representable (m : Nat) : Prop := ∀ k, k ≤ ilog2 m - 23 → 2 ^ k ∣ m

/-! ## C library: `ctype`, `fgets`, `strtof` -/

/-- The character `*p` of a C string: the terminating NUL at the end of the list. -/
def cpeek : List Char → Char
  | [] => '\x00'
  | c :: _ => c

/-- The library predicate `isspace` in the C locale. -/
def isspace (c : Char) : Bool :=
  c = ' ' || c = '\t' || c = '\n' || c = '\x0b' || c = '\x0c' || c = '\r'

/-- The library predicate `isdigit`. -/
def isdigit (c : Char) : Bool := decide (48 ≤ c.toNat) && decide (c.toNat ≤ 57)

/-- Value of a hexadecimal digit, `none` for any other character. -/
def hexVal (c : Char) : Option Nat :=
  if 48 ≤ c.toNat ∧ c.toNat ≤ 57 then some (c.toNat - 48)
  else if 97 ≤ c.toNat ∧ c.toNat ≤ 102 then some (c.toNat - 87)
  else if 65 ≤ c.toNat ∧ c.toNat ≤ 70 then some (c.toNat - 55)
  else none

/-- ASCII lower-casing, as used by the case-insensitive keywords of `strtof`. -/
def lowerAscii (c : Char) : Char :=
  if 65 ≤ c.toNat ∧ c.toNat ≤ 90 then Char.ofNat (c.toNat + 32) else c

/-- Does the string start with the keyword `kw` (given in lower case), ignoring case?
Returns the remainder after the keyword. -/
def stripKeyword : List Char → List Char → Option (List Char)
  | [], s => some s
  | _ :: _, [] => none
  | k :: kw, c :: s => if lowerAscii c = k then stripKeyword kw s else none

/-- Skip leading `isspace` characters (the first step of `strtof`). -/
def skipSpace : List Char → List Char
  | [] => []
  | c :: cs => if isspace c then skipSpace cs else c :: cs

/-- Read decimal digits: returns the accumulated number, the count of digits
read and the remaining input. -/
def scanDigits : List Char → Nat → Nat → Nat × Nat × List Char
  | [], acc, cnt => (acc, cnt, [])
  | c :: cs, acc, cnt =>
      if isdigit c then scanDigits cs (acc * 10 + (c.toNat - 48)) (cnt + 1) else (acc, cnt, c :: cs)

/-- Read hexadecimal digits: accumulated number, count of digits, remaining input. -/
def scanHex : List Char → Nat → Nat → Nat × Nat × List Char
  | [], acc, cnt => (acc, cnt, [])
  | c :: cs, acc, cnt =>
      match hexVal c with
      | some d => scanHex cs (acc * 16 + d) (cnt + 1)
      | none => (acc, cnt, c :: cs)

/-- Optional exponent part `<marker> [sign] digits` (marker `e`/`p` in lower case).
Returns the exponent and the remaining input; when no digit follows, nothing
is consumed and the exponent is 0. -/
def scanExponent (marker : Char) (s : List Char) : Int × List Char :=
  if lowerAscii (cpeek s) = marker then
    let t := s.tail
    let eneg : Bool := cpeek t = '-'
    let t1 := if cpeek t = '-' ∨ cpeek t = '+' then t.tail else t
    let (e, n, rest) := scanDigits t1 0 0
    if n = 0 then (0, s) else ((if eneg then -(e : Int) else (e : Int)), rest)
  else (0, s)

/-- The float `± mant · base^ex`, correctly rounded. -/
def scaleToF32 (neg : Bool) (mant base : Nat) (ex : Int) : F32 :=
  if 0 ≤ ex then F32.ofRatio neg (mant * base ^ ex.toNat) 1
  else F32.ofRatio neg mant (base ^ (-ex).toNat)

/-- Decimal floating constant: digits with an optional radix point and an
optional exponent; `none` when there is no digit. -/
def parseDecimal (neg : Bool) (s : List Char) : Option (F32 × List Char) :=
  let (m1, n1, r1) := scanDigits s 0 0
  let (m2, n2, r2) := if cpeek r1 = '.' then scanDigits r1.tail m1 0 else (m1, 0, r1)
  if n1 + n2 = 0 then none
  else
    let (ex, r3) := scanExponent 'e' r2
    some (scaleToF32 neg m2 10 (ex - n2), r3)

/-- Hexadecimal floating constant after the `0x` prefix; `none` when there is
no hexadecimal digit. -/
def parseHex (neg : Bool) (s : List Char) : Option (F32 × List Char) :=
  let (m1, n1, r1) := scanHex s 0 0
  let (m2, n2, r2) := if cpeek r1 = '.' then scanHex r1.tail m1 0 else (m1, 0, r1)
  if n1 + n2 = 0 then none
  else
    let (ex, r3) := scanExponent 'p' r2
    some (scaleToF32 neg m2 2 (ex - 4 * n2), r3)

/-- Characters allowed inside `nan(...)`. -/
def isNChar (c : Char) : Bool :=
  isdigit c || c = '_' || (decide (97 ≤ (lowerAscii c).toNat) && decide ((lowerAscii c).toNat ≤ 122))

/-- The optional `(n-char-sequence)` after `nan`. -/
def stripNanPayload (s : List Char) : List Char :=
  if cpeek s = '(' then
    let u := s.tail.dropWhile isNChar
    if cpeek u = ')' then u.tail else s
  else s

/-- The subject sequence of `strtof` after white space and sign: `inf`,
`infinity`, `nan`, a hexadecimal or a decimal floating constant. -/
def parseUnsigned (neg : Bool) (s : List Char) : Option (F32 × List Char) :=
  match stripKeyword "infinity".toList s with
  | some r => some (F32.inf neg, r)
  | none =>
  match stripKeyword "inf".toList s with
  | some r => some (F32.inf neg, r)
  | none =>
  match stripKeyword "nan".toList s with
  | some r => some (F32.nan, stripNanPayload r)
  | none =>
  match stripKeyword "0x".toList s with
  | some r =>
      (match parseHex neg r with
       | some res => some res
       | none => parseDecimal neg s)
  | none => parseDecimal neg s

/-- The library function `strtof(nptr, &endptr)`: the converted value and the
string `endptr` points to.  When no conversion can be performed the value is
zero and `endptr` is `nptr`. -/
def strtof (nptr : List Char) : F32 × List Char :=
  let s := skipSpace nptr
  let neg : Bool := cpeek s = '-'
  let s1 := if cpeek s = '-' ∨ cpeek s = '+' then s.tail else s
  match parseUnsigned neg s1 with
  | some res => res
  | none => (F32.fin false 0, nptr)

/-- The successive buffers `fgets(line, size, file)` returns while reading a
stream to its end: each call stores characters up to and including a newline,
at most `size - 1` of them.  `acc` holds the current buffer in reverse. -/
def fgetsLines (size : Nat) : List Char → List Char → List (List Char)
  | [], acc => if acc.isEmpty then [] else [acc.reverse]
  | c :: cs, acc =>
      if c = '\n' ∨ acc.length + 2 = size then (c :: acc).reverse :: fgetsLines size cs []
      else fgetsLines size cs (c :: acc)

/-! ## `validate_rev_c_file_format_amps` -/

/-- The loop `while (*p == ' ' || *p == '\t') p++;`. -/
def skipBlanks : List Char → List Char
  | [] => []
  | c :: cs => if c = ' ' ∨ c = '\t' then skipBlanks cs else c :: cs

/-- The test `*p == '\n' || *p == '\r' || *p == '\0'`. -/
def atLineEnd (p : List Char) : Bool :=
  cpeek p = '\n' || cpeek p = '\r' || cpeek p = '\x00'

/-- Outcome of the value loop of one line. -/
inductive ValueLoop where
  /-- A value failed the range check (`return -1` inside the loop). -/
  | outOfRange
  /-- The loop ended with `parsed` values, `token_start` pointing at `rest`. -/
  | done (parsed : Nat) (rest : List Char)
  deriving DecidableEq, Repr

/-- The loop `for (int i = 0; i < 32; i++)` of the validator, with `todo = 32 - i`. -/
def parseValues : Nat → Nat → List Char → ValueLoop
  | 0, parsed, token_start => .done parsed token_start
  | todo + 1, parsed, token_start =>
      let token_start := skipBlanks token_start
      if atLineEnd token_start then .done parsed token_start
      else
        let (val, endptr) := strtof token_start
        if endptr.length = token_start.length then .done parsed token_start
        else if F32.lt val negFive || F32.gt val five then .outOfRange
        else parseValues todo (parsed + 1) (skipBlanks endptr)

/-- Is the buffer skipped as an empty line or a comment? -/
def isSkippedLine (line : List Char) : Bool :=
  let trimmed := skipBlanks line
  atLineEnd trimmed || cpeek trimmed = '#'

/-- The body of the `while (fgets(...))` loop for one data line: `true` when the
line is accepted (`valid_lines++`), `false` when the function returns -1. -/
def validLine (line : List Char) : Bool :=
  match parseValues 32 0 (skipBlanks line) with
  | .outOfRange => false
  | .done parsed token_start =>
      if parsed ≠ 32 then false
      else atLineEnd (skipBlanks token_start)

/-- The `while (fgets(...))` loop over the buffers of the file; `none` is
`return -1`, `some n` is reaching the end of the file with `valid_lines = n`. -/
def validateLines : List (List Char) → Nat → Option Nat
  | [], valid_lines => some valid_lines
  | line :: rest, valid_lines =>
      if isSkippedLine line then validateLines rest valid_lines
      else if validLine line then validateLines rest (valid_lines + 1)
      else none

/-- The function `validate_rev_c_file_format_amps(file_path, &line_count)`.
The file is `none` when `fopen` fails, else its content.  The result `none`
is the return value -1 (`*line_count` untouched); `some n` is the return
value 0 with `*line_count = n`. -/
def validate_rev_c_file_format_amps (file : Option (List Char)) : Option Nat :=
  match file with
  | none => none
  | some content =>
      match validateLines (fgetsLines 2048 content []) 0 with
      | none => none
      | some valid_lines => if valid_lines = 0 then none else some valid_lines

/-- The `int` the validator returns. -/
def retcode (r : Option Nat) : Int :=
  match r with
  | none => -1
  | some _ => 0

/-! ## Well-formed setpoint files -/

/-- The character of a decimal digit. -/
def digitChar (d : Fin 10) : Char := Char.ofNat (48 + d.val)

/-- Value of a digit string (most significant digit first) appended to `acc`. -/
def digitsVal (acc : Nat) : List (Fin 10) → Nat
  | [] => acc
  | d :: ds => digitsVal (acc * 10 + d.val) ds

/-- A decimal numeral `[sign] digits [. digits]`: `sign` is `some true` for `-`,
`some false` for `+`; `frac` holds the digits after the radix point, if any. -/
structure Numeral where
  sign : Option Bool
  intDigits : List (Fin 10)
  frac : Option (List (Fin 10))
  deriving DecidableEq, Repr

/-- The digits after the radix point. -/
def Numeral.fracDigits (t : Numeral) : List (Fin 10) := t.frac.getD []

/-- The characters of the sign. -/
def Numeral.signChars (t : Numeral) : List Char :=
  match t.sign with
  | none => []
  | some true => ['-']
  | some false => ['+']

/-- The characters of digits and radix point. -/
def Numeral.body (t : Numeral) : List Char :=
  t.intDigits.map digitChar ++
    (match t.frac with
     | none => []
     | some f => '.' :: f.map digitChar)

/-- The text of the numeral. -/
def Numeral.chars (t : Numeral) : List Char := t.signChars ++ t.body

/-- Is the numeral negative? -/
def Numeral.neg (t : Numeral) : Bool := t.sign = some true

/-- All digits read as one natural number. -/
def Numeral.mant (t : Numeral) : Nat := digitsVal 0 (t.intDigits ++ t.fracDigits)

/-- Number of digits after the radix point: the numeral denotes `± mant / 10^scale`. -/
def Numeral.scale (t : Numeral) : Nat := t.fracDigits.length

/-- A numeral has at least one digit. -/
def Numeral.WellFormed (t : Numeral) : Prop := 0 < t.intDigits.length + t.fracDigits.length

/-- The numeral denotes a real in the closed interval [-5, 5]. -/
def Numeral.InRange (t : Numeral) : Prop := t.mant ≤ 5 * 10 ^ t.scale

/-- The numeral denotes a real of magnitude above `5 + 2^-22`, the midpoint
between `5.0f` and the next binary32 number. -/
def Numeral.Beyond (t : Numeral) : Prop := (5 * 2 ^ 22 + 1) * 10 ^ t.scale < t.mant * 2 ^ 22

/-- The binary32 number nearest to the real the numeral denotes. -/
def Numeral.toF32 (t : Numeral) : F32 := scaleToF32 t.neg t.mant 10 (0 - (t.scale : Int))

/-- The range check of the validator, `!(val < -5.0f || val > 5.0f)`. -/
def passes (val : F32) : Bool := !(F32.lt val negFive || F32.gt val five)

/-- A run of spaces and tabs. -/
def Blanks (s : List Char) : Prop := ∀ c ∈ s, c = ' ' ∨ c = '\t'

/-- The string starts with a character at which a numeral of a well-formed line
ends: a blank, the line end or the end of the string. -/
def Stops (r : List Char) : Prop :=
  cpeek r = ' ' ∨ cpeek r = '\t' ∨ cpeek r = '\n' ∨ cpeek r = '\r' ∨ cpeek r = '\x00'

/-- Numerals, each preceded by a run of blanks. -/
def renderItems : List (List Char × Numeral) → List Char
  | [] => []
  | (b, t) :: items => b ++ t.chars ++ renderItems items

/-- Items that follow another item: well-formed numerals, each preceded by a
non-empty run of blanks. -/
def SepOK : List (List Char × Numeral) → Prop
  | [] => True
  | (b, t) :: items => b ≠ [] ∧ Blanks b ∧ t.WellFormed ∧ SepOK items

/-- The items of a line: well-formed numerals separated by non-empty runs of
blanks; the run before the first numeral may be empty. -/
def ItemsOK : List (List Char × Numeral) → Prop
  | [] => True
  | (b, t) :: items => Blanks b ∧ t.WellFormed ∧ SepOK items

/-- How a line ends: at the end of the file, with a newline, or with CR LF. -/
inductive Eol where
  | eof
  | lf
  | crlf
  deriving DecidableEq, Repr

/-- The characters of a line ending. -/
def Eol.chars : Eol → List Char
  | .eof => []
  | .lf => ['\n']
  | .crlf => ['\r', '\n']

/-- A line of a setpoint file. -/
inductive Line where
  /-- Only spaces and tabs. -/
  | blank (ws : List Char)
  /-- Optional blanks, `#`, any text. -/
  | comment (ws : List Char) (text : List Char)
  /-- Numerals separated by blanks, optional trailing blanks. -/
  | data (items : List (List Char × Numeral)) (trail : List Char)
  deriving DecidableEq

/-- The text of a line, without its ending. -/
def Line.chars : Line → List Char
  | .blank ws => ws
  | .comment ws text => ws ++ '#' :: text
  | .data items trail => renderItems items ++ trail

/-- Is it a data line? -/
def Line.isData : Line → Bool
  | .data _ _ => true
  | _ => false

/-- The line is as the file format requires: blank, a comment, or exactly 32
numerals in [-5, 5] separated by blanks. -/
def Line.OK : Line → Prop
  | .blank ws => Blanks ws
  | .comment ws text => Blanks ws ∧ '\n' ∉ text
  | .data items trail =>
      ItemsOK items ∧ items.length = 32 ∧ (∀ it ∈ items, it.2.InRange) ∧ Blanks trail

/-- The text of a file. -/
def renderFile : List (Line × Eol) → List Char
  | [] => []
  | (l, e) :: rest => l.chars ++ e.chars ++ renderFile rest

/-- Every line is as the format requires and fits the 2048-byte line buffer
(at most 2047 characters with its ending); only the last line may lack a newline. -/
def FileOK : List (Line × Eol) → Prop
  | [] => True
  | (l, e) :: rest =>
      l.OK ∧ (l.chars ++ e.chars).length ≤ 2047 ∧ (e = Eol.eof → rest = []) ∧ FileOK rest

/-- Number of data lines of a file. -/
def dataLineCount (f : List (Line × Eol)) : Nat := (f.filter (fun le => le.1.isData)).length

/-- What the validator makes of the outcome of the value loop: the line is
accepted when 32 values were parsed and only blanks precede the line end. -/
def accepts (r : ValueLoop) : Bool :=
  match r with
  | .outOfRange => false
  | .done parsed rest => decide (parsed = 32) && atLineEnd (skipBlanks rest)

/-- The verdict on a line of numerals, read off the numerals: `todo` values are
still to be read and `parsed` have been read. -/
def itemsVerdict : Nat → Nat → List (List Char × Numeral) → Bool
  | _, parsed, [] => decide (parsed = 32)
  | 0, _, _ :: _ => false
  | todo + 1, parsed, (_, t) :: items => passes t.toF32 && itemsVerdict todo (parsed + 1) items

instance decBlanks (s : List Char) : Decidable (Blanks s) := by
  unfold Blanks; infer_instance

instance decWellFormed (t : Numeral) : Decidable t.WellFormed := by
  unfold Numeral.WellFormed; infer_instance

instance decInRange (t : Numeral) : Decidable t.InRange := by
  unfold Numeral.InRange; infer_instance

instance decBeyond (t : Numeral) : Decidable t.Beyond := by
  unfold Numeral.Beyond; infer_instance

instance decSepOK : (items : List (List Char × Numeral)) → Decidable (SepOK items)
  | [] => isTrue trivial
  | (b, t) :: items =>
      have := decSepOK items
      (by unfold SepOK; infer_instance)

instance decItemsOK : (items : List (List Char × Numeral)) → Decidable (ItemsOK items)
  | [] => isTrue trivial
  | (b, t) :: items => by unfold ItemsOK; infer_instance

instance decLineOK : (l : Line) → Decidable l.OK
  | .blank ws => by unfold Line.OK; infer_instance
  | .comment ws text => by unfold Line.OK; infer_instance
  | .data items trail => by unfold Line.OK; infer_instance

instance decFileOK : (f : List (Line × Eol)) → Decidable (FileOK f)
  | [] => isTrue trivial
  | (l, e) :: rest =>
      have := decFileOK rest
      (by unfold FileOK; infer_instance)

/-- The whitespace-separated tokens of a line (`cur` is the token being read, reversed). -/
def wsTokens : List Char → List Char → List (List Char)
  | [], cur => if cur.isEmpty then [] else [cur.reverse]
  | c :: cs, cur =>
      if isspace c then (if cur.isEmpty then wsTokens cs [] else cur.reverse :: wsTokens cs [])
      else wsTokens cs (c :: cur)

/-- The numeral `0`. -/
def numZero : Numeral := { sign := none, intDigits := [0], frac := none }

/-- A line of `n + 1` numerals: `first`, then `n` times `0`, separated by single spaces. -/
def lineOf (first : Numeral) (n : Nat) : List (List Char × Numeral) :=
  ([], first) :: List.replicate n ([' '], numZero)

/-! ## Ramp arithmetic of `rev_c_dac_cmd_stream_thread` -/

/-- Conversion of an integer to `int16_t` (two's-complement wrap-around). -/
def wrap16 (i : Int) : Int := (i + 32768) % 65536 - 32768

/-- The expression `(float)(ramp_step + 1) / (float)(ramp_samples + 1)`. -/
def ramp_fraction (ramp_step ramp_samples : Nat) : F32 :=
  F32.div (F32.ofInt ((ramp_step : Int) + 1)) (F32.ofInt ((ramp_samples : Int) + 1))

/-- The float `(target_val - start_val) * ramp_fraction`: the integer difference
is converted to float and the product is rounded to single precision. -/
def ramp_product (start_val target_val : Int) (ramp_step ramp_samples : Nat) : F32 :=
  F32.mul (F32.ofInt (target_val - start_val)) (ramp_fraction ramp_step ramp_samples)

/-- The value
`int16_t ramped_val = start_val + (int16_t)((target_val - start_val) * ramp_fraction);`.
The cast of the float to `int16_t` truncates toward zero; where the integral
part does not fit 16 bits (undefined in ISO C) the model wraps, as the
conversion through a 32-bit integer does on the target. -/
def ramped_val (start_val target_val : Int) (ramp_step ramp_samples : Nat) : Int :=
  wrap16 (start_val + wrap16 (F32.trunc (ramp_product start_val target_val ramp_step ramp_samples)))

/-! ## `rev_c_dac_cmd_stream_thread` -/

/-- Unsigned 32-bit subtraction `a - b`. -/
def sub32 (a b : Nat) : Nat := (a + 2 ^ 32 - b % 2 ^ 32) % 2 ^ 32

/-- Parts of the repository that the streaming code uses and whose definitions
are not in the sources at hand: the macro `DAC_CMD_FIFO_WORDCOUNT` (capacity of
a DAC command FIFO in words) and the helper `amps_to_dac`.  They are parameters. -/
structure Hw where
  DAC_CMD_FIFO_WORDCOUNT : Nat
  amps_to_dac : F32 → Int

/-- The fields of `rev_c_params_t` the DAC thread reads (the counts are
non-negative C `int`s; the file and the stop flag are passed separately). -/
structure rev_c_params_t where
  iterations : Nat
  ramp_samples : Nat
  ramp_delay_cycles : Int
  line_count : Nat
  delay_cycles : Nat
  final_zero_trigger : Bool

/-- What is outside the thread: the other threads and the hardware.  The
thread meets it at every volatile read and every bus access; these accesses
are numbered by a logical time. -/
structure Env where
  /-- The value of `*should_stop` at time `t`. -/
  stop : Nat → Bool
  /-- `FIFO_PRESENT` of the DAC command FIFO status of `board` at time `t`. -/
  present : Nat → Nat → Bool
  /-- Number of command words the hardware consumes from the DAC command FIFO
  of `board` during step `t`. -/
  drain : Nat → Nat → Nat

/-- One `dac_cmd_dac_wr` call as seen on the bus: when it happened, the
arguments of the call, and the number of free words in the FIFO at that moment. -/
structure DacWrite where
  time : Nat
  board : Nat
  free : Nat
  ch_vals : List Int
  trig : Bool
  cont : Bool
  ldac : Bool
  count : Int
  deriving DecidableEq, Repr

/-- State of a run of the DAC thread: logical time, fill level of the four DAC
command FIFOs, the writes so far (latest first) and the counters of the thread. -/
structure DacState where
  time : Nat
  fill : Nat → Nat
  log : List DacWrite
  total_commands_sent : Nat
  total_words_sent : Nat

/-- One step of logical time: the hardware consumes words, the FIFO fill only decreases. -/
def DacState.tick (env : Env) (st : DacState) : DacState :=
  { st with time := st.time + 1, fill := fun b => st.fill b - env.drain st.time b }

/-- The state in which the thread starts: time 0, given FIFO fill, nothing sent. -/
def DacState.init (fill : Nat → Nat) : DacState :=
  { time := 0, fill := fill, log := [], total_commands_sent := 0, total_words_sent := 0 }

/-- Modelled from the spec: `dac_cmd_dac_wr` (dac_ctrl.c is not in the sources)
pushes one DAC_WR, one opcode word and four data words, into the command FIFO
of `board`; words written to a full FIFO are lost. -/
def dac_cmd_dac_wr (env : Env) (hw : Hw) (board : Nat) (ch_vals : List Int)
    (trig cont ldac : Bool) (count : Int) (st : DacState) : DacState :=
  ({ st with
      fill := fun b => if b = board then min hw.DAC_CMD_FIFO_WORDCOUNT (st.fill b + 5) else st.fill b,
      log := { time := st.time, board := board,
               free := hw.DAC_CMD_FIFO_WORDCOUNT - st.fill board,
               ch_vals := ch_vals, trig := trig, cont := cont, ldac := ldac, count := count }
             :: st.log } : DacState).tick env

/-- The statements `total_commands_sent++; total_words_sent += 5;`. -/
def DacState.countCommand (st : DacState) : DacState :=
  { st with total_commands_sent := st.total_commands_sent + 1,
            total_words_sent := st.total_words_sent + 5 }

/-- How a wait for FIFO space ends. -/
inductive Wait where
  /-- `break`: enough space seen. -/
  | ready
  /-- The loop condition `!(*should_stop)` failed. -/
  | stopped
  /-- `FIFO_PRESENT == 0`: `goto cleanup`. -/
  | absent
  /-- The model ran out of fuel while polling. -/
  | timeout
  deriving DecidableEq, Repr

/-- The loop
`while (!(*should_stop)) { status; if (!present) goto cleanup; if (available >= need) break; usleep(1000); }`
for `board`; `fuel` bounds the number of polls. -/
def waitForSpace (env : Env) (hw : Hw) (board need : Nat) : Nat → DacState → Wait × DacState
  | 0, st => (.timeout, st)
  | fuel + 1, st =>
      let should_stop := env.stop st.time
      let st1 := st.tick env
      if should_stop then (.stopped, st1)
      else
        let present := env.present st1.time board
        let words_used := st1.fill board
        let st2 := st1.tick env
        if !present then (.absent, st2)
        else
          let available_words := sub32 hw.DAC_CMD_FIFO_WORDCOUNT words_used
          if 5 * need ≤ available_words then (.ready, st2)
          else waitForSpace env hw board need fuel st2

/-- The eight values `cmd_ch_vals` of `board` at `ramp_step`. -/
def cmd_ch_vals (p : rev_c_params_t) (line_dac_vals prev_line_dac_vals : List Int)
    (board ramp_step : Nat) : List Int :=
  (List.range 8).map fun ch =>
    ramped_val (prev_line_dac_vals.getD (board * 8 + ch) 0) (line_dac_vals.getD (board * 8 + ch) 0)
      ramp_step p.ramp_samples

/-- The body of the loop `for (ramp_step = 0; ramp_step <= ramp_samples; ramp_step++)`. -/
def rampStep (env : Env) (hw : Hw) (p : rev_c_params_t) (iteration line_num board : Nat)
    (line_dac_vals prev_line_dac_vals : List Int) (st : DacState) (ramp_step : Nat) : DacState :=
  let is_last_iteration : Bool := iteration + 1 = p.iterations
  let is_last_line : Bool := line_num = p.line_count
  let is_last_ramp_step : Bool := ramp_step = p.ramp_samples
  let cont := !(is_last_iteration && is_last_line && is_last_ramp_step)
  let trig : Bool := ramp_step = 0
  let count : Int := if trig then 1 else p.ramp_delay_cycles
  (dac_cmd_dac_wr env hw board (cmd_ch_vals p line_dac_vals prev_line_dac_vals board ramp_step)
    trig cont true count st).countCommand

/-- The loop `for (ramp_step = 0; ramp_step <= ramp_samples; ramp_step++)`. -/
def rampLoop (env : Env) (hw : Hw) (p : rev_c_params_t) (iteration line_num board : Nat)
    (line_dac_vals prev_line_dac_vals : List Int) (st : DacState) : DacState :=
  (List.range (p.ramp_samples + 1)).foldl
    (rampStep env hw p iteration line_num board line_dac_vals prev_line_dac_vals) st

/-- How a loop of the thread is left. -/
inductive Flow where
  /-- The loop ended; execution continues after it. -/
  | next
  /-- `goto cleanup`. -/
  | cleanup
  /-- The model ran out of fuel in a wait. -/
  | timeout
  deriving DecidableEq, Repr

/-- The loop `for (board = 0; board < 4; board++)` of a row, over the boards
still to serve: wait for `5 * (ramp_samples + 1)` free words, then send the ramp. -/
def boardLoop (env : Env) (hw : Hw) (p : rev_c_params_t) (fuel iteration line_num : Nat)
    (line_dac_vals prev_line_dac_vals : List Int) : List Nat → DacState → Flow × DacState
  | [], st => (.next, st)
  | board :: boards, st =>
      match waitForSpace env hw board (p.ramp_samples + 1) fuel st with
      | (.absent, st1) => (.cleanup, st1)
      | (.timeout, st1) => (.timeout, st1)
      | (_, st1) =>
          boardLoop env hw p fuel iteration line_num line_dac_vals prev_line_dac_vals boards
            (rampLoop env hw p iteration line_num board line_dac_vals prev_line_dac_vals st1)

/-- The loop that parses the 32 values of a line:
`skip blanks; amp_val = strtof(token_start, &endptr); amps_to_dac(amp_val); token_start = endptr`. -/
def parseDacValues (hw : Hw) : Nat → List Char → List Int
  | 0, _ => []
  | n + 1, token_start =>
      let (amp_val, endptr) := strtof (skipBlanks token_start)
      hw.amps_to_dac amp_val :: parseDacValues hw n endptr

/-- The loop `while (fgets(line, sizeof(line), file) && !(*should_stop))` over the
buffers `fgets` still returns; `line_num` counts the data lines so far.
`prev_line_dac_vals` is never assigned in the loop. -/
def lineLoop (env : Env) (hw : Hw) (p : rev_c_params_t) (fuel iteration : Nat)
    (prev_line_dac_vals : List Int) : List (List Char) → Nat → DacState → Flow × DacState
  | [], _, st => (.next, st)
  | line :: rest, line_num, st =>
      let should_stop := env.stop st.time
      let st1 := st.tick env
      if should_stop then (.next, st1)
      else if isSkippedLine line then
        lineLoop env hw p fuel iteration prev_line_dac_vals rest line_num st1
      else
        let line_num := line_num + 1
        let line_dac_vals := parseDacValues hw 32 (skipBlanks line)
        match boardLoop env hw p fuel iteration line_num line_dac_vals prev_line_dac_vals
            [0, 1, 2, 3] st1 with
        | (.next, st2) => lineLoop env hw p fuel iteration prev_line_dac_vals rest line_num st2
        | r => r

/-- The loop `for (iteration = 0; iteration < iterations && !(*should_stop); iteration++)`,
with `todo = iterations - iteration`.  Each iteration rewinds the file and
starts with `prev_line_dac_vals` all zero. -/
def iterationLoop (env : Env) (hw : Hw) (p : rev_c_params_t) (fuel : Nat)
    (lines : List (List Char)) : Nat → Nat → DacState → Flow × DacState
  | 0, _, st => (.next, st)
  | todo + 1, iteration, st =>
      let should_stop := env.stop st.time
      let st1 := st.tick env
      if should_stop then (.next, st1)
      else
        match lineLoop env hw p fuel iteration (List.replicate 32 0) lines 0 st1 with
        | (.next, st2) => iterationLoop env hw p fuel lines todo (iteration + 1) st2
        | r => r

/-- The loop over the boards of the final zero trigger: wait for 5 free words,
then send a DAC_WR of zeros with `trig = true`, `cont = false`, `ldac = true`, count 1. -/
def finalZeroLoop (env : Env) (hw : Hw) (fuel : Nat) : List Nat → DacState → Flow × DacState
  | [], st => (.next, st)
  | board :: boards, st =>
      match waitForSpace env hw board 1 fuel st with
      | (.absent, st1) => (.cleanup, st1)
      | (.timeout, st1) => (.timeout, st1)
      | (_, st1) =>
          finalZeroLoop env hw fuel boards
            (dac_cmd_dac_wr env hw board (List.replicate 8 0) true false true 1 st1).countCommand

/-- The block `if (final_zero_trigger && !(*should_stop)) { ... }`. -/
def finalZero (env : Env) (hw : Hw) (p : rev_c_params_t) (fuel : Nat) (st : DacState) :
    Flow × DacState :=
  if p.final_zero_trigger then
    let should_stop := env.stop st.time
    let st1 := st.tick env
    if should_stop then (.next, st1) else finalZeroLoop env hw fuel [0, 1, 2, 3] st1
  else (.next, st)

/-- The thread function `rev_c_dac_cmd_stream_thread`.  `file` is `none` when
`fopen` fails (the thread returns at once), else the content of the setpoint
file; `fuel` bounds the number of polls of each wait. -/
def rev_c_dac_cmd_stream_thread (env : Env) (hw : Hw) (p : rev_c_params_t) (fuel : Nat)
    (file : Option (List Char)) (st : DacState) : Flow × DacState :=
  match file with
  | none => (.cleanup, st)
  | some content =>
      match iterationLoop env hw p fuel (fgetsLines 2048 content []) p.iterations 0 st with
      | (.next, st1) => finalZero env hw p fuel st1
      | r => r

/-- The writes of a log that happened at time `t0` or later. -/
def writesFrom (t0 : Nat) (log : List DacWrite) : List DacWrite :=
  log.filter fun w => decide (t0 ≤ w.time)

/-- A hardware description for examples: FIFO of 1024 words, `amps_to_dac`
taking the integral part of the current. -/
def exampleHw : Hw := { DAC_CMD_FIFO_WORDCOUNT := 1024, amps_to_dac := fun v => F32.trunc v }

/-- A setpoint file with one data line of 32 zeros. -/
def oneLineFile : List Char :=
  "0 0 0 0 0 0 0 0 0 0 0 0 0 0 0 0 0 0 0 0 0 0 0 0 0 0 0 0 0 0 0 0\n".toList

/-- A setpoint file with two data lines, `[0,…,0]` and `[1,…,1]`. -/
def twoLineFile : List Char :=
  ("0 0 0 0 0 0 0 0 0 0 0 0 0 0 0 0 0 0 0 0 0 0 0 0 0 0 0 0 0 0 0 0\n" ++
   "1 1 1 1 1 1 1 1 1 1 1 1 1 1 1 1 1 1 1 1 1 1 1 1 1 1 1 1 1 1 1 1\n").toList

/-- Environment in which no FIFO is ever consumed, all boards are present and
the stop flag is set from time `T` on. -/
def stopAtEnv (T : Nat) : Env :=
  { stop := fun t => decide (T ≤ t), present := fun _ _ => true, drain := fun _ _ => 0 }

/-- Environment in which the stop flag is never set, all boards stay present
and the hardware consumes one command word per step from every FIFO. -/
def runningEnv : Env :=
  { stop := fun _ => false, present := fun _ _ => true, drain := fun _ _ => 1 }

/-- Parameters of scenario S1: one iteration, no ramp, two lines. -/
def paramsS1 : rev_c_params_t :=
  { iterations := 1, ramp_samples := 0, ramp_delay_cycles := 0, line_count := 2,
    delay_cycles := 1000, final_zero_trigger := false }

/-- Parameters of scenario S2: three iterations, two ramp samples, two lines. -/
def paramsS2 : rev_c_params_t :=
  { iterations := 3, ramp_samples := 2, ramp_delay_cycles := 7, line_count := 2,
    delay_cycles := 1000, final_zero_trigger := false }

/-- Parameters of scenario S3: S1 with the final zero trigger. -/
def paramsS3 : rev_c_params_t :=
  { iterations := 1, ramp_samples := 0, ramp_delay_cycles := 0, line_count := 2,
    delay_cycles := 1000, final_zero_trigger := true }

/-- Parameters for a file of one line: one iteration, no ramp, final zero requested. -/
def paramsOneLine : rev_c_params_t :=
  { iterations := 1, ramp_samples := 0, ramp_delay_cycles := 0, line_count := 1,
    delay_cycles := 0, final_zero_trigger := true }

/-! ## Vocabulary for runs of the DAC thread -/

/-- No FIFO holds more words than its capacity. -/
def FillOK (hw : Hw) (st : DacState) : Prop := ∀ b, st.fill b ≤ hw.DAC_CMD_FIFO_WORDCOUNT

/-- Every logged write happened before the current time. -/
def LogPast (st : DacState) : Prop := ∀ w ∈ st.log, w.time < st.time

/-- A piece of the run leads from `st` to `st'` and sends exactly `k` DAC_WRs:
the log grows by `k` writes stamped within the piece, the counters grow by `k`
commands and `5 k` words, time does not go back and FIFO fills stay within capacity. -/
def Sends (hw : Hw) (k : Nat) (st st' : DacState) : Prop :=
  (∃ new, st'.log = new ++ st.log ∧ new.length = k ∧
    ∀ w ∈ new, st.time ≤ w.time ∧ w.time < st'.time) ∧
  st.time ≤ st'.time ∧
  st'.total_commands_sent = st.total_commands_sent + k ∧
  st'.total_words_sent = st.total_words_sent + 5 * k ∧
  (FillOK hw st → FillOK hw st')

/-- Number of data rows among the buffers of a file, as the DAC thread counts them. -/
def rowCount (lines : List (List Char)) : Nat :=
  (lines.filter fun l => !isSkippedLine l).length

/-- What cancellation guarantees of a state reached by the thread: no wait ran
out of fuel, and at most one row of writes happened at time `T` or later. -/
def CancelOK (p : rev_c_params_t) (T : Nat) (r : Flow × DacState) : Prop :=
  r.1 ≠ Flow.timeout ∧ LogPast r.2 ∧
    (writesFrom T r.2.log).length ≤ 4 * (p.ramp_samples + 1)

/-- Every logged DAC_WR found at least 5 free words in its FIFO. -/
def AllFree (st : DacState) : Prop := ∀ w ∈ st.log, 5 ≤ w.free

/-! ## Trigger command codecs (`trigger_ctrl.c`) -/

/-- Conversion to `uint32_t`. -/
def u32 (n : Nat) : Nat := n % 2 ^ 32

/-- Modelled from the spec: the macro `TRIG_CMD_CODE_SHIFT` of trigger_ctrl.h
(not in the sources); the opcode is the top 3 bits of a command word. -/
def TRIG_CMD_CODE_SHIFT : Nat := 29

/-- Modelled from the spec: the macro `TRIG_CMD_LOG_BIT` of trigger_ctrl.h
(not in the sources); the log bit is position 28. -/
def TRIG_CMD_LOG_BIT : Nat := 28

/-- Modelled from the spec: the macro `TRIG_CMD_VALUE_MASK` of trigger_ctrl.h
(not in the sources); value fields are 28 bits wide, which agrees with the
bound `0x0FFFFFFF` the codecs test. -/
def TRIG_CMD_VALUE_MASK : Nat := 0x0FFFFFFF

/-- The opcode macros `TRIG_CMD_...` of trigger_ctrl.h, which is not in the
sources: their values are parameters. -/
structure TrigOpcodes where
  TRIG_CMD_SYNC_CH : Nat
  TRIG_CMD_SET_LOCKOUT : Nat
  TRIG_CMD_EXPECT_EXT : Nat
  TRIG_CMD_DELAY : Nat
  TRIG_CMD_FORCE_TRIG : Nat
  TRIG_CMD_CANCEL : Nat
  TRIG_CMD_RESET_COUNT : Nat

/-- Every opcode fits the 3-bit opcode field. -/
def TrigOpcodes.Fit (ops : TrigOpcodes) : Prop :=
  ops.TRIG_CMD_SYNC_CH < 8 ∧ ops.TRIG_CMD_SET_LOCKOUT < 8 ∧ ops.TRIG_CMD_EXPECT_EXT < 8 ∧
  ops.TRIG_CMD_DELAY < 8 ∧ ops.TRIG_CMD_FORCE_TRIG < 8 ∧ ops.TRIG_CMD_CANCEL < 8 ∧
  ops.TRIG_CMD_RESET_COUNT < 8

instance decFit (ops : TrigOpcodes) : Decidable ops.Fit := by
  unfold TrigOpcodes.Fit; infer_instance

/-- The expression `log ? 1 : 0`. -/
def logBit (log : Bool) : Nat := if log then 1 else 0

/-- The store `*(trigger_ctrl->buffer) = cmd_word;`: the trigger command FIFO
is the list of the words written to it, oldest first. -/
def fifoWrite (fifo : List Nat) (cmd_word : Nat) : List Nat := fifo ++ [cmd_word]

/-- The function `trigger_cmd_sync_ch`. -/
def trigger_cmd_sync_ch (ops : TrigOpcodes) (fifo : List Nat) (log : Bool) : List Nat :=
  let cmd_word := u32 ((ops.TRIG_CMD_SYNC_CH <<< TRIG_CMD_CODE_SHIFT) |||
    (logBit log <<< TRIG_CMD_LOG_BIT))
  fifoWrite fifo cmd_word

/-- The function `trigger_cmd_set_lockout`. -/
def trigger_cmd_set_lockout (ops : TrigOpcodes) (fifo : List Nat) (cycles : Nat) : List Nat :=
  if cycles > 0x0FFFFFFF then fifo
  else
    let cmd_word := u32 ((ops.TRIG_CMD_SET_LOCKOUT <<< TRIG_CMD_CODE_SHIFT) |||
      (cycles &&& TRIG_CMD_VALUE_MASK))
    fifoWrite fifo cmd_word

/-- The function `trigger_cmd_expect_ext`. -/
def trigger_cmd_expect_ext (ops : TrigOpcodes) (fifo : List Nat) (count : Nat) (log : Bool) :
    List Nat :=
  if count > 0x0FFFFFFF then fifo
  else
    let cmd_word := u32 ((ops.TRIG_CMD_EXPECT_EXT <<< TRIG_CMD_CODE_SHIFT) |||
      (logBit log <<< TRIG_CMD_LOG_BIT) ||| (count &&& TRIG_CMD_VALUE_MASK))
    fifoWrite fifo cmd_word

/-- The function `trigger_cmd_delay`. -/
def trigger_cmd_delay (ops : TrigOpcodes) (fifo : List Nat) (cycles : Nat) : List Nat :=
  if cycles > 0x0FFFFFFF then fifo
  else
    let cmd_word := u32 ((ops.TRIG_CMD_DELAY <<< TRIG_CMD_CODE_SHIFT) |||
      (cycles &&& TRIG_CMD_VALUE_MASK))
    fifoWrite fifo cmd_word

/-- The function `trigger_cmd_force_trig`. -/
def trigger_cmd_force_trig (ops : TrigOpcodes) (fifo : List Nat) (log : Bool) : List Nat :=
  let cmd_word := u32 ((ops.TRIG_CMD_FORCE_TRIG <<< TRIG_CMD_CODE_SHIFT) |||
    (logBit log <<< TRIG_CMD_LOG_BIT))
  fifoWrite fifo cmd_word

/-- The function `trigger_cmd_cancel`. -/
def trigger_cmd_cancel (ops : TrigOpcodes) (fifo : List Nat) : List Nat :=
  let cmd_word := u32 (ops.TRIG_CMD_CANCEL <<< TRIG_CMD_CODE_SHIFT)
  fifoWrite fifo cmd_word

/-- The function `trigger_cmd_reset_count`. -/
def trigger_cmd_reset_count (ops : TrigOpcodes) (fifo : List Nat) : List Nat :=
  let cmd_word := u32 (ops.TRIG_CMD_RESET_COUNT <<< TRIG_CMD_CODE_SHIFT)
  fifoWrite fifo cmd_word

/-- Bits 31..29 of a command word. -/
def opcodeField (w : Nat) : Nat := w >>> 29

/-- Bit 28 of a command word. -/
def logField (w : Nat) : Nat := (w >>> 28) &&& 1

/-- Bits 27..0 of a command word. -/
def valueField (w : Nat) : Nat := w &&& 0x0FFFFFFF

/-- The word with opcode, log bit and value in their fields. -/
def trigWord (op log value : Nat) : Nat := op * 2 ^ 29 + log * 2 ^ 28 + value

/-- Opcode values for examples (the values of the macros are not in the sources). -/
def exampleOpcodes : TrigOpcodes :=
  { TRIG_CMD_SYNC_CH := 1, TRIG_CMD_SET_LOCKOUT := 2, TRIG_CMD_EXPECT_EXT := 3,
    TRIG_CMD_DELAY := 4, TRIG_CMD_FORCE_TRIG := 5, TRIG_CMD_CANCEL := 7,
    TRIG_CMD_RESET_COUNT := 6 }

/-! ## Expected trigger count of `cmd_rev_c_compat` -/

/-- The variable `total_lines`:
`uint64_t total_lines = (uint64_t)line_count * iterations; if (final_zero_trigger) total_lines++;`. -/
def total_lines (line_count iterations : Nat) (final_zero_trigger : Bool) : Nat :=
  ((line_count * iterations) % 2 ^ 64 + (if final_zero_trigger then 1 else 0)) % 2 ^ 64

/-- The variable `uint32_t expected_triggers = (uint32_t)total_lines;`. -/
def expected_triggers (line_count iterations : Nat) (final_zero_trigger : Bool) : Nat :=
  u32 (total_lines line_count iterations final_zero_trigger)

/-! ## Double-precision floats -/

/-- IEEE-754 binary64 value.  A finite value is `± mag · 2^-1074`: every finite
binary64 number is an integer multiple of the smallest subnormal `2^-1074`. -/
inductive F64 where
  | fin (neg : Bool) (mag : Nat)
  | inf (neg : Bool)
  | nan
  deriving DecidableEq, Repr

/-- Round the non-negative rational `num / den` to binary64 (round to nearest,
ties to even, unbounded exponent); the result is in units of `2^-1074`.
Below `2^53` units the spacing of binary64 numbers is one unit; from there on
a binade `[2^L, 2^(L+1))` has spacing `2^(L-52)`. -/
def roundUnits64 (num den : Nat) : Nat :=
  let n := num * 2 ^ 1074
  let shift := ilog2 (n / den) - 52
  rne n (den * 2 ^ shift) * 2 ^ shift

/-- The binary64 number nearest to `± num / den`; magnitudes that round to
`2^1024` or more overflow to infinity. -/
def F64.ofRatio (neg : Bool) (num den : Nat) : F64 :=
  let u := roundUnits64 num den
  if 2 ^ 2098 ≤ u then F64.inf neg else F64.fin neg u

/-- Conversion `(double) i` of an integer. -/
def F64.ofInt (i : Int) : F64 := F64.ofRatio (decide (i < 0)) i.natAbs 1

/-- Position of a double on the extended line, in units of `2^-1074`
(`none` for NaN; infinities are placed beyond every finite value). -/
def F64.key : F64 → Option Int
  | .fin neg mag => some (if neg then -(mag : Int) else (mag : Int))
  | .inf neg => some (if neg then -(2 ^ 2200 : Int) else (2 ^ 2200 : Int))
  | .nan => none

/-- The C comparison `a < b` on doubles (false when an operand is NaN). -/
def F64.lt (a b : F64) : Bool :=
  match a.key, b.key with
  | some x, some y => decide (x < y)
  | _, _ => false

/-- The C comparison `a <= b` on doubles (false when an operand is NaN). -/
def F64.le (a b : F64) : Bool :=
  match a.key, b.key with
  | some x, some y => decide (x ≤ y)
  | _, _ => false

/-- Double multiplication `a * b`, correctly rounded. -/
def F64.mul : F64 → F64 → F64
  | .fin s m, .fin t k => F64.ofRatio (s != t) (m * k) (2 ^ 2148)
  | .fin s m, .inf t => if m = 0 then .nan else .inf (s != t)
  | .inf s, .fin t k => if k = 0 then .nan else .inf (s != t)
  | .inf s, .inf t => .inf (s != t)
  | _, _ => .nan

/-- Double division `a / b`, correctly rounded. -/
def F64.div : F64 → F64 → F64
  | .fin s m, .fin t k =>
      if k = 0 then (if m = 0 then .nan else .inf (s != t)) else F64.ofRatio (s != t) m k
  | .fin s _, .inf t => .fin (s != t) 0
  | .inf s, .fin t _ => .inf (s != t)
  | _, _ => .nan

/-- Reduction of an integer to the range of `int`. -/
def F64.int32 (v : Int) : Int := (v + 2 ^ 31) % 2 ^ 32 - 2 ^ 31

/-- The conversion `(int) x` of a double: the integral part, truncated toward
zero.  Where the integral part is not in the range of `int`, and for
infinities and NaN, the conversion is undefined in ISO C; there the result is
the `int` that the implementation at hand yields, given by `undefined`. -/
def F64.toInt (undefined : F64 → Int) : F64 → Int
  | .fin neg mag =>
      if neg then
        (if mag / 2 ^ 1074 ≤ 2 ^ 31 then -((mag / 2 ^ 1074 : Nat) : Int)
         else F64.int32 (undefined (.fin neg mag)))
      else
        (if mag / 2 ^ 1074 < 2 ^ 31 then ((mag / 2 ^ 1074 : Nat) : Int)
         else F64.int32 (undefined (.fin neg mag)))
  | x => F64.int32 (undefined x)

/-- The conversion `(uint32_t) x` of a double: the integral part, truncated
toward zero.  Where the integral part is not in the range of `uint32_t`, and
for infinities and NaN, the conversion is undefined in ISO C; there the result
is the `uint32_t` that the implementation at hand yields, given by `undefined`. -/
def F64.toUInt32 (undefined : F64 → Nat) : F64 → Nat
  | .fin neg mag =>
      if neg then
        (if mag / 2 ^ 1074 = 0 then 0 else undefined (.fin neg mag) % 2 ^ 32)
      else
        (if mag / 2 ^ 1074 < 2 ^ 32 then mag / 2 ^ 1074 else undefined (.fin neg mag) % 2 ^ 32)
  | x => undefined x % 2 ^ 32

/-- The double with the integer value `n`. -/
def F64.nat (n : Nat) : F64 := F64.fin false (n * 2 ^ 1074)

/-- The dyadic double `n / 2^k`, for `n < 2^53` and `k ≤ 1074`. -/
def F64.dyadic (n k : Nat) : F64 := F64.fin false (n * 2 ^ (1074 - k))

/-- The constant `0.0`. -/
def F64.zero : F64 := F64.fin false 0

/-- The constant `0.02`: the double nearest to 2/100. -/
def F64.c0_02 : F64 := F64.ofRatio false 2 100

/-- The constant `1000.0`. -/
def F64.c1000 : F64 := F64.nat 1000
/-! ## The experiment runner `cmd_rev_c_compat` -/

/-- The enumeration `command_flag_t` of command_helper.h. -/
inductive command_flag_t where
  | FLAG_ALL
  | FLAG_VERBOSE
  | FLAG_CONTINUE
  | FLAG_SIMPLE
  | FLAG_BIN
  | FLAG_NO_RESET
  | FLAG_NO_CAL
  deriving DecidableEq, Repr

/-- Modelled from the spec: `has_flag` is declared in command_helper.h and
defined outside the sources; it tells whether `target_flag` is among the flags
the command received. -/
def has_flag (flags : List command_flag_t) (target_flag : command_flag_t) : Bool :=
  flags.contains target_flag

/-- The fields of `command_context_t` that manage the drain workers: the
running and stop flags of the ADC data streams (by board) and of the trigger
data stream. -/
structure command_context_t where
  adc_data_stream_running : Nat → Bool
  adc_data_stream_stop : Nat → Bool
  trig_data_stream_running : Bool
  trig_data_stream_stop : Bool

deriving instance DecidableEq, Repr for rev_c_params_t

/-- What the runner does to the hardware and to the other threads, in the
order in which it does it. -/
inductive Event where
  /-- The call `safe_buffer_reset(ctx, ...)`. -/
  | safe_buffer_reset
  /-- The call `dac_cmd_noop(ctx->dac_ctrl, board, trig, cont, ldac, value, ...)`. -/
  | dac_cmd_noop (board : Nat) (trig cont ldac : Bool) (value : Nat)
  /-- The call `adc_cmd_noop(ctx->adc_ctrl, board, trig, cont, value, ...)`. -/
  | adc_cmd_noop (board : Nat) (trig cont : Bool) (value : Nat)
  /-- The call `cmd_stream_adc_data_to_file` with the board, the sample count
  and the file name of its three arguments, and the flags it is given. -/
  | cmd_stream_adc_data_to_file (board sample_count : Nat) (file : List Char)
      (flags : List command_flag_t)
  /-- The call `cmd_stream_trig_data_to_file` with the sample count and the
  file name of its two arguments, and the flags it is given. -/
  | cmd_stream_trig_data_to_file (sample_count : Nat) (file : List Char)
      (flags : List command_flag_t)
  /-- The call `start_trigger_monitor(ctx->sys_sts, expected_triggers, ...)`. -/
  | start_trigger_monitor (expected_triggers : Nat)
  /-- The call `stop_trigger_monitor()`. -/
  | stop_trigger_monitor
  /-- The call `pthread_create(&dac_thread, NULL, rev_c_dac_cmd_stream_thread, ...)`. -/
  | dac_thread (params : rev_c_params_t)
  /-- The call `pthread_create(&adc_cmd_thread, NULL, rev_c_adc_cmd_stream_thread, ...)`;
  the field `ramp_samples` holds the `uint32_t` value `adc_ramp_samples`
  assigned to it. -/
  | adc_thread (params : rev_c_params_t)
  /-- The line `printf("  Output format: %s\n", binary_mode ? "binary" : "ASCII");`. -/
  | print_output_format (binary_mode : Bool)
  /-- The preload wait loop has ended with this `check_count`. -/
  | preload_wait_end (check_count : Nat)
  /-- A word written to the trigger command FIFO. -/
  | trigger_word (cmd_word : Nat)
  deriving DecidableEq, Repr

/-- What is outside the runner: the hardware, the user at the prompts, and the
functions of the repository that are defined outside the sources. -/
structure World where
  /-- `HW_STS_STATE(hw_status) == S_RUNNING`. -/
  running : Bool
  /-- The four FIFOs of `board` all have `FIFO_PRESENT` at the connection check. -/
  connected : Nat → Bool
  /-- `prompt_file_selection(...)` returned 0. -/
  file_selected : Bool
  /-- Content of the selected file, `none` when it cannot be opened. -/
  dac_file : Option (List Char)
  /-- `atoi` of the answer to the iterations prompt (`none`: `fgets` returned NULL). -/
  iterations : Option Int
  /-- `atof` of the answer to the SPI frequency prompt. -/
  spi_freq_mhz : Option F64
  /-- `atoi` of the answer to the ramp samples prompt. -/
  ramp_samples : Option Int
  /-- `atof` of the answer to the ramp time prompt. -/
  ramp_time_ms : Option F64
  /-- `atof` of the answer to the ADC delay prompt. -/
  adc_delay_ms : Option F64
  /-- `atof` of the answer to the lockout prompt. -/
  lockout_ms : Option F64
  /-- The buffer read at the final zero prompt. -/
  final_zero : Option (List Char)
  /-- The buffer read at the output path prompt. -/
  base_output : Option (List Char)
  /-- The function `cmd_stream_adc_data_to_file`, as a function of the board,
  sample count, file name, flags and context: return value and new context. -/
  cmd_stream_adc_data_to_file :
    Nat → Nat → List Char → List command_flag_t → command_context_t → Int × command_context_t
  /-- The function `cmd_stream_trig_data_to_file`, likewise. -/
  cmd_stream_trig_data_to_file :
    Nat → List Char → List command_flag_t → command_context_t → Int × command_context_t
  /-- Return value of `start_trigger_monitor`. -/
  start_trigger_monitor : Nat → Int
  /-- Value of `is_trigger_monitor_active()` when the runner asks. -/
  is_trigger_monitor_active : Bool
  /-- Return value of `pthread_create` for the DAC thread. -/
  pthread_create_dac : Int
  /-- Return value of `pthread_create` for the ADC thread. -/
  pthread_create_adc : Int
  /-- `FIFO_STS_WORD_COUNT` of the DAC command FIFO of a board at a preload check. -/
  dac_words : Nat → Nat → Nat
  /-- `FIFO_STS_WORD_COUNT` of the ADC command FIFO of a board at a preload check. -/
  adc_words : Nat → Nat → Nat
  /-- The buffer read at the prompt `Do you want to continue anyway?`. -/
  response : Option (List Char)
  /-- What the compiler and the processor at hand yield for a conversion
  `(int) x` that ISO C leaves undefined (`x` out of the range of `int`). -/
  double_to_int : F64 → Int
  /-- What they yield for a conversion `(uint32_t) x` that ISO C leaves undefined. -/
  double_to_uint32 : F64 → Nat

/-- How a call of the runner ends. -/
inductive Exit where
  /-- `return code;`. -/
  | returned (code : Int)
  /-- An integer division by zero was evaluated. -/
  | division_by_zero
  deriving DecidableEq, Repr

/-- State the runner changes: the trace of its actions (oldest first), the
context, and its two static stop flags. -/
structure RunState where
  events : List Event
  ctx : command_context_t
  dac_cmd_stream_stop : Bool
  adc_cmd_stream_stop : Bool

/-- Append an action to the trace. -/
def RunState.emit (st : RunState) (e : Event) : RunState :=
  { st with events := st.events ++ [e] }

/-- Append the words a trigger codec pushes to the trigger command FIFO. -/
def RunState.trigger (st : RunState) (words : List Nat) : RunState :=
  { st with events := st.events ++ words.map Event.trigger_word }

/-- The values the prompts of the runner yield. -/
structure Plan where
  line_count : Nat
  iterations : Int
  spi_freq_mhz : F64
  ramp_samples : Int
  ramp_delay_cycles : Int
  delay_cycles : Nat
  lockout_time : Nat
  final_zero_trigger : Bool
  base_output_file : List Char
  deriving DecidableEq, Repr
/-! ### The prompts of the runner -/

/-- The expression `(int)(ramp_time_ms * spi_freq_mhz * 1000.0 / ramp_samples)`. -/
def ramp_delay_cycles (w : World) (ramp_time_ms spi_freq_mhz : F64) (ramp_samples : Int) :
    Int :=
  F64.toInt w.double_to_int (F64.div (F64.mul (F64.mul ramp_time_ms spi_freq_mhz) F64.c1000)
    (F64.ofInt ramp_samples))

/-- The expression `(uint32_t)(ms * spi_freq_mhz * 1000.0)` that gives
`delay_cycles` and `lockout_time`. -/
def cycles_of_ms (w : World) (ms spi_freq_mhz : F64) : Nat :=
  F64.toUInt32 w.double_to_uint32 (F64.mul (F64.mul ms spi_freq_mhz) F64.c1000)

/-- The buffer `fgets(input_buffer, 64, stdin)` fills holds at most 63
characters; then
`len = strlen(input_buffer); if (len > 0 && input_buffer[len - 1] == '\n') input_buffer[len - 1] = '\0';`. -/
def stripNewline (input_buffer : List Char) : List Char :=
  let buf := input_buffer.take 63
  if buf.getLast? = some '\n' then buf.dropLast else buf

/-- The iterations prompt: `atoi`, then `if (iterations < 1) return -1;`. -/
def promptIterations (w : World) : Option Int :=
  match w.iterations with
  | none => none
  | some iterations => if iterations < 1 then none else some iterations

/-- The SPI frequency prompt: `atof`, then `if (spi_freq_mhz <= 0.0) return -1;`. -/
def promptSpiFreq (w : World) : Option F64 :=
  match w.spi_freq_mhz with
  | none => none
  | some spi_freq_mhz => if F64.le spi_freq_mhz F64.zero then none else some spi_freq_mhz

/-- The ramp samples prompt: `atoi`, then `if (ramp_samples < 0) return -1;`. -/
def promptRampSamples (w : World) : Option Int :=
  match w.ramp_samples with
  | none => none
  | some ramp_samples => if ramp_samples < 0 then none else some ramp_samples

/-- The block `int ramp_delay_cycles = 0; if (ramp_samples > 0) { ... }`: the
ramp time prompt with `if (ramp_time_ms < 0.02 * ramp_samples) return -1;`
and the computation of `ramp_delay_cycles`. -/
def promptRampTime (w : World) (spi_freq_mhz : F64) (ramp_samples : Int) : Option Int :=
  if ramp_samples > 0 then
    match w.ramp_time_ms with
    | none => none
    | some ramp_time_ms =>
        if F64.lt ramp_time_ms (F64.mul F64.c0_02 (F64.ofInt ramp_samples)) then none
        else some (ramp_delay_cycles w ramp_time_ms spi_freq_mhz ramp_samples)
  else some 0

/-- The ADC delay prompt: `atof`, `if (adc_delay_ms < 0.0) return -1;`, and
`delay_cycles = (uint32_t)(adc_delay_ms * spi_freq_mhz * 1000.0)`. -/
def promptAdcDelay (w : World) (spi_freq_mhz : F64) : Option Nat :=
  match w.adc_delay_ms with
  | none => none
  | some adc_delay_ms =>
      if F64.lt adc_delay_ms F64.zero then none else some (cycles_of_ms w adc_delay_ms spi_freq_mhz)

/-- The lockout prompt: `atof`, `if (lockout_ms <= 0) return -1;`, and
`lockout_time = (uint32_t)(lockout_ms * spi_freq_mhz * 1000.0)`. -/
def promptLockout (w : World) (spi_freq_mhz : F64) : Option Nat :=
  match w.lockout_ms with
  | none => none
  | some lockout_ms =>
      if F64.le lockout_ms (F64.ofInt 0) then none else some (cycles_of_ms w lockout_ms spi_freq_mhz)

/-- The final zero prompt: `input_buffer[0] == 'y' || input_buffer[0] == 'Y'`. -/
def promptFinalZero (w : World) : Option Bool :=
  match w.final_zero with
  | none => none
  | some input_buffer => some (cpeek input_buffer = 'y' || cpeek input_buffer = 'Y')

/-- The output path prompt: newline removed, `if (strlen(base_output_file) == 0) return -1;`. -/
def promptBaseOutput (w : World) : Option (List Char) :=
  match w.base_output with
  | none => none
  | some input_buffer =>
      let base_output_file := stripNewline input_buffer
      if base_output_file.length = 0 then none else some base_output_file

/-- The part of `cmd_rev_c_compat` from the file prompt to the output path
prompt; `none` is `return -1`. -/
def readPlan (w : World) : Option Plan :=
  if !w.file_selected then none
  else
    (validate_rev_c_file_format_amps w.dac_file).bind fun line_count =>
    (promptIterations w).bind fun iterations =>
    (promptSpiFreq w).bind fun spi_freq_mhz =>
    (promptRampSamples w).bind fun ramp_samples =>
    (promptRampTime w spi_freq_mhz ramp_samples).bind fun ramp_delay_cycles =>
    (promptAdcDelay w spi_freq_mhz).bind fun delay_cycles =>
    (promptLockout w spi_freq_mhz).bind fun lockout_time =>
    (promptFinalZero w).bind fun final_zero_trigger =>
    (promptBaseOutput w).bind fun base_output_file =>
    some { line_count := line_count, iterations := iterations, spi_freq_mhz := spi_freq_mhz,
           ramp_samples := ramp_samples, ramp_delay_cycles := ramp_delay_cycles,
           delay_cycles := delay_cycles, lockout_time := lockout_time,
           final_zero_trigger := final_zero_trigger, base_output_file := base_output_file }
/-! ### Provisioning and start of the experiment -/

/-- Conversion of an `int` to `uint32_t`. -/
def u32OfInt (i : Int) : Nat := (i % 2 ^ 32).toNat

/-- The variable
`uint32_t adc_ramp_samples = (ramp_samples > 0) ? ramp_samples + (delay_cycles / ramp_delay_cycles) : 0;`
(the division is unsigned; the divisor is not zero where this is evaluated). -/
def adc_ramp_samples (plan : Plan) : Nat :=
  if plan.ramp_samples > 0 then
    u32 (u32OfInt plan.ramp_samples + plan.delay_cycles / u32OfInt plan.ramp_delay_cycles)
  else 0

/-- The variable
`uint64_t expected_samples_per_board = total_lines * ((adc_ramp_samples > 0) ? adc_ramp_samples : 1) * 4;`. -/
def expected_samples_per_board (plan : Plan) : Nat :=
  (total_lines plan.line_count plan.iterations.toNat plan.final_zero_trigger *
      (if adc_ramp_samples plan > 0 then adc_ramp_samples plan else 1) % 2 ^ 64 * 4) % 2 ^ 64

/-- The library function `strrchr(s, c)`: position of the last `c` in `s`. -/
def strrchr (s : List Char) (c : Char) : Option Nat :=
  match s with
  | [] => none
  | x :: xs =>
      match strrchr xs c with
      | some i => some (i + 1)
      | none => if x = c then some 0 else none

/-- The name of an output file: `tag` inserted before the last `.` of the base
path (`"%.*s<tag>%s"` with `base_len = ext_pos - base_output_file`), or
appended when the base path has no `.`. -/
def output_file (base_output_file tag : List Char) : List Char :=
  match strrchr base_output_file '.' with
  | some base_len => base_output_file.take base_len ++ tag ++ base_output_file.drop base_len
  | none => base_output_file ++ tag

/-- The string `board_output_file` (`_bd_%d`). -/
def board_output_file (base_output_file : List Char) (board : Nat) : List Char :=
  output_file base_output_file ("_bd_".toList ++ Nat.toDigits 10 board)

/-- The string `trigger_output_file` (`_trig`). -/
def trigger_output_file (base_output_file : List Char) : List Char :=
  output_file base_output_file "_trig".toList

/-- The loop that adds the buffer stoppers: for each board a DAC NOOP and an
ADC NOOP that wait for one trigger. -/
def addStoppers (st : RunState) : RunState :=
  [0, 1, 2, 3].foldl
    (fun st board =>
      (st.emit (.dac_cmd_noop board true false false 1)).emit (.adc_cmd_noop board true false 1))
    st

/-- The loop that starts the ADC data streaming of the boards still to serve;
`false` is `return -1`.  The flags passed are `NULL, 0`. -/
def startAdcDataStreams (w : World) (plan : Plan) : List Nat → RunState → Bool × RunState
  | [], st => (true, st)
  | board :: boards, st =>
      let file := board_output_file plan.base_output_file board
      let r := w.cmd_stream_adc_data_to_file board (expected_samples_per_board plan) file [] st.ctx
      let st1 : RunState :=
        { st.emit (.cmd_stream_adc_data_to_file board (expected_samples_per_board plan) file [])
          with ctx := r.2 }
      if r.1 ≠ 0 then (false, st1) else startAdcDataStreams w plan boards st1

/-- The block `if (expected_triggers > 0) { ... }` that starts the trigger data
streaming; `false` is `return -1`.  The flags passed are `NULL, 0`. -/
def startTrigDataStream (w : World) (plan : Plan) (st : RunState) : Bool × RunState :=
  let n := expected_triggers plan.line_count plan.iterations.toNat plan.final_zero_trigger
  if n > 0 then
    let file := trigger_output_file plan.base_output_file
    let r := w.cmd_stream_trig_data_to_file n file [] st.ctx
    let st1 : RunState := { st.emit (.cmd_stream_trig_data_to_file n file []) with ctx := r.2 }
    (decide (r.1 = 0), st1)
  else (true, st)

/-- The statement `if (is_trigger_monitor_active()) stop_trigger_monitor();`. -/
def stopMonitor (w : World) (st : RunState) : RunState :=
  if w.is_trigger_monitor_active then st.emit .stop_trigger_monitor else st

/-- The structure `dac_cmd_stream_data` given to the DAC thread. -/
def dac_cmd_stream_data (plan : Plan) : rev_c_params_t :=
  { iterations := plan.iterations.toNat, ramp_samples := plan.ramp_samples.toNat,
    ramp_delay_cycles := plan.ramp_delay_cycles, line_count := plan.line_count,
    delay_cycles := plan.delay_cycles, final_zero_trigger := plan.final_zero_trigger }

/-- The structure `adc_cmd_stream_data` given to the ADC thread. -/
def adc_cmd_stream_data (plan : Plan) : rev_c_params_t :=
  { iterations := plan.iterations.toNat, ramp_samples := adc_ramp_samples plan,
    ramp_delay_cycles := plan.ramp_delay_cycles, line_count := plan.line_count,
    delay_cycles := plan.delay_cycles, final_zero_trigger := plan.final_zero_trigger }

/-- One pass of the preload check: every DAC and ADC command FIFO of the four
boards holds at least 10 words. -/
def buffers_ready (w : World) (check_count : Nat) : Bool :=
  [0, 1, 2, 3].all fun board =>
    !decide (w.dac_words check_count board < 10) && !decide (w.adc_words check_count board < 10)

/-- The loop `while (!buffers_ready && check_count < max_checks)`, with
`todo = max_checks - check_count`; the result is the final `check_count`. -/
def preloadWait (w : World) : Nat → Nat → Nat
  | 0, check_count => check_count
  | todo + 1, check_count =>
      if buffers_ready w check_count then check_count else preloadWait w todo (check_count + 1)

/-- The condition
`fgets(response, sizeof(response), stdin) == NULL || (response[0] != 'y' && response[0] != 'Y')`. -/
def abortAnswer (w : World) : Bool :=
  match w.response with
  | none => true
  | some response => cpeek response ≠ 'y' && cpeek response ≠ 'Y'

/-- The four trigger commands after the preload wait: `trigger_cmd_sync_ch`
(log false), `trigger_cmd_reset_count`, `trigger_cmd_set_lockout` and
`trigger_cmd_expect_ext` (log true). -/
def sendTriggerCommands (ops : TrigOpcodes) (plan : Plan) (st : RunState) : RunState :=
  let fifo0 := trigger_cmd_sync_ch ops [] false
  let fifo1 := trigger_cmd_reset_count ops fifo0
  let fifo2 := trigger_cmd_set_lockout ops fifo1 plan.lockout_time
  let fifo3 := trigger_cmd_expect_ext ops fifo2
    (expected_triggers plan.line_count plan.iterations.toNat plan.final_zero_trigger) true
  st.trigger fifo3

/-- The part of `cmd_rev_c_compat` after the prompts. -/
def startExperiment (ops : TrigOpcodes) (w : World) (binary_mode : Bool) (plan : Plan)
    (st : RunState) : Exit × RunState :=
  if plan.ramp_samples > 0 ∧ u32OfInt plan.ramp_delay_cycles = 0 then (.division_by_zero, st)
  else
    let n := expected_triggers plan.line_count plan.iterations.toNat plan.final_zero_trigger
    let st1 := addStoppers (st.emit (.print_output_format binary_mode))
    match startAdcDataStreams w plan [0, 1, 2, 3] st1 with
    | (false, st2) => (.returned (-1), st2)
    | (true, st2) =>
    match startTrigDataStream w plan st2 with
    | (false, st3) => (.returned (-1), st3)
    | (true, st3) =>
        let st4 : RunState :=
          { st3.emit (.start_trigger_monitor n) with
            dac_cmd_stream_stop := false, adc_cmd_stream_stop := false }
        if w.start_trigger_monitor n ≠ 0 then (.returned (-1), st4)
        else if w.pthread_create_dac ≠ 0 then (.returned (-1), stopMonitor w st4)
        else
          let st5 := st4.emit (.dac_thread (dac_cmd_stream_data plan))
          if w.pthread_create_adc ≠ 0 then
            (.returned (-1), stopMonitor w { st5 with dac_cmd_stream_stop := true })
          else
            let st6 := st5.emit (.adc_thread (adc_cmd_stream_data plan))
            let check_count := preloadWait w 500 0
            let st7 := st6.emit (.preload_wait_end check_count)
            if check_count ≥ 500 ∧ abortAnswer w then
              (.returned (-1),
                stopMonitor w { st7 with dac_cmd_stream_stop := true, adc_cmd_stream_stop := true })
            else (.returned 0, sendTriggerCommands ops plan st7)

/-- The number `connected_count` of boards 0..3 whose four FIFOs are present. -/
def connected_count (w : World) : Nat :=
  ([0, 1, 2, 3].filter w.connected).length

/-- The function `cmd_rev_c_compat`, as a function of the world, the flags and
the starting state. -/
def cmd_rev_c_compat (ops : TrigOpcodes) (w : World) (flags : List command_flag_t)
    (st : RunState) : Exit × RunState :=
  if !w.running then (.returned (-1), st)
  else
    let skip_reset := has_flag flags .FLAG_NO_RESET
    let binary_mode := has_flag flags .FLAG_BIN
    let st1 := if skip_reset then st else st.emit .safe_buffer_reset
    if connected_count w < 4 then (.returned (-1), st1)
    else
      match readPlan w with
      | none => (.returned (-1), st1)
      | some plan => startExperiment ops w binary_mode plan st1
/-! ### Worlds for examples -/

/-- The context before any stream is started: nothing runs, no stop flag is set. -/
def idleContext : command_context_t :=
  { adc_data_stream_running := fun _ => false, adc_data_stream_stop := fun _ => false,
    trig_data_stream_running := false, trig_data_stream_stop := false }

/-- The state in which the runner is called: empty trace, idle context, the
static stop flags false. -/
def RunState.init : RunState :=
  { events := [], ctx := idleContext, dac_cmd_stream_stop := false, adc_cmd_stream_stop := false }

/-- Modelled from the spec: `cmd_stream_adc_data_to_file` (defined outside the
sources) provisions the drain worker of a board, which begins running
immediately: the running flag of the board is set and its stop flag is clear. -/
def startAdcDrain (board _sample_count : Nat) (_file : List Char) (_flags : List command_flag_t)
    (ctx : command_context_t) : Int × command_context_t :=
  (0, { ctx with
        adc_data_stream_running := fun b => if b = board then true else ctx.adc_data_stream_running b,
        adc_data_stream_stop := fun b => if b = board then false else ctx.adc_data_stream_stop b })

/-- Modelled from the spec: `cmd_stream_trig_data_to_file` (defined outside the
sources) provisions the drain worker of the trigger data stream, which begins
running immediately. -/
def startTrigDrain (_sample_count : Nat) (_file : List Char) (_flags : List command_flag_t)
    (ctx : command_context_t) : Int × command_context_t :=
  (0, { ctx with trig_data_stream_running := true, trig_data_stream_stop := false })

/-- A world in which everything succeeds: hardware running, four boards
connected, the two-line file, one iteration at 50 MHz without ramp, ADC delay
1 ms, lockout 2 ms, no final zero, base path `out.csv`, command FIFOs
preloaded at the first check.  The conversions of doubles that ISO C leaves
undefined, which no example reaches, yield 0. -/
def exampleWorld : World :=
  { running := true, connected := fun _ => true, file_selected := true,
    dac_file := some twoLineFile, iterations := some 1, spi_freq_mhz := some (F64.nat 50),
    ramp_samples := some 0, ramp_time_ms := none, adc_delay_ms := some (F64.nat 1),
    lockout_ms := some (F64.nat 2), final_zero := some "n\n".toList,
    base_output := some "out.csv\n".toList,
    cmd_stream_adc_data_to_file := startAdcDrain,
    cmd_stream_trig_data_to_file := startTrigDrain,
    start_trigger_monitor := fun _ => 0, is_trigger_monitor_active := true,
    pthread_create_dac := 0, pthread_create_adc := 0,
    dac_words := fun _ _ => 10, adc_words := fun _ _ => 10,
    response := none, double_to_int := fun _ => 0, double_to_uint32 := fun _ => 0 }

/-- The world of scenario S5: as the example world, but the command FIFOs stay
empty and the user answers `n` to the continue prompt. -/
def worldS5 : World :=
  { exampleWorld with dac_words := fun _ _ => 0, adc_words := fun _ _ => 0,
                      response := some "n\n".toList }

/-- As the example world, but at 1 MHz with a lockout of 268436 ms, which is
268436000 cycles, more than the 28-bit value field holds. -/
def worldLongLockout : World :=
  { exampleWorld with spi_freq_mhz := some (F64.nat 1), lockout_ms := some (F64.nat 268436) }

/-- As the example world, but with `2^28 + 1` iterations of the two-line file. -/
def worldManyIterations : World :=
  { exampleWorld with iterations := some (2 ^ 28 + 1) }

/-- As the example world, but at 1 MHz with a lockout of `2^-10` ms, which is
less than one cycle. -/
def worldShortLockout : World :=
  { exampleWorld with spi_freq_mhz := some (F64.nat 1), lockout_ms := some (F64.dyadic 1 10) }

/-- As the example world, but the user enters 0 iterations. -/
def worldNoIterations : World :=
  { exampleWorld with iterations := some 0 }

/-- As the example world, but the user enters a lockout of 0 ms. -/
def worldZeroLockout : World :=
  { exampleWorld with lockout_ms := some F64.zero }

/-- The plan the prompts yield in the example world. -/
def examplePlan : Plan :=
  { line_count := 2, iterations := 1, spi_freq_mhz := F64.nat 50, ramp_samples := 0,
    ramp_delay_cycles := 0, delay_cycles := 50000, lockout_time := 100000,
    final_zero_trigger := false, base_output_file := "out.csv".toList }

/-- The plan the prompts yield in the world with the long lockout. -/
def planLongLockout : Plan :=
  { line_count := 2, iterations := 1, spi_freq_mhz := F64.nat 1, ramp_samples := 0,
    ramp_delay_cycles := 0, delay_cycles := 1000, lockout_time := 268436000,
    final_zero_trigger := false, base_output_file := "out.csv".toList }

/-- The plan the prompts yield in the world with the short lockout. -/
def planShortLockout : Plan :=
  { line_count := 2, iterations := 1, spi_freq_mhz := F64.nat 1, ramp_samples := 0,
    ramp_delay_cycles := 0, delay_cycles := 1000, lockout_time := 0,
    final_zero_trigger := false, base_output_file := "out.csv".toList }

/-- As the example world, but with a clock of 1/32 MHz, one ramp sample and a
ramp time of 0.02 ms, the least the prompt accepts. -/
def worldSlowClock : World :=
  { exampleWorld with spi_freq_mhz := some (F64.dyadic 1 5), ramp_samples := some 1,
                      ramp_time_ms := some F64.c0_02 }

/-- As the example world, but with 10 ramp samples in a ramp time of 1 ms. -/
def worldRamp : World :=
  { exampleWorld with ramp_samples := some 10, ramp_time_ms := some (F64.nat 1) }
/-! ### Vocabulary for runs of the runner -/

/-- Is the event a write to the trigger command FIFO? -/
def Event.isTriggerWord : Event → Bool
  | .trigger_word _ => true
  | _ => false

/-- Is the event the end of the preload wait? -/
def Event.isPreloadEnd : Event → Bool
  | .preload_wait_end _ => true
  | _ => false

/-- The event happens before the preload wait ends and writes no trigger command. -/
def Event.early (e : Event) : Bool := !e.isTriggerWord && !e.isPreloadEnd

/-- Does the event start something: a stopper, a drain worker, the trigger
monitor, a producer thread, or a trigger command? -/
def Event.starts : Event → Bool
  | .safe_buffer_reset => false
  | .print_output_format _ => false
  | .preload_wait_end _ => false
  | .stop_trigger_monitor => false
  | _ => true

/-- The words written to the trigger command FIFO, oldest first. -/
def triggerWords : List Event → List Nat
  | [] => []
  | .trigger_word w :: es => w :: triggerWords es
  | _ :: es => triggerWords es

/-- The calls that provision drain workers, with the flags they are given. -/
def drainFlags : List Event → List (List command_flag_t)
  | [] => []
  | .cmd_stream_adc_data_to_file _ _ _ flags :: es => flags :: drainFlags es
  | .cmd_stream_trig_data_to_file _ _ flags :: es => flags :: drainFlags es
  | _ :: es => drainFlags es

/-- The words the four trigger commands of the runner put into the FIFO for a
lockout of `L` cycles and `n` expected triggers: SYNC_CH, RESET_COUNT, then
SET_LOCKOUT(L) when `L < 2^28`, then EXPECT_EXT(n, log) when `n < 2^28`. -/
def startWords (ops : TrigOpcodes) (L n : Nat) : List Nat :=
  [trigWord ops.TRIG_CMD_SYNC_CH 0 0, trigWord ops.TRIG_CMD_RESET_COUNT 0 0] ++
  (if L < 2 ^ 28 then [trigWord ops.TRIG_CMD_SET_LOCKOUT 0 L] else []) ++
  (if n < 2 ^ 28 then [trigWord ops.TRIG_CMD_EXPECT_EXT 1 n] else [])

/-- The state after the provisioning steps of the runner: output format
printed, stoppers added, ADC data streams and trigger data stream started. -/
def provisioned (w : World) (binary_mode : Bool) (plan : Plan) (st : RunState) : RunState :=
  (startTrigDataStream w plan
    (startAdcDataStreams w plan [0, 1, 2, 3]
      (addStoppers (st.emit (.print_output_format binary_mode)))).2).2

/-- The state in which `cmd_rev_c_compat` enters the part after the prompts. -/
def afterReset (flags : List command_flag_t) (st : RunState) : RunState :=
  if has_flag flags .FLAG_NO_RESET then st else st.emit .safe_buffer_reset

/-- The event is not the start of a drain worker with some flag. -/
def Event.noFlags : Event → Bool
  | .cmd_stream_adc_data_to_file _ _ _ flags => flags.isEmpty
  | .cmd_stream_trig_data_to_file _ _ flags => flags.isEmpty
  | _ => true

/-- The eight stopper commands, in the order in which the runner adds them. -/
def stopperEvents : List Event :=
  [.dac_cmd_noop 0 true false false 1, .adc_cmd_noop 0 true false 1,
   .dac_cmd_noop 1 true false false 1, .adc_cmd_noop 1 true false 1,
   .dac_cmd_noop 2 true false false 1, .adc_cmd_noop 2 true false 1,
   .dac_cmd_noop 3 true false false 1, .adc_cmd_noop 3 true false 1]

/-- The part after the prompts ended before the preload wait was over, without
success: only early events were added, no drain worker was given a flag. -/
def EarlyExit (st : RunState) (r : Exit × RunState) : Prop :=
  ∃ pre, pre.all Event.early = true ∧ pre.all Event.noFlags = true ∧
    r.1 ≠ .returned 0 ∧ r.2.events = st.events ++ pre

/-- The part after the prompts ended in the abort after a preload timeout:
after the early events and the end of the wait the trigger monitor is stopped
if it is active, the two static stop flags are set, the context is the one
the provisioning left, and the return value is -1. -/
def Aborted (w : World) (prov st : RunState) (r : Exit × RunState) : Prop :=
  ∃ pre c, pre.all Event.early = true ∧ pre.all Event.noFlags = true ∧
    500 ≤ c ∧ abortAnswer w = true ∧ r.1 = .returned (-1) ∧
    r.2.events = st.events ++ pre ++ [.preload_wait_end c] ++
      (if w.is_trigger_monitor_active then [.stop_trigger_monitor] else []) ∧
    r.2.dac_cmd_stream_stop = true ∧ r.2.adc_cmd_stream_stop = true ∧ r.2.ctx = prov.ctx

/-- The part after the prompts sent the trigger commands: after the early
events and the end of the wait come the words of the trigger commands, the two
static stop flags are clear, the context is the one the provisioning left, and
the return value is 0. -/
def Started (ops : TrigOpcodes) (w : World) (plan : Plan) (prov st : RunState)
    (r : Exit × RunState) : Prop :=
  ∃ pre c, pre.all Event.early = true ∧ pre.all Event.noFlags = true ∧
    ¬ (500 ≤ c ∧ abortAnswer w = true) ∧ r.1 = .returned 0 ∧
    r.2.events = st.events ++ pre ++ [.preload_wait_end c] ++
      (startWords ops plan.lockout_time
        (expected_triggers plan.line_count plan.iterations.toNat plan.final_zero_trigger)).map
        Event.trigger_word ∧
    r.2.dac_cmd_stream_stop = false ∧ r.2.adc_cmd_stream_stop = false ∧ r.2.ctx = prov.ctx
/-! ## `trigger_read` -/

/-- The load `*(trigger_ctrl->buffer)` from the trigger data port: it pops the
oldest word of the trigger data FIFO (the list, oldest first).  What a read of
an empty FIFO returns is up to the hardware; the model takes 0. -/
def fifoRead (fifo : List Nat) : Nat × List Nat :=
  match fifo with
  | [] => (0, [])
  | word :: rest => (u32 word, rest)

/-- The function `trigger_read`: two loads, then
`return ((uint64_t)high_word << 32) | low_word;`.  The result is the 64-bit
value and the FIFO that is left. -/
def trigger_read (fifo : List Nat) : Nat × List Nat :=
  let (low_word, fifo1) := fifoRead fifo
  let (high_word, fifo2) := fifoRead fifo1
  ((((high_word % 2 ^ 64) <<< 32) % 2 ^ 64 ||| low_word) % 2 ^ 64, fifo2)
/-! ## The DAC_WR commands of a run of the DAC thread -/

/-- The arguments of one call of `dac_cmd_dac_wr`. -/
structure DacCmd where
  board : Nat
  ch_vals : List Int
  trig : Bool
  cont : Bool
  ldac : Bool
  count : Int
  deriving DecidableEq, Repr

/-- The arguments of a logged write. -/
def DacWrite.cmd (w : DacWrite) : DacCmd :=
  { board := w.board, ch_vals := w.ch_vals, trig := w.trig, cont := w.cont, ldac := w.ldac,
    count := w.count }

/-- The DAC_WRs of a run so far, oldest first. -/
def DacState.cmds (st : DacState) : List DacCmd := (st.log.map DacWrite.cmd).reverse

/-- The DAC_WR of ramp step `s` of a row: `trig = (s == 0)`; `cont` is false
exactly when the iteration is the last one, the row has the number
`line_count` and `s == R`; `count` is 1 when `trig` is set and the ramp delay
cycles otherwise; `ldac = true`.  The values are those of `cmd_ch_vals` with
the given start values. -/
def stepCmd (p : rev_c_params_t) (iteration line_num : Nat)
    (line_dac_vals prev_line_dac_vals : List Int) (board s : Nat) : DacCmd :=
  { board := board,
    ch_vals := cmd_ch_vals p line_dac_vals prev_line_dac_vals board s,
    trig := decide (s = 0),
    cont := !(decide (iteration + 1 = p.iterations) && decide (line_num = p.line_count) &&
              decide (s = p.ramp_samples)),
    ldac := true,
    count := if s = 0 then 1 else p.ramp_delay_cycles }

/-- The DAC_WRs of the ramp of a row for a board: steps `0..R`. -/
def rowCmds (p : rev_c_params_t) (iteration line_num : Nat)
    (line_dac_vals prev_line_dac_vals : List Int) (board : Nat) : List DacCmd :=
  (List.range (p.ramp_samples + 1)).map
    (stepCmd p iteration line_num line_dac_vals prev_line_dac_vals board)

/-- The data lines among the buffers of a file, in order. -/
def dataRows (lines : List (List Char)) : List (List Char) :=
  lines.filter fun l => !isSkippedLine l

/-- A setpoint file with two data lines, `[4,…,4]` and `[2,…,2]`. -/
def rampFile : List Char :=
  ("4 4 4 4 4 4 4 4 4 4 4 4 4 4 4 4 4 4 4 4 4 4 4 4 4 4 4 4 4 4 4 4\n" ++
   "2 2 2 2 2 2 2 2 2 2 2 2 2 2 2 2 2 2 2 2 2 2 2 2 2 2 2 2 2 2 2 2\n").toList

/-- Parameters for the two-line ramp file: one iteration, one ramp sample. -/
def paramsRamp : rev_c_params_t :=
  { iterations := 1, ramp_samples := 1, ramp_delay_cycles := 7, line_count := 2,
    delay_cycles := 1000, final_zero_trigger := false }

/-- The values of the DAC_WRs of a board, oldest first. -/
def valuesOfBoard (board : Nat) (cmds : List DacCmd) : List (List Int) :=
  (cmds.filter fun c => decide (c.board = board)).map DacCmd.ch_vals
/-! ### Vocabulary for bounds on doubles -/

/-- The double is `+∞` or a finite non-negative value of at least `a / b`
units (of `2^-1074`). -/
def F64.AtLeast (x : F64) (a b : Nat) : Prop :=
  x = .inf false ∨ ∃ m, x = .fin false m ∧ a ≤ m * b

/-- The value is a double that is not NaN: an infinity, or a finite value
below `2^1024`. -/
def F64.IsNumber : F64 → Prop
  | .fin _ mag => mag < 2 ^ 2098
  | .inf _ => True
  | .nan => False
/-! ### More worlds for examples -/

/-- As the example world, but the base output path is `./out`. -/
def worldDotPath : World :=
  { exampleWorld with base_output := some "./out\n".toList }

/-- As the example world, but at 1 MHz with an ADC delay and a lockout of
`7 · 2^-12` ms, which is 1.708984375 cycles. -/
def worldFractionalDelay : World :=
  { exampleWorld with spi_freq_mhz := some (F64.nat 1), adc_delay_ms := some (F64.dyadic 7 12),
                      lockout_ms := some (F64.dyadic 7 12) }

/-- The plan the prompts yield in the world with the fractional delay. -/
def planFractionalDelay : Plan :=
  { line_count := 2, iterations := 1, spi_freq_mhz := F64.nat 1, ramp_samples := 0,
    ramp_delay_cycles := 0, delay_cycles := 1, lockout_time := 1,
    final_zero_trigger := false, base_output_file := "out.csv".toList }

/-- The plan the prompts yield in the world with the slow clock. -/
def planSlowClock : Plan :=
  { line_count := 2, iterations := 1, spi_freq_mhz := F64.dyadic 1 5, ramp_samples := 1,
    ramp_delay_cycles := 0, delay_cycles := 31, lockout_time := 62,
    final_zero_trigger := false, base_output_file := "out.csv".toList }

/-- Rounding of the non-negative rational `num / den` to the nearest integer
(halves upward). -/
def roundNearest (num den : Nat) : Nat := (2 * num + den) / (2 * den)
/-! ## `rev_c_adc_cmd_stream_thread` -/

/-- The macro `ADC_CMD_FIFO_WORDCOUNT` (capacity of an ADC command FIFO in
words) is not in the sources at hand; it is a parameter. -/
structure AdcHw where
  ADC_CMD_FIFO_WORDCOUNT : Nat

/-- The value of an `int` that holds the 32-bit pattern `n`
(`int ramp_samples = stream_data->ramp_samples`, a field the runner fills
from a `uint32_t`). -/
def toInt32 (n : Nat) : Int :=
  if n % 2 ^ 32 < 2 ^ 31 then ((n % 2 ^ 32 : Nat) : Int) else ((n % 2 ^ 32 : Nat) : Int) - 2 ^ 32

/-- The arguments of a call of `adc_cmd_set_ord`, `adc_cmd_noop` or
`adc_cmd_adc_rd` (without the controller and the `verbose` flag). -/
inductive AdcCmd where
  | set_ord (board : Nat) (channel_order : List Nat)
  | noop (board : Nat) (trig cont : Bool) (value : Int)
  | adc_rd (board : Nat) (trig cont : Bool) (value : Int) (extra : Int)
  deriving DecidableEq, Repr

/-- The board a command is sent to. -/
def AdcCmd.board : AdcCmd → Nat
  | .set_ord board _ => board
  | .noop board _ _ _ => board
  | .adc_rd board _ _ _ _ => board

/-- The command is an ADC_RD. -/
def AdcCmd.isAdcRd : AdcCmd → Bool
  | .adc_rd _ _ _ _ _ => true
  | _ => false

/-- The place in the thread function where a command is sent: the set_ord
loop, the body of the line loop (with the values of `iteration` and
`line_num`) or the final-zero block. -/
inductive AdcSite where
  | set_ord
  | row (iteration line_num : Nat)
  | final_zero
  deriving DecidableEq, Repr

/-- What the thread does on the bus: a poll of a FIFO status that found the
board present, with the `available_words` it computed, and a command pushed,
with the time, the number of free words in the FIFO at that moment, the place
in the code and the arguments. -/
inductive AdcEvent where
  | poll (board available_words : Nat)
  | write (time free : Nat) (site : AdcSite) (cmd : AdcCmd)
  deriving DecidableEq, Repr

/-- State of a run of the ADC thread: logical time, fill level of the four ADC
command FIFOs, the events so far (latest first) and the counters of the thread.
The environment `Env` is read for the ADC command FIFOs here. -/
structure AdcState where
  time : Nat
  fill : Nat → Nat
  log : List AdcEvent
  total_commands_sent : Nat
  total_words_sent : Nat

/-- One step of logical time: the hardware consumes words, the FIFO fill only decreases. -/
def AdcState.tick (env : Env) (st : AdcState) : AdcState :=
  { st with time := st.time + 1, fill := fun b => st.fill b - env.drain st.time b }

/-- The state in which the thread starts: time 0, given FIFO fill, nothing sent. -/
def AdcState.init (fill : Nat → Nat) : AdcState :=
  { time := 0, fill := fill, log := [], total_commands_sent := 0, total_words_sent := 0 }

/-- Modelled from the spec: `adc_cmd_set_ord`, `adc_cmd_noop` and
`adc_cmd_adc_rd` (adc_ctrl.c is not in the sources) push one command word into
the command FIFO of the board; a word written to a full FIFO is lost.  The
statements `total_commands_sent++; total_words_sent++;` that follow each call
are included. -/
def adcPush (env : Env) (hw : AdcHw) (site : AdcSite) (st : AdcState) (cmd : AdcCmd) : AdcState :=
  ({ st with
      fill := fun b =>
        if b = cmd.board then min hw.ADC_CMD_FIFO_WORDCOUNT (st.fill b + 1) else st.fill b,
      log := .write st.time (hw.ADC_CMD_FIFO_WORDCOUNT - st.fill cmd.board) site cmd :: st.log,
      total_commands_sent := st.total_commands_sent + 1,
      total_words_sent := st.total_words_sent + 1 } : AdcState).tick env

/-- The loop
`while (!(*should_stop)) { status; if (!present) goto cleanup; if (available_words >= need) break; usleep(1000); }`
for `board`; `fuel` bounds the number of polls. -/
def adcWaitForSpace (env : Env) (hw : AdcHw) (board need : Nat) :
    Nat → AdcState → Wait × AdcState
  | 0, st => (.timeout, st)
  | fuel + 1, st =>
      let should_stop := env.stop st.time
      let st1 := st.tick env
      if should_stop then (.stopped, st1)
      else
        let present := env.present st1.time board
        let words_used := st1.fill board
        let st2 := st1.tick env
        if !present then (.absent, st2)
        else
          let available_words := sub32 hw.ADC_CMD_FIFO_WORDCOUNT words_used
          let st3 : AdcState := { st2 with log := .poll board available_words :: st2.log }
          if need ≤ available_words then (.ready, st3)
          else adcWaitForSpace env hw board need fuel st3

/-- The number of free words the wait of a row asks for:
`ramp_samples > 0 ? available_words >= ramp_samples : available_words >= 3`
(the comparison converts `ramp_samples` to `uint32_t`). -/
def adcRowNeed (p : rev_c_params_t) : Nat :=
  if toInt32 p.ramp_samples > 0 then u32OfInt (toInt32 p.ramp_samples) else 3

/-- The commands after a wait, the same statements in the line loop and in the
final-zero block.  With `ramp_samples > 0`: an ADC_RD that waits for one
trigger, the loop `for (ramp_step = 1; ramp_step < ramp_samples - 1; ramp_step++)`
of ADC_RDs with `ramp_delay_cycles`, and an ADC_RD with
`ramp_delay_cycles + delay_cycles` (an `int` plus a `uint32_t`, computed in
`uint32_t`).  Else a NOOP that waits for one trigger, a NOOP with
`delay_cycles` and an ADC_RD with trigger count 0. -/
def adcSequence (env : Env) (hw : AdcHw) (p : rev_c_params_t) (site : AdcSite) (board : Nat)
    (st : AdcState) : AdcState :=
  let ramp_samples := toInt32 p.ramp_samples
  if ramp_samples > 0 then
    let st1 := adcPush env hw site st (.adc_rd board true false 1 0)
    let st2 := (List.range (ramp_samples - 1 - 1).toNat).foldl
      (fun s _ => adcPush env hw site s (.adc_rd board false false p.ramp_delay_cycles 0)) st1
    adcPush env hw site st2
      (.adc_rd board false false (u32 (u32OfInt p.ramp_delay_cycles + p.delay_cycles) : Nat) 0)
  else
    let st1 := adcPush env hw site st (.noop board true false 1)
    let st2 := adcPush env hw site st1 (.noop board false false (p.delay_cycles : Nat))
    adcPush env hw site st2 (.adc_rd board true false 0 0)

/-- The loop `for (board = 0; board < 4; board++)` that sends the set_ord
commands, over the boards still to serve: wait for one free word, then send
set_ord with the channel order `{0, 1, 2, 3, 4, 5, 6, 7}`. -/
def adcSetOrdLoop (env : Env) (hw : AdcHw) (fuel : Nat) : List Nat → AdcState → Flow × AdcState
  | [], st => (.next, st)
  | board :: boards, st =>
      match adcWaitForSpace env hw board 1 fuel st with
      | (.absent, st1) => (.cleanup, st1)
      | (.timeout, st1) => (.timeout, st1)
      | (_, st1) =>
          adcSetOrdLoop env hw fuel boards
            (adcPush env hw .set_ord st1 (.set_ord board [0, 1, 2, 3, 4, 5, 6, 7]))

/-- The loop `for (board = 0; board < 4; board++)` of a line, over the boards
still to serve: wait for space, then send the commands of the line. -/
def adcBoardLoop (env : Env) (hw : AdcHw) (p : rev_c_params_t) (fuel iteration line_num : Nat) :
    List Nat → AdcState → Flow × AdcState
  | [], st => (.next, st)
  | board :: boards, st =>
      match adcWaitForSpace env hw board (adcRowNeed p) fuel st with
      | (.absent, st1) => (.cleanup, st1)
      | (.timeout, st1) => (.timeout, st1)
      | (_, st1) =>
          adcBoardLoop env hw p fuel iteration line_num boards
            (adcSequence env hw p (.row iteration line_num) board st1)

/-- The loop `for (line_num = 1; line_num <= line_count && !(*should_stop); line_num++)`,
with `todo = line_count + 1 - line_num`. -/
def adcLineLoop (env : Env) (hw : AdcHw) (p : rev_c_params_t) (fuel iteration : Nat) :
    Nat → Nat → AdcState → Flow × AdcState
  | 0, _, st => (.next, st)
  | todo + 1, line_num, st =>
      let should_stop := env.stop st.time
      let st1 := st.tick env
      if should_stop then (.next, st1)
      else
        match adcBoardLoop env hw p fuel iteration line_num [0, 1, 2, 3] st1 with
        | (.next, st2) => adcLineLoop env hw p fuel iteration todo (line_num + 1) st2
        | r => r

/-- The loop `for (iteration = 0; iteration < iterations && !(*should_stop); iteration++)`,
with `todo = iterations - iteration`. -/
def adcIterationLoop (env : Env) (hw : AdcHw) (p : rev_c_params_t) (fuel : Nat) :
    Nat → Nat → AdcState → Flow × AdcState
  | 0, _, st => (.next, st)
  | todo + 1, iteration, st =>
      let should_stop := env.stop st.time
      let st1 := st.tick env
      if should_stop then (.next, st1)
      else
        match adcLineLoop env hw p fuel iteration p.line_count 1 st1 with
        | (.next, st2) => adcIterationLoop env hw p fuel todo (iteration + 1) st2
        | r => r

/-- The loop over the boards of the final-zero block: wait for 3 free words
(`available_words >= 3`, whatever `ramp_samples`), then send the commands. -/
def adcFinalZeroLoop (env : Env) (hw : AdcHw) (p : rev_c_params_t) (fuel : Nat) :
    List Nat → AdcState → Flow × AdcState
  | [], st => (.next, st)
  | board :: boards, st =>
      match adcWaitForSpace env hw board 3 fuel st with
      | (.absent, st1) => (.cleanup, st1)
      | (.timeout, st1) => (.timeout, st1)
      | (_, st1) =>
          adcFinalZeroLoop env hw p fuel boards (adcSequence env hw p .final_zero board st1)

/-- The block `if (final_zero_trigger && !(*should_stop)) { ... }`. -/
def adcFinalZero (env : Env) (hw : AdcHw) (p : rev_c_params_t) (fuel : Nat) (st : AdcState) :
    Flow × AdcState :=
  if p.final_zero_trigger then
    let should_stop := env.stop st.time
    let st1 := st.tick env
    if should_stop then (.next, st1) else adcFinalZeroLoop env hw p fuel [0, 1, 2, 3] st1
  else (.next, st)

/-- The thread function `rev_c_adc_cmd_stream_thread`; `fuel` bounds the
number of polls of each wait. -/
def rev_c_adc_cmd_stream_thread (env : Env) (hw : AdcHw) (p : rev_c_params_t) (fuel : Nat)
    (st : AdcState) : Flow × AdcState :=
  match adcSetOrdLoop env hw fuel [0, 1, 2, 3] st with
  | (.next, st1) =>
      match adcIterationLoop env hw p fuel p.iterations 0 st1 with
      | (.next, st2) => adcFinalZero env hw p fuel st2
      | r => r
  | r => r
/-! ## Vocabulary for runs of the ADC thread -/

/-- The place and the arguments of a logged command (`none` for a poll). -/
def AdcEvent.sent : AdcEvent → Option (AdcSite × AdcCmd)
  | .write _ _ site cmd => some (site, cmd)
  | .poll _ _ => none

/-- The commands of a run so far with the place where each was sent, oldest first. -/
def AdcState.writes (st : AdcState) : List (AdcSite × AdcCmd) :=
  (st.log.filterMap AdcEvent.sent).reverse

/-- The commands of a run so far, oldest first. -/
def AdcState.cmds (st : AdcState) : List AdcCmd := st.writes.map Prod.snd

/-- The commands that `adcSequence` pushes for a board, in order. -/
def adcSequenceCmds (p : rev_c_params_t) (board : Nat) : List AdcCmd :=
  if toInt32 p.ramp_samples > 0 then
    AdcCmd.adc_rd board true false 1 0 ::
      (List.replicate (toInt32 p.ramp_samples - 1 - 1).toNat
          (AdcCmd.adc_rd board false false p.ramp_delay_cycles 0) ++
        [AdcCmd.adc_rd board false false
          (u32 (u32OfInt p.ramp_delay_cycles + p.delay_cycles) : Nat) 0])
  else
    [AdcCmd.noop board true false 1, AdcCmd.noop board false false (p.delay_cycles : Nat),
      AdcCmd.adc_rd board true false 0 0]

/-- The rows `(iteration, line_num)` of a run in the order of the loops:
iterations `first .. first + todo - 1`, lines `1 .. line_count`. -/
def adcRows (line_count first : Nat) : Nat → List (Nat × Nat)
  | 0 => []
  | todo + 1 =>
      (List.range line_count).map (fun k => (first, 1 + k)) ++ adcRows line_count (first + 1) todo

/-- The commands of `adcSequence` for a board, with the place where they are sent. -/
def seqWrites (p : rev_c_params_t) (site : AdcSite) (board : Nat) : List (AdcSite × AdcCmd) :=
  (adcSequenceCmds p board).map fun c => (site, c)

/-- The commands of a row `(iteration, line_num)`: the sequences of boards 0 to 3. -/
def rowWrites (p : rev_c_params_t) (row : Nat × Nat) : List (AdcSite × AdcCmd) :=
  [0, 1, 2, 3].flatMap (seqWrites p (.row row.1 row.2))

/-- The set_ord commands of boards 0 to 3. -/
def setOrdWrites : List (AdcSite × AdcCmd) :=
  [0, 1, 2, 3].map fun b => (AdcSite.set_ord, AdcCmd.set_ord b [0, 1, 2, 3, 4, 5, 6, 7])

/-- The commands of the final-zero block. -/
def finalZeroWrites (p : rev_c_params_t) : List (AdcSite × AdcCmd) :=
  if p.final_zero_trigger then [0, 1, 2, 3].flatMap (seqWrites p .final_zero) else []

/-- The thread is served: the stop flag is never set, the boards stay present,
the hardware consumes at least one word per step from every FIFO, the FIFO
capacity is a 32-bit number that covers what the waits ask for, and `fuel`
polls are enough for each wait. -/
def AdcServed (env : Env) (hw : AdcHw) (p : rev_c_params_t) (fuel : Nat) : Prop :=
  (∀ t, env.stop t = false) ∧ (∀ t b, env.present t b = true) ∧ (∀ t b, 1 ≤ env.drain t b) ∧
  hw.ADC_CMD_FIFO_WORDCOUNT < 2 ^ 32 ∧ adcRowNeed p ≤ hw.ADC_CMD_FIFO_WORDCOUNT ∧
  3 ≤ hw.ADC_CMD_FIFO_WORDCOUNT ∧ adcRowNeed p + 1 ≤ 2 * fuel ∧ 4 ≤ 2 * fuel

/-- The place is the body of the line loop. -/
def AdcSite.isRow : AdcSite → Bool
  | .row _ _ => true
  | _ => false

/-- No ADC command FIFO holds more words than its capacity. -/
def AdcFillOK (hw : AdcHw) (st : AdcState) : Prop := ∀ b, st.fill b ≤ hw.ADC_CMD_FIFO_WORDCOUNT

/-- The `available_words` of the latest poll of `board` in a log (latest first). -/
def lastPoll (board : Nat) : List AdcEvent → Option Nat
  | [] => none
  | .poll b a :: log => if b = board then some a else lastPoll board log
  | .write _ _ _ _ :: log => lastPoll board log

/-- The number of commands sent to `board` since its latest poll in a log (latest first). -/
def sentSincePoll (board : Nat) : List AdcEvent → Nat
  | [] => 0
  | .poll b _ :: log => if b = board then 0 else sentSincePoll board log
  | .write _ _ _ cmd :: log =>
      (if cmd.board = board then 1 else 0) + sentSincePoll board log

/-- The log (latest first) begins with commands sent at `site` to `board`,
and what precedes them directly is a poll of `board` that saw at least `need`
free words. -/
def PolledFor (need board : Nat) (site : AdcSite) : List AdcEvent → Prop
  | [] => False
  | .poll b a :: _ => b = board ∧ need ≤ a
  | .write _ _ s cmd :: log => s = site ∧ cmd.board = board ∧ PolledFor need board site log

/-- Every command of a row in the log (latest first) is preceded, after at
most other commands of the same row for the same board, by a poll of its
board that saw at least `need` free words. -/
def RowPolled (need : Nat) : List AdcEvent → Prop
  | [] => True
  | .write _ _ (.row i l) cmd :: log =>
      PolledFor need cmd.board (.row i l) log ∧ RowPolled need log
  | _ :: log => RowPolled need log

/-- The largest `available_words` of the polls in a log (0 without polls). -/
def maxSeen : List AdcEvent → Nat
  | [] => 0
  | .poll _ a :: log => max a (maxSeen log)
  | .write _ _ _ _ :: log => maxSeen log

/-- The ADC_RDs sent to `board` among the commands. -/
def adcRdsOfBoard (board : Nat) (cmds : List AdcCmd) : List AdcCmd :=
  cmds.filter fun c => c.isAdcRd && decide (c.board = board)

/-- The smallest number of free words a logged command of `board` found. -/
def minFree (board : Nat) : List AdcEvent → Option Nat
  | [] => none
  | .write _ free _ cmd :: log =>
      if cmd.board = board then
        match minFree board log with
        | some m => some (min free m)
        | none => some free
      else minFree board log
  | .poll _ _ :: log => minFree board log

/-! ### Examples for the ADC thread -/

/-- An ADC command FIFO of 1024 words. -/
def exampleAdcHw : AdcHw := { ADC_CMD_FIFO_WORDCOUNT := 1024 }

/-- An ADC command FIFO of 4 words. -/
def smallAdcHw : AdcHw := { ADC_CMD_FIFO_WORDCOUNT := 4 }

/-- An ADC command FIFO of 2 words. -/
def adcHw2 : AdcHw := { ADC_CMD_FIFO_WORDCOUNT := 2 }

/-- An ADC command FIFO of 16 words. -/
def adcHw16 : AdcHw := { ADC_CMD_FIFO_WORDCOUNT := 16 }

/-- Environment in which the stop flag is never set, all boards stay present
and the hardware consumes nothing. -/
def idleEnv : Env :=
  { stop := fun _ => false, present := fun _ _ => true, drain := fun _ _ => 0 }

/-- Parameters with three ramp samples: one iteration, one line. -/
def paramsAdcR3 : rev_c_params_t :=
  { iterations := 1, ramp_samples := 3, ramp_delay_cycles := 7, line_count := 1,
    delay_cycles := 1000, final_zero_trigger := false }

/-- Parameters with ten ramp samples: one iteration, one line, final zero requested. -/
def paramsAdcR10 : rev_c_params_t :=
  { iterations := 1, ramp_samples := 10, ramp_delay_cycles := 7, line_count := 1,
    delay_cycles := 1000, final_zero_trigger := true }

/-- Parameters with one ramp sample: one iteration, one line. -/
def paramsAdcR1 : rev_c_params_t :=
  { iterations := 1, ramp_samples := 1, ramp_delay_cycles := 7, line_count := 1,
    delay_cycles := 1000, final_zero_trigger := false }

/-- As the example world, but with one ramp sample in a ramp time of 2 ms:
the ADC delay of 1 ms is shorter than the ramp step. -/
def worldOneSample : World :=
  { exampleWorld with ramp_samples := some 1, ramp_time_ms := some (F64.nat 2) }

/-- The plan read in `worldOneSample`. -/
def planOneSample : Plan :=
  { line_count := 2, iterations := 1, spi_freq_mhz := F64.nat 50, ramp_samples := 1,
    ramp_delay_cycles := 100000, delay_cycles := 50000, lockout_time := 100000,
    final_zero_trigger := false, base_output_file := "out.csv".toList }
/-! ## Complete runs of the DAC thread -/

/-- The data lines of a file with the values the counter `line_num` of the
DAC thread takes on them, when it stood at `first` before. -/
def numberedRows (first : Nat) : List (List Char) → List (Nat × List Char)
  | [] => []
  | line :: rest => (first + 1, line) :: numberedRows (first + 1) rest

/-- The DAC_WRs of one pass over the numbered data lines in `iteration`: for
every line the ramps of boards 0 to 3, with start values zero. -/
def passCmds (hw : Hw) (p : rev_c_params_t) (iteration : Nat) (rows : List (Nat × List Char)) :
    List DacCmd :=
  rows.flatMap fun r =>
    [0, 1, 2, 3].flatMap
      (rowCmds p iteration r.1 (parseDacValues hw 32 (skipBlanks r.2)) (List.replicate 32 0))

/-- The DAC_WRs of the iterations `first .. first + todo - 1` over the buffers of a file. -/
def iterationCmds (hw : Hw) (p : rev_c_params_t) (lines : List (List Char)) :
    Nat → Nat → List DacCmd
  | _, 0 => []
  | first, todo + 1 =>
      passCmds hw p first (numberedRows 0 (dataRows lines)) ++
        iterationCmds hw p lines (first + 1) todo

/-- The DAC_WRs sent to `board` among the commands. -/
def cmdsOfBoard (board : Nat) (cmds : List DacCmd) : List DacCmd :=
  cmds.filter fun c => decide (c.board = board)

/-- The DAC thread is served: the stop flag is never set, the boards stay
present, the hardware consumes at least one word per step from every FIFO,
the FIFO capacity is a 32-bit number that holds a whole ramp, and `fuel` polls
are enough for each wait. -/
def DacServed (env : Env) (hw : Hw) (p : rev_c_params_t) (fuel : Nat) : Prop :=
  (∀ t, env.stop t = false) ∧ (∀ t b, env.present t b = true) ∧ (∀ t b, 1 ≤ env.drain t b) ∧
  hw.DAC_CMD_FIFO_WORDCOUNT < 2 ^ 32 ∧ 5 * (p.ramp_samples + 1) ≤ hw.DAC_CMD_FIFO_WORDCOUNT ∧
  5 * (p.ramp_samples + 1) + 1 ≤ 2 * fuel
/-! ### The counts the runner hands out -/

/-- The sample count of a call of `cmd_stream_trig_data_to_file`. -/
def Event.trigDrainCount : Event → Option Nat
  | .cmd_stream_trig_data_to_file sample_count _ _ => some sample_count
  | _ => none

/-- The count of a call of `start_trigger_monitor`. -/
def Event.monitorCount : Event → Option Nat
  | .start_trigger_monitor expected_triggers => some expected_triggers
  | _ => none

/-- The sample counts given to the trigger drain in a trace, oldest first. -/
def trigDrainCounts (es : List Event) : List Nat := es.filterMap Event.trigDrainCount

/-- The counts given to the trigger monitor in a trace, oldest first. -/
def monitorCounts (es : List Event) : List Nat := es.filterMap Event.monitorCount

/-- A setpoint file with four data lines. -/
def fourLineFile : List Char := twoLineFile ++ twoLineFile

/-- As the example world, but with `2^30` iterations of the four-line file. -/
def worldWrapIterations : World :=
  { exampleWorld with dac_file := some fourLineFile, iterations := some (2 ^ 30) }
/-! ## Facts about rounding -/

theorem log2Fuel_spec (fuel : Nat) : ∀ n, 1 ≤ n → n ≤ fuel →
    2 ^ log2Fuel fuel n ≤ n ∧ n < 2 ^ (log2Fuel fuel n + 1) := by
  induction fuel with
  | zero => intro n h1 h2; omega
  | succ fuel ih =>
    intro n h1 h2
    unfold log2Fuel
    by_cases h : 2 ≤ n
    · rw [if_pos h]
      have := ih (n / 2) (by omega) (by omega)
      obtain ⟨ha, hb⟩ := this
      constructor
      · rw [pow_succ]; omega
      · rw [pow_succ]; omega
    · rw [if_neg h]
      have : n = 1 := by omega
      subst this
      simp

theorem ilog2_spec {n : Nat} (h : 1 ≤ n) : 2 ^ ilog2 n ≤ n ∧ n < 2 ^ (ilog2 n + 1) :=
  log2Fuel_spec n n h (le_refl _)

theorem ilog2_zero : ilog2 0 = 0 := rfl

theorem ilog2_lt_of_lt_pow {n k : Nat} (h : n < 2 ^ (k + 1)) : ilog2 n ≤ k := by
  rcases Nat.eq_zero_or_pos n with h0 | h0
  · subst h0; simp [ilog2_zero]
  · have h1 := (ilog2_spec h0).1
    by_contra hc
    have h2 : k + 1 ≤ ilog2 n := by omega
    have h3 : 2 ^ (k + 1) ≤ 2 ^ ilog2 n := Nat.pow_le_pow_right (by norm_num) h2
    omega

theorem le_ilog2_of_pow_le {n k : Nat} (h : 2 ^ k ≤ n) : k ≤ ilog2 n := by
  have h0 : 1 ≤ n := le_trans Nat.one_le_two_pow h
  have h1 := (ilog2_spec h0).2
  by_contra hc
  have h2 : ilog2 n + 1 ≤ k := by omega
  have h3 : 2 ^ (ilog2 n + 1) ≤ 2 ^ k := Nat.pow_le_pow_right (by norm_num) h2
  omega

theorem ilog2_eq {n k : Nat} (h1 : 2 ^ k ≤ n) (h2 : n < 2 ^ (k + 1)) : ilog2 n = k :=
  le_antisymm (ilog2_lt_of_lt_pow h2) (le_ilog2_of_pow_le h1)

theorem ilog2_mono {n m : Nat} (h : n ≤ m) : ilog2 n ≤ ilog2 m := by
  rcases Nat.eq_zero_or_pos n with h0 | h0
  · subst h0; simp [ilog2_zero]
  · exact le_ilog2_of_pow_le (le_trans (ilog2_spec h0).1 h)

theorem rne_le {n q m : Nat} (hq : 0 < q) (h : n ≤ m * q) : rne n q ≤ m := by
  have hf : n / q ≤ m := by
    calc n / q ≤ m * q / q := Nat.div_le_div_right h
      _ = m := Nat.mul_div_cancel m hq
  have hdm := Nat.div_add_mod n q
  unfold rne
  simp only
  by_cases hlt : n / q < m
  · split_ifs <;> omega
  · have heq : n / q = m := by omega
    have hr : n % q = 0 := by
      have : q * (n / q) = m * q := by rw [heq, Nat.mul_comm]
      omega
    rw [hr]
    simp [hq, heq]

theorem le_rne {n q m : Nat} (hq : 0 < q) (h : m * q ≤ n) : m ≤ rne n q := by
  have hf : m ≤ n / q := (Nat.le_div_iff_mul_le hq).2 h
  unfold rne
  simp only
  split_ifs <;> omega

theorem succ_le_rne {n q m : Nat} (hq : 0 < q) (h : (2 * m + 1) * q < 2 * n) :
    m + 1 ≤ rne n q := by
  have hm : m * q ≤ n := by nlinarith
  have hf : m ≤ n / q := (Nat.le_div_iff_mul_le hq).2 hm
  have hdm := Nat.div_add_mod n q
  unfold rne
  simp only
  by_cases hlt : m < n / q
  · split_ifs <;> omega
  · have heq : n / q = m := by omega
    rw [heq] at hdm ⊢
    have hr : q < 2 * (n % q) := by nlinarith
    have h1 : ¬ (2 * (n % q) < q) := by omega
    rw [if_neg h1, if_pos hr]

theorem rne_le_of_half {n q m : Nat} (hq : 0 < q) (hm : m % 2 = 0)
    (h : 2 * n ≤ (2 * m + 1) * q) : rne n q ≤ m := by
  have hlt : n < (m + 1) * q := by nlinarith
  have hf : n / q ≤ m := by
    have := (Nat.div_lt_iff_lt_mul hq).2 hlt
    omega
  have hdm := Nat.div_add_mod n q
  unfold rne
  simp only
  by_cases hlt2 : n / q < m
  · split_ifs <;> omega
  · have heq : n / q = m := by omega
    rw [heq] at hdm ⊢
    have hr : 2 * (n % q) ≤ q := by nlinarith
    split_ifs <;> omega

theorem roundUnits_le {num den m : Nat} (hden : 0 < den) (hm : Representable m)
    (h : num * 2 ^ 149 ≤ m * den) : roundUnits num den ≤ m := by
  unfold roundUnits
  simp only
  have hF : num * 2 ^ 149 / den ≤ m := by
    calc num * 2 ^ 149 / den ≤ m * den / den := Nat.div_le_div_right h
      _ = m := Nat.mul_div_cancel m hden
  have hs : ilog2 (num * 2 ^ 149 / den) - 23 ≤ ilog2 m - 23 :=
    Nat.sub_le_sub_right (ilog2_mono hF) 23
  obtain ⟨c, hc⟩ := hm _ hs
  have hq : 0 < den * 2 ^ (ilog2 (num * 2 ^ 149 / den) - 23) :=
    Nat.mul_pos hden (Nat.two_pow_pos _)
  have hr : rne (num * 2 ^ 149) (den * 2 ^ (ilog2 (num * 2 ^ 149 / den) - 23)) ≤ c := by
    apply rne_le hq
    calc num * 2 ^ 149 ≤ m * den := h
      _ = c * (den * 2 ^ (ilog2 (num * 2 ^ 149 / den) - 23)) := by
          conv_lhs => rw [hc]
          ring
  calc rne (num * 2 ^ 149) (den * 2 ^ (ilog2 (num * 2 ^ 149 / den) - 23)) *
        2 ^ (ilog2 (num * 2 ^ 149 / den) - 23)
      ≤ c * 2 ^ (ilog2 (num * 2 ^ 149 / den) - 23) := Nat.mul_le_mul_right _ hr
    _ = m := by rw [hc]; ring

theorem le_roundUnits {num den m : Nat} (hden : 0 < den) (hm : Representable m)
    (h : m * den ≤ num * 2 ^ 149) : m ≤ roundUnits num den := by
  unfold roundUnits
  simp only
  have hF : m ≤ num * 2 ^ 149 / den := (Nat.le_div_iff_mul_le hden).2 h
  set F := num * 2 ^ 149 / den with hFdef
  have hq : 0 < den * 2 ^ (ilog2 F - 23) := Nat.mul_pos hden (Nat.two_pow_pos _)
  by_cases hs : ilog2 F - 23 ≤ ilog2 m - 23
  · obtain ⟨c, hc⟩ := hm _ hs
    have hr : c ≤ rne (num * 2 ^ 149) (den * 2 ^ (ilog2 F - 23)) := by
      apply le_rne hq
      calc c * (den * 2 ^ (ilog2 F - 23)) = m * den := by
            conv_rhs => rw [hc]
            ring
        _ ≤ num * 2 ^ 149 := h
    calc m = c * 2 ^ (ilog2 F - 23) := by rw [hc]; ring
      _ ≤ _ := Nat.mul_le_mul_right _ hr
  · have hL : 24 ≤ ilog2 F := by omega
    have hLm : ilog2 m < ilog2 F := by omega
    have hF1 : 1 ≤ F := by
      by_contra hc
      have : F = 0 := by omega
      rw [this, ilog2_zero] at hL
      omega
    have hpow : 2 ^ ilog2 F ≤ F := (ilog2_spec hF1).1
    have hFden : F * den ≤ num * 2 ^ 149 := Nat.div_mul_le_self _ _
    have hr : 2 ^ 23 ≤ rne (num * 2 ^ 149) (den * 2 ^ (ilog2 F - 23)) := by
      apply le_rne hq
      calc 2 ^ 23 * (den * 2 ^ (ilog2 F - 23)) = 2 ^ (23 + (ilog2 F - 23)) * den := by
            rw [pow_add]; ring
        _ = 2 ^ ilog2 F * den := by
            congr 2
            omega
        _ ≤ F * den := Nat.mul_le_mul_right _ hpow
        _ ≤ num * 2 ^ 149 := hFden
    have hm2 : m < 2 ^ ilog2 F := by
      rcases Nat.eq_zero_or_pos m with h0 | h0
      · subst h0; exact Nat.two_pow_pos _
      · calc m < 2 ^ (ilog2 m + 1) := (ilog2_spec h0).2
          _ ≤ 2 ^ ilog2 F := Nat.pow_le_pow_right (by norm_num) hLm
    calc m ≤ 2 ^ ilog2 F := le_of_lt hm2
      _ = 2 ^ 23 * 2 ^ (ilog2 F - 23) := by
          rw [← pow_add]
          congr 1
          omega
      _ ≤ _ := Nat.mul_le_mul_right _ hr

theorem representable_mul_one {c : Nat} (hc : c < 2 ^ 24) : Representable (c * 2 ^ 149) := by
  intro k hk
  have h1 : c * 2 ^ 149 < 2 ^ (172 + 1) := by
    calc c * 2 ^ 149 < 2 ^ 24 * 2 ^ 149 := Nat.mul_lt_mul_of_pos_right hc (Nat.two_pow_pos _)
      _ = 2 ^ (172 + 1) := by rw [← pow_add]
  have h2 := ilog2_lt_of_lt_pow h1
  have h3 : k ≤ 149 := by omega
  exact Dvd.dvd.mul_left (Nat.pow_dvd_pow 2 h3) c

theorem roundUnits_le_five {num den : Nat} (hden : 0 < den) (h : num ≤ 5 * den) :
    roundUnits num den ≤ 5 * 2 ^ 149 := by
  apply roundUnits_le hden (representable_mul_one (by norm_num))
  calc num * 2 ^ 149 ≤ 5 * den * 2 ^ 149 := Nat.mul_le_mul_right _ h
    _ = 5 * 2 ^ 149 * den := by ring

theorem five_lt_roundUnits {num den : Nat} (hden : 0 < den)
    (h : (5 * 2 ^ 22 + 1) * den < num * 2 ^ 22) : 5 * 2 ^ 149 < roundUnits num den := by
  have hN : (5 * 2 ^ 149 + 2 ^ 127) * den < num * 2 ^ 149 := by
    have h1 : (5 * 2 ^ 22 + 1) * den * 2 ^ 127 < num * 2 ^ 22 * 2 ^ 127 :=
      Nat.mul_lt_mul_of_pos_right h (Nat.two_pow_pos _)
    calc (5 * 2 ^ 149 + 2 ^ 127) * den = (5 * 2 ^ 22 + 1) * den * 2 ^ 127 := by ring
      _ < num * 2 ^ 22 * 2 ^ 127 := h1
      _ = num * 2 ^ 149 := by ring
  by_cases hbig : 2 ^ 152 * den ≤ num * 2 ^ 149
  · have hrep : Representable (8 * 2 ^ 149) := representable_mul_one (by norm_num)
    have := le_roundUnits hden hrep (by
      calc 8 * 2 ^ 149 * den = 2 ^ 152 * den := by ring
        _ ≤ num * 2 ^ 149 := hbig)
    calc 5 * 2 ^ 149 < 8 * 2 ^ 149 := by norm_num
      _ ≤ roundUnits num den := this
  · have hF1 : 2 ^ 151 ≤ num * 2 ^ 149 / den := by
      apply (Nat.le_div_iff_mul_le hden).2
      calc 2 ^ 151 * den ≤ (5 * 2 ^ 149 + 2 ^ 127) * den :=
            Nat.mul_le_mul_right _ (by norm_num)
        _ ≤ num * 2 ^ 149 := le_of_lt hN
    have hF2 : num * 2 ^ 149 / den < 2 ^ (151 + 1) := by
      apply (Nat.div_lt_iff_lt_mul hden).2
      omega
    have hL : ilog2 (num * 2 ^ 149 / den) = 151 := ilog2_eq hF1 hF2
    unfold roundUnits
    simp only [hL]
    have hq : 0 < den * 2 ^ (151 - 23) := Nat.mul_pos hden (Nat.two_pow_pos _)
    have hr : 5 * 2 ^ 21 + 1 ≤ rne (num * 2 ^ 149) (den * 2 ^ (151 - 23)) := by
      apply succ_le_rne hq
      calc (2 * (5 * 2 ^ 21) + 1) * (den * 2 ^ (151 - 23))
          = 2 * ((5 * 2 ^ 149 + 2 ^ 127) * den) := by norm_num; ring
        _ < 2 * (num * 2 ^ 149) := by omega
    calc 5 * 2 ^ 149 < (5 * 2 ^ 21 + 1) * 2 ^ (151 - 23) := by norm_num
      _ ≤ _ := Nat.mul_le_mul_right _ hr

theorem isdigit_digitChar : ∀ d : Fin 10, isdigit (digitChar d) = true := by decide

theorem toNat_digitChar : ∀ d : Fin 10, (digitChar d).toNat - 48 = d.val := by decide

theorem scanDigits_stop (r : List Char) (acc cnt : Nat) (h : isdigit (cpeek r) = false) :
    scanDigits r acc cnt = (acc, cnt, r) := by
  cases r with
  | nil => rfl
  | cons c r => simp only [cpeek] at h; simp [scanDigits, h]

theorem scanDigits_digits (ds : List (Fin 10)) (r : List Char) (h : isdigit (cpeek r) = false) :
    ∀ acc cnt, scanDigits (ds.map digitChar ++ r) acc cnt = (digitsVal acc ds, cnt + ds.length, r) := by
  induction ds with
  | nil => intro acc cnt; simpa [digitsVal] using scanDigits_stop r acc cnt h
  | cons d ds ih =>
    intro acc cnt
    show scanDigits (digitChar d :: (ds.map digitChar ++ r)) acc cnt = _
    rw [scanDigits, isdigit_digitChar, if_pos rfl, toNat_digitChar, ih]
    simp only [digitsVal, List.length_cons]
    congr 2
    omega

theorem digitsVal_append (a b : List (Fin 10)) : ∀ acc,
    digitsVal acc (a ++ b) = digitsVal (digitsVal acc a) b := by
  induction a with
  | nil => intro acc; rfl
  | cons d a ih => intro acc; simp [digitsVal, ih]

theorem stops_facts {r : List Char} (h : Stops r) :
    isdigit (cpeek r) = false ∧ cpeek r ≠ '.' ∧ lowerAscii (cpeek r) ≠ 'e' ∧
    lowerAscii (cpeek r) ≠ 'x' ∧ lowerAscii (cpeek r) ≠ 'i' ∧ lowerAscii (cpeek r) ≠ 'n' ∧
    cpeek r ≠ '-' ∧ cpeek r ≠ '+' := by
  rcases h with h | h | h | h | h <;> rw [h] <;> decide

theorem digit_facts {c : Char} (h : isdigit c = true) :
    c ≠ '.' ∧ lowerAscii c ≠ 'e' ∧ lowerAscii c ≠ 'x' ∧ lowerAscii c ≠ 'i' ∧
    lowerAscii c ≠ 'n' ∧ c ≠ '-' ∧ c ≠ '+' ∧ isspace c = false ∧ c ≠ ' ' ∧ c ≠ '\t' ∧
    c ≠ '\n' ∧ c ≠ '\r' ∧ c ≠ '\x00' ∧ c ≠ '#' := by
  simp only [isdigit, Bool.and_eq_true, decide_eq_true_eq] at h
  have hl : lowerAscii c = c := by
    unfold lowerAscii
    rw [if_neg]
    omega
  rw [hl]
  have key : ∀ d : Char, (d.toNat < 48 ∨ 57 < d.toNat) → c ≠ d := by
    intro d hd hcd
    subst hcd
    omega
  refine ⟨key _ (by decide), key _ (by decide), key _ (by decide), key _ (by decide),
    key _ (by decide), key _ (by decide), key _ (by decide), ?_, key _ (by decide),
    key _ (by decide), key _ (by decide), key _ (by decide), key _ (by decide),
    key _ (by decide)⟩
  simp only [isspace, Bool.or_eq_false_iff, decide_eq_false_iff_not]
  exact ⟨⟨⟨⟨⟨key _ (by decide), key _ (by decide)⟩, key _ (by decide)⟩, key _ (by decide)⟩,
    key _ (by decide)⟩, key _ (by decide)⟩

theorem stripKeyword_none (k : Char) (kw s : List Char) (h : lowerAscii (cpeek s) ≠ k) :
    stripKeyword (k :: kw) s = none := by
  cases s with
  | nil => rfl
  | cons c s => simp only [cpeek] at h; simp [stripKeyword, h]

theorem scanExponent_stop (r : List Char) (h : lowerAscii (cpeek r) ≠ 'e') :
    scanExponent 'e' r = (0, r) := by
  unfold scanExponent
  rw [if_neg h]

theorem parseDecimal_numeral (t : Numeral) (neg : Bool) (r : List Char)
    (hwf : t.WellFormed) (hr : Stops r) :
    parseDecimal neg (t.body ++ r) = some (scaleToF32 neg t.mant 10 (0 - (t.scale : Int)), r) := by
  obtain ⟨sign, ip, frac⟩ := t
  have hs := stops_facts hr
  cases frac with
  | none =>
    have hwf' : 0 < ip.length := by
      simpa [Numeral.WellFormed, Numeral.fracDigits] using hwf
    have h1 := scanDigits_digits ip r hs.1 0 0
    simp only [Numeral.body, List.append_nil, Numeral.mant, Numeral.scale, Numeral.fracDigits,
      Option.getD_none, List.length_nil, parseDecimal, h1, if_neg hs.2.1,
      scanExponent_stop r hs.2.2.1]
    rw [if_neg (by omega)]
  | some f =>
    have hwf' : 0 < ip.length + f.length := by
      simpa [Numeral.WellFormed, Numeral.fracDigits] using hwf
    have h0 : isdigit (cpeek ('.' :: (f.map digitChar ++ r))) = false := by
      show isdigit '.' = false
      decide
    have h1 := scanDigits_digits ip ('.' :: (f.map digitChar ++ r)) h0 0 0
    have h2 := scanDigits_digits f r hs.1 (digitsVal 0 ip) 0
    have hb : ({ sign := sign, intDigits := ip, frac := some f } : Numeral).body ++ r =
        ip.map digitChar ++ '.' :: (f.map digitChar ++ r) := by
      simp [Numeral.body]
    rw [hb]
    simp only [Numeral.mant, Numeral.scale, Numeral.fracDigits, Option.getD_some,
      parseDecimal, h1, cpeek, if_true, List.tail_cons, h2, scanExponent_stop r hs.2.2.1,
      digitsVal_append]
    rw [if_neg (by omega)]
    simp

theorem dot_facts : isdigit '.' = false ∧ lowerAscii '.' ≠ 'x' ∧ lowerAscii '.' ≠ 'i' ∧
    lowerAscii '.' ≠ 'n' ∧ '.' ≠ '-' ∧ '.' ≠ '+' ∧ isspace '.' = false := by decide

theorem body_cases (t : Numeral) (hwf : t.WellFormed) (r : List Char) (hr : Stops r) :
    ∃ c rest, t.body ++ r = c :: rest ∧ (isdigit c = true ∨ c = '.') ∧
      (isdigit (cpeek rest) = true ∨ cpeek rest = '.' ∨ Stops rest) := by
  obtain ⟨sign, ip, frac⟩ := t
  cases ip with
  | cons d ip =>
    refine ⟨digitChar d, ip.map digitChar ++ (match frac with
      | none => []
      | some f => '.' :: f.map digitChar) ++ r, ?_, Or.inl (isdigit_digitChar d), ?_⟩
    · cases frac <;> simp [Numeral.body]
    · cases ip with
      | cons d2 ip => exact Or.inl (isdigit_digitChar d2)
      | nil =>
        cases frac with
        | none => exact Or.inr (Or.inr hr)
        | some f => exact Or.inr (Or.inl rfl)
  | nil =>
    cases frac with
    | none => simp [Numeral.WellFormed, Numeral.fracDigits] at hwf
    | some f =>
      cases f with
      | nil => simp [Numeral.WellFormed, Numeral.fracDigits] at hwf
      | cons d f =>
        refine ⟨'.', digitChar d :: (f.map digitChar ++ r), ?_, Or.inr rfl,
          Or.inl (isdigit_digitChar d)⟩
        simp [Numeral.body]

theorem parseUnsigned_numeral (t : Numeral) (neg : Bool) (r : List Char)
    (hwf : t.WellFormed) (hr : Stops r) :
    parseUnsigned neg (t.body ++ r) = some (scaleToF32 neg t.mant 10 (0 - (t.scale : Int)), r) := by
  have hdec := parseDecimal_numeral t neg r hwf hr
  obtain ⟨c, rest, hb, hc, hrest⟩ := body_cases t hwf r hr
  rw [hb] at hdec ⊢
  have hci : lowerAscii c ≠ 'i' ∧ lowerAscii c ≠ 'n' := by
    rcases hc with hc | hc
    · exact ⟨(digit_facts hc).2.2.2.1, (digit_facts hc).2.2.2.2.1⟩
    · subst hc; exact ⟨dot_facts.2.2.1, dot_facts.2.2.2.1⟩
  have hx : lowerAscii (cpeek rest) ≠ 'x' := by
    rcases hrest with h | h | h
    · exact (digit_facts h).2.2.1
    · rw [h]; exact dot_facts.2.1
    · exact (stops_facts h).2.2.2.1
  have h1 : stripKeyword "infinity".toList (c :: rest) = none :=
    stripKeyword_none 'i' "nfinity".toList (c :: rest) hci.1
  have h2 : stripKeyword "inf".toList (c :: rest) = none :=
    stripKeyword_none 'i' "nf".toList (c :: rest) hci.1
  have h3 : stripKeyword "nan".toList (c :: rest) = none :=
    stripKeyword_none 'n' "an".toList (c :: rest) hci.2
  have h4 : stripKeyword "0x".toList (c :: rest) = none := by
    show stripKeyword ('0' :: ['x']) (c :: rest) = none
    rw [stripKeyword]
    split_ifs
    · exact stripKeyword_none 'x' [] rest hx
    · rfl
  unfold parseUnsigned
  rw [h1, h2, h3, h4]
  exact hdec

theorem skipSpace_cons (c : Char) (s : List Char) (h : isspace c = false) :
    skipSpace (c :: s) = c :: s := by
  simp [skipSpace, h]

theorem strtof_numeral (t : Numeral) (r : List Char) (hwf : t.WellFormed) (hr : Stops r) :
    strtof (t.chars ++ r) = (t.toF32, r) := by
  obtain ⟨c, rest, hb, hc, -⟩ := body_cases t hwf r hr
  have hpu := fun neg => parseUnsigned_numeral t neg r hwf hr
  have hcf : isspace c = false ∧ c ≠ '-' ∧ c ≠ '+' := by
    rcases hc with hc | hc
    · exact ⟨(digit_facts hc).2.2.2.2.2.2.2.1, (digit_facts hc).2.2.2.2.2.1,
        (digit_facts hc).2.2.2.2.2.2.1⟩
    · subst hc; exact ⟨dot_facts.2.2.2.2.2.2, dot_facts.2.2.2.2.1, dot_facts.2.2.2.2.2.1⟩
  unfold strtof Numeral.toF32 Numeral.neg
  rcases hsign : t.sign with _ | _ | _
  · have hch : t.chars ++ r = c :: rest := by
      simp [Numeral.chars, Numeral.signChars, hsign, hb]
    rw [hch, skipSpace_cons c rest hcf.1]
    simp only [cpeek, hcf.2.1, hcf.2.2, or_self, if_false, decide_False]
    rw [← hb, hpu]
    simp
  · have hch : t.chars ++ r = '+' :: (t.body ++ r) := by
      simp [Numeral.chars, Numeral.signChars, hsign]
    rw [hch, skipSpace_cons '+' _ (by decide)]
    simp only [cpeek, List.tail_cons, or_true, if_true]
    rw [hpu]
    simp
  · have hch : t.chars ++ r = '-' :: (t.body ++ r) := by
      simp [Numeral.chars, Numeral.signChars, hsign]
    rw [hch, skipSpace_cons '-' _ (by decide)]
    simp only [cpeek, List.tail_cons, true_or, if_true]
    rw [hpu]

/-! ## The value loop on a line of numerals -/

theorem validLine_eq (line : List Char) :
    validLine line = accepts (parseValues 32 0 (skipBlanks line)) := by
  unfold validLine accepts
  cases parseValues 32 0 (skipBlanks line) with
  | outOfRange => rfl
  | done parsed rest =>
    by_cases h : parsed = 32
    · simp [h]
    · simp [h]

theorem skipBlanks_append (b x : List Char) (hb : Blanks b) :
    skipBlanks (b ++ x) = skipBlanks x := by
  induction b with
  | nil => rfl
  | cons c b ih =>
    have hc : c = ' ' ∨ c = '\t' := hb c (List.mem_cons_self _ _)
    have hb' : Blanks b := fun d hd => hb d (List.mem_cons_of_mem _ hd)
    show skipBlanks (c :: (b ++ x)) = _
    rw [skipBlanks, if_pos hc, ih hb']

theorem skipBlanks_cons (c : Char) (x : List Char) (h1 : c ≠ ' ') (h2 : c ≠ '\t') :
    skipBlanks (c :: x) = c :: x := by
  rw [skipBlanks, if_neg]
  rintro (h | h)
  · exact h1 h
  · exact h2 h

theorem skipBlanks_idem (x : List Char) : skipBlanks (skipBlanks x) = skipBlanks x := by
  induction x with
  | nil => rfl
  | cons c x ih =>
    by_cases h : c = ' ' ∨ c = '\t'
    · rw [skipBlanks, if_pos h, ih]
    · rw [skipBlanks, if_neg h, skipBlanks, if_neg h]

theorem chars_head (t : Numeral) (hwf : t.WellFormed) (r : List Char) (hr : Stops r) :
    ∃ c rest, t.chars ++ r = c :: rest ∧ c ≠ ' ' ∧ c ≠ '\t' ∧ c ≠ '\n' ∧ c ≠ '\r' ∧
      c ≠ '\x00' ∧ c ≠ '#' := by
  obtain ⟨c, rest, hb, hc, -⟩ := body_cases t hwf r hr
  rcases hsign : t.sign with _ | _ | _
  · refine ⟨c, rest, by simp [Numeral.chars, Numeral.signChars, hsign, hb], ?_⟩
    rcases hc with hc | hc
    · have := digit_facts hc
      tauto
    · subst hc; decide
  · exact ⟨'+', t.body ++ r, by simp [Numeral.chars, Numeral.signChars, hsign], by decide⟩
  · exact ⟨'-', t.body ++ r, by simp [Numeral.chars, Numeral.signChars, hsign], by decide⟩

theorem chars_length_pos (t : Numeral) (hwf : t.WellFormed) : 0 < t.chars.length := by
  obtain ⟨c, rest, h, -⟩ := chars_head t hwf [] (Or.inr (Or.inr (Or.inr (Or.inr rfl))))
  rw [List.append_nil] at h
  rw [h]
  simp

theorem stops_of_blank_head (b x : List Char) (hb : Blanks b) (hne : b ≠ []) : Stops (b ++ x) := by
  cases b with
  | nil => exact absurd rfl hne
  | cons c b =>
    rcases hb c (List.mem_cons_self _ _) with h | h
    · exact Or.inl h
    · exact Or.inr (Or.inl h)

theorem stops_renderItems (items : List (List Char × Numeral)) (tl : List Char)
    (hs : SepOK items) (htl : Stops tl) : Stops (renderItems items ++ tl) := by
  cases items with
  | nil => exact htl
  | cons it items =>
    obtain ⟨b, t⟩ := it
    obtain ⟨hne, hb, -, -⟩ := hs
    have : renderItems ((b, t) :: items) ++ tl = b ++ (t.chars ++ renderItems items ++ tl) := by
      simp [renderItems]
    rw [this]
    exact stops_of_blank_head b _ hb hne

theorem itemsOK_of_sepOK {items : List (List Char × Numeral)} (h : SepOK items) : ItemsOK items := by
  cases items with
  | nil => trivial
  | cons it items => obtain ⟨b, t⟩ := it; exact ⟨h.2.1, h.2.2.1, h.2.2.2⟩

theorem accepts_parseValues_skip (todo parsed : Nat) (x : List Char) :
    accepts (parseValues todo parsed (skipBlanks x)) = accepts (parseValues todo parsed x) := by
  cases todo with
  | zero => simp [parseValues, accepts, skipBlanks_idem]
  | succ todo => simp only [parseValues, skipBlanks_idem]

theorem parseValues_items (tl : List Char) (htl : Stops tl)
    (hend : atLineEnd (skipBlanks tl) = true) :
    ∀ (items : List (List Char × Numeral)) (todo parsed : Nat), ItemsOK items →
      accepts (parseValues todo parsed (renderItems items ++ tl)) =
        itemsVerdict todo parsed items := by
  intro items
  induction items with
  | nil =>
    intro todo parsed _
    cases todo with
    | zero => simp [parseValues, accepts, itemsVerdict, renderItems, hend]
    | succ todo =>
      simp [parseValues, accepts, itemsVerdict, renderItems, hend, skipBlanks_idem]
  | cons it items ih =>
    intro todo parsed hok
    obtain ⟨b, t⟩ := it
    obtain ⟨hb, hwf, hsep⟩ := hok
    have hR : Stops (renderItems items ++ tl) := stops_renderItems items tl hsep htl
    obtain ⟨c, rest, hch, h1, h2, h3, h4, h5, h6⟩ := chars_head t hwf _ hR
    have hstr : renderItems ((b, t) :: items) ++ tl = b ++ (t.chars ++ (renderItems items ++ tl)) := by
      simp [renderItems]
    have hskip : skipBlanks (renderItems ((b, t) :: items) ++ tl) =
        t.chars ++ (renderItems items ++ tl) := by
      rw [hstr, skipBlanks_append _ _ hb, hch, skipBlanks_cons c rest h1 h2]
    have hnotend : atLineEnd (t.chars ++ (renderItems items ++ tl)) = false := by
      rw [hch]
      simp [atLineEnd, cpeek, h3, h4, h5]
    cases todo with
    | zero =>
      simp [parseValues, accepts, itemsVerdict, hskip, hnotend]
    | succ todo =>
      rw [parseValues]
      simp only [hskip, hnotend, strtof_numeral t _ hwf hR]
      have hlen : (renderItems items ++ tl).length ≠ (t.chars ++ (renderItems items ++ tl)).length := by
        have := chars_length_pos t hwf
        simp only [List.length_append]
        omega
      rw [if_neg (by simp), if_neg hlen]
      by_cases hp : passes t.toF32 = true
      · have hp' : (F32.lt t.toF32 negFive || F32.gt t.toF32 five) = false := by
          simpa [passes] using hp
        rw [hp']
        simp only [Bool.false_eq_true, if_false]
        rw [accepts_parseValues_skip, ih todo (parsed + 1) (itemsOK_of_sepOK hsep)]
        simp [itemsVerdict, hp]
      · have hp' : (F32.lt t.toF32 negFive || F32.gt t.toF32 five) = true := by
          unfold passes at hp
          cases hq : (F32.lt t.toF32 negFive || F32.gt t.toF32 five)
          · rw [hq] at hp; exact absurd rfl hp
          · rfl
        rw [hp']
        simp [accepts, itemsVerdict, hp]

theorem itemsVerdict_eq (items : List (List Char × Numeral)) : ∀ todo parsed,
    itemsVerdict todo parsed items =
      (decide (items.length ≤ todo) && decide (parsed + items.length = 32) &&
        items.all (fun it => passes it.2.toF32)) := by
  induction items with
  | nil => intro todo parsed; cases todo <;> simp [itemsVerdict]
  | cons it items ih =>
    intro todo parsed
    obtain ⟨b, t⟩ := it
    cases todo with
    | zero => simp [itemsVerdict]
    | succ todo =>
      simp only [itemsVerdict, ih, List.length_cons, List.all_cons]
      have e1 : (parsed + 1 + items.length = 32) = (parsed + (items.length + 1) = 32) := by
        apply propext; constructor <;> intro h <;> omega
      have e2 : (items.length + 1 ≤ todo + 1) = (items.length ≤ todo) := by
        apply propext; constructor <;> intro h <;> omega
      simp only [e1, e2]
      cases passes t.toF32 <;> simp

/-! ## The range check -/

theorem passes_ofRatio (neg : Bool) (num den : Nat) :
    passes (F32.ofRatio neg num den) = decide (roundUnits num den ≤ 5 * 2 ^ 149) := by
  unfold F32.ofRatio
  simp only
  by_cases hu : 2 ^ 277 ≤ roundUnits num den
  · rw [if_pos hu]
    have h5 : ¬ roundUnits num den ≤ 5 * 2 ^ 149 := by
      have : 5 * 2 ^ 149 < 2 ^ 277 := by norm_num
      omega
    rw [decide_eq_false h5]
    cases neg <;> decide!
  · rw [if_neg hu]
    generalize roundUnits num den = u
    unfold passes F32.lt F32.gt F32.lt negFive five F32.key
    cases neg
    · by_cases h : u ≤ 5 * 2 ^ 149
      · simp only [Bool.false_eq_true, if_false, if_true, decide_eq_true h]
        rw [Bool.not_eq_true', Bool.or_eq_false_iff]
        exact ⟨decide_eq_false (by push_cast; omega), decide_eq_false (by push_cast; omega)⟩
      · simp only [Bool.false_eq_true, if_false, if_true, decide_eq_false h]
        rw [Bool.not_eq_false', Bool.or_eq_true]
        exact Or.inr (decide_eq_true (by push_cast; omega))
    · by_cases h : u ≤ 5 * 2 ^ 149
      · simp only [Bool.false_eq_true, if_false, if_true, decide_eq_true h]
        rw [Bool.not_eq_true', Bool.or_eq_false_iff]
        exact ⟨decide_eq_false (by push_cast; omega), decide_eq_false (by push_cast; omega)⟩
      · simp only [Bool.false_eq_true, if_false, if_true, decide_eq_false h]
        rw [Bool.not_eq_false', Bool.or_eq_true]
        exact Or.inl (decide_eq_true (by push_cast; omega))

theorem toF32_eq (t : Numeral) : t.toF32 = F32.ofRatio t.neg t.mant (10 ^ t.scale) := by
  unfold Numeral.toF32 scaleToF32
  by_cases h : t.scale = 0
  · rw [h]; simp
  · rw [if_neg (by omega)]
    congr 2
    omega

theorem passes_of_inRange (t : Numeral) (h : t.InRange) : passes t.toF32 = true := by
  rw [toF32_eq, passes_ofRatio, decide_eq_true_eq]
  exact roundUnits_le_five (Nat.pow_pos (by norm_num)) h

theorem not_passes_of_beyond (t : Numeral) (h : t.Beyond) : passes t.toF32 = false := by
  rw [toF32_eq, passes_ofRatio, decide_eq_false_iff_not, not_le]
  exact five_lt_roundUnits (Nat.pow_pos (by norm_num)) h

/-! ## `fgets` on well-formed files -/

theorem fgetsLines_split (size : Nat) (x : List Char) : ∀ (a acc : List Char),
    fgetsLines size (a ++ '\n' :: x) acc =
      fgetsLines size (a ++ ['\n']) acc ++ fgetsLines size x [] := by
  intro a
  induction a with
  | nil => intro acc; simp [fgetsLines]
  | cons c a ih =>
    intro acc
    show fgetsLines size (c :: (a ++ '\n' :: x)) acc =
      fgetsLines size (c :: (a ++ ['\n'])) acc ++ fgetsLines size x []
    rw [fgetsLines, fgetsLines]
    split_ifs
    · rw [ih]; rfl
    · rw [ih]

theorem fgetsLines_line (size : Nat) : ∀ (l acc : List Char), '\n' ∉ l →
    acc.length + l.length + 2 ≤ size →
    fgetsLines size (l ++ ['\n']) acc = [acc.reverse ++ l ++ ['\n']] := by
  intro l
  induction l with
  | nil => intro acc _ _; simp [fgetsLines]
  | cons c l ih =>
    intro acc hnl hlen
    have hc : c ≠ '\n' := fun h => hnl (h ▸ List.mem_cons_self _ _)
    have hl : '\n' ∉ l := fun h => hnl (List.mem_cons_of_mem _ h)
    simp only [List.length_cons] at hlen
    show fgetsLines size (c :: (l ++ ['\n'])) acc = _
    rw [fgetsLines, if_neg (by rintro (h | h) <;> [exact hc h; omega])]
    rw [ih (c :: acc) hl (by simp only [List.length_cons]; omega)]
    simp

theorem fgetsLines_last (size : Nat) : ∀ (l acc : List Char), '\n' ∉ l →
    acc.length + l.length + 1 ≤ size →
    fgetsLines size l acc = if acc.reverse ++ l = [] then [] else [acc.reverse ++ l] := by
  intro l
  induction l with
  | nil =>
    intro acc _ _
    cases acc with
    | nil => simp [fgetsLines]
    | cons a acc => simp [fgetsLines]
  | cons c l ih =>
    intro acc hnl hlen
    have hc : c ≠ '\n' := fun h => hnl (h ▸ List.mem_cons_self _ _)
    have hl : '\n' ∉ l := fun h => hnl (List.mem_cons_of_mem _ h)
    simp only [List.length_cons] at hlen
    rw [fgetsLines]
    by_cases hfull : acc.length + 2 = size
    · rw [if_pos (Or.inr hfull)]
      have : l = [] := List.eq_nil_of_length_eq_zero (by omega)
      subst this
      simp [fgetsLines]
    · rw [if_neg (by rintro (h | h) <;> [exact hc h; exact hfull h])]
      rw [ih (c :: acc) hl (by simp only [List.length_cons]; omega)]
      simp

theorem validateLines_append (a b : List (List Char)) : ∀ v,
    validateLines (a ++ b) v =
      match validateLines a v with
      | none => none
      | some w => validateLines b w := by
  induction a with
  | nil => intro v; rfl
  | cons l a ih =>
    intro v
    show validateLines (l :: (a ++ b)) v = _
    rw [validateLines, validateLines]
    split_ifs
    · exact ih v
    · exact ih (v + 1)
    · rfl

/-! ## Lines of a well-formed file -/

theorem noNL_blanks {b : List Char} (hb : Blanks b) : '\n' ∉ b := by
  intro h
  rcases hb _ h with h | h <;> exact absurd h (by decide)

theorem noNL_digits (ds : List (Fin 10)) : '\n' ∉ ds.map digitChar := by
  intro h
  rw [List.mem_map] at h
  obtain ⟨d, -, hd⟩ := h
  have := isdigit_digitChar d
  rw [hd] at this
  exact absurd this (by decide)

theorem noNL_numeral (t : Numeral) : '\n' ∉ t.chars := by
  obtain ⟨sign, ip, frac⟩ := t
  have h1 := noNL_digits ip
  intro h
  simp only [Numeral.chars, Numeral.signChars, Numeral.body, List.mem_append] at h
  rcases h with h | h | h
  · rcases sign with _ | _ | _ <;> simp at h
  · exact h1 h
  · cases frac with
    | none => simp at h
    | some f =>
      have h2 := noNL_digits f
      simp only [List.mem_cons] at h
      rcases h with h | h
      · exact absurd h (by decide)
      · exact h2 h

theorem noNL_sepOK (items : List (List Char × Numeral)) (h : SepOK items) :
    '\n' ∉ renderItems items := by
  induction items with
  | nil => simp [renderItems]
  | cons it items ih =>
    obtain ⟨b, t⟩ := it
    obtain ⟨-, hb, -, hs⟩ := h
    simp only [renderItems, List.mem_append, not_or]
    exact ⟨⟨noNL_blanks hb, noNL_numeral t⟩, ih hs⟩

theorem noNL_itemsOK (items : List (List Char × Numeral)) (h : ItemsOK items) :
    '\n' ∉ renderItems items := by
  cases items with
  | nil => simp [renderItems]
  | cons it items =>
    obtain ⟨b, t⟩ := it
    obtain ⟨hb, -, hs⟩ := h
    simp only [renderItems, List.mem_append, not_or]
    exact ⟨⟨noNL_blanks hb, noNL_numeral t⟩, noNL_sepOK items hs⟩

theorem noNL_line (l : Line) (h : l.OK) : '\n' ∉ l.chars := by
  cases l with
  | blank ws => exact noNL_blanks h
  | comment ws text =>
    simp only [Line.chars, List.mem_append, List.mem_cons, not_or]
    exact ⟨noNL_blanks h.1, by decide, h.2⟩
  | data items trail =>
    simp only [Line.chars, List.mem_append, not_or]
    exact ⟨noNL_itemsOK items h.1, noNL_blanks h.2.2.2⟩

theorem atLineEnd_eol (e : Eol) : atLineEnd (skipBlanks e.chars) = true := by
  cases e <;> decide

theorem stops_tail (trail : List Char) (e : Eol) (htr : Blanks trail) :
    Stops (trail ++ e.chars) := by
  cases trail with
  | nil => cases e <;> simp [Stops, Eol.chars, cpeek]
  | cons c trail => exact stops_of_blank_head _ _ htr (by simp)

theorem validLine_items (items : List (List Char × Numeral)) (trail : List Char) (e : Eol)
    (hok : ItemsOK items) (htr : Blanks trail) :
    validLine (renderItems items ++ trail ++ e.chars) =
      (decide (items.length = 32) && items.all (fun it => passes it.2.toF32)) := by
  rw [validLine_eq, accepts_parseValues_skip, List.append_assoc,
    parseValues_items (trail ++ e.chars) (stops_tail trail e htr)
      (by rw [skipBlanks_append _ _ htr]; exact atLineEnd_eol e) items 32 0 hok,
    itemsVerdict_eq]
  by_cases h : items.length = 32
  · simp [h]
  · have : ¬ (0 + items.length = 32) := by omega
    simp [h]

theorem isSkippedLine_items (it : List Char × Numeral) (items : List (List Char × Numeral))
    (x : List Char) (hok : ItemsOK (it :: items)) (hx : Stops x) :
    isSkippedLine (renderItems (it :: items) ++ x) = false := by
  obtain ⟨b, t⟩ := it
  obtain ⟨hb, hwf, hsep⟩ := hok
  have hR : Stops (renderItems items ++ x) := stops_renderItems items x hsep hx
  obtain ⟨c, rest, hch, h1, h2, h3, h4, h5, h6⟩ := chars_head t hwf _ hR
  have hstr : renderItems ((b, t) :: items) ++ x = b ++ (t.chars ++ (renderItems items ++ x)) := by
    simp [renderItems]
  unfold isSkippedLine
  simp only
  rw [hstr, skipBlanks_append _ _ hb, hch, skipBlanks_cons c rest h1 h2]
  simp [atLineEnd, cpeek, h3, h4, h5, h6]

theorem isSkippedLine_blank (ws : List Char) (e : Eol) (h : Blanks ws) :
    isSkippedLine (ws ++ e.chars) = true := by
  unfold isSkippedLine
  simp only
  rw [skipBlanks_append _ _ h, atLineEnd_eol e]
  rfl

theorem isSkippedLine_comment (ws text x : List Char) (h : Blanks ws) :
    isSkippedLine (ws ++ '#' :: text ++ x) = true := by
  unfold isSkippedLine
  simp only
  rw [List.append_assoc, skipBlanks_append _ _ h]
  simp [skipBlanks, cpeek]

theorem validateLines_chunk (l : Line) (e : Eol) (h : l.OK) (more : List (List Char)) (v : Nat) :
    validateLines ((l.chars ++ e.chars) :: more) v =
      validateLines more (v + if l.isData then 1 else 0) := by
  cases l with
  | blank ws =>
    rw [validateLines, Line.chars, isSkippedLine_blank ws e h]
    simp [Line.isData]
  | comment ws text =>
    rw [validateLines, Line.chars, isSkippedLine_comment ws text e.chars h.1]
    simp [Line.isData]
  | data items trail =>
    obtain ⟨hok, hlen, hrange, htr⟩ := h
    cases items with
    | nil => simp at hlen
    | cons it items =>
      have hskip : isSkippedLine ((Line.data (it :: items) trail).chars ++ e.chars) = false := by
        rw [Line.chars, List.append_assoc]
        exact isSkippedLine_items it items _ hok (stops_tail trail e htr)
      have hvalid : validLine ((Line.data (it :: items) trail).chars ++ e.chars) = true := by
        rw [Line.chars, validLine_items _ trail e hok htr]
        simp only [hlen, decide_True, Bool.true_and, List.all_eq_true]
        intro x hx
        exact passes_of_inRange x.2 (hrange x hx)
      rw [validateLines, hskip, hvalid]
      simp [Line.isData]

theorem dataLineCount_cons (l : Line) (e : Eol) (rest : List (Line × Eol)) :
    dataLineCount ((l, e) :: rest) = (if l.isData then 1 else 0) + dataLineCount rest := by
  unfold dataLineCount
  cases h : l.isData <;> simp [List.filter, h]
  omega

theorem chars_ne_nil_of_data (l : Line) (h : l.OK) (hd : l.isData = true) : l.chars ≠ [] := by
  cases l with
  | blank ws => simp [Line.isData] at hd
  | comment ws text => simp [Line.isData] at hd
  | data items trail =>
    obtain ⟨hok, hlen, -, -⟩ := h
    cases items with
    | nil => simp at hlen
    | cons it items =>
      obtain ⟨b, t⟩ := it
      have := chars_length_pos t hok.2.1
      intro hnil
      have hl := congrArg List.length hnil
      simp only [Line.chars, renderItems, List.length_append, List.length_nil] at hl
      omega

theorem validateLines_file : ∀ (f : List (Line × Eol)), FileOK f → ∀ v,
    validateLines (fgetsLines 2048 (renderFile f) []) v = some (v + dataLineCount f) := by
  intro f
  induction f with
  | nil => intro _ v; simp [renderFile, fgetsLines, validateLines, dataLineCount]
  | cons le rest ih =>
    intro hf v
    obtain ⟨l, e⟩ := le
    obtain ⟨hl, hlen, hlast, hrest⟩ := hf
    have hnl := noNL_line l hl
    rw [dataLineCount_cons]
    cases e with
    | eof =>
      have hr : rest = [] := hlast rfl
      subst hr
      simp only [renderFile, Eol.chars, List.append_nil, dataLineCount, List.filter_nil,
        List.length_nil, Nat.add_zero]
      rw [fgetsLines_last 2048 l.chars [] hnl (by
        simp only [Eol.chars, List.append_nil] at hlen
        simp only [List.length_nil]; omega)]
      simp only [List.reverse_nil, List.nil_append]
      by_cases hnil : l.chars = []
      · rw [if_pos hnil, validateLines]
        have : l.isData = false := by
          by_contra hc
          exact chars_ne_nil_of_data l hl (by simpa using hc) hnil
        simp [this]
      · rw [if_neg hnil]
        have := validateLines_chunk l Eol.eof hl [] v
        simp only [Eol.chars, List.append_nil] at this
        rw [this, validateLines]
    | lf =>
      have hsplit : renderFile ((l, Eol.lf) :: rest) = l.chars ++ '\n' :: renderFile rest := by
        simp [renderFile, Eol.chars]
      rw [hsplit, fgetsLines_split, fgetsLines_line 2048 l.chars [] hnl (by
        simp only [Eol.chars, List.length_append, List.length_cons, List.length_nil] at hlen
        simp only [List.length_nil]; omega)]
      simp only [List.reverse_nil, List.nil_append, List.singleton_append]
      have := validateLines_chunk l Eol.lf hl (fgetsLines 2048 (renderFile rest) []) v
      simp only [Eol.chars] at this
      rw [this, ih hrest]
      congr 1
      omega
    | crlf =>
      have hsplit : renderFile ((l, Eol.crlf) :: rest) =
          (l.chars ++ ['\r']) ++ '\n' :: renderFile rest := by
        simp [renderFile, Eol.chars]
      have hnl2 : '\n' ∉ l.chars ++ ['\r'] := by
        simp only [List.mem_append, List.mem_singleton, not_or]
        exact ⟨hnl, by decide⟩
      rw [hsplit, fgetsLines_split, fgetsLines_line 2048 (l.chars ++ ['\r']) [] hnl2 (by
        simp only [Eol.chars, List.length_append, List.length_cons, List.length_nil] at hlen
        simp only [List.length_nil, List.length_append, List.length_cons]; omega)]
      simp only [List.reverse_nil, List.nil_append, List.singleton_append]
      have := validateLines_chunk l Eol.crlf hl (fgetsLines 2048 (renderFile rest) []) v
      simp only [Eol.chars] at this
      have e1 : l.chars ++ ['\r'] ++ ['\n'] = l.chars ++ ['\r', '\n'] := by simp
      rw [e1, this, ih hrest]
      congr 1
      omega

theorem fgetsLines_prefix (pre x : List Char) (hpre : pre = [] ∨ ∃ p, pre = p ++ ['\n']) :
    fgetsLines 2048 (pre ++ x) [] = fgetsLines 2048 pre [] ++ fgetsLines 2048 x [] := by
  rcases hpre with h | ⟨p, h⟩
  · subst h; simp [fgetsLines]
  · subst h
    rw [List.append_assoc, List.singleton_append, fgetsLines_split]

/-- A line of numerals that the value loop does not accept makes the validator
return -1, wherever the line stands in the file. -/
theorem validate_rejects_line (pre post : List Char) (items : List (List Char × Numeral))
    (trail : List Char) (e : Eol)
    (hpre : pre = [] ∨ ∃ p, pre = p ++ ['\n'])
    (hok : ItemsOK items) (hne : items ≠ []) (htr : Blanks trail)
    (hfit : (renderItems items ++ trail ++ e.chars).length ≤ 2047)
    (hlast : e = Eol.eof → post = [])
    (hbad : (decide (items.length = 32) && items.all (fun it => passes it.2.toF32)) = false) :
    validate_rev_c_file_format_amps (some (pre ++ (renderItems items ++ trail ++ e.chars) ++ post))
      = none := by
  obtain ⟨it, items', hitems⟩ := List.exists_cons_of_ne_nil hne
  have hnl : '\n' ∉ renderItems items ++ trail := by
    simp only [List.mem_append, not_or]
    exact ⟨noNL_itemsOK items hok, noNL_blanks htr⟩
  have hskip : isSkippedLine (renderItems items ++ trail ++ e.chars) = false := by
    rw [hitems, List.append_assoc]
    exact isSkippedLine_items it items' _ (hitems ▸ hok) (stops_tail trail e htr)
  have hvalid : validLine (renderItems items ++ trail ++ e.chars) = false := by
    rw [validLine_items items trail e hok htr, hbad]
  have hline : ∀ more w, validateLines ((renderItems items ++ trail ++ e.chars) :: more) w = none := by
    intro more w
    rw [validateLines, hskip, hvalid]
    simp
  have hchunks : ∃ more, fgetsLines 2048 ((renderItems items ++ trail ++ e.chars) ++ post) [] =
      (renderItems items ++ trail ++ e.chars) :: more := by
    cases e with
    | eof =>
      have hp : post = [] := hlast rfl
      subst hp
      refine ⟨[], ?_⟩
      simp only [Eol.chars, List.append_nil] at hfit ⊢
      rw [fgetsLines_last 2048 _ [] hnl (by simp only [List.length_nil]; omega)]
      simp only [List.reverse_nil, List.nil_append]
      rw [if_neg]
      intro hnil
      have hl := congrArg List.length hnil
      rw [hitems] at hl
      obtain ⟨b, t⟩ := it
      have hpos := chars_length_pos t (hitems ▸ hok : ItemsOK ((b, t) :: items')).2.1
      simp only [renderItems, List.length_append, List.length_nil] at hl
      omega
    | lf =>
      refine ⟨fgetsLines 2048 post [], ?_⟩
      have e1 : renderItems items ++ trail ++ Eol.lf.chars ++ post =
          (renderItems items ++ trail) ++ '\n' :: post := by simp [Eol.chars]
      rw [e1, fgetsLines_split, fgetsLines_line 2048 _ [] hnl (by
        simp only [Eol.chars, List.length_append, List.length_cons, List.length_nil] at hfit
        simp only [List.length_nil, List.length_append]; omega)]
      simp [Eol.chars]
    | crlf =>
      refine ⟨fgetsLines 2048 post [], ?_⟩
      have e1 : renderItems items ++ trail ++ Eol.crlf.chars ++ post =
          (renderItems items ++ trail ++ ['\r']) ++ '\n' :: post := by simp [Eol.chars]
      have hnl2 : '\n' ∉ renderItems items ++ trail ++ ['\r'] := by
        simp only [List.mem_append, List.mem_singleton, not_or] at hnl ⊢
        exact ⟨hnl, by decide⟩
      rw [e1, fgetsLines_split, fgetsLines_line 2048 _ [] hnl2 (by
        simp only [Eol.chars, List.length_append, List.length_cons, List.length_nil] at hfit
        simp only [List.length_nil, List.length_append, List.length_cons]; omega)]
      simp [Eol.chars]
  obtain ⟨more, hmore⟩ := hchunks
  unfold validate_rev_c_file_format_amps
  simp only
  rw [List.append_assoc, fgetsLines_prefix pre _ hpre, hmore, validateLines_append]
  cases validateLines (fgetsLines 2048 pre []) 0 with
  | none => rfl
  | some w => simp only [hline]

/-! ## Facts about the ramp arithmetic -/

theorem Sends.refl (hw : Hw) (st : DacState) : Sends hw 0 st st :=
  ⟨⟨[], rfl, rfl, by simp⟩, le_refl _, rfl, rfl, id⟩

theorem Sends.trans {hw : Hw} {j k : Nat} {a b c : DacState}
    (h1 : Sends hw j a b) (h2 : Sends hw k b c) : Sends hw (j + k) a c := by
  obtain ⟨⟨n1, hl1, hn1, ht1⟩, hta, hc1, hw1, hf1⟩ := h1
  obtain ⟨⟨n2, hl2, hn2, ht2⟩, htb, hc2, hw2, hf2⟩ := h2
  refine ⟨⟨n2 ++ n1, by rw [hl2, hl1, List.append_assoc], by simp [hn1, hn2, Nat.add_comm], ?_⟩,
    le_trans hta htb, by omega, by omega, fun h => hf2 (hf1 h)⟩
  intro w hw'
  rcases List.mem_append.1 hw' with h | h
  · have := ht2 w h; omega
  · have := ht1 w h; omega

theorem Sends.logPast {hw : Hw} {k : Nat} {a b : DacState} (h : Sends hw k a b)
    (hp : LogPast a) : LogPast b := by
  obtain ⟨⟨n, hl, -, ht⟩, hta, -, -, -⟩ := h
  intro w hw'
  rw [hl] at hw'
  rcases List.mem_append.1 hw' with h | h
  · exact (ht w h).2
  · have := hp w h; omega

theorem Sends.late_le {hw : Hw} {k : Nat} {a b : DacState} (h : Sends hw k a b) (T : Nat) :
    (writesFrom T b.log).length ≤ (writesFrom T a.log).length + k := by
  obtain ⟨⟨n, hl, hn, -⟩, -, -, -, -⟩ := h
  rw [hl]
  unfold writesFrom
  rw [List.filter_append, List.length_append]
  have := List.length_filter_le (fun w : DacWrite => decide (T ≤ w.time)) n
  omega

theorem tick_sends (env : Env) (hw : Hw) (st : DacState) : Sends hw 0 st (st.tick env) := by
  refine ⟨⟨[], rfl, rfl, by simp⟩, by simp [DacState.tick], rfl, rfl, ?_⟩
  intro h b
  have := h b
  simp only [DacState.tick]
  omega

theorem write_sends (env : Env) (hw : Hw) (board : Nat) (ch_vals : List Int)
    (trig cont ldac : Bool) (count : Int) (st : DacState) :
    Sends hw 1 st (dac_cmd_dac_wr env hw board ch_vals trig cont ldac count st).countCommand := by
  refine ⟨⟨[_], rfl, rfl, ?_⟩, by simp [dac_cmd_dac_wr, DacState.tick, DacState.countCommand],
    rfl, rfl, ?_⟩
  · intro w hw'
    rw [List.mem_singleton] at hw'
    subst hw'
    simp [dac_cmd_dac_wr, DacState.tick, DacState.countCommand]
  · intro h b
    have := h b
    simp only [dac_cmd_dac_wr, DacState.tick, DacState.countCommand]
    split_ifs <;> omega

theorem wait_sends (env : Env) (hw : Hw) (board need : Nat) : ∀ (fuel : Nat) (st : DacState),
    Sends hw 0 st (waitForSpace env hw board need fuel st).2 := by
  intro fuel
  induction fuel with
  | zero => intro st; exact Sends.refl hw st
  | succ fuel ih =>
    intro st
    rw [waitForSpace]
    simp only
    have h1 := tick_sends env hw st
    have h2 := tick_sends env hw (st.tick env)
    split_ifs
    · exact h1
    · exact Sends.trans h1 h2
    · exact Sends.trans h1 h2
    · exact Sends.trans (Sends.trans h1 h2) (ih _)

theorem foldl_sends (hw : Hw) (f : DacState → Nat → DacState)
    (hf : ∀ st x, Sends hw 1 st (f st x)) : ∀ (l : List Nat) (st : DacState),
    Sends hw l.length st (l.foldl f st) := by
  intro l
  induction l with
  | nil => intro st; exact Sends.refl hw st
  | cons x l ih =>
    intro st
    rw [List.foldl_cons, List.length_cons, Nat.add_comm]
    exact Sends.trans (hf st x) (ih _)

theorem rampLoop_sends (env : Env) (hw : Hw) (p : rev_c_params_t) (iteration line_num board : Nat)
    (vals prev : List Int) (st : DacState) :
    Sends hw (p.ramp_samples + 1) st (rampLoop env hw p iteration line_num board vals prev st) := by
  have := foldl_sends hw (rampStep env hw p iteration line_num board vals prev)
    (fun st x => write_sends env hw _ _ _ _ _ _ st) (List.range (p.ramp_samples + 1)) st
  rw [List.length_range] at this
  exact this

theorem boardLoop_sends (env : Env) (hw : Hw) (p : rev_c_params_t) (fuel iteration line_num : Nat)
    (vals prev : List Int) : ∀ (boards : List Nat) (st : DacState),
    ∃ k, k ≤ boards.length * (p.ramp_samples + 1) ∧
      Sends hw k st (boardLoop env hw p fuel iteration line_num vals prev boards st).2 ∧
      ((boardLoop env hw p fuel iteration line_num vals prev boards st).1 = Flow.next →
        k = boards.length * (p.ramp_samples + 1)) := by
  intro boards
  induction boards with
  | nil => intro st; exact ⟨0, by simp, Sends.refl hw st, fun _ => by simp⟩
  | cons b boards ih =>
    intro st
    have hw0 := wait_sends env hw b (p.ramp_samples + 1) fuel st
    rw [boardLoop]
    rcases hres : waitForSpace env hw b (p.ramp_samples + 1) fuel st with ⟨r, st1⟩
    rw [hres] at hw0
    simp only at hw0
    have hcont : ∃ k, k ≤ (b :: boards).length * (p.ramp_samples + 1) ∧
        Sends hw k st (boardLoop env hw p fuel iteration line_num vals prev boards
          (rampLoop env hw p iteration line_num b vals prev st1)).2 ∧
        ((boardLoop env hw p fuel iteration line_num vals prev boards
          (rampLoop env hw p iteration line_num b vals prev st1)).1 = Flow.next →
          k = (b :: boards).length * (p.ramp_samples + 1)) := by
      obtain ⟨k, hk, hs, hn⟩ := ih (rampLoop env hw p iteration line_num b vals prev st1)
      have hr := rampLoop_sends env hw p iteration line_num b vals prev st1
      refine ⟨0 + (p.ramp_samples + 1) + k, ?_, Sends.trans (Sends.trans hw0 hr) hs, ?_⟩
      · simp only [List.length_cons, Nat.add_mul]; omega
      · intro h; rw [hn h]; simp only [List.length_cons, Nat.add_mul]; omega
    cases r with
    | ready => exact hcont
    | stopped => exact hcont
    | absent => exact ⟨0, by simp, hw0, fun h => by simp at h⟩
    | timeout => exact ⟨0, by simp, hw0, fun h => by simp at h⟩

theorem finalZeroLoop_sends (env : Env) (hw : Hw) (fuel : Nat) : ∀ (boards : List Nat)
    (st : DacState),
    ∃ k, k ≤ boards.length ∧ Sends hw k st (finalZeroLoop env hw fuel boards st).2 ∧
      ((finalZeroLoop env hw fuel boards st).1 = Flow.next → k = boards.length) := by
  intro boards
  induction boards with
  | nil => intro st; exact ⟨0, by simp, Sends.refl hw st, fun _ => by simp⟩
  | cons b boards ih =>
    intro st
    have hw0 := wait_sends env hw b 1 fuel st
    rw [finalZeroLoop]
    rcases hres : waitForSpace env hw b 1 fuel st with ⟨r, st1⟩
    rw [hres] at hw0
    simp only at hw0
    have hcont : ∃ k, k ≤ (b :: boards).length ∧
        Sends hw k st (finalZeroLoop env hw fuel boards
          (dac_cmd_dac_wr env hw b (List.replicate 8 0) true false true 1 st1).countCommand).2 ∧
        ((finalZeroLoop env hw fuel boards
          (dac_cmd_dac_wr env hw b (List.replicate 8 0) true false true 1 st1).countCommand).1
            = Flow.next → k = (b :: boards).length) := by
      obtain ⟨k, hk, hs, hn⟩ := ih
        (dac_cmd_dac_wr env hw b (List.replicate 8 0) true false true 1 st1).countCommand
      have hr := write_sends env hw b (List.replicate 8 0) true false true 1 st1
      refine ⟨0 + 1 + k, ?_, Sends.trans (Sends.trans hw0 hr) hs, ?_⟩
      · simp only [List.length_cons]; omega
      · intro h; rw [hn h]; simp only [List.length_cons]; omega
    cases r with
    | ready => exact hcont
    | stopped => exact hcont
    | absent => exact ⟨0, by simp, hw0, fun h => by simp at h⟩
    | timeout => exact ⟨0, by simp, hw0, fun h => by simp at h⟩

/-! ## The DAC thread after the stop flag is set -/

theorem wait_stopped (env : Env) (hw : Hw) (board need fuel : Nat) (st : DacState)
    (h : env.stop st.time = true) :
    waitForSpace env hw board need (fuel + 1) st = (Wait.stopped, st.tick env) := by
  rw [waitForSpace]
  simp [h]

theorem wait_no_timeout (env : Env) (hw : Hw) (board need T : Nat)
    (hstop : ∀ t, T ≤ t → env.stop t = true) : ∀ (fuel : Nat) (st : DacState),
    1 ≤ fuel → T + 2 ≤ st.time + 2 * fuel →
    (waitForSpace env hw board need fuel st).1 ≠ Wait.timeout := by
  intro fuel
  induction fuel with
  | zero => intro st h; omega
  | succ fuel ih =>
    intro st _ hT
    rw [waitForSpace]
    simp only
    by_cases hs : env.stop st.time = true
    · simp [hs]
    · have hlt : st.time < T := by
        by_contra hc
        exact hs (hstop _ (by omega))
      simp only [hs, Bool.false_eq_true, if_false]
      split_ifs
      · simp
      · simp
      · apply ih
        · omega
        · simp only [DacState.tick]; omega

theorem boardLoop_no_timeout (env : Env) (hw : Hw) (p : rev_c_params_t) (fuel iteration line_num : Nat)
    (vals prev : List Int) (T : Nat) (hstop : ∀ t, T ≤ t → env.stop t = true)
    (hfuel : T + 2 ≤ 2 * fuel) : ∀ (boards : List Nat) (st : DacState),
    (boardLoop env hw p fuel iteration line_num vals prev boards st).1 ≠ Flow.timeout := by
  intro boards
  induction boards with
  | nil => intro st; simp [boardLoop]
  | cons b boards ih =>
    intro st
    have hnt := wait_no_timeout env hw b (p.ramp_samples + 1) T hstop fuel st (by omega) (by omega)
    rw [boardLoop]
    rcases hres : waitForSpace env hw b (p.ramp_samples + 1) fuel st with ⟨r, st1⟩
    rw [hres] at hnt
    cases r with
    | ready => exact ih _
    | stopped => exact ih _
    | absent => simp
    | timeout => exact absurd rfl hnt

theorem finalZeroLoop_no_timeout (env : Env) (hw : Hw) (fuel T : Nat)
    (hstop : ∀ t, T ≤ t → env.stop t = true) (hfuel : T + 2 ≤ 2 * fuel) :
    ∀ (boards : List Nat) (st : DacState),
    (finalZeroLoop env hw fuel boards st).1 ≠ Flow.timeout := by
  intro boards
  induction boards with
  | nil => intro st; simp [finalZeroLoop]
  | cons b boards ih =>
    intro st
    have hnt := wait_no_timeout env hw b 1 T hstop fuel st (by omega) (by omega)
    rw [finalZeroLoop]
    rcases hres : waitForSpace env hw b 1 fuel st with ⟨r, st1⟩
    rw [hres] at hnt
    cases r with
    | ready => exact ih _
    | stopped => exact ih _
    | absent => simp
    | timeout => exact absurd rfl hnt

theorem late_pos_time (T : Nat) (st : DacState) (hp : LogPast st)
    (h : 0 < (writesFrom T st.log).length) : T ≤ st.time := by
  obtain ⟨w, hw⟩ := List.exists_mem_of_length_pos h
  unfold writesFrom at hw
  rw [List.mem_filter] at hw
  have h1 := hp w hw.1
  have h2 : T ≤ w.time := by simpa using hw.2
  omega

theorem lineLoop_quiet (env : Env) (hw : Hw) (p : rev_c_params_t) (fuel iteration : Nat)
    (prev : List Int) (lines : List (List Char)) (line_num : Nat) (st : DacState)
    (h : env.stop st.time = true) :
    (lineLoop env hw p fuel iteration prev lines line_num st).1 = Flow.next ∧
    Sends hw 0 st (lineLoop env hw p fuel iteration prev lines line_num st).2 := by
  cases lines with
  | nil => exact ⟨rfl, Sends.refl hw st⟩
  | cons l rest =>
    rw [lineLoop]
    simp only [h, if_true]
    exact ⟨trivial, tick_sends env hw st⟩

theorem iterationLoop_quiet (env : Env) (hw : Hw) (p : rev_c_params_t) (fuel : Nat)
    (lines : List (List Char)) (todo iteration : Nat) (st : DacState)
    (h : env.stop st.time = true) :
    (iterationLoop env hw p fuel lines todo iteration st).1 = Flow.next ∧
    Sends hw 0 st (iterationLoop env hw p fuel lines todo iteration st).2 := by
  cases todo with
  | zero => exact ⟨rfl, Sends.refl hw st⟩
  | succ todo =>
    rw [iterationLoop]
    simp only [h, if_true]
    exact ⟨trivial, tick_sends env hw st⟩

theorem finalZero_quiet (env : Env) (hw : Hw) (p : rev_c_params_t) (fuel : Nat) (st : DacState)
    (h : env.stop st.time = true) :
    (finalZero env hw p fuel st).1 = Flow.next ∧ Sends hw 0 st (finalZero env hw p fuel st).2 := by
  unfold finalZero
  by_cases hz : p.final_zero_trigger = true
  · simp only [hz, if_true, h]
    exact ⟨trivial, tick_sends env hw st⟩
  · simp only [hz, Bool.false_eq_true, if_false]
    exact ⟨trivial, Sends.refl hw st⟩

theorem lineLoop_cancel (env : Env) (hw : Hw) (p : rev_c_params_t) (fuel iteration : Nat)
    (prev : List Int) (T : Nat) (hstop : ∀ t, T ≤ t → env.stop t = true)
    (hfuel : T + 2 ≤ 2 * fuel) : ∀ (lines : List (List Char)) (line_num : Nat) (st : DacState),
    LogPast st → (writesFrom T st.log).length = 0 →
    CancelOK p T (lineLoop env hw p fuel iteration prev lines line_num st) := by
  intro lines
  induction lines with
  | nil =>
    intro line_num st hp h0
    exact ⟨by simp [lineLoop], hp, by simp only [lineLoop]; omega⟩
  | cons l rest ih =>
    intro line_num st hp h0
    have ht := tick_sends env hw st
    have hp1 := ht.logPast hp
    have hl1 : (writesFrom T (st.tick env).log).length = 0 := by
      have := ht.late_le T; omega
    rw [lineLoop]
    simp only
    by_cases hs : env.stop st.time = true
    · simp only [hs, if_true]
      exact ⟨by simp, hp1, by
        show (writesFrom T (st.tick env).log).length ≤ _
        omega⟩
    · simp only [hs, Bool.false_eq_true, if_false]
      by_cases hskip : isSkippedLine l = true
      · simp only [hskip, if_true]
        exact ih line_num _ hp1 hl1
      · simp only [hskip, Bool.false_eq_true, if_false]
        obtain ⟨k, hk, hsend, -⟩ := boardLoop_sends env hw p fuel iteration (line_num + 1)
          (parseDacValues hw 32 (skipBlanks l)) prev [0, 1, 2, 3] (st.tick env)
        have hnt := boardLoop_no_timeout env hw p fuel iteration (line_num + 1)
          (parseDacValues hw 32 (skipBlanks l)) prev T hstop hfuel [0, 1, 2, 3] (st.tick env)
        rcases hres : boardLoop env hw p fuel iteration (line_num + 1)
          (parseDacValues hw 32 (skipBlanks l)) prev [0, 1, 2, 3] (st.tick env) with ⟨fl, st2⟩
        rw [hres] at hsend hnt
        simp only at hsend hnt
        have hp2 := hsend.logPast hp1
        have hl2 : (writesFrom T st2.log).length ≤ 4 * (p.ramp_samples + 1) := by
          have := hsend.late_le T
          simp only [List.length_cons, List.length_nil] at hk
          omega
        cases fl with
        | next =>
          simp only
          by_cases hz : (writesFrom T st2.log).length = 0
          · exact ih (line_num + 1) st2 hp2 hz
          · have hT : T ≤ st2.time := late_pos_time T st2 hp2 (by omega)
            obtain ⟨hq1, hq2⟩ := lineLoop_quiet env hw p fuel iteration prev rest (line_num + 1)
              st2 (hstop _ hT)
            refine ⟨by rw [hq1]; simp, hq2.logPast hp2, ?_⟩
            have := hq2.late_le T
            omega
        | cleanup => exact ⟨by simp, hp2, hl2⟩
        | timeout => exact absurd rfl hnt

theorem iterationLoop_cancel (env : Env) (hw : Hw) (p : rev_c_params_t) (fuel : Nat)
    (lines : List (List Char)) (T : Nat) (hstop : ∀ t, T ≤ t → env.stop t = true)
    (hfuel : T + 2 ≤ 2 * fuel) : ∀ (todo iteration : Nat) (st : DacState),
    LogPast st → (writesFrom T st.log).length = 0 →
    CancelOK p T (iterationLoop env hw p fuel lines todo iteration st) := by
  intro todo
  induction todo with
  | zero =>
    intro iteration st hp h0
    exact ⟨by simp [iterationLoop], hp, by simp only [iterationLoop]; omega⟩
  | succ todo ih =>
    intro iteration st hp h0
    have ht := tick_sends env hw st
    have hp1 := ht.logPast hp
    have hl1 : (writesFrom T (st.tick env).log).length = 0 := by
      have := ht.late_le T; omega
    rw [iterationLoop]
    by_cases hs : env.stop st.time = true
    · simp only [hs, if_true]
      exact ⟨by simp, hp1, by
        show (writesFrom T (st.tick env).log).length ≤ _
        omega⟩
    · simp only [hs, Bool.false_eq_true, if_false]
      obtain ⟨hnt, hp2, hl2⟩ := lineLoop_cancel env hw p fuel iteration (List.replicate 32 0) T
        hstop hfuel lines 0 (st.tick env) hp1 hl1
      rcases hres : lineLoop env hw p fuel iteration (List.replicate 32 0) lines 0 (st.tick env)
        with ⟨fl, st2⟩
      rw [hres] at hnt hp2 hl2
      simp only at hnt hp2 hl2
      cases fl with
      | next =>
        simp only
        by_cases hz : (writesFrom T st2.log).length = 0
        · exact ih (iteration + 1) st2 hp2 hz
        · have hT : T ≤ st2.time := late_pos_time T st2 hp2 (by omega)
          obtain ⟨hq1, hq2⟩ := iterationLoop_quiet env hw p fuel lines todo (iteration + 1)
            st2 (hstop _ hT)
          refine ⟨by rw [hq1]; simp, hq2.logPast hp2, ?_⟩
          have := hq2.late_le T
          omega
      | cleanup => exact ⟨by simp, hp2, hl2⟩
      | timeout => exact absurd rfl hnt

theorem finalZero_cancel (env : Env) (hw : Hw) (p : rev_c_params_t) (fuel T : Nat)
    (hstop : ∀ t, T ≤ t → env.stop t = true) (hfuel : T + 2 ≤ 2 * fuel) (st : DacState)
    (hp : LogPast st) (hl : (writesFrom T st.log).length ≤ 4 * (p.ramp_samples + 1)) :
    CancelOK p T (finalZero env hw p fuel st) := by
  by_cases hz : (writesFrom T st.log).length = 0
  · unfold finalZero
    by_cases hf : p.final_zero_trigger = true
    · simp only [hf, if_true]
      have ht := tick_sends env hw st
      have hp1 := ht.logPast hp
      have hl1 : (writesFrom T (st.tick env).log).length = 0 := by
        have := ht.late_le T; omega
      by_cases hs : env.stop st.time = true
      · simp only [hs, if_true]
        exact ⟨by simp, hp1, by
        show (writesFrom T (st.tick env).log).length ≤ _
        omega⟩
      · simp only [hs, Bool.false_eq_true, if_false]
        obtain ⟨k, hk, hsend, -⟩ := finalZeroLoop_sends env hw fuel [0, 1, 2, 3] (st.tick env)
        refine ⟨finalZeroLoop_no_timeout env hw fuel T hstop hfuel _ _, hsend.logPast hp1, ?_⟩
        have := hsend.late_le T
        simp only [List.length_cons, List.length_nil] at hk
        omega
    · simp only [hf, Bool.false_eq_true, if_false]
      exact ⟨by simp, hp, hl⟩
  · have hT : T ≤ st.time := late_pos_time T st hp (by omega)
    obtain ⟨hq1, hq2⟩ := finalZero_quiet env hw p fuel st (hstop _ hT)
    refine ⟨by rw [hq1]; simp, hq2.logPast hp, ?_⟩
    have := hq2.late_le T
    omega

theorem thread_cancel (env : Env) (hw : Hw) (p : rev_c_params_t) (fuel : Nat)
    (file : Option (List Char)) (fill : Nat → Nat) (T : Nat)
    (hstop : ∀ t, T ≤ t → env.stop t = true) (hfuel : T + 2 ≤ 2 * fuel) :
    CancelOK p T (rev_c_dac_cmd_stream_thread env hw p fuel file (DacState.init fill)) := by
  have hp0 : LogPast (DacState.init fill) := by
    intro w hw'
    simp [DacState.init] at hw'
  have hl0 : (writesFrom T (DacState.init fill).log).length = 0 := by
    simp [DacState.init, writesFrom]
  unfold rev_c_dac_cmd_stream_thread
  cases file with
  | none =>
    exact ⟨by simp, hp0, by
      show (writesFrom T (DacState.init fill).log).length ≤ _
      omega⟩
  | some content =>
    simp only
    obtain ⟨hnt, hp2, hl2⟩ := iterationLoop_cancel env hw p fuel (fgetsLines 2048 content []) T
      hstop hfuel p.iterations 0 (DacState.init fill) hp0 hl0
    rcases hres : iterationLoop env hw p fuel (fgetsLines 2048 content []) p.iterations 0
      (DacState.init fill) with ⟨fl, st2⟩
    rw [hres] at hnt hp2 hl2
    simp only at hnt hp2 hl2
    cases fl with
    | next => exact finalZero_cancel env hw p fuel T hstop hfuel st2 hp2 hl2
    | cleanup => exact ⟨by simp, hp2, hl2⟩
    | timeout => exact absurd rfl hnt

/-! ## The DAC thread when it is never cancelled -/

theorem rowCount_cons (l : List Char) (rest : List (List Char)) :
    rowCount (l :: rest) = (if isSkippedLine l then 0 else 1) + rowCount rest := by
  unfold rowCount
  cases h : isSkippedLine l <;> simp [List.filter, h]
  omega

theorem validateLines_rowCount : ∀ (lines : List (List Char)) (v n : Nat),
    validateLines lines v = some n → n = v + rowCount lines := by
  intro lines
  induction lines with
  | nil =>
    intro v n h
    simp only [validateLines, Option.some.injEq] at h
    simp [rowCount, h]
  | cons l rest ih =>
    intro v n h
    rw [validateLines] at h
    rw [rowCount_cons]
    by_cases hskip : isSkippedLine l = true
    · simp only [hskip, if_true] at h ⊢
      have := ih v n h
      omega
    · simp only [hskip, Bool.false_eq_true, if_false] at h ⊢
      by_cases hv : validLine l = true
      · simp only [hv, if_true] at h
        have := ih (v + 1) n h
        omega
      · simp [hv] at h

theorem validate_rowCount (content : List Char) (n : Nat)
    (h : validate_rev_c_file_format_amps (some content) = some n) :
    rowCount (fgetsLines 2048 content []) = n := by
  unfold validate_rev_c_file_format_amps at h
  simp only at h
  cases hv : validateLines (fgetsLines 2048 content []) 0 with
  | none => rw [hv] at h; simp at h
  | some m =>
    rw [hv] at h
    simp only at h
    have := validateLines_rowCount _ 0 m hv
    by_cases hm : m = 0
    · simp [hm] at h
    · simp only [hm, if_false, Option.some.injEq] at h
      omega

/-! ## Termination of the waits when the hardware consumes commands -/

theorem sub32_eq (a b : Nat) (ha : a < 2 ^ 32) (hb : b ≤ a) : sub32 a b = a - b := by
  unfold sub32
  have e : (2 : Nat) ^ 32 = 4294967296 := by norm_num
  rw [e] at ha ⊢
  omega

theorem wait_ready (env : Env) (hw : Hw) (board need : Nat)
    (hns : ∀ t, env.stop t = false) (hpres : ∀ t b, env.present t b = true)
    (hdrain : ∀ t b, 1 ≤ env.drain t b) (hC : hw.DAC_CMD_FIFO_WORDCOUNT < 2 ^ 32)
    (hneed : 5 * need ≤ hw.DAC_CMD_FIFO_WORDCOUNT) :
    ∀ (fuel : Nat) (st : DacState), FillOK hw st →
    st.fill board + 5 * need ≤ hw.DAC_CMD_FIFO_WORDCOUNT + 2 * fuel + 1 →
    (waitForSpace env hw board need (fuel + 1) st).1 = Wait.ready := by
  intro fuel
  induction fuel with
  | zero =>
    intro st hfill hb
    rw [waitForSpace]
    have h1 := hfill board
    have hd := hdrain st.time board
    have hf1 : (st.tick env).fill board = st.fill board - env.drain st.time board := rfl
    have hle : (st.tick env).fill board ≤ hw.DAC_CMD_FIFO_WORDCOUNT := by omega
    simp only [hns, hpres, Bool.false_eq_true, if_false, Bool.not_true]
    rw [sub32_eq _ _ hC hle, if_pos]
    omega
  | succ fuel ih =>
    intro st hfill hb
    rw [waitForSpace]
    have h1 := hfill board
    have hd := hdrain st.time board
    have hd2 := hdrain (st.tick env).time board
    have hf1 : (st.tick env).fill board = st.fill board - env.drain st.time board := rfl
    have hf2 : ((st.tick env).tick env).fill board =
        (st.tick env).fill board - env.drain (st.tick env).time board := rfl
    have hle : (st.tick env).fill board ≤ hw.DAC_CMD_FIFO_WORDCOUNT := by omega
    simp only [hns, hpres, Bool.false_eq_true, if_false, Bool.not_true]
    rw [sub32_eq _ _ hC hle]
    by_cases hr : 5 * need ≤ hw.DAC_CMD_FIFO_WORDCOUNT - (st.tick env).fill board
    · rw [if_pos hr]
    · rw [if_neg hr]
      apply ih
      · exact (tick_sends env hw _).2.2.2.2 ((tick_sends env hw st).2.2.2.2 hfill)
      · omega

theorem wait_ready_of_fillOK (env : Env) (hw : Hw) (board need fuel : Nat) (st : DacState)
    (hns : ∀ t, env.stop t = false) (hpres : ∀ t b, env.present t b = true)
    (hdrain : ∀ t b, 1 ≤ env.drain t b) (hC : hw.DAC_CMD_FIFO_WORDCOUNT < 2 ^ 32)
    (hneed : 5 * need ≤ hw.DAC_CMD_FIFO_WORDCOUNT)
    (hfuel : 5 * need + 1 ≤ 2 * fuel) (hfill : FillOK hw st) :
    (waitForSpace env hw board need fuel st).1 = Wait.ready := by
  obtain ⟨f, rfl⟩ : ∃ f, fuel = f + 1 := ⟨fuel - 1, by omega⟩
  apply wait_ready env hw board need hns hpres hdrain hC hneed f st hfill
  have := hfill board
  omega

theorem boardLoop_next (env : Env) (hw : Hw) (p : rev_c_params_t) (fuel iteration line_num : Nat)
    (vals prev : List Int)
    (hns : ∀ t, env.stop t = false) (hpres : ∀ t b, env.present t b = true)
    (hdrain : ∀ t b, 1 ≤ env.drain t b) (hC : hw.DAC_CMD_FIFO_WORDCOUNT < 2 ^ 32)
    (hneed : 5 * (p.ramp_samples + 1) ≤ hw.DAC_CMD_FIFO_WORDCOUNT)
    (hfuel : 5 * (p.ramp_samples + 1) + 1 ≤ 2 * fuel) :
    ∀ (boards : List Nat) (st : DacState), FillOK hw st →
    (boardLoop env hw p fuel iteration line_num vals prev boards st).1 = Flow.next := by
  intro boards
  induction boards with
  | nil => intro st _; rfl
  | cons b boards ih =>
    intro st hfill
    have hr := wait_ready_of_fillOK env hw b (p.ramp_samples + 1) fuel st hns hpres hdrain hC
      hneed hfuel hfill
    have hs := wait_sends env hw b (p.ramp_samples + 1) fuel st
    rw [boardLoop]
    rcases hres : waitForSpace env hw b (p.ramp_samples + 1) fuel st with ⟨r, st1⟩
    rw [hres] at hr hs
    simp only at hr hs
    subst hr
    simp only
    exact ih _ ((rampLoop_sends env hw p iteration line_num b vals prev st1).2.2.2.2
      (hs.2.2.2.2 hfill))

theorem finalZeroLoop_next (env : Env) (hw : Hw) (fuel : Nat)
    (hns : ∀ t, env.stop t = false) (hpres : ∀ t b, env.present t b = true)
    (hdrain : ∀ t b, 1 ≤ env.drain t b) (hC : hw.DAC_CMD_FIFO_WORDCOUNT < 2 ^ 32)
    (hneed : 5 * 1 ≤ hw.DAC_CMD_FIFO_WORDCOUNT)
    (hfuel : 5 * 1 + 1 ≤ 2 * fuel) :
    ∀ (boards : List Nat) (st : DacState), FillOK hw st →
    (finalZeroLoop env hw fuel boards st).1 = Flow.next := by
  intro boards
  induction boards with
  | nil => intro st _; rfl
  | cons b boards ih =>
    intro st hfill
    have hr := wait_ready_of_fillOK env hw b 1 fuel st hns hpres hdrain hC hneed hfuel hfill
    have hs := wait_sends env hw b 1 fuel st
    rw [finalZeroLoop]
    rcases hres : waitForSpace env hw b 1 fuel st with ⟨r, st1⟩
    rw [hres] at hr hs
    simp only at hr hs
    subst hr
    simp only
    exact ih _ ((write_sends env hw b (List.replicate 8 0) true false true 1 st1).2.2.2.2
      (hs.2.2.2.2 hfill))

theorem lineLoop_next (env : Env) (hw : Hw) (p : rev_c_params_t) (fuel iteration : Nat)
    (prev : List Int)
    (hns : ∀ t, env.stop t = false) (hpres : ∀ t b, env.present t b = true)
    (hdrain : ∀ t b, 1 ≤ env.drain t b) (hC : hw.DAC_CMD_FIFO_WORDCOUNT < 2 ^ 32)
    (hneed : 5 * (p.ramp_samples + 1) ≤ hw.DAC_CMD_FIFO_WORDCOUNT)
    (hfuel : 5 * (p.ramp_samples + 1) + 1 ≤ 2 * fuel) :
    ∀ (lines : List (List Char)) (line_num : Nat) (st : DacState), FillOK hw st →
    (lineLoop env hw p fuel iteration prev lines line_num st).1 = Flow.next ∧
    FillOK hw (lineLoop env hw p fuel iteration prev lines line_num st).2 := by
  intro lines
  induction lines with
  | nil => intro line_num st hfill; exact ⟨rfl, hfill⟩
  | cons l rest ih =>
    intro line_num st hfill
    have hf1 := (tick_sends env hw st).2.2.2.2 hfill
    rw [lineLoop]
    simp only [hns, Bool.false_eq_true, if_false]
    by_cases hskip : isSkippedLine l = true
    · simp only [hskip, if_true]
      exact ih line_num _ hf1
    · simp only [hskip, Bool.false_eq_true, if_false]
      have hn := boardLoop_next env hw p fuel iteration (line_num + 1)
        (parseDacValues hw 32 (skipBlanks l)) prev hns hpres hdrain hC hneed hfuel [0, 1, 2, 3]
        (st.tick env) hf1
      obtain ⟨k, -, hsend, -⟩ := boardLoop_sends env hw p fuel iteration (line_num + 1)
        (parseDacValues hw 32 (skipBlanks l)) prev [0, 1, 2, 3] (st.tick env)
      rcases hres : boardLoop env hw p fuel iteration (line_num + 1)
        (parseDacValues hw 32 (skipBlanks l)) prev [0, 1, 2, 3] (st.tick env) with ⟨fl, st2⟩
      rw [hres] at hn hsend
      simp only at hn hsend
      subst hn
      simp only
      exact ih (line_num + 1) st2 (hsend.2.2.2.2 hf1)

theorem iterationLoop_next (env : Env) (hw : Hw) (p : rev_c_params_t) (fuel : Nat)
    (lines : List (List Char))
    (hns : ∀ t, env.stop t = false) (hpres : ∀ t b, env.present t b = true)
    (hdrain : ∀ t b, 1 ≤ env.drain t b) (hC : hw.DAC_CMD_FIFO_WORDCOUNT < 2 ^ 32)
    (hneed : 5 * (p.ramp_samples + 1) ≤ hw.DAC_CMD_FIFO_WORDCOUNT)
    (hfuel : 5 * (p.ramp_samples + 1) + 1 ≤ 2 * fuel) :
    ∀ (todo iteration : Nat) (st : DacState), FillOK hw st →
    (iterationLoop env hw p fuel lines todo iteration st).1 = Flow.next ∧
    FillOK hw (iterationLoop env hw p fuel lines todo iteration st).2 := by
  intro todo
  induction todo with
  | zero => intro iteration st hfill; exact ⟨rfl, hfill⟩
  | succ todo ih =>
    intro iteration st hfill
    have hf1 := (tick_sends env hw st).2.2.2.2 hfill
    rw [iterationLoop]
    simp only [hns, Bool.false_eq_true, if_false]
    obtain ⟨hn, hf2⟩ := lineLoop_next env hw p fuel iteration (List.replicate 32 0) hns hpres
      hdrain hC hneed hfuel lines 0 (st.tick env) hf1
    rcases hres : lineLoop env hw p fuel iteration (List.replicate 32 0) lines 0 (st.tick env)
      with ⟨fl, st2⟩
    rw [hres] at hn hf2
    simp only at hn hf2
    subst hn
    simp only
    exact ih (iteration + 1) st2 hf2

theorem thread_next (env : Env) (hw : Hw) (p : rev_c_params_t) (fuel : Nat)
    (content : List Char) (st : DacState)
    (hns : ∀ t, env.stop t = false) (hpres : ∀ t b, env.present t b = true)
    (hdrain : ∀ t b, 1 ≤ env.drain t b) (hC : hw.DAC_CMD_FIFO_WORDCOUNT < 2 ^ 32)
    (hneed : 5 * (p.ramp_samples + 1) ≤ hw.DAC_CMD_FIFO_WORDCOUNT)
    (hfuel : 5 * (p.ramp_samples + 1) + 1 ≤ 2 * fuel) (hfill : FillOK hw st) :
    (rev_c_dac_cmd_stream_thread env hw p fuel (some content) st).1 = Flow.next := by
  unfold rev_c_dac_cmd_stream_thread
  simp only
  obtain ⟨hn, hf2⟩ := iterationLoop_next env hw p fuel (fgetsLines 2048 content []) hns hpres
    hdrain hC hneed hfuel p.iterations 0 st hfill
  rcases hres : iterationLoop env hw p fuel (fgetsLines 2048 content []) p.iterations 0 st
    with ⟨fl, st2⟩
  rw [hres] at hn hf2
  simp only at hn hf2
  subst hn
  simp only
  unfold finalZero
  by_cases hz : p.final_zero_trigger = true
  · simp only [hz, if_true, hns, Bool.false_eq_true, if_false]
    exact finalZeroLoop_next env hw fuel hns hpres hdrain hC (by omega) (by omega) _ _
      ((tick_sends env hw st2).2.2.2.2 hf2)
  · simp only [hz, Bool.false_eq_true, if_false]

/-! ## Headroom of the DAC thread when it is never cancelled -/

theorem Sends.log_eq {hw : Hw} {a b : DacState} (h : Sends hw 0 a b) : b.log = a.log := by
  obtain ⟨⟨n, hl, hn, -⟩, -, -, -, -⟩ := h
  rw [hl, List.eq_nil_of_length_eq_zero hn]
  rfl

theorem wait_not_stopped (env : Env) (hw : Hw) (board need : Nat)
    (hns : ∀ t, env.stop t = false) : ∀ (fuel : Nat) (st : DacState),
    (waitForSpace env hw board need fuel st).1 ≠ Wait.stopped := by
  intro fuel
  induction fuel with
  | zero => intro st; simp [waitForSpace]
  | succ fuel ih =>
    intro st
    rw [waitForSpace]
    simp only [hns, Bool.false_eq_true, if_false]
    split_ifs
    · simp
    · simp
    · exact ih _

theorem wait_ready_space (env : Env) (hw : Hw) (board need : Nat)
    (hC : hw.DAC_CMD_FIFO_WORDCOUNT < 2 ^ 32) : ∀ (fuel : Nat) (st : DacState),
    FillOK hw st → (waitForSpace env hw board need fuel st).1 = Wait.ready →
    (waitForSpace env hw board need fuel st).2.fill board + 5 * need
      ≤ hw.DAC_CMD_FIFO_WORDCOUNT := by
  intro fuel
  induction fuel with
  | zero => intro st _ h; simp [waitForSpace] at h
  | succ fuel ih =>
    intro st hfill
    have h1 := hfill board
    have hf1 : (st.tick env).fill board = st.fill board - env.drain st.time board := rfl
    have hf2 : ((st.tick env).tick env).fill board =
        (st.tick env).fill board - env.drain (st.tick env).time board := rfl
    have hle : (st.tick env).fill board ≤ hw.DAC_CMD_FIFO_WORDCOUNT := by omega
    rw [waitForSpace]
    simp only
    rw [sub32_eq _ _ hC hle]
    split_ifs with hs hp hr
    · intro h; simp at h
    · intro h; simp at h
    · intro _
      show ((st.tick env).tick env).fill board + 5 * need ≤ _
      omega
    · exact ih _ ((tick_sends env hw _).2.2.2.2 ((tick_sends env hw st).2.2.2.2 hfill))

theorem rampStep_log (env : Env) (hw : Hw) (p : rev_c_params_t) (iteration line_num board : Nat)
    (vals prev : List Int) (st : DacState) (x : Nat) :
    (∃ w, (rampStep env hw p iteration line_num board vals prev st x).log = w :: st.log ∧
      w.free = hw.DAC_CMD_FIFO_WORDCOUNT - st.fill board) ∧
    (rampStep env hw p iteration line_num board vals prev st x).fill board ≤ st.fill board + 5 := by
  refine ⟨⟨_, rfl, rfl⟩, ?_⟩
  simp only [rampStep, dac_cmd_dac_wr, DacState.tick, DacState.countCommand, if_true]
  omega

theorem write_log (env : Env) (hw : Hw) (board : Nat) (ch_vals : List Int)
    (trig cont ldac : Bool) (count : Int) (st : DacState) :
    ∃ w, (dac_cmd_dac_wr env hw board ch_vals trig cont ldac count st).countCommand.log
        = w :: st.log ∧ w.free = hw.DAC_CMD_FIFO_WORDCOUNT - st.fill board :=
  ⟨_, rfl, rfl⟩

theorem ramp_allFree (env : Env) (hw : Hw) (p : rev_c_params_t) (iteration line_num board : Nat)
    (vals prev : List Int) : ∀ (l : List Nat) (st : DacState),
    st.fill board + 5 * l.length ≤ hw.DAC_CMD_FIFO_WORDCOUNT → AllFree st →
    AllFree (l.foldl (rampStep env hw p iteration line_num board vals prev) st) := by
  intro l
  induction l with
  | nil => intro st _ h; exact h
  | cons x l ih =>
    intro st hsp hall
    rw [List.foldl_cons]
    obtain ⟨⟨w, hlog, hfree⟩, hfill⟩ := rampStep_log env hw p iteration line_num board vals prev st x
    simp only [List.length_cons] at hsp
    apply ih
    · omega
    · intro w' hw'
      rw [hlog] at hw'
      rcases List.mem_cons.1 hw' with h | h
      · rw [h, hfree]; omega
      · exact hall w' h

theorem boardLoop_allFree (env : Env) (hw : Hw) (p : rev_c_params_t) (fuel iteration line_num : Nat)
    (vals prev : List Int) (hns : ∀ t, env.stop t = false)
    (hC : hw.DAC_CMD_FIFO_WORDCOUNT < 2 ^ 32) : ∀ (boards : List Nat) (st : DacState),
    FillOK hw st → AllFree st →
    AllFree (boardLoop env hw p fuel iteration line_num vals prev boards st).2 := by
  intro boards
  induction boards with
  | nil => intro st _ h; exact h
  | cons b boards ih =>
    intro st hfill hall
    have hs := wait_sends env hw b (p.ramp_samples + 1) fuel st
    have hnst := wait_not_stopped env hw b (p.ramp_samples + 1) hns fuel st
    have hsp := wait_ready_space env hw b (p.ramp_samples + 1) hC fuel st hfill
    rw [boardLoop]
    rcases hres : waitForSpace env hw b (p.ramp_samples + 1) fuel st with ⟨r, st1⟩
    rw [hres] at hs hnst hsp
    simp only at hs hnst hsp
    have hall1 : AllFree st1 := by
      intro w hw'
      rw [hs.log_eq] at hw'
      exact hall w hw'
    cases r with
    | ready =>
      simp only
      apply ih
      · exact (rampLoop_sends env hw p iteration line_num b vals prev st1).2.2.2.2
          (hs.2.2.2.2 hfill)
      · apply ramp_allFree env hw p iteration line_num b vals prev _ st1 _ hall1
        rw [List.length_range]
        exact hsp rfl
    | stopped => exact absurd rfl hnst
    | absent => exact hall1
    | timeout => exact hall1

theorem finalZeroLoop_allFree (env : Env) (hw : Hw) (fuel : Nat) (hns : ∀ t, env.stop t = false)
    (hC : hw.DAC_CMD_FIFO_WORDCOUNT < 2 ^ 32) : ∀ (boards : List Nat) (st : DacState),
    FillOK hw st → AllFree st → AllFree (finalZeroLoop env hw fuel boards st).2 := by
  intro boards
  induction boards with
  | nil => intro st _ h; exact h
  | cons b boards ih =>
    intro st hfill hall
    have hs := wait_sends env hw b 1 fuel st
    have hnst := wait_not_stopped env hw b 1 hns fuel st
    have hsp := wait_ready_space env hw b 1 hC fuel st hfill
    rw [finalZeroLoop]
    rcases hres : waitForSpace env hw b 1 fuel st with ⟨r, st1⟩
    rw [hres] at hs hnst hsp
    simp only at hs hnst hsp
    have hall1 : AllFree st1 := by
      intro w hw'
      rw [hs.log_eq] at hw'
      exact hall w hw'
    cases r with
    | ready =>
      simp only
      apply ih
      · exact (write_sends env hw b (List.replicate 8 0) true false true 1 st1).2.2.2.2
          (hs.2.2.2.2 hfill)
      · intro w hw'
        obtain ⟨w0, hlog, hfree⟩ := write_log env hw b (List.replicate 8 0) true false true 1 st1
        rw [hlog] at hw'
        rcases List.mem_cons.1 hw' with h | h
        · rw [h, hfree]
          have := hsp rfl
          omega
        · exact hall1 w h
    | stopped => exact absurd rfl hnst
    | absent => exact hall1
    | timeout => exact hall1

theorem lineLoop_allFree (env : Env) (hw : Hw) (p : rev_c_params_t) (fuel iteration : Nat)
    (prev : List Int) (hns : ∀ t, env.stop t = false)
    (hC : hw.DAC_CMD_FIFO_WORDCOUNT < 2 ^ 32) :
    ∀ (lines : List (List Char)) (line_num : Nat) (st : DacState), FillOK hw st → AllFree st →
    FillOK hw (lineLoop env hw p fuel iteration prev lines line_num st).2 ∧
    AllFree (lineLoop env hw p fuel iteration prev lines line_num st).2 := by
  intro lines
  induction lines with
  | nil => intro line_num st hf ha; exact ⟨hf, ha⟩
  | cons l rest ih =>
    intro line_num st hfill hall
    have hf1 := (tick_sends env hw st).2.2.2.2 hfill
    have ha1 : AllFree (st.tick env) := hall
    rw [lineLoop]
    simp only [hns, Bool.false_eq_true, if_false]
    by_cases hskip : isSkippedLine l = true
    · simp only [hskip, if_true]
      exact ih line_num _ hf1 ha1
    · simp only [hskip, Bool.false_eq_true, if_false]
      have hb := boardLoop_allFree env hw p fuel iteration (line_num + 1)
        (parseDacValues hw 32 (skipBlanks l)) prev hns hC [0, 1, 2, 3] (st.tick env) hf1 ha1
      obtain ⟨k, -, hsend, -⟩ := boardLoop_sends env hw p fuel iteration (line_num + 1)
        (parseDacValues hw 32 (skipBlanks l)) prev [0, 1, 2, 3] (st.tick env)
      rcases hres : boardLoop env hw p fuel iteration (line_num + 1)
        (parseDacValues hw 32 (skipBlanks l)) prev [0, 1, 2, 3] (st.tick env) with ⟨fl, st2⟩
      rw [hres] at hb hsend
      simp only at hb hsend
      cases fl with
      | next => exact ih (line_num + 1) st2 (hsend.2.2.2.2 hf1) hb
      | cleanup => exact ⟨hsend.2.2.2.2 hf1, hb⟩
      | timeout => exact ⟨hsend.2.2.2.2 hf1, hb⟩

theorem iterationLoop_allFree (env : Env) (hw : Hw) (p : rev_c_params_t) (fuel : Nat)
    (lines : List (List Char)) (hns : ∀ t, env.stop t = false)
    (hC : hw.DAC_CMD_FIFO_WORDCOUNT < 2 ^ 32) :
    ∀ (todo iteration : Nat) (st : DacState), FillOK hw st → AllFree st →
    FillOK hw (iterationLoop env hw p fuel lines todo iteration st).2 ∧
    AllFree (iterationLoop env hw p fuel lines todo iteration st).2 := by
  intro todo
  induction todo with
  | zero => intro iteration st hf ha; exact ⟨hf, ha⟩
  | succ todo ih =>
    intro iteration st hfill hall
    have hf1 := (tick_sends env hw st).2.2.2.2 hfill
    have ha1 : AllFree (st.tick env) := hall
    rw [iterationLoop]
    simp only [hns, Bool.false_eq_true, if_false]
    obtain ⟨hf2, ha2⟩ := lineLoop_allFree env hw p fuel iteration (List.replicate 32 0) hns hC
      lines 0 (st.tick env) hf1 ha1
    rcases hres : lineLoop env hw p fuel iteration (List.replicate 32 0) lines 0 (st.tick env)
      with ⟨fl, st2⟩
    rw [hres] at hf2 ha2
    simp only at hf2 ha2
    cases fl with
    | next => exact ih (iteration + 1) st2 hf2 ha2
    | cleanup => exact ⟨hf2, ha2⟩
    | timeout => exact ⟨hf2, ha2⟩

/-- Companion of C5: in a run in which the stop flag is never set, every
DAC_WR, in the row loop and in the final-zero phase, is written when at least
5 words are free in its FIFO. -/
theorem headroom_without_cancellation (env : Env) (hw : Hw) (p : rev_c_params_t) (fuel : Nat)
    (file : Option (List Char)) (fill : Nat → Nat) (hns : ∀ t, env.stop t = false)
    (hC : hw.DAC_CMD_FIFO_WORDCOUNT < 2 ^ 32)
    (hfill : ∀ b, fill b ≤ hw.DAC_CMD_FIFO_WORDCOUNT) :
    ∀ w ∈ (rev_c_dac_cmd_stream_thread env hw p fuel file (DacState.init fill)).2.log,
      5 ≤ w.free := by
  have hf0 : FillOK hw (DacState.init fill) := hfill
  have ha0 : AllFree (DacState.init fill) := by
    intro w hw'
    simp [DacState.init] at hw'
  show AllFree _
  unfold rev_c_dac_cmd_stream_thread
  cases file with
  | none => exact ha0
  | some content =>
    simp only
    obtain ⟨hf2, ha2⟩ := iterationLoop_allFree env hw p fuel (fgetsLines 2048 content []) hns hC
      p.iterations 0 (DacState.init fill) hf0 ha0
    rcases hres : iterationLoop env hw p fuel (fgetsLines 2048 content []) p.iterations 0
      (DacState.init fill) with ⟨fl, st2⟩
    rw [hres] at hf2 ha2
    simp only at hf2 ha2
    cases fl with
    | next =>
      simp only
      unfold finalZero
      by_cases hz : p.final_zero_trigger = true
      · simp only [hz, if_true, hns, Bool.false_eq_true, if_false]
        exact finalZeroLoop_allFree env hw fuel hns hC _ _
          ((tick_sends env hw st2).2.2.2.2 hf2) ha2
      · simp only [hz, Bool.false_eq_true, if_false]
        exact ha2
    | cleanup => exact ha2
    | timeout => exact ha2

/-! ## Facts about trigger command words -/

theorem trig_or_eq (op log v : Nat) (hlog : log < 2) (hv : v < 2 ^ 28) :
    (op <<< 29) ||| (log <<< 28) ||| v = trigWord op log v := by
  have h1 : (log <<< 28) ||| v = log * 2 ^ 28 + v := by
    rw [Nat.shiftLeft_eq, Nat.mul_comm, ← Nat.mul_add_lt_is_or hv]
  have h2 : log * 2 ^ 28 + v < 2 ^ 29 := by
    have e1 : (2 : Nat) ^ 28 = 268435456 := by norm_num
    have e2 : (2 : Nat) ^ 29 = 536870912 := by norm_num
    rw [e1] at hv ⊢
    rw [e2]
    omega
  rw [Nat.or_assoc, h1, Nat.shiftLeft_eq, Nat.mul_comm, ← Nat.mul_add_lt_is_or h2]
  unfold trigWord
  ring

theorem trig_or_eq_two (op v : Nat) (hv : v < 2 ^ 29) :
    (op <<< 29) ||| v = op * 2 ^ 29 + v := by
  rw [Nat.shiftLeft_eq, Nat.mul_comm, ← Nat.mul_add_lt_is_or hv]

theorem mask_eq (v : Nat) : v &&& TRIG_CMD_VALUE_MASK = v % 2 ^ 28 := by
  have : TRIG_CMD_VALUE_MASK = 2 ^ 28 - 1 := by decide
  rw [this, Nat.and_pow_two_sub_one_eq_mod]

theorem trigWord_fields (op log v : Nat) (hop : op < 8) (hlog : log < 2) (hv : v < 2 ^ 28) :
    u32 (trigWord op log v) = trigWord op log v ∧
    opcodeField (trigWord op log v) = op ∧
    logField (trigWord op log v) = log ∧
    valueField (trigWord op log v) = v := by
  have e1 : (2 : Nat) ^ 28 = 268435456 := by norm_num
  have e2 : (2 : Nat) ^ 29 = 536870912 := by norm_num
  have e3 : (2 : Nat) ^ 32 = 4294967296 := by norm_num
  have hm : (0x0FFFFFFF : Nat) = 2 ^ 28 - 1 := by norm_num
  have h1 : (1 : Nat) = 2 ^ 1 - 1 := by norm_num
  unfold u32 opcodeField logField valueField trigWord
  rw [Nat.shiftRight_eq_div_pow, Nat.shiftRight_eq_div_pow, hm, Nat.and_pow_two_sub_one_eq_mod]
  refine ⟨?_, ?_, ?_, ?_⟩
  · rw [e1, e2, e3]; rw [e1] at hv; omega
  · rw [e1, e2]; rw [e1] at hv; omega
  · rw [h1, Nat.and_pow_two_sub_one_eq_mod, e1, e2]; rw [e1] at hv; omega
  · rw [e1, e2]; rw [e1] at hv; omega

theorem logBit_lt (log : Bool) : logBit log < 2 := by
  cases log <;> decide

/-! ## Claims about `validate_rev_c_file_format_amps` -/

/-- C1 (evaluation at the failing input).  The file consists of one data line
with 31 whitespace-separated tokens, `1-1` followed by thirty `0`; `strtof`
reads `1-1` as the two values `1` and `-1`, so the value loop counts 32 values
and the validator returns 0 with `*line_count = 1` instead of -1. -/
theorem C1_glued_token_accepted :
    (wsTokens "1-1 0 0 0 0 0 0 0 0 0 0 0 0 0 0 0 0 0 0 0 0 0 0 0 0 0 0 0 0 0 0\n".toList []).length = 31 ∧
    strtof "1-1 0".toList = (F32.fin false (2 ^ 149), "-1 0".toList) ∧
    validate_rev_c_file_format_amps
      (some "1-1 0 0 0 0 0 0 0 0 0 0 0 0 0 0 0 0 0 0 0 0 0 0 0 0 0 0 0 0 0 0\n".toList) = some 1 ∧
    retcode (validate_rev_c_file_format_amps
      (some "1-1 0 0 0 0 0 0 0 0 0 0 0 0 0 0 0 0 0 0 0 0 0 0 0 0 0 0 0 0 0 0\n".toList)) = 0 := by
  decide!

/-- Companion of C1: a data line made of well-formed decimal numerals separated
by blanks whose number is not 32 makes the validator return -1, whatever
precedes and follows the line. -/
theorem validate_rejects_wrong_count (pre post : List Char)
    (items : List (List Char × Numeral)) (trail : List Char) (e : Eol)
    (hpre : pre = [] ∨ ∃ p, pre = p ++ ['\n'])
    (hok : ItemsOK items) (hne : items ≠ []) (htr : Blanks trail)
    (hfit : (renderItems items ++ trail ++ e.chars).length ≤ 2047)
    (hlast : e = Eol.eof → post = [])
    (hcount : items.length ≠ 32) :
    retcode (validate_rev_c_file_format_amps
      (some (pre ++ (renderItems items ++ trail ++ e.chars) ++ post))) = -1 := by
  rw [validate_rejects_line pre post items trail e hpre hok hne htr hfit hlast (by simp [hcount])]
  rfl

/-- C2 (counterexample).  The numeral `5.0000001` denotes a real above 5.0, yet
`strtof` rounds it to `5.0f`, the range check `val > 5.0f` is false, and the
file whose only data line starts with it is accepted (return value 0). -/
theorem C2_counterexample :
    ({ sign := none, intDigits := [5], frac := some [0, 0, 0, 0, 0, 0, 1] } : Numeral).chars
      = "5.0000001".toList ∧
    ¬ ({ sign := none, intDigits := [5], frac := some [0, 0, 0, 0, 0, 0, 1] } : Numeral).InRange ∧
    (strtof "5.0000001 ".toList).1 = five ∧
    retcode (validate_rev_c_file_format_amps
      (some "5.0000001 0 0 0 0 0 0 0 0 0 0 0 0 0 0 0 0 0 0 0 0 0 0 0 0 0 0 0 0 0 0 0\n".toList)) = 0 := by
  decide!

/-- C2 (amended).  If some line of the file is made of decimal numerals
separated by blanks, fits the line buffer, and one of its numerals denotes a
real of magnitude above `5 + 2^-22` (so that the nearest binary32 number lies
outside [-5.0f, 5.0f]), the validator returns -1, whatever the text `pre`
before the line and the text `post` after it. -/
theorem C2_out_of_range_rejected (pre post : List Char)
    (items : List (List Char × Numeral)) (trail : List Char) (e : Eol)
    (hpre : pre = [] ∨ ∃ p, pre = p ++ ['\n'])
    (hok : ItemsOK items) (htr : Blanks trail)
    (hfit : (renderItems items ++ trail ++ e.chars).length ≤ 2047)
    (hlast : e = Eol.eof → post = [])
    (hbeyond : ∃ it ∈ items, it.2.Beyond) :
    retcode (validate_rev_c_file_format_amps
      (some (pre ++ (renderItems items ++ trail ++ e.chars) ++ post))) = -1 := by
  obtain ⟨it, hmem, hb⟩ := hbeyond
  have hne : items ≠ [] := List.ne_nil_of_mem hmem
  have hall : items.all (fun it => passes it.2.toF32) = false := by
    rw [List.all_eq_false]
    exact ⟨it, hmem, by simp [not_passes_of_beyond it.2 hb]⟩
  rw [validate_rejects_line pre post items trail e hpre hok hne htr hfit hlast (by simp [hall])]
  rfl

/-- C2 (witness): the second line of the file holds `5.0001` as its first of
32 numerals; the first line is arbitrary text and a comment follows. -/
theorem C2_out_of_range_rejected_witness :
    retcode (validate_rev_c_file_format_amps
      (some ("junk 7\n".toList ++
        (renderItems (lineOf { sign := none, intDigits := [5], frac := some [0, 0, 0, 1] } 31)
          ++ [] ++ Eol.lf.chars) ++ "# end".toList))) = -1 :=
  C2_out_of_range_rejected "junk 7\n".toList "# end".toList
    (lineOf { sign := none, intDigits := [5], frac := some [0, 0, 0, 1] } 31) [] Eol.lf
    (Or.inr ⟨"junk 7".toList, by decide⟩) (by decide) (by decide) (by decide) (by decide)
    ⟨([], { sign := none, intDigits := [5], frac := some [0, 0, 0, 1] }), by decide, by decide⟩

/-- C3.  For a file in which every line is blank, a `#` comment or a data line
of exactly 32 blank-separated decimal numerals in [-5, 5] (optional trailing
blanks, line endings LF or CR LF, every line fitting the 2048-byte buffer),
the validator returns 0 exactly when there is at least one data line, stores
the number of data lines in `*line_count`, and returns -1 when there is none. -/
theorem C3_wellformed_file (f : List (Line × Eol)) (h : FileOK f) :
    validate_rev_c_file_format_amps (some (renderFile f)) =
      (if dataLineCount f = 0 then none else some (dataLineCount f)) ∧
    (retcode (validate_rev_c_file_format_amps (some (renderFile f))) = 0 ↔ 1 ≤ dataLineCount f) ∧
    (dataLineCount f = 0 → retcode (validate_rev_c_file_format_amps (some (renderFile f))) = -1) := by
  have key : validate_rev_c_file_format_amps (some (renderFile f)) =
      (if dataLineCount f = 0 then none else some (dataLineCount f)) := by
    unfold validate_rev_c_file_format_amps
    simp only
    rw [validateLines_file f h 0]
    simp
  refine ⟨key, ?_, ?_⟩
  · rw [key]
    by_cases h0 : dataLineCount f = 0
    · simp [h0, retcode]
    · simp [h0, retcode]; omega
  · intro h0
    rw [key, if_pos h0]
    rfl

/-- C3 (witness): a comment, a blank line with CR LF, a data line with trailing
tab, and a last data line without newline: two data lines are counted. -/
theorem C3_wellformed_file_witness :
    FileOK [(Line.comment [] "# amps".toList, Eol.lf), (Line.blank [' '], Eol.crlf),
      (Line.data (lineOf { sign := some true, intDigits := [5], frac := some [0] } 31) ['\t'], Eol.lf),
      (Line.data (lineOf { sign := some false, intDigits := [], frac := some [2, 5] } 31) [], Eol.eof)] ∧
    validate_rev_c_file_format_amps (some (renderFile
      [(Line.comment [] "# amps".toList, Eol.lf), (Line.blank [' '], Eol.crlf),
      (Line.data (lineOf { sign := some true, intDigits := [5], frac := some [0] } 31) ['\t'], Eol.lf),
      (Line.data (lineOf { sign := some false, intDigits := [], frac := some [2, 5] } 31) [], Eol.eof)]))
      = some 2 :=
  ⟨by decide, (C3_wellformed_file _ (by decide)).1⟩

/-! ## Claims about the ramp arithmetic -/

/-- C5 (evaluation at the failing input).  Capacity 1024, `R = 0` (so
`C ≥ 5·(R+1)`), all four FIFOs full and never consumed, a file of one data
line.  The stop flag is raised at time 3, while the thread polls the FIFO of
board 0: the wait loop is left through its condition `!(*should_stop)` and the
ramp loop after it runs all the same, so a DAC_WR is written to each of the
four boards with 0 words free. -/
theorem C5_write_without_headroom :
    5 * (paramsOneLine.ramp_samples + 1) ≤ exampleHw.DAC_CMD_FIFO_WORDCOUNT ∧
    (rev_c_dac_cmd_stream_thread (stopAtEnv 3) exampleHw paramsOneLine 10 (some oneLineFile)
        (DacState.init fun _ => 1024)).2.log.map (fun w => (w.time, w.board, w.free))
      = [(11, 3, 0), (9, 2, 0), (7, 1, 0), (5, 0, 0)] := by
  decide!

/-- C6.  With empty FIFOs, `R = 0` and one data line, the first DAC_WR of the
row (board 0) is written at time 4.  When the stop flag is set at time 5, in
the middle of the row, three further DAC_WRs follow, for boards 1, 2 and 3 at
times 6, 8 and 10, not at most one: the wait of each remaining board is left
at once and its DAC_WR is written.  When the stop flag is set at time 18,
after the final-zero DAC_WR of board 0 (time 17), the final-zero DAC_WRs of
boards 1, 2 and 3 follow at times 19, 21 and 23. -/
theorem C6_row_completed_after_stop :
    (rev_c_dac_cmd_stream_thread (stopAtEnv 5) exampleHw paramsOneLine 10 (some oneLineFile)
        (DacState.init fun _ => 0)).2.log.reverse.map (fun w => (w.time, w.board))
      = [(4, 0), (6, 1), (8, 2), (10, 3)] ∧
    (writesFrom 5 (rev_c_dac_cmd_stream_thread (stopAtEnv 5) exampleHw paramsOneLine 10
        (some oneLineFile) (DacState.init fun _ => 0)).2.log).length = 3 ∧
    (rev_c_dac_cmd_stream_thread (stopAtEnv 18) exampleHw paramsOneLine 10 (some oneLineFile)
        (DacState.init fun _ => 0)).2.log.reverse.map (fun w => (w.time, w.board))
      = [(4, 0), (7, 1), (10, 2), (13, 3), (17, 0), (19, 1), (21, 2), (23, 3)] ∧
    (writesFrom 18 (rev_c_dac_cmd_stream_thread (stopAtEnv 18) exampleHw paramsOneLine 10
        (some oneLineFile) (DacState.init fun _ => 0)).2.log).length = 3 := by
  decide!

/-- Scenarios S2 and S3 evaluated: 72 DAC_WRs for `I = 3`, `R = 2`, two lines;
12 DAC_WRs (60 words) for S1 with the final zero. -/
theorem dac_scenarios_S2_S3 :
    (rev_c_dac_cmd_stream_thread runningEnv exampleHw paramsS2 20 (some twoLineFile)
        (DacState.init fun _ => 0)).2.total_commands_sent = 72 ∧
    (rev_c_dac_cmd_stream_thread runningEnv exampleHw paramsS3 10 (some twoLineFile)
        (DacState.init fun _ => 0)).2.total_commands_sent = 12 ∧
    (rev_c_dac_cmd_stream_thread runningEnv exampleHw paramsS3 10 (some twoLineFile)
        (DacState.init fun _ => 0)).2.total_words_sent = 60 := by
  decide!

/-! ## Claims about the trigger commands -/

/-- C9.  With opcodes that fit 3 bits, a value `v < 2^28` and a log flag:
`trigger_cmd_expect_ext` writes the single word with the EXPECT_EXT opcode in
bits 31..29, the log flag in bit 28 and `v` in bits 27..0, and the three are
recovered from the word by shift and mask; `trigger_cmd_set_lockout` and
`trigger_cmd_delay` write opcode, bit 28 clear and the cycle count;
`trigger_cmd_sync_ch` and `trigger_cmd_force_trig` write opcode and log bit
with value field 0; `trigger_cmd_cancel` and `trigger_cmd_reset_count` write
the opcode alone. -/
theorem C9_trigger_word_layout (ops : TrigOpcodes) (hops : ops.Fit) (fifo : List Nat)
    (v : Nat) (log : Bool) (hv : v < 2 ^ 28) :
    (trigger_cmd_expect_ext ops fifo v log
        = fifo ++ [trigWord ops.TRIG_CMD_EXPECT_EXT (logBit log) v] ∧
      opcodeField (trigWord ops.TRIG_CMD_EXPECT_EXT (logBit log) v) = ops.TRIG_CMD_EXPECT_EXT ∧
      logField (trigWord ops.TRIG_CMD_EXPECT_EXT (logBit log) v) = logBit log ∧
      valueField (trigWord ops.TRIG_CMD_EXPECT_EXT (logBit log) v) = v) ∧
    (trigger_cmd_set_lockout ops fifo v = fifo ++ [trigWord ops.TRIG_CMD_SET_LOCKOUT 0 v] ∧
      opcodeField (trigWord ops.TRIG_CMD_SET_LOCKOUT 0 v) = ops.TRIG_CMD_SET_LOCKOUT ∧
      logField (trigWord ops.TRIG_CMD_SET_LOCKOUT 0 v) = 0 ∧
      valueField (trigWord ops.TRIG_CMD_SET_LOCKOUT 0 v) = v) ∧
    (trigger_cmd_delay ops fifo v = fifo ++ [trigWord ops.TRIG_CMD_DELAY 0 v] ∧
      opcodeField (trigWord ops.TRIG_CMD_DELAY 0 v) = ops.TRIG_CMD_DELAY ∧
      logField (trigWord ops.TRIG_CMD_DELAY 0 v) = 0 ∧
      valueField (trigWord ops.TRIG_CMD_DELAY 0 v) = v) ∧
    (trigger_cmd_sync_ch ops fifo log = fifo ++ [trigWord ops.TRIG_CMD_SYNC_CH (logBit log) 0] ∧
      opcodeField (trigWord ops.TRIG_CMD_SYNC_CH (logBit log) 0) = ops.TRIG_CMD_SYNC_CH ∧
      logField (trigWord ops.TRIG_CMD_SYNC_CH (logBit log) 0) = logBit log ∧
      valueField (trigWord ops.TRIG_CMD_SYNC_CH (logBit log) 0) = 0) ∧
    (trigger_cmd_force_trig ops fifo log
        = fifo ++ [trigWord ops.TRIG_CMD_FORCE_TRIG (logBit log) 0] ∧
      opcodeField (trigWord ops.TRIG_CMD_FORCE_TRIG (logBit log) 0) = ops.TRIG_CMD_FORCE_TRIG ∧
      logField (trigWord ops.TRIG_CMD_FORCE_TRIG (logBit log) 0) = logBit log ∧
      valueField (trigWord ops.TRIG_CMD_FORCE_TRIG (logBit log) 0) = 0) ∧
    (trigger_cmd_cancel ops fifo = fifo ++ [trigWord ops.TRIG_CMD_CANCEL 0 0] ∧
      opcodeField (trigWord ops.TRIG_CMD_CANCEL 0 0) = ops.TRIG_CMD_CANCEL ∧
      logField (trigWord ops.TRIG_CMD_CANCEL 0 0) = 0 ∧
      valueField (trigWord ops.TRIG_CMD_CANCEL 0 0) = 0) ∧
    (trigger_cmd_reset_count ops fifo = fifo ++ [trigWord ops.TRIG_CMD_RESET_COUNT 0 0] ∧
      opcodeField (trigWord ops.TRIG_CMD_RESET_COUNT 0 0) = ops.TRIG_CMD_RESET_COUNT ∧
      logField (trigWord ops.TRIG_CMD_RESET_COUNT 0 0) = 0 ∧
      valueField (trigWord ops.TRIG_CMD_RESET_COUNT 0 0) = 0) := by
  obtain ⟨h1, h2, h3, h4, h5, h6, h7⟩ := hops
  have e28 : (2 : Nat) ^ 28 = 268435456 := by norm_num
  have hnot : ¬ v > 0x0FFFFFFF := by rw [e28] at hv; omega
  have hmask : v &&& TRIG_CMD_VALUE_MASK = v := by rw [mask_eq, Nat.mod_eq_of_lt hv]
  have h0 : (0 : Nat) < 2 ^ 28 := by norm_num
  have h02 : (0 : Nat) < 2 := by norm_num
  have hl := logBit_lt log
  have two (op lg : Nat) (hlg : lg < 2) : (op <<< 29) ||| (lg <<< 28) = trigWord op lg 0 := by
    have := trig_or_eq op lg 0 hlg h0
    simpa using this
  have one (op x : Nat) (hx : x < 2 ^ 28) : (op <<< 29) ||| x = trigWord op 0 x := by
    have := trig_or_eq op 0 x h02 hx
    simpa using this
  refine ⟨⟨?_, (trigWord_fields _ _ _ h3 hl hv).2⟩, ⟨?_, (trigWord_fields _ _ _ h2 h02 hv).2⟩,
    ⟨?_, (trigWord_fields _ _ _ h4 h02 hv).2⟩, ⟨?_, (trigWord_fields _ _ _ h1 hl h0).2⟩,
    ⟨?_, (trigWord_fields _ _ _ h5 hl h0).2⟩, ⟨?_, (trigWord_fields _ _ _ h6 h02 h0).2⟩,
    ⟨?_, (trigWord_fields _ _ _ h7 h02 h0).2⟩⟩
  · unfold trigger_cmd_expect_ext
    rw [if_neg hnot]
    simp only [fifoWrite, hmask, TRIG_CMD_CODE_SHIFT, TRIG_CMD_LOG_BIT]
    rw [trig_or_eq _ _ _ hl hv, (trigWord_fields _ _ _ h3 hl hv).1]
  · unfold trigger_cmd_set_lockout
    rw [if_neg hnot]
    simp only [fifoWrite, hmask, TRIG_CMD_CODE_SHIFT]
    rw [one _ _ hv, (trigWord_fields _ _ _ h2 h02 hv).1]
  · unfold trigger_cmd_delay
    rw [if_neg hnot]
    simp only [fifoWrite, hmask, TRIG_CMD_CODE_SHIFT]
    rw [one _ _ hv, (trigWord_fields _ _ _ h4 h02 hv).1]
  · unfold trigger_cmd_sync_ch
    simp only [fifoWrite, TRIG_CMD_CODE_SHIFT, TRIG_CMD_LOG_BIT]
    rw [two _ _ hl, (trigWord_fields _ _ _ h1 hl h0).1]
  · unfold trigger_cmd_force_trig
    simp only [fifoWrite, TRIG_CMD_CODE_SHIFT, TRIG_CMD_LOG_BIT]
    rw [two _ _ hl, (trigWord_fields _ _ _ h5 hl h0).1]
  · unfold trigger_cmd_cancel
    simp only [fifoWrite, TRIG_CMD_CODE_SHIFT]
    have : ops.TRIG_CMD_CANCEL <<< 29 = trigWord ops.TRIG_CMD_CANCEL 0 0 := by
      rw [Nat.shiftLeft_eq]; simp [trigWord]
    rw [this, (trigWord_fields _ _ _ h6 h02 h0).1]
  · unfold trigger_cmd_reset_count
    simp only [fifoWrite, TRIG_CMD_CODE_SHIFT]
    have : ops.TRIG_CMD_RESET_COUNT <<< 29 = trigWord ops.TRIG_CMD_RESET_COUNT 0 0 := by
      rw [Nat.shiftLeft_eq]; simp [trigWord]
    rw [this, (trigWord_fields _ _ _ h7 h02 h0).1]

/-- C9 (witness): EXPECT_EXT with count 6 and the log flag, after one earlier word. -/
theorem C9_trigger_word_layout_witness :
    exampleOpcodes.Fit ∧ (6 : Nat) < 2 ^ 28 ∧
    trigger_cmd_expect_ext exampleOpcodes [0x20000000] 6 true = [0x20000000, 0x70000006] ∧
    opcodeField 0x70000006 = 3 ∧ logField 0x70000006 = 1 ∧ valueField 0x70000006 = 6 :=
  have h := (C9_trigger_word_layout exampleOpcodes (by decide) [0x20000000] 6 true (by decide)).1
  ⟨by decide, by decide, h.1, h.2.1, h.2.2.1, h.2.2.2⟩

/-- C10.  Each of `trigger_cmd_set_lockout`, `trigger_cmd_expect_ext` and
`trigger_cmd_delay` appends exactly one word to the trigger command FIFO when
its argument is below `2^28` and leaves the FIFO unchanged otherwise. -/
theorem C10_codec_range_check (ops : TrigOpcodes) (fifo : List Nat) (v : Nat) (log : Bool) :
    ((v < 2 ^ 28 → ∃ w, trigger_cmd_set_lockout ops fifo v = fifo ++ [w]) ∧
      (2 ^ 28 ≤ v → trigger_cmd_set_lockout ops fifo v = fifo)) ∧
    ((v < 2 ^ 28 → ∃ w, trigger_cmd_expect_ext ops fifo v log = fifo ++ [w]) ∧
      (2 ^ 28 ≤ v → trigger_cmd_expect_ext ops fifo v log = fifo)) ∧
    ((v < 2 ^ 28 → ∃ w, trigger_cmd_delay ops fifo v = fifo ++ [w]) ∧
      (2 ^ 28 ≤ v → trigger_cmd_delay ops fifo v = fifo)) := by
  have e28 : (2 : Nat) ^ 28 = 268435456 := by norm_num
  rw [e28]
  refine ⟨⟨?_, ?_⟩, ⟨?_, ?_⟩, ⟨?_, ?_⟩⟩
  · intro h
    unfold trigger_cmd_set_lockout
    rw [if_neg (by omega)]
    exact ⟨_, rfl⟩
  · intro h
    unfold trigger_cmd_set_lockout
    rw [if_pos (by omega)]
  · intro h
    unfold trigger_cmd_expect_ext
    rw [if_neg (by omega)]
    exact ⟨_, rfl⟩
  · intro h
    unfold trigger_cmd_expect_ext
    rw [if_pos (by omega)]
  · intro h
    unfold trigger_cmd_delay
    rw [if_neg (by omega)]
    exact ⟨_, rfl⟩
  · intro h
    unfold trigger_cmd_delay
    rw [if_pos (by omega)]

/-- C10 (witness): a lockout of `2^28` cycles leaves the FIFO unchanged, a
delay of 100 cycles appends one word. -/
theorem C10_codec_range_check_witness :
    trigger_cmd_set_lockout exampleOpcodes [7] (2 ^ 28) = [7] ∧
    ∃ w, trigger_cmd_delay exampleOpcodes [7] 100 = [7] ++ [w] :=
  ⟨(C10_codec_range_check exampleOpcodes [7] (2 ^ 28) false).1.2 (Nat.le_refl _),
   (C10_codec_range_check exampleOpcodes [7] 100 false).2.2.1 (by decide)⟩

/-! ## The words of the trigger codecs -/

theorem sync_ch_word (ops : TrigOpcodes) (hop : ops.TRIG_CMD_SYNC_CH < 8) (fifo : List Nat)
    (log : Bool) :
    trigger_cmd_sync_ch ops fifo log = fifo ++ [trigWord ops.TRIG_CMD_SYNC_CH (logBit log) 0] := by
  have h0 : (0 : Nat) < 2 ^ 28 := by norm_num
  unfold trigger_cmd_sync_ch
  simp only [fifoWrite, TRIG_CMD_CODE_SHIFT, TRIG_CMD_LOG_BIT]
  have := trig_or_eq ops.TRIG_CMD_SYNC_CH (logBit log) 0 (logBit_lt log) h0
  rw [Nat.or_zero] at this
  rw [this, (trigWord_fields _ _ _ hop (logBit_lt log) h0).1]

theorem reset_count_word (ops : TrigOpcodes) (hop : ops.TRIG_CMD_RESET_COUNT < 8)
    (fifo : List Nat) :
    trigger_cmd_reset_count ops fifo = fifo ++ [trigWord ops.TRIG_CMD_RESET_COUNT 0 0] := by
  have h0 : (0 : Nat) < 2 ^ 28 := by norm_num
  unfold trigger_cmd_reset_count
  simp only [fifoWrite, TRIG_CMD_CODE_SHIFT]
  have : ops.TRIG_CMD_RESET_COUNT <<< 29 = trigWord ops.TRIG_CMD_RESET_COUNT 0 0 := by
    rw [Nat.shiftLeft_eq]; simp [trigWord]
  rw [this, (trigWord_fields _ _ _ hop (by norm_num) h0).1]

theorem set_lockout_word (ops : TrigOpcodes) (hop : ops.TRIG_CMD_SET_LOCKOUT < 8)
    (fifo : List Nat) (v : Nat) :
    trigger_cmd_set_lockout ops fifo v
      = fifo ++ (if v < 2 ^ 28 then [trigWord ops.TRIG_CMD_SET_LOCKOUT 0 v] else []) := by
  have e28 : (2 : Nat) ^ 28 = 268435456 := by norm_num
  unfold trigger_cmd_set_lockout
  by_cases hv : v < 2 ^ 28
  · rw [if_neg (by rw [e28] at hv; omega), if_pos hv]
    simp only [fifoWrite, TRIG_CMD_CODE_SHIFT]
    rw [mask_eq, Nat.mod_eq_of_lt hv]
    have := trig_or_eq ops.TRIG_CMD_SET_LOCKOUT 0 v (by norm_num) hv
    rw [Nat.zero_shiftLeft, Nat.or_zero] at this
    rw [this, (trigWord_fields _ _ _ hop (by norm_num) hv).1]
  · rw [if_pos (by rw [e28] at hv; omega), if_neg hv, List.append_nil]

theorem expect_ext_word (ops : TrigOpcodes) (hop : ops.TRIG_CMD_EXPECT_EXT < 8)
    (fifo : List Nat) (v : Nat) (log : Bool) :
    trigger_cmd_expect_ext ops fifo v log
      = fifo ++ (if v < 2 ^ 28 then [trigWord ops.TRIG_CMD_EXPECT_EXT (logBit log) v] else []) := by
  have e28 : (2 : Nat) ^ 28 = 268435456 := by norm_num
  unfold trigger_cmd_expect_ext
  by_cases hv : v < 2 ^ 28
  · rw [if_neg (by rw [e28] at hv; omega), if_pos hv]
    simp only [fifoWrite, TRIG_CMD_CODE_SHIFT, TRIG_CMD_LOG_BIT]
    rw [mask_eq, Nat.mod_eq_of_lt hv, trig_or_eq _ _ _ (logBit_lt log) hv,
      (trigWord_fields _ _ _ hop (logBit_lt log) hv).1]
  · rw [if_pos (by rw [e28] at hv; omega), if_neg hv, List.append_nil]

theorem sendTriggerCommands_spec (ops : TrigOpcodes) (hops : ops.Fit) (plan : Plan)
    (st : RunState) :
    sendTriggerCommands ops plan st
      = st.trigger (startWords ops plan.lockout_time
          (expected_triggers plan.line_count plan.iterations.toNat plan.final_zero_trigger)) := by
  obtain ⟨h1, h2, h3, -, -, -, h7⟩ := hops
  unfold sendTriggerCommands startWords
  simp only
  rw [sync_ch_word ops h1, reset_count_word ops h7, set_lockout_word ops h2,
    expect_ext_word ops h3]
  simp [logBit]
/-! ## Traces of the runner -/

theorem emit_events (st : RunState) (e : Event) : (st.emit e).events = st.events ++ [e] := rfl

theorem readPlan_some {w : World} {plan : Plan} (h : readPlan w = some plan) :
    w.file_selected = true ∧
    validate_rev_c_file_format_amps w.dac_file = some plan.line_count ∧
    promptIterations w = some plan.iterations ∧
    promptSpiFreq w = some plan.spi_freq_mhz ∧
    promptRampSamples w = some plan.ramp_samples ∧
    promptRampTime w plan.spi_freq_mhz plan.ramp_samples = some plan.ramp_delay_cycles ∧
    promptAdcDelay w plan.spi_freq_mhz = some plan.delay_cycles ∧
    promptLockout w plan.spi_freq_mhz = some plan.lockout_time ∧
    promptFinalZero w = some plan.final_zero_trigger ∧
    promptBaseOutput w = some plan.base_output_file := by
  unfold readPlan at h
  cases hf : w.file_selected
  · rw [hf] at h
    simp at h
  · rw [hf] at h
    simp only [Bool.not_true, Bool.false_eq_true, if_false, Option.bind_eq_some] at h
    obtain ⟨a1, h1, a2, h2, a3, h3, a4, h4, a5, h5, a6, h6, a7, h7, a8, h8, a9, h9, h10⟩ := h
    cases h10
    exact ⟨rfl, h1, h2, h3, h4, h5, h6, h7, h8, h9⟩

/-- When the prompts fail, the runner returns -1 and the only thing it may
have done is the buffer reset. -/
theorem run_no_plan (ops : TrigOpcodes) (w : World) (flags : List command_flag_t)
    (st : RunState) (h : readPlan w = none) :
    (cmd_rev_c_compat ops w flags st).1 = .returned (-1) ∧
    ((cmd_rev_c_compat ops w flags st).2 = st ∨
     (cmd_rev_c_compat ops w flags st).2 = st.emit .safe_buffer_reset) := by
  unfold cmd_rev_c_compat
  simp only [h]
  split_ifs <;> simp

/-- With a plan, the runner either fails at the hardware checks or runs the
part after the prompts from the state after the reset. -/
theorem run_plan (ops : TrigOpcodes) (w : World) (flags : List command_flag_t)
    (st : RunState) (plan : Plan) (h : readPlan w = some plan) :
    ((cmd_rev_c_compat ops w flags st).1 = .returned (-1) ∧
      ((cmd_rev_c_compat ops w flags st).2 = st ∨
       (cmd_rev_c_compat ops w flags st).2 = st.emit .safe_buffer_reset)) ∨
    (w.running = true ∧ 4 ≤ connected_count w ∧
      cmd_rev_c_compat ops w flags st
        = startExperiment ops w (has_flag flags .FLAG_BIN) plan (afterReset flags st)) := by
  unfold cmd_rev_c_compat afterReset
  simp only [h]
  cases hr : w.running
  · left; simp
  · by_cases hc : connected_count w < 4
    · left
      simp only [Bool.not_true, Bool.false_eq_true, if_false, if_pos hc]
      split_ifs <;> simp
    · right
      simp only [Bool.not_true, Bool.false_eq_true, if_false, if_neg hc]
      exact ⟨trivial, by omega, trivial⟩

theorem addStoppers_spec (st : RunState) :
    (addStoppers st).events = st.events ++ stopperEvents ∧
    (addStoppers st).ctx = st.ctx ∧
    (addStoppers st).dac_cmd_stream_stop = st.dac_cmd_stream_stop ∧
    (addStoppers st).adc_cmd_stream_stop = st.adc_cmd_stream_stop := by
  simp [addStoppers, RunState.emit, stopperEvents]

theorem drainFlags_of_noFlags : ∀ (es : List Event), es.all Event.noFlags = true →
    ∀ flags ∈ drainFlags es, flags = []
  | [], _, flags, hf => by simp [drainFlags] at hf
  | e :: es, h, flags, hf => by
      simp only [List.all_cons, Bool.and_eq_true] at h
      cases e <;> simp only [drainFlags, List.mem_cons] at hf <;>
        first
          | exact drainFlags_of_noFlags es h.2 flags hf
          | (rcases hf with rfl | hf
             · simpa [Event.noFlags] using h.1
             · exact drainFlags_of_noFlags es h.2 flags hf)

/-- The loop that starts the ADC data streams only adds calls of
`cmd_stream_adc_data_to_file`, each with no flags. -/
theorem startAdcDataStreams_spec (w : World) (plan : Plan) :
    ∀ (boards : List Nat) (st : RunState),
      ∃ new, (startAdcDataStreams w plan boards st).2.events = st.events ++ new ∧
        new.all Event.early = true ∧ new.all Event.noFlags = true ∧
        (startAdcDataStreams w plan boards st).2.dac_cmd_stream_stop = st.dac_cmd_stream_stop ∧
        (startAdcDataStreams w plan boards st).2.adc_cmd_stream_stop = st.adc_cmd_stream_stop := by
  intro boards
  induction boards with
  | nil => intro st; exact ⟨[], by simp [startAdcDataStreams]⟩
  | cons board boards ih =>
      intro st
      simp only [startAdcDataStreams]
      split_ifs with h
      · exact ⟨[_], rfl, rfl, rfl, rfl, rfl⟩
      · obtain ⟨new, h1, h2, h3, h4, h5⟩ := ih
          { st.emit (.cmd_stream_adc_data_to_file board (expected_samples_per_board plan)
              (board_output_file plan.base_output_file board) [])
            with ctx := (w.cmd_stream_adc_data_to_file board (expected_samples_per_board plan)
              (board_output_file plan.base_output_file board) [] st.ctx).2 }
        refine ⟨Event.cmd_stream_adc_data_to_file board (expected_samples_per_board plan)
              (board_output_file plan.base_output_file board) [] :: new, ?_, ?_, ?_, h4, h5⟩
        · rw [h1]; simp [RunState.emit]
        · simp only [List.all_cons, h2, Bool.and_true]; rfl
        · simp only [List.all_cons, h3, Bool.and_true]; rfl

/-- The block that starts the trigger data stream adds at most one call of
`cmd_stream_trig_data_to_file`, with no flags. -/
theorem startTrigDataStream_spec (w : World) (plan : Plan) (st : RunState) :
    ∃ new, (startTrigDataStream w plan st).2.events = st.events ++ new ∧
      new.all Event.early = true ∧ new.all Event.noFlags = true ∧
      (startTrigDataStream w plan st).2.dac_cmd_stream_stop = st.dac_cmd_stream_stop ∧
      (startTrigDataStream w plan st).2.adc_cmd_stream_stop = st.adc_cmd_stream_stop := by
  unfold startTrigDataStream
  simp only
  split_ifs with h
  · exact ⟨[_], rfl, rfl, rfl, rfl, rfl⟩
  · exact ⟨[], by simp⟩

/-- The provisioning steps add only early events, and no drain worker is given a flag. -/
theorem provisioned_spec (w : World) (binary_mode : Bool) (plan : Plan) (st : RunState) :
    ∃ new, (provisioned w binary_mode plan st).events = st.events ++ new ∧
      new.all Event.early = true ∧ new.all Event.noFlags = true ∧
      (provisioned w binary_mode plan st).dac_cmd_stream_stop = st.dac_cmd_stream_stop ∧
      (provisioned w binary_mode plan st).adc_cmd_stream_stop = st.adc_cmd_stream_stop := by
  obtain ⟨h1, -, d1, e1⟩ := addStoppers_spec (st.emit (.print_output_format binary_mode))
  obtain ⟨n2, h2, a2, f2, d2, e2⟩ := startAdcDataStreams_spec w plan [0, 1, 2, 3]
    (addStoppers (st.emit (.print_output_format binary_mode)))
  obtain ⟨n3, h3, a3, f3, d3, e3⟩ := startTrigDataStream_spec w plan
    (startAdcDataStreams w plan [0, 1, 2, 3]
      (addStoppers (st.emit (.print_output_format binary_mode)))).2
  refine ⟨[Event.print_output_format binary_mode] ++ stopperEvents ++ n2 ++ n3, ?_, ?_, ?_, ?_, ?_⟩
  · unfold provisioned
    rw [h3, h2, h1, emit_events]
    simp only [List.append_assoc]
  · simp only [List.all_append, a2, a3, Bool.and_true]
    rfl
  · simp only [List.all_append, f2, f3, Bool.and_true]
    rfl
  · unfold provisioned
    rw [d3, d2, d1]; rfl
  · unfold provisioned
    rw [e3, e2, e1]; rfl

theorem stopMonitor_events (w : World) (st : RunState) :
    (stopMonitor w st).events
      = st.events ++ (if w.is_trigger_monitor_active then [.stop_trigger_monitor] else []) := by
  unfold stopMonitor
  split_ifs <;> simp [RunState.emit]

theorem stopMonitor_ctx (w : World) (st : RunState) : (stopMonitor w st).ctx = st.ctx := by
  unfold stopMonitor
  split_ifs <;> rfl

theorem stopMonitor_dac (w : World) (st : RunState) :
    (stopMonitor w st).dac_cmd_stream_stop = st.dac_cmd_stream_stop := by
  unfold stopMonitor
  split_ifs <;> rfl

theorem stopMonitor_adc (w : World) (st : RunState) :
    (stopMonitor w st).adc_cmd_stream_stop = st.adc_cmd_stream_stop := by
  unfold stopMonitor
  split_ifs <;> rfl

theorem stop_event_early (w : World) :
    (if w.is_trigger_monitor_active then [Event.stop_trigger_monitor] else []).all Event.early
      = true ∧
    (if w.is_trigger_monitor_active then [Event.stop_trigger_monitor] else []).all Event.noFlags
      = true := by
  split_ifs <;> exact ⟨rfl, rfl⟩

/-- The three ways in which the part after the prompts ends. -/
theorem startExperiment_trace (ops : TrigOpcodes) (hops : ops.Fit) (w : World)
    (binary_mode : Bool) (plan : Plan) (st : RunState) :
    EarlyExit st (startExperiment ops w binary_mode plan st) ∨
    Aborted w (provisioned w binary_mode plan st) st (startExperiment ops w binary_mode plan st) ∨
    Started ops w plan (provisioned w binary_mode plan st) st
      (startExperiment ops w binary_mode plan st) := by
  obtain ⟨h1, -, d1, e1⟩ := addStoppers_spec (st.emit (.print_output_format binary_mode))
  obtain ⟨n2, h2, a2, f2, d2, e2⟩ := startAdcDataStreams_spec w plan [0, 1, 2, 3]
    (addStoppers (st.emit (.print_output_format binary_mode)))
  obtain ⟨n3, h3, a3, f3, d3, e3⟩ := startTrigDataStream_spec w plan
    (startAdcDataStreams w plan [0, 1, 2, 3]
      (addStoppers (st.emit (.print_output_format binary_mode)))).2
  have hprov : provisioned w binary_mode plan st = (startTrigDataStream w plan
    (startAdcDataStreams w plan [0, 1, 2, 3]
      (addStoppers (st.emit (.print_output_format binary_mode)))).2).2 := rfl
  rw [emit_events] at h1
  unfold startExperiment
  by_cases hz : plan.ramp_samples > 0 ∧ u32OfInt plan.ramp_delay_cycles = 0
  · left
    rw [if_pos hz]
    exact ⟨[], rfl, rfl, by simp, by simp⟩
  rw [if_neg hz]
  simp only
  rcases hA : startAdcDataStreams w plan [0, 1, 2, 3]
    (addStoppers (st.emit (.print_output_format binary_mode))) with ⟨okA, stA⟩
  rw [hA] at h2 h3 hprov
  simp only at h2 h3 hprov
  cases okA
  · left
    refine ⟨[Event.print_output_format binary_mode] ++ stopperEvents ++ n2, ?_, ?_, by simp, ?_⟩
    · simp only [List.all_append, a2, Bool.and_true]; rfl
    · simp only [List.all_append, f2, Bool.and_true]; rfl
    · simp only [h2, h1, List.append_assoc]
  simp only
  rcases hT : startTrigDataStream w plan stA with ⟨okT, stT⟩
  rw [hT] at h3 hprov
  simp only at h3 hprov
  have hpre : ([Event.print_output_format binary_mode] ++ stopperEvents ++ n2 ++ n3).all
      Event.early = true := by
    simp only [List.all_append, a2, a3, Bool.and_true]; rfl
  have hfl : ([Event.print_output_format binary_mode] ++ stopperEvents ++ n2 ++ n3).all
      Event.noFlags = true := by
    simp only [List.all_append, f2, f3, Bool.and_true]; rfl
  have hev : stT.events
      = st.events ++ ([Event.print_output_format binary_mode] ++ stopperEvents ++ n2 ++ n3) := by
    simp only [h3, h2, h1, List.append_assoc]
  cases okT
  · left
    exact ⟨_, hpre, hfl, by simp, hev⟩
  simp only
  obtain ⟨se, sf⟩ := stop_event_early w
  split_ifs with hm hd ha hab
  · left
    refine ⟨[Event.print_output_format binary_mode] ++ stopperEvents ++ n2 ++ n3 ++
      [Event.start_trigger_monitor
        (expected_triggers plan.line_count plan.iterations.toNat plan.final_zero_trigger)], ?_, ?_, by simp, ?_⟩
    · rw [List.all_append, hpre]; rfl
    · rw [List.all_append, hfl]; rfl
    · simp only [emit_events, hev, List.append_assoc]
  · left
    refine ⟨[Event.print_output_format binary_mode] ++ stopperEvents ++ n2 ++ n3 ++
      [Event.start_trigger_monitor
        (expected_triggers plan.line_count plan.iterations.toNat plan.final_zero_trigger)] ++
      (if w.is_trigger_monitor_active then [.stop_trigger_monitor] else []), ?_, ?_, by simp, ?_⟩
    · rw [List.all_append, List.all_append, hpre, se]; rfl
    · rw [List.all_append, List.all_append, hfl, sf]; rfl
    · simp only [stopMonitor_events, emit_events, hev, List.append_assoc]
  · left
    refine ⟨[Event.print_output_format binary_mode] ++ stopperEvents ++ n2 ++ n3 ++
      [Event.start_trigger_monitor
        (expected_triggers plan.line_count plan.iterations.toNat plan.final_zero_trigger), Event.dac_thread (dac_cmd_stream_data plan)] ++
      (if w.is_trigger_monitor_active then [.stop_trigger_monitor] else []), ?_, ?_, by simp, ?_⟩
    · rw [List.all_append, List.all_append, hpre, se]; rfl
    · rw [List.all_append, List.all_append, hfl, sf]; rfl
    · simp only [stopMonitor_events, emit_events, hev, List.append_assoc]
      rfl
  · right; left
    refine ⟨[Event.print_output_format binary_mode] ++ stopperEvents ++ n2 ++ n3 ++
      [Event.start_trigger_monitor
        (expected_triggers plan.line_count plan.iterations.toNat plan.final_zero_trigger), Event.dac_thread (dac_cmd_stream_data plan),
       Event.adc_thread (adc_cmd_stream_data plan)], preloadWait w 500 0, ?_, ?_, hab.1, hab.2,
      rfl, ?_, ?_, ?_, ?_⟩
    · rw [List.all_append, hpre]; rfl
    · rw [List.all_append, hfl]; rfl
    · simp only [stopMonitor_events, emit_events, hev, List.append_assoc]
      rfl
    · rw [stopMonitor_dac]
    · rw [stopMonitor_adc]
    · rw [stopMonitor_ctx, hprov]; rfl
  · right; right
    refine ⟨[Event.print_output_format binary_mode] ++ stopperEvents ++ n2 ++ n3 ++
      [Event.start_trigger_monitor
        (expected_triggers plan.line_count plan.iterations.toNat plan.final_zero_trigger), Event.dac_thread (dac_cmd_stream_data plan),
       Event.adc_thread (adc_cmd_stream_data plan)], preloadWait w 500 0, ?_, ?_, hab,
      rfl, ?_, ?_, ?_, ?_⟩
    · rw [List.all_append, hpre]; rfl
    · rw [List.all_append, hfl]; rfl
    · rw [sendTriggerCommands_spec ops hops]
      simp only [RunState.trigger, emit_events, hev, List.append_assoc]
      rfl
    · rw [sendTriggerCommands_spec ops hops]; rfl
    · rw [sendTriggerCommands_spec ops hops]; rfl
    · rw [sendTriggerCommands_spec ops hops, hprov]; rfl

theorem afterReset_events (flags : List command_flag_t) (st : RunState) :
    (afterReset flags st).events
      = st.events ++ (if has_flag flags .FLAG_NO_RESET then [] else [.safe_buffer_reset]) := by
  unfold afterReset
  split_ifs <;> simp [RunState.emit]

theorem reset_event_early (flags : List command_flag_t) :
    (if has_flag flags .FLAG_NO_RESET then [] else [Event.safe_buffer_reset]).all Event.early
      = true ∧
    (if has_flag flags .FLAG_NO_RESET then [] else [Event.safe_buffer_reset]).all Event.noFlags
      = true := by
  split_ifs <;> exact ⟨rfl, rfl⟩

/-- The ways in which a call of the runner with a plan ends, seen from the
state after the buffer reset. -/
theorem run_trace (ops : TrigOpcodes) (hops : ops.Fit) (w : World)
    (flags : List command_flag_t) (st : RunState) (plan : Plan) (h : readPlan w = some plan) :
    ((cmd_rev_c_compat ops w flags st).1 = .returned (-1) ∧
      ((cmd_rev_c_compat ops w flags st).2 = st ∨
       (cmd_rev_c_compat ops w flags st).2 = st.emit .safe_buffer_reset)) ∨
    EarlyExit (afterReset flags st) (cmd_rev_c_compat ops w flags st) ∨
    Aborted w (provisioned w (has_flag flags .FLAG_BIN) plan (afterReset flags st))
      (afterReset flags st) (cmd_rev_c_compat ops w flags st) ∨
    Started ops w plan (provisioned w (has_flag flags .FLAG_BIN) plan (afterReset flags st))
      (afterReset flags st) (cmd_rev_c_compat ops w flags st) := by
  rcases run_plan ops w flags st plan h with h1 | ⟨-, -, h2⟩
  · exact Or.inl h1
  · rw [h2]
    exact Or.inr (startExperiment_trace ops hops w _ plan _)

theorem triggerWords_append (a b : List Event) :
    triggerWords (a ++ b) = triggerWords a ++ triggerWords b := by
  induction a with
  | nil => rfl
  | cons e a ih => cases e <;> simp [triggerWords, ih]

theorem triggerWords_early : ∀ (es : List Event), es.all Event.early = true → triggerWords es = []
  | [], _ => rfl
  | e :: es, h => by
      simp only [List.all_cons, Bool.and_eq_true] at h
      cases e <;> first
        | exact triggerWords_early es h.2
        | exact absurd h.1 (by simp [Event.early, Event.isTriggerWord, Event.isPreloadEnd])

theorem triggerWords_map (ws : List Nat) : triggerWords (ws.map Event.trigger_word) = ws := by
  induction ws with
  | nil => rfl
  | cons x ws ih => simp [triggerWords, ih]

theorem not_trigger_of_early {es : List Event} (h : es.all Event.early = true) :
    ∀ e ∈ es, e.isTriggerWord = false := by
  intro e he
  have := List.all_eq_true.1 h e he
  cases e <;> first | rfl | exact absurd this (by simp [Event.early, Event.isTriggerWord, Event.isPreloadEnd])

theorem not_preloadEnd_of_early {es : List Event} (h : es.all Event.early = true) :
    ∀ e ∈ es, e.isPreloadEnd = false := by
  intro e he
  have := List.all_eq_true.1 h e he
  cases e <;> first | rfl | exact absurd this (by simp [Event.early, Event.isTriggerWord, Event.isPreloadEnd])

theorem ofInt64_zero : F64.ofInt 0 = F64.zero := by decide!

theorem readPlan_none_of_iterations {w : World} {i : Int} (h : w.iterations = some i)
    (hi : i < 1) : readPlan w = none := by
  cases hp : readPlan w with
  | none => rfl
  | some plan =>
      have := (readPlan_some hp).2.2.1
      simp [promptIterations, h, hi] at this

theorem readPlan_none_of_lockout {w : World} {v : F64} (h : w.lockout_ms = some v)
    (hv : F64.le v F64.zero = true) : readPlan w = none := by
  cases hp : readPlan w with
  | none => rfl
  | some plan =>
      have := (readPlan_some hp).2.2.2.2.2.2.2.1
      simp [promptLockout, h, ofInt64_zero, hv] at this

/-- No call of the runner gives a flag to a drain worker. -/
theorem run_drainFlags (ops : TrigOpcodes) (hops : ops.Fit) (w : World)
    (flags : List command_flag_t) (st : RunState) (hst : st.events = []) :
    ∀ f ∈ drainFlags (cmd_rev_c_compat ops w flags st).2.events, f = [] := by
  apply drainFlags_of_noFlags
  obtain ⟨-, rf⟩ := reset_event_early flags
  obtain ⟨-, sf⟩ := stop_event_early w
  have hmap : ∀ ws : List Nat, (ws.map Event.trigger_word).all Event.noFlags = true := by
    intro ws
    induction ws with
    | nil => rfl
    | cons x ws ih => simp only [List.map_cons, List.all_cons, ih]; rfl
  cases hp : readPlan w with
  | none =>
      rcases (run_no_plan ops w flags st hp).2 with h | h
      · rw [h, hst]; rfl
      · rw [h, emit_events, hst]; rfl
  | some plan =>
      rcases run_trace ops hops w flags st plan hp with h | h | h | h
      · rcases h.2 with h | h
        · rw [h, hst]; rfl
        · rw [h, emit_events, hst]; rfl
      · obtain ⟨pre, -, hf, -, hev⟩ := h
        rw [hev, afterReset_events, hst, List.nil_append, List.all_append, rf, hf]; rfl
      · obtain ⟨pre, c, -, hf, -, -, -, hev, -⟩ := h
        rw [hev, afterReset_events, hst, List.nil_append]
        simp only [List.all_append, rf, hf, sf, Bool.and_true]
        rfl
      · obtain ⟨pre, c, -, hf, -, -, hev, -⟩ := h
        rw [hev, afterReset_events, hst, List.nil_append]
        simp only [List.all_append, rf, hf, hmap, Bool.and_true]
        rfl
/-! ## The commands of a run of the DAC thread -/

theorem cmds_of_log {a b : DacState} (h : b.log = a.log) : b.cmds = a.cmds := by
  unfold DacState.cmds
  rw [h]

theorem wait_cmds (env : Env) (hw : Hw) (board need fuel : Nat) (st : DacState) :
    (waitForSpace env hw board need fuel st).2.cmds = st.cmds :=
  cmds_of_log (Sends.log_eq (wait_sends env hw board need fuel st))

theorem write_cmds (env : Env) (hw : Hw) (board : Nat) (ch_vals : List Int)
    (trig cont ldac : Bool) (count : Int) (st : DacState) :
    (dac_cmd_dac_wr env hw board ch_vals trig cont ldac count st).countCommand.cmds
      = st.cmds ++ [{ board := board, ch_vals := ch_vals, trig := trig, cont := cont,
                      ldac := ldac, count := count }] := by
  simp [DacState.cmds, dac_cmd_dac_wr, DacState.countCommand, DacState.tick, DacWrite.cmd]

theorem rampSteps_cmds (env : Env) (hw : Hw) (p : rev_c_params_t) (iteration line_num board : Nat)
    (line_dac_vals prev_line_dac_vals : List Int) :
    ∀ (ss : List Nat) (st : DacState),
      (ss.foldl (rampStep env hw p iteration line_num board line_dac_vals prev_line_dac_vals)
          st).cmds
        = st.cmds ++ ss.map (stepCmd p iteration line_num line_dac_vals prev_line_dac_vals board) := by
  intro ss
  induction ss with
  | nil => intro st; simp
  | cons s ss ih =>
      intro st
      rw [List.foldl_cons, ih]
      unfold rampStep
      simp only
      rw [write_cmds, List.map_cons, List.append_assoc]
      simp [stepCmd]

theorem rampLoop_cmds (env : Env) (hw : Hw) (p : rev_c_params_t) (iteration line_num board : Nat)
    (line_dac_vals prev_line_dac_vals : List Int) (st : DacState) :
    (rampLoop env hw p iteration line_num board line_dac_vals prev_line_dac_vals st).cmds
      = st.cmds ++ rowCmds p iteration line_num line_dac_vals prev_line_dac_vals board :=
  rampSteps_cmds env hw p iteration line_num board line_dac_vals prev_line_dac_vals _ st

/-- The board loop of a row sends the ramps of the boards it serves, in order;
it serves all of them unless it leaves for the cleanup. -/
theorem boardLoop_cmds (env : Env) (hw : Hw) (p : rev_c_params_t) (fuel iteration line_num : Nat)
    (line_dac_vals prev_line_dac_vals : List Int) :
    ∀ (boards : List Nat) (st : DacState),
      ∃ bs, (∀ b ∈ bs, b ∈ boards) ∧
        (boardLoop env hw p fuel iteration line_num line_dac_vals prev_line_dac_vals boards
            st).2.cmds
          = st.cmds ++ bs.flatMap
              (rowCmds p iteration line_num line_dac_vals prev_line_dac_vals) ∧
        ((boardLoop env hw p fuel iteration line_num line_dac_vals prev_line_dac_vals boards
            st).1 = .next → bs = boards) := by
  intro boards
  induction boards with
  | nil => intro st; exact ⟨[], by simp, by simp [boardLoop], fun _ => rfl⟩
  | cons board boards ih =>
      intro st
      have hw0 := wait_cmds env hw board (p.ramp_samples + 1) fuel st
      unfold boardLoop
      rcases hres : waitForSpace env hw board (p.ramp_samples + 1) fuel st with ⟨wt, st1⟩
      rw [hres] at hw0
      simp only at hw0
      cases wt with
      | absent => exact ⟨[], by simp, by simp [hw0], by simp⟩
      | timeout => exact ⟨[], by simp, by simp [hw0], by simp⟩
      | ready =>
          simp only
          obtain ⟨bs, h1, h2, h3⟩ := ih
            (rampLoop env hw p iteration line_num board line_dac_vals prev_line_dac_vals st1)
          refine ⟨board :: bs, ?_, ?_, ?_⟩
          · intro b hb
            rcases List.mem_cons.1 hb with rfl | hb
            · exact List.mem_cons_self _ _
            · exact List.mem_cons_of_mem _ (h1 b hb)
          · rw [h2, rampLoop_cmds, hw0, List.flatMap_cons, List.append_assoc]
          · intro hn; rw [h3 hn]
      | stopped =>
          simp only
          obtain ⟨bs, h1, h2, h3⟩ := ih
            (rampLoop env hw p iteration line_num board line_dac_vals prev_line_dac_vals st1)
          refine ⟨board :: bs, ?_, ?_, ?_⟩
          · intro b hb
            rcases List.mem_cons.1 hb with rfl | hb
            · exact List.mem_cons_self _ _
            · exact List.mem_cons_of_mem _ (h1 b hb)
          · rw [h2, rampLoop_cmds, hw0, List.flatMap_cons, List.append_assoc]
          · intro hn; rw [h3 hn]

theorem tick_cmds (env : Env) (st : DacState) : (st.tick env).cmds = st.cmds := rfl

theorem rne_lower {n q : Nat} (hq : 0 < q) : 2 * n ≤ (2 * rne n q + 1) * q := by
  have hdm := Nat.div_add_mod n q
  have hr := Nat.mod_lt n hq
  have key : ∀ f r, q * f + r = n → r < q →
      2 * n ≤ (2 * (if 2 * r < q then f else if q < 2 * r then f + 1
        else if f % 2 = 0 then f else f + 1) + 1) * q := by
    intro f r h1 h2
    have e : q * f = f * q := Nat.mul_comm _ _
    split_ifs with a b c
    · have : (2 * f + 1) * q = 2 * (f * q) + q := by ring
      omega
    · have : (2 * (f + 1) + 1) * q = 2 * (f * q) + 3 * q := by ring
      omega
    · have : (2 * f + 1) * q = 2 * (f * q) + q := by ring
      omega
    · have : (2 * (f + 1) + 1) * q = 2 * (f * q) + 3 * q := by ring
      omega
  exact key (n / q) (n % q) hdm hr

/-- Relative error of rounding in the normal range: if `num / den` is at least
`2^52` units, the rounded value is at least `(1 - 2^-53)` times the exact one. -/
theorem roundUnits64_rel {num den : Nat} (hden : 0 < den)
    (hnorm : 2 ^ 52 * den ≤ num * 2 ^ 1074) :
    (2 ^ 53 - 1) * (num * 2 ^ 1074) ≤ roundUnits64 num den * den * 2 ^ 53 := by
  unfold roundUnits64
  simp only
  generalize num * 2 ^ 1074 = n at hnorm ⊢
  have hu : 2 ^ 52 ≤ n / den := (Nat.le_div_iff_mul_le hden).2 hnorm
  have hL : 52 ≤ ilog2 (n / den) := le_ilog2_of_pow_le hu
  have hpos : 1 ≤ n / den := le_trans (Nat.one_le_two_pow) hu
  have hlow : 2 ^ ilog2 (n / den) ≤ n / den := (ilog2_spec hpos).1
  have hdn : den * (n / den) ≤ n := Nat.mul_div_le n den
  obtain ⟨sh, hsh⟩ : ∃ sh, ilog2 (n / den) = sh + 52 := ⟨ilog2 (n / den) - 52, by omega⟩
  rw [hsh] at hlow
  rw [hsh, Nat.add_sub_cancel]
  have hq : 0 < den * 2 ^ sh := Nat.mul_pos hden (Nat.two_pow_pos _)
  have hr := @rne_lower n _ hq
  generalize rne n (den * 2 ^ sh) = r at hr ⊢
  have hqn : den * 2 ^ sh * 2 ^ 52 ≤ n := by
    calc den * 2 ^ sh * 2 ^ 52 = den * 2 ^ (sh + 52) := by rw [pow_add, Nat.mul_assoc]
      _ ≤ den * (n / den) := Nat.mul_le_mul_left _ hlow
      _ ≤ n := hdn
  have e53 : (2 : Nat) ^ 53 = 2 * 2 ^ 52 := by rw [pow_succ]; ring
  generalize hqdef : den * 2 ^ sh = q at hr hqn hq
  have goal' : (2 ^ 53 - 1) * n ≤ r * q * 2 ^ 53 := by
    rw [e53]
    have hHpos : 0 < (2 : Nat) ^ 52 := Nat.two_pow_pos _
    generalize (2 : Nat) ^ 52 = H at hqn hHpos ⊢
    have h1 : (2 * H - 1) * n + n = 2 * H * n := by
      have : 2 * H - 1 + 1 = 2 * H := by omega
      calc (2 * H - 1) * n + n = (2 * H - 1 + 1) * n := by ring
        _ = 2 * H * n := by rw [this]
    have h2 : 2 * H * n ≤ r * q * (2 * H) + q * H := by
      have : (2 * r + 1) * q * H = r * q * (2 * H) + q * H := by ring
      calc 2 * H * n = H * (2 * n) := by ring
        _ ≤ H * ((2 * r + 1) * q) := Nat.mul_le_mul_left _ hr
        _ = r * q * (2 * H) + q * H := by ring
    omega
  calc (2 ^ 53 - 1) * n ≤ r * q * 2 ^ 53 := goal'
    _ = r * 2 ^ sh * den * 2 ^ 53 := by
        rw [← hqdef]
        ring

theorem rne_mul (k : Nat) {q : Nat} (hq : 0 < q) : rne (k * q) q = k := by
  unfold rne
  simp only
  rw [Nat.mul_mod_left, Nat.mul_div_cancel k hq, if_pos (by omega)]

set_option exponentiation.threshold 4000 in
/-- Integers below `2^53` are doubles: their conversion is exact. -/
theorem roundUnits64_nat (R : Nat) (hR : R < 2 ^ 53) : roundUnits64 R 1 = R * 2 ^ 1074 := by
  rcases Nat.eq_zero_or_pos R with rfl | hpos
  · unfold roundUnits64
    simp only [Nat.zero_mul, Nat.zero_div, ilog2_zero, Nat.zero_sub, pow_zero, Nat.mul_one]
    rfl
  unfold roundUnits64
  simp only [Nat.div_one, Nat.one_mul]
  obtain ⟨hj1, hj2⟩ := @ilog2_spec R hpos
  have hj : ilog2 R ≤ 52 := ilog2_lt_of_lt_pow hR
  have hlog : ilog2 (R * 2 ^ 1074) = ilog2 R + 1074 := by
    apply ilog2_eq
    · rw [pow_add]; exact Nat.mul_le_mul_right _ hj1
    · rw [show ilog2 R + 1074 + 1 = (ilog2 R + 1) + 1074 by omega, pow_add]
      exact Nat.mul_lt_mul_of_pos_right hj2 (Nat.two_pow_pos 1074)
  rw [hlog]
  have hsh : ilog2 R + 1074 - 52 = ilog2 R + 1022 := by omega
  rw [hsh]
  have hsplit : R * 2 ^ 1074 = (R * 2 ^ (52 - ilog2 R)) * 2 ^ (ilog2 R + 1022) := by
    have he : 52 - ilog2 R + (ilog2 R + 1022) = 1074 := by omega
    rw [Nat.mul_assoc, ← pow_add, he]
  rw [hsplit, rne_mul _ (Nat.two_pow_pos _)]

set_option exponentiation.threshold 4000 in
theorem ofInt64_natCast (R : Nat) (hR : R < 2 ^ 53) :
    F64.ofInt (R : Int) = F64.fin false (R * 2 ^ 1074) := by
  unfold F64.ofInt F64.ofRatio
  simp only [Int.natAbs_ofNat]
  rw [roundUnits64_nat R hR]
  have hlt : ¬ (2 ^ 2098 ≤ R * 2 ^ 1074) := by
    have : (2 : Nat) ^ 2098 = 2 ^ 1024 * 2 ^ 1074 := by rw [← pow_add]
    rw [this, not_le]
    exact Nat.mul_lt_mul_of_pos_right
      (lt_trans hR (Nat.pow_lt_pow_right (by norm_num) (by norm_num))) (Nat.two_pow_pos 1074)
  have hneg : decide ((R : Int) < 0) = false := decide_eq_false (by omega)
  rw [if_neg hlt, hneg]

/-- The constant `0.02` is the double `5764607523034235 · 2^-58`, which is not
below 2/100. -/
theorem c0_02_eq : F64.c0_02 = F64.fin false (5764607523034235 * 2 ^ 1016) := by
  decide!

theorem c0_02_lower : 2 ^ 1074 ≤ 50 * (5764607523034235 * 2 ^ 1016) := by
  have : (2 : Nat) ^ 1074 = 2 ^ 58 * 2 ^ 1016 := by rw [← pow_add]
  rw [this, ← Nat.mul_assoc]
  exact Nat.mul_le_mul_right _ (by norm_num)

set_option exponentiation.threshold 4000 in
/-- A lower bound survives a multiplication by a positive finite double, up to
the relative rounding error, when the product is in the normal range. -/
theorem mul_atLeast {x : F64} {a b k : Nat} (hx : x.AtLeast a b) (hb : 0 < b) (hk : 0 < k)
    (hnorm : 2 ^ 52 * (b * 2 ^ 1074) ≤ a * k) :
    (F64.mul x (.fin false k)).AtLeast ((2 ^ 53 - 1) * (a * k)) (2 ^ 53 * (b * 2 ^ 1074)) := by
  rcases hx with rfl | ⟨m, rfl, hm⟩
  · left
    simp [F64.mul, Nat.pos_iff_ne_zero.1 hk]
  · unfold F64.mul F64.ofRatio
    simp only [bne_self_eq_false]
    by_cases hov : 2 ^ 2098 ≤ roundUnits64 (m * k) (2 ^ 2148)
    · left
      rw [if_pos hov]
    · right
      rw [if_neg hov]
      refine ⟨_, rfl, ?_⟩
      have hUU : (2 : Nat) ^ 2148 = 2 ^ 1074 * 2 ^ 1074 := by rw [← pow_add]
      have hUpos : 0 < (2 : Nat) ^ 1074 := Nat.two_pow_pos 1074
      have hrel := @roundUnits64_rel (m * k) (2 ^ 2148) (Nat.two_pow_pos 2148)
      rw [hUU] at hrel ⊢
      generalize roundUnits64 (m * k) (2 ^ 1074 * 2 ^ 1074) = u at hrel ⊢
      generalize (2 : Nat) ^ 1074 = U at *
      generalize (2 : Nat) ^ 53 = E at *
      have hmk : 2 ^ 52 * U ≤ m * k := by
        have h1 : 2 ^ 52 * U * b ≤ m * k * b := by
          calc 2 ^ 52 * U * b = 2 ^ 52 * (b * U) := by ring
            _ ≤ a * k := hnorm
            _ ≤ m * b * k := Nat.mul_le_mul_right _ hm
            _ = m * k * b := by ring
        exact Nat.le_of_mul_le_mul_right h1 hb
      have hrel2 := hrel (by
        calc 2 ^ 52 * (U * U) = 2 ^ 52 * U * U := by ring
          _ ≤ m * k * U := Nat.mul_le_mul_right _ hmk)
      have h3 : (E - 1) * (a * k) * U ≤ u * (E * (b * U)) * U := by
        calc (E - 1) * (a * k) * U ≤ (E - 1) * (m * b * k) * U :=
              Nat.mul_le_mul_right _ (Nat.mul_le_mul_left _ (Nat.mul_le_mul_right _ hm))
          _ = b * ((E - 1) * (m * k * U)) := by ring
          _ ≤ b * (u * (U * U) * E) := Nat.mul_le_mul_left _ hrel2
          _ = u * (E * (b * U)) * U := by ring
      exact Nat.le_of_mul_le_mul_right h3 hUpos

set_option exponentiation.threshold 4000 in
/-- A lower bound survives a division by a positive finite double, up to the
relative rounding error, when the quotient is in the normal range. -/
theorem div_atLeast {x : F64} {a b k : Nat} (hx : x.AtLeast a b) (hb : 0 < b) (hk : 0 < k)
    (hnorm : 2 ^ 52 * (b * k) ≤ a * 2 ^ 1074) :
    (F64.div x (.fin false k)).AtLeast ((2 ^ 53 - 1) * (a * 2 ^ 1074)) (2 ^ 53 * (b * k)) := by
  rcases hx with rfl | ⟨m, rfl, hm⟩
  · left
    simp [F64.div]
  · unfold F64.div F64.ofRatio
    simp only [bne_self_eq_false, if_neg (Nat.pos_iff_ne_zero.1 hk)]
    by_cases hov : 2 ^ 2098 ≤ roundUnits64 m k
    · left
      rw [if_pos hov]
    · right
      rw [if_neg hov]
      refine ⟨_, rfl, ?_⟩
      have hrel := @roundUnits64_rel m k hk
      generalize roundUnits64 m k = u at hrel ⊢
      generalize (2 : Nat) ^ 1074 = U at *
      generalize (2 : Nat) ^ 53 = E at *
      have hmk : 2 ^ 52 * k ≤ m * U := by
        have h1 : 2 ^ 52 * k * b ≤ m * U * b := by
          calc 2 ^ 52 * k * b = 2 ^ 52 * (b * k) := by ring
            _ ≤ a * U := hnorm
            _ ≤ m * b * U := Nat.mul_le_mul_right _ hm
            _ = m * U * b := by ring
        exact Nat.le_of_mul_le_mul_right h1 hb
      calc (E - 1) * (a * U) ≤ (E - 1) * (m * b * U) :=
            Nat.mul_le_mul_left _ (Nat.mul_le_mul_right _ hm)
        _ = b * ((E - 1) * (m * U)) := by ring
        _ ≤ b * (u * k * E) := Nat.mul_le_mul_left _ (hrel hmk)
        _ = u * (E * (b * k)) := by ring

set_option exponentiation.threshold 4000 in
/-- A number that is not below a positive lower bound of `x` has that lower bound. -/
theorem atLeast_of_not_lt {t x : F64} {a b : Nat} (hx : x.AtLeast a b) (ha : 0 < a)
    (ht : t.IsNumber) (hlt : F64.lt t x = false) : t.AtLeast a b := by
  have hbig : (2 : Int) ^ 2098 < 2 ^ 2200 := by norm_num
  have h2 : (0 : Int) < 2 ^ 2200 := by positivity
  cases t with
  | nan => exact absurd ht (by simp [F64.IsNumber])
  | inf neg =>
      cases neg
      · left; rfl
      · exfalso
        rcases hx with rfl | ⟨m, rfl, -⟩
        · simp [F64.lt, F64.key] at hlt
        · simp only [F64.lt, F64.key, if_true, Bool.false_eq_true, if_false,
            decide_eq_false_iff_not, not_lt] at hlt
          have : (0 : Int) ≤ (m : Int) := Int.natCast_nonneg m
          omega
  | fin neg mt =>
      have hmt : (mt : Int) < 2 ^ 2098 := by
        have : mt < 2 ^ 2098 := ht
        exact_mod_cast this
      have hmt0 : (0 : Int) ≤ (mt : Int) := Int.natCast_nonneg mt
      rcases hx with rfl | ⟨m, rfl, hm⟩
      · exfalso
        cases neg <;>
          simp only [F64.lt, F64.key, if_true, Bool.false_eq_true, if_false,
            decide_eq_false_iff_not, not_lt] at hlt <;>
          omega
      · have hmpos : 0 < m := by
          rcases Nat.eq_zero_or_pos m with rfl | h
          · simp at hm; omega
          · exact h
        cases neg
        · right
          simp only [F64.lt, F64.key, Bool.false_eq_true, if_false,
            decide_eq_false_iff_not, not_lt] at hlt
          have hle : m ≤ mt := by exact_mod_cast hlt
          exact ⟨mt, rfl, le_trans hm (Nat.mul_le_mul_right _ hle)⟩
        · exfalso
          simp only [F64.lt, F64.key, if_true, Bool.false_eq_true, if_false,
            decide_eq_false_iff_not, not_lt] at hlt
          have : (0 : Int) < (m : Int) := by exact_mod_cast hmpos
          omega

theorem atLeast_weaken {x : F64} {a b : Nat} (hx : x.AtLeast a b) : x.AtLeast 0 1 := by
  rcases hx with rfl | ⟨m, rfl, -⟩
  · left; rfl
  · exact Or.inr ⟨m, rfl, Nat.zero_le _⟩

theorem mul_nonneg64 {x : F64} {k : Nat} (hx : x.AtLeast 0 1) (hk : 0 < k) :
    (F64.mul x (.fin false k)).AtLeast 0 1 := by
  rcases hx with rfl | ⟨m, rfl, -⟩
  · left
    simp [F64.mul, Nat.pos_iff_ne_zero.1 hk]
  · unfold F64.mul F64.ofRatio
    simp only [bne_self_eq_false]
    split_ifs
    · left; rfl
    · exact Or.inr ⟨_, rfl, Nat.zero_le _⟩

theorem div_nonneg64 {x : F64} {k : Nat} (hx : x.AtLeast 0 1) (hk : 0 < k) :
    (F64.div x (.fin false k)).AtLeast 0 1 := by
  rcases hx with rfl | ⟨m, rfl, -⟩
  · left
    simp [F64.div]
  · unfold F64.div F64.ofRatio
    simp only [bne_self_eq_false, if_neg (Nat.pos_iff_ne_zero.1 hk)]
    split_ifs
    · left; rfl
    · exact Or.inr ⟨_, rfl, Nat.zero_le _⟩

set_option exponentiation.threshold 4000 in
/-- The conversion to `int` of a non-negative double below `2^31` is its
integral part, whatever the implementation does with undefined conversions. -/
theorem toInt_inRange (u : F64 → Int) (m : Nat) (h : m < 2 ^ 31 * 2 ^ 1074) :
    F64.toInt u (.fin false m) = ((m / 2 ^ 1074 : Nat) : Int) := by
  have hd : m / 2 ^ 1074 < 2 ^ 31 := (Nat.div_lt_iff_lt_mul (Nat.two_pow_pos 1074)).2 h
  simp only [F64.toInt, Bool.false_eq_true, if_false, if_pos hd]

set_option exponentiation.threshold 4000 in
/-- The product `0.02 * ramp_samples` is `+∞`-free and at least
`(1 - 2^-53) · 0.02 · R`. -/
theorem min_ramp_time_atLeast (R : Nat) (hR1 : 1 ≤ R) (hR2 : R < 2 ^ 31) :
    (F64.mul F64.c0_02 (F64.ofInt (R : Int))).AtLeast
      ((2 ^ 53 - 1) * (5764607523034235 * 2 ^ 1016 * (R * 2 ^ 1074))) (2 ^ 53 * (1 * 2 ^ 1074)) := by
  rw [ofInt64_natCast R (lt_trans hR2 (by norm_num)), c0_02_eq]
  apply mul_atLeast (Or.inr ⟨_, rfl, by rw [Nat.mul_one]⟩) Nat.one_pos
    (Nat.mul_pos hR1 (Nat.two_pow_pos 1074))
  calc 2 ^ 52 * (1 * 2 ^ 1074) = 2 ^ 52 * (1 * 2 ^ 1074) := rfl
    _ ≤ 5764607523034235 * 2 ^ 1016 * (1 * 2 ^ 1074) :=
        Nat.mul_le_mul_right _ (by norm_num)
    _ ≤ 5764607523034235 * 2 ^ 1016 * (R * 2 ^ 1074) :=
        Nat.mul_le_mul_left _ (Nat.mul_le_mul_right _ hR1)

/-- The three products of the ramp delay computation are in the normal range
when `M · mf ≥ U · G` for a `G` that exceeds the rounding factors. -/
theorem norm_chain (e E U M mf R G : Nat) (hQ : U * G ≤ M * mf) (hR1 : 1 ≤ R)
    (c1 : 2 ^ 52 * E ≤ e * G) (c2 : 2 ^ 52 * (E * E) ≤ e * e * G)
    (c3 : 2 ^ 52 * (E * E * E) ≤ e * e * e * G) :
    2 ^ 52 * (E * (1 * U) * U) ≤ e * (M * (R * U)) * mf ∧
    2 ^ 52 * (E * (E * (1 * U) * U) * U) ≤ e * (e * (M * (R * U)) * mf) * (1000 * U) ∧
    2 ^ 52 * (E * (E * (E * (1 * U) * U) * U) * (R * U))
      ≤ e * (e * (e * (M * (R * U)) * mf) * (1000 * U)) * U := by
  refine ⟨?_, ?_, ?_⟩
  · calc 2 ^ 52 * (E * (1 * U) * U) = 2 ^ 52 * E * (U * U) := by ring
      _ ≤ e * G * (U * U) := Nat.mul_le_mul_right _ c1
      _ = e * U * (U * G) := by ring
      _ ≤ e * U * (M * mf) := Nat.mul_le_mul_left _ hQ
      _ = e * U * (M * mf) * 1 := by ring
      _ ≤ e * U * (M * mf) * R := Nat.mul_le_mul_left _ hR1
      _ = e * (M * (R * U)) * mf := by ring
  · calc 2 ^ 52 * (E * (E * (1 * U) * U) * U) = 2 ^ 52 * (E * E) * (U * U * U) := by ring
      _ ≤ e * e * G * (U * U * U) := Nat.mul_le_mul_right _ c2
      _ = e * e * (U * U) * (U * G) := by ring
      _ ≤ e * e * (U * U) * (M * mf) := Nat.mul_le_mul_left _ hQ
      _ = e * e * (U * U) * (M * mf) * 1 := by ring
      _ ≤ e * e * (U * U) * (M * mf) * (1000 * R) :=
          Nat.mul_le_mul_left _ (by omega)
      _ = e * (e * (M * (R * U)) * mf) * (1000 * U) := by ring
  · calc 2 ^ 52 * (E * (E * (E * (1 * U) * U) * U) * (R * U))
          = 2 ^ 52 * (E * E * E) * (U * U * U * U * R) := by ring
      _ ≤ e * e * e * G * (U * U * U * U * R) := Nat.mul_le_mul_right _ c3
      _ = e * e * e * (U * U * U * R) * (U * G) := by ring
      _ ≤ e * e * e * (U * U * U * R) * (M * mf) := Nat.mul_le_mul_left _ hQ
      _ = e * e * e * (U * U * U * R) * (M * mf) * 1 := by ring
      _ ≤ e * e * e * (U * U * U * R) * (M * mf) * 1000 :=
          Nat.mul_le_mul_left _ (by omega)
      _ = e * (e * (e * (M * (R * U)) * mf) * (1000 * U)) * U := by ring

/-- From the lower bound of the quotient to the bound on its integral part. -/
theorem floor_bound (e E U M mf R qu c : Nat) (hU : 0 < U) (hR : 0 < R) (hE : 0 < E)
    (hM : U ≤ 50 * M) (hc : qu < (c + 1) * U)
    (hq : e * (e * (e * (e * (M * (R * U)) * mf) * (1000 * U)) * U)
      ≤ qu * (E * (E * (E * (E * (1 * U) * U) * U) * (R * U)))) :
    20 * mf * (e * e * e * e) < (c + 1) * U * (E * E * E * E) := by
  have hX : 0 < E * E * E * E * (U * U * U * U * R) := by positivity
  have h1 : 20 * mf * (e * e * e * e) * (E * E * E * E * (U * U * U * U * R))
      < (c + 1) * U * (E * E * E * E) * (E * E * E * E * (U * U * U * U * R)) := by
    calc 20 * mf * (e * e * e * e) * (E * E * E * E * (U * U * U * U * R))
        = 20 * mf * (e * e * e * e) * (E * E * E * E) * (U * U * U * R) * U := by ring
      _ ≤ 20 * mf * (e * e * e * e) * (E * E * E * E) * (U * U * U * R) * (50 * M) :=
          Nat.mul_le_mul_left _ hM
      _ = (E * E * E * E) *
            (e * (e * (e * (e * (M * (R * U)) * mf) * (1000 * U)) * U)) := by ring
      _ ≤ (E * E * E * E) *
            (qu * (E * (E * (E * (E * (1 * U) * U) * U) * (R * U)))) :=
          Nat.mul_le_mul_left _ hq
      _ = qu * (E * E * E * E * (E * E * E * E * (U * U * U * U * R))) := by ring
      _ < (c + 1) * U * (E * E * E * E * (E * E * E * E * (U * U * U * U * R))) :=
          Nat.mul_lt_mul_of_pos_right hc (by positivity)
      _ = (c + 1) * U * (E * E * E * E) * (E * E * E * E * (U * U * U * U * R)) := by ring
  exact Nat.lt_of_mul_lt_mul_right h1

set_option exponentiation.threshold 4000 in
/-- Lower bound of the quotient `ramp_time_ms * spi_freq_mhz * 1000.0 / ramp_samples`
for an accepted ramp time and a frequency above 1/20 MHz. -/
theorem quotient_atLeast (t : F64) (mf R : Nat) (ht : t.IsNumber) (hR1 : 1 ≤ R)
    (hR2 : R < 2 ^ 31) (hmf : 2 ^ 1074 < 20 * mf)
    (hacc : F64.lt t (F64.mul F64.c0_02 (F64.ofInt (R : Int))) = false) :
    (F64.div (F64.mul (F64.mul t (.fin false mf)) F64.c1000) (F64.ofInt (R : Int))).AtLeast
      ((2 ^ 53 - 1) * ((2 ^ 53 - 1) * ((2 ^ 53 - 1) * ((2 ^ 53 - 1) *
        (5764607523034235 * 2 ^ 1016 * (R * 2 ^ 1074)) * mf) * (1000 * 2 ^ 1074)) * 2 ^ 1074))
      (2 ^ 53 * (2 ^ 53 * (2 ^ 53 * (2 ^ 53 * (1 * 2 ^ 1074) * 2 ^ 1074) * 2 ^ 1074) *
        (R * 2 ^ 1074))) := by
  have hUpos : 0 < (2 : Nat) ^ 1074 := Nat.two_pow_pos 1074
  have hEpos : 0 < (2 : Nat) ^ 53 := Nat.two_pow_pos 53
  have hmfpos : 0 < mf := by omega
  have hUG : 1000 * 2 ^ 190 ≤ (2 : Nat) ^ 1074 := by norm_num
  have hQ : 2 ^ 1074 * 2 ^ 190 ≤ 5764607523034235 * 2 ^ 1016 * mf := by
    have h1 : 1000 * (2 ^ 1074 * 2 ^ 190) ≤ 1000 * (5764607523034235 * 2 ^ 1016 * mf) := by
      calc 1000 * (2 ^ 1074 * 2 ^ 190) = 2 ^ 1074 * (1000 * 2 ^ 190) := by ring
        _ ≤ 2 ^ 1074 * 2 ^ 1074 := Nat.mul_le_mul_left _ hUG
        _ ≤ (50 * (5764607523034235 * 2 ^ 1016)) * (20 * mf) :=
            Nat.mul_le_mul c0_02_lower (Nat.le_of_lt hmf)
        _ = 1000 * (5764607523034235 * 2 ^ 1016 * mf) := by ring
    exact Nat.le_of_mul_le_mul_left h1 (by norm_num)
  obtain ⟨n1, n2, n3⟩ := norm_chain (2 ^ 53 - 1) (2 ^ 53) (2 ^ 1074)
    (5764607523034235 * 2 ^ 1016) mf R (2 ^ 190) hQ hR1 (by norm_num) (by norm_num)
    (by norm_num)
  have h0 := min_ramp_time_atLeast R hR1 hR2
  have ht0 := atLeast_of_not_lt h0 (by positivity) ht hacc
  have h1 := mul_atLeast ht0 (by positivity) hmfpos n1
  have h2 := @mul_atLeast _ _ _ (1000 * 2 ^ 1074) h1 (by positivity) (by positivity) n2
  rw [ofInt64_natCast R (lt_trans hR2 (by norm_num))]
  exact div_atLeast h2 (by positivity) (Nat.mul_pos hR1 hUpos) n3

set_option exponentiation.threshold 4000 in
/-- The ramp delay of an accepted input whose quotient
`ramp_time_ms * spi_freq_mhz * 1000.0 / ramp_samples` is a double below `2^31`,
for a finite frequency `f`: the integral part `c` of the quotient,
with `c + 1 > 20 · f · (1 - 2^-53)^4`. -/
theorem ramp_delay_cycles_lower (w : World) (t : F64) (mf R m : Nat) (ht : t.IsNumber)
    (hR1 : 1 ≤ R) (hR2 : R < 2 ^ 31)
    (hacc : F64.lt t (F64.mul F64.c0_02 (F64.ofInt (R : Int))) = false)
    (hq : F64.div (F64.mul (F64.mul t (.fin false mf)) F64.c1000) (F64.ofInt (R : Int))
      = .fin false m) (hm : m < 2 ^ 31 * 2 ^ 1074) :
    ramp_delay_cycles w t (.fin false mf) (R : Int) = ((m / 2 ^ 1074 : Nat) : Int) ∧
      20 * mf * ((2 ^ 53 - 1) * (2 ^ 53 - 1) * (2 ^ 53 - 1) * (2 ^ 53 - 1))
        < (m / 2 ^ 1074 + 1) * 2 ^ 1074 * (2 ^ 53 * 2 ^ 53 * 2 ^ 53 * 2 ^ 53) := by
  have hUpos : 0 < (2 : Nat) ^ 1074 := Nat.two_pow_pos 1074
  have he4 : ((2 : Nat) ^ 53 - 1) * (2 ^ 53 - 1) * (2 ^ 53 - 1) * (2 ^ 53 - 1)
      < 2 ^ 53 * 2 ^ 53 * 2 ^ 53 * 2 ^ 53 := by norm_num
  refine ⟨?_, ?_⟩
  · unfold ramp_delay_cycles
    rw [hq]
    exact toInt_inRange _ m hm
  · by_cases hbig : 2 ^ 1074 < 20 * mf
    · rcases quotient_atLeast t mf R ht hR1 hR2 hbig hacc with hinf | ⟨m', hm', hle⟩
      · rw [hq] at hinf
        cases hinf
      · rw [hq] at hm'
        cases hm'
        have hlt : m < (m / 2 ^ 1074 + 1) * 2 ^ 1074 := by
          rw [Nat.mul_comm]
          exact Nat.lt_mul_div_succ m hUpos
        exact floor_bound _ _ _ _ mf R m (m / 2 ^ 1074) hUpos hR1 (Nat.two_pow_pos 53)
          c0_02_lower hlt hle
    · calc 20 * mf * ((2 ^ 53 - 1) * (2 ^ 53 - 1) * (2 ^ 53 - 1) * (2 ^ 53 - 1))
          ≤ 2 ^ 1074 * ((2 ^ 53 - 1) * (2 ^ 53 - 1) * (2 ^ 53 - 1) * (2 ^ 53 - 1)) :=
            Nat.mul_le_mul_right _ (not_lt.1 hbig)
        _ < 2 ^ 1074 * (2 ^ 53 * 2 ^ 53 * 2 ^ 53 * 2 ^ 53) :=
            Nat.mul_lt_mul_of_pos_left he4 hUpos
        _ = 1 * 2 ^ 1074 * (2 ^ 53 * 2 ^ 53 * 2 ^ 53 * 2 ^ 53) := by rw [Nat.one_mul]
        _ ≤ (m / 2 ^ 1074 + 1) * 2 ^ 1074 * (2 ^ 53 * 2 ^ 53 * 2 ^ 53 * 2 ^ 53) :=
            Nat.mul_le_mul_right _ (Nat.mul_le_mul_right _ (Nat.le_add_left 1 _))
/-! ## Claims about the runner -/

/-- C11.  Every run of `cmd_rev_c_compat` that returns 0 has a plan from the
prompts; when the lockout `L` and the expected trigger count `n` of the plan
are below `2^28`, the trace of the run consists of events that are not
trigger commands, then the end of the preload wait, then exactly four words
written to the trigger command FIFO, in this order: SYNC_CH, RESET_COUNT,
SET_LOCKOUT with value `L`, EXPECT_EXT with the log bit and value `n`. -/
theorem C11_trigger_commands (ops : TrigOpcodes) (hops : ops.Fit) (w : World)
    (flags : List command_flag_t) (st : RunState) (hst : st.events = [])
    (hret : (cmd_rev_c_compat ops w flags st).1 = .returned 0) :
    ∃ plan, readPlan w = some plan ∧
      (plan.lockout_time < 2 ^ 28 →
       expected_triggers plan.line_count plan.iterations.toNat plan.final_zero_trigger < 2 ^ 28 →
        ∃ pre c,
          (cmd_rev_c_compat ops w flags st).2.events
            = pre ++ [.preload_wait_end c] ++
              [.trigger_word (trigWord ops.TRIG_CMD_SYNC_CH 0 0),
               .trigger_word (trigWord ops.TRIG_CMD_RESET_COUNT 0 0),
               .trigger_word (trigWord ops.TRIG_CMD_SET_LOCKOUT 0 plan.lockout_time),
               .trigger_word (trigWord ops.TRIG_CMD_EXPECT_EXT 1
                 (expected_triggers plan.line_count plan.iterations.toNat
                   plan.final_zero_trigger))] ∧
          (∀ e ∈ pre, e.isTriggerWord = false) ∧
          triggerWords (cmd_rev_c_compat ops w flags st).2.events
            = [trigWord ops.TRIG_CMD_SYNC_CH 0 0, trigWord ops.TRIG_CMD_RESET_COUNT 0 0,
               trigWord ops.TRIG_CMD_SET_LOCKOUT 0 plan.lockout_time,
               trigWord ops.TRIG_CMD_EXPECT_EXT 1
                 (expected_triggers plan.line_count plan.iterations.toNat
                   plan.final_zero_trigger)]) := by
  cases hp : readPlan w with
  | none =>
      have := (run_no_plan ops w flags st hp).1
      rw [this] at hret
      exact absurd hret (by decide)
  | some plan =>
      refine ⟨plan, rfl, fun hL hn => ?_⟩
      rcases run_trace ops hops w flags st plan hp with h | h | h | h
      · rw [h.1] at hret
        exact absurd hret (by decide)
      · obtain ⟨pre, -, -, hne, -⟩ := h
        exact absurd hret hne
      · obtain ⟨pre, c, -, -, -, -, hm, -⟩ := h
        rw [hm] at hret
        exact absurd hret (by decide)
      · obtain ⟨pre, c, hpre, -, -, -, hev, -⟩ := h
        obtain ⟨re, -⟩ := reset_event_early flags
        have hall : ((if has_flag flags .FLAG_NO_RESET then [] else [Event.safe_buffer_reset])
            ++ pre).all Event.early = true := by
          rw [List.all_append, re, hpre]; rfl
        rw [afterReset_events, hst, List.nil_append] at hev
        simp only [startWords, if_pos hL, if_pos hn, List.map_append, List.map_cons,
          List.map_nil, List.cons_append, List.nil_append] at hev
        refine ⟨_, c, hev, not_trigger_of_early hall, ?_⟩
        rw [hev, triggerWords_append, triggerWords_append, triggerWords_early _ hall]
        rfl

/-- C11 (witness): the example world (50 MHz, lockout 2 ms, two lines, one
iteration) returns 0 and writes SYNC_CH, RESET_COUNT, SET_LOCKOUT(100000) and
EXPECT_EXT(2, log) to the trigger command FIFO. -/
theorem C11_trigger_commands_witness :
    (cmd_rev_c_compat exampleOpcodes exampleWorld [] RunState.init).1 = .returned 0 ∧
    triggerWords (cmd_rev_c_compat exampleOpcodes exampleWorld [] RunState.init).2.events
      = [0x20000000, 0xC0000000, 0x400186A0, 0x70000002] ∧
    ∃ plan, readPlan exampleWorld = some plan ∧ plan.lockout_time = 100000 :=
  have h := C11_trigger_commands exampleOpcodes (by decide) exampleWorld [] RunState.init rfl
    (by decide!)
  ⟨by decide!, by decide!, by
    obtain ⟨plan, hp, -⟩ := h
    refine ⟨plan, hp, ?_⟩
    have : readPlan exampleWorld = some
        examplePlan := by decide!
    rw [this] at hp
    cases hp
    rfl⟩

/-- C12 (counterexample).  In the world of scenario S5 (the command FIFOs stay
empty for the 500 checks, the user answers `n`) the runner returns -1, writes
nothing to the trigger command FIFO and sets its two static stop flags, but
the drain workers it provisioned keep running with their stop flags clear:
those of the four ADC data streams and that of the trigger data stream. -/
theorem C12_counterexample :
    Event.preload_wait_end 500 ∈
      (cmd_rev_c_compat exampleOpcodes worldS5 [] RunState.init).2.events ∧
    abortAnswer worldS5 = true ∧
    (cmd_rev_c_compat exampleOpcodes worldS5 [] RunState.init).1 = .returned (-1) ∧
    triggerWords (cmd_rev_c_compat exampleOpcodes worldS5 [] RunState.init).2.events = [] ∧
    (cmd_rev_c_compat exampleOpcodes worldS5 [] RunState.init).2.dac_cmd_stream_stop = true ∧
    (cmd_rev_c_compat exampleOpcodes worldS5 [] RunState.init).2.adc_cmd_stream_stop = true ∧
    (∀ board, board < 4 →
      (cmd_rev_c_compat exampleOpcodes worldS5 [] RunState.init).2.ctx.adc_data_stream_running
          board = true ∧
      (cmd_rev_c_compat exampleOpcodes worldS5 [] RunState.init).2.ctx.adc_data_stream_stop
          board = false) ∧
    (cmd_rev_c_compat exampleOpcodes worldS5 [] RunState.init).2.ctx.trig_data_stream_running
      = true ∧
    (cmd_rev_c_compat exampleOpcodes worldS5 [] RunState.init).2.ctx.trig_data_stream_stop
      = false := by
  decide!

/-- C12 (amended).  Whenever the preload wait of a run times out (it ends with
`check_count ≥ 500`) and the answer to the continue prompt is not `y`/`Y`, the
runner returns -1, writes nothing to the trigger command FIFO, sets the stop
flags of the DAC and ADC producers, and stops the trigger monitor if it is
active; the context, which holds the stop flags of the drain workers, is left
as the provisioning of the drain workers left it. -/
theorem C12_preload_abort (ops : TrigOpcodes) (hops : ops.Fit) (w : World)
    (flags : List command_flag_t) (st : RunState) (plan : Plan) (hst : st.events = [])
    (hplan : readPlan w = some plan) (c : Nat) (hc : 500 ≤ c)
    (hend : Event.preload_wait_end c ∈ (cmd_rev_c_compat ops w flags st).2.events)
    (hans : abortAnswer w = true) :
    (cmd_rev_c_compat ops w flags st).1 = .returned (-1) ∧
    triggerWords (cmd_rev_c_compat ops w flags st).2.events = [] ∧
    (cmd_rev_c_compat ops w flags st).2.dac_cmd_stream_stop = true ∧
    (cmd_rev_c_compat ops w flags st).2.adc_cmd_stream_stop = true ∧
    (w.is_trigger_monitor_active = true →
      Event.stop_trigger_monitor ∈ (cmd_rev_c_compat ops w flags st).2.events) ∧
    (cmd_rev_c_compat ops w flags st).2.ctx
      = (provisioned w (has_flag flags .FLAG_BIN) plan (afterReset flags st)).ctx := by
  obtain ⟨re, -⟩ := reset_event_early flags
  obtain ⟨se, -⟩ := stop_event_early w
  rcases run_trace ops hops w flags st plan hplan with h | h | h | h
  · exfalso
    rcases h.2 with h2 | h2
    · rw [h2, hst] at hend
      simp at hend
    · rw [h2, emit_events, hst] at hend
      simp at hend
  · exfalso
    obtain ⟨pre, hpre, -, -, hev⟩ := h
    rw [hev, afterReset_events, hst, List.nil_append] at hend
    rcases List.mem_append.1 hend with hm | hm
    · exact absurd (not_preloadEnd_of_early re _ hm) (by simp [Event.isPreloadEnd])
    · exact absurd (not_preloadEnd_of_early hpre _ hm) (by simp [Event.isPreloadEnd])
  · obtain ⟨pre, c', hpre, -, -, -, hret, hev, hd, ha, hctx⟩ := h
    refine ⟨hret, ?_, hd, ha, ?_, hctx⟩
    · rw [hev, triggerWords_append, triggerWords_append, triggerWords_append,
        triggerWords_early _ hpre, triggerWords_early _ se, afterReset_events, hst,
        triggerWords_append, triggerWords_early _ re]
      rfl
    · intro hact
      rw [hev, if_pos hact]
      simp
  · exfalso
    obtain ⟨pre, c', hpre, -, hno, -, hev, -⟩ := h
    rw [hev, afterReset_events, hst, List.nil_append] at hend
    simp only [List.mem_append, List.mem_singleton, List.mem_map] at hend
    rcases hend with ((hm | hm) | hm) | hm
    · exact absurd (not_preloadEnd_of_early re _ hm) (by simp [Event.isPreloadEnd])
    · exact absurd (not_preloadEnd_of_early hpre _ hm) (by simp [Event.isPreloadEnd])
    · cases hm
      exact hno ⟨hc, hans⟩
    · obtain ⟨x, -, hx⟩ := hm
      cases hx

/-- C12 (witness): scenario S5. -/
theorem C12_preload_abort_witness :
    (cmd_rev_c_compat exampleOpcodes worldS5 [] RunState.init).1 = .returned (-1) ∧
    triggerWords (cmd_rev_c_compat exampleOpcodes worldS5 [] RunState.init).2.events = [] ∧
    (cmd_rev_c_compat exampleOpcodes worldS5 [] RunState.init).2.dac_cmd_stream_stop = true ∧
    (cmd_rev_c_compat exampleOpcodes worldS5 [] RunState.init).2.adc_cmd_stream_stop = true ∧
    Event.stop_trigger_monitor ∈
      (cmd_rev_c_compat exampleOpcodes worldS5 [] RunState.init).2.events :=
  have h := C12_preload_abort exampleOpcodes (by decide) worldS5 [] RunState.init
    examplePlan
    rfl (by decide!) 500 (Nat.le_refl _) (by decide!) (by decide!)
  ⟨h.1, h.2.1, h.2.2.1, h.2.2.2.1, h.2.2.2.2.1 rfl⟩

/-- C13 (counterexample).  At 1 MHz with a lockout of 268436 ms the lockout is
268436000 cycles, at least `2^28`: `trigger_cmd_set_lockout` rejects it and
writes nothing, and the runner writes the three other trigger commands and
returns 0. -/
theorem C13_counterexample :
    (∃ plan, readPlan worldLongLockout = some plan ∧ plan.lockout_time = 268436000) ∧
    2 ^ 28 ≤ 268436000 ∧
    trigger_cmd_set_lockout exampleOpcodes [0x20000000, 0xC0000000] 268436000
      = [0x20000000, 0xC0000000] ∧
    triggerWords (cmd_rev_c_compat exampleOpcodes worldLongLockout [] RunState.init).2.events
      = [0x20000000, 0xC0000000, 0x70000002] ∧
    (cmd_rev_c_compat exampleOpcodes worldLongLockout [] RunState.init).1 = .returned 0 := by
  refine ⟨⟨planLongLockout, by decide!, rfl⟩,
    by decide, by decide!, by decide!, by decide!⟩

/-- C13 (amended).  Whenever a run reaches the trigger commands (it writes a
word to the trigger command FIFO) and a trigger codec rejects its argument
(lockout `L ≥ 2^28` or expected trigger count `n ≥ 2^28`), the rejecting codec
writes no word, the failure is not reported to the runner, the other trigger
commands are written as usual and the runner returns 0. -/
theorem C13_codec_rejection_unreported (ops : TrigOpcodes) (hops : ops.Fit) (w : World)
    (flags : List command_flag_t) (st : RunState) (plan : Plan) (hst : st.events = [])
    (hplan : readPlan w = some plan) (x : Nat)
    (hreach : Event.trigger_word x ∈ (cmd_rev_c_compat ops w flags st).2.events)
    (hrej : 2 ^ 28 ≤ plan.lockout_time ∨
      2 ^ 28 ≤ expected_triggers plan.line_count plan.iterations.toNat plan.final_zero_trigger) :
    (cmd_rev_c_compat ops w flags st).1 = .returned 0 ∧
    triggerWords (cmd_rev_c_compat ops w flags st).2.events
      = [trigWord ops.TRIG_CMD_SYNC_CH 0 0, trigWord ops.TRIG_CMD_RESET_COUNT 0 0] ++
        (if plan.lockout_time < 2 ^ 28
          then [trigWord ops.TRIG_CMD_SET_LOCKOUT 0 plan.lockout_time] else []) ++
        (if expected_triggers plan.line_count plan.iterations.toNat plan.final_zero_trigger
            < 2 ^ 28
          then [trigWord ops.TRIG_CMD_EXPECT_EXT 1
            (expected_triggers plan.line_count plan.iterations.toNat plan.final_zero_trigger)]
          else []) ∧
    (triggerWords (cmd_rev_c_compat ops w flags st).2.events).length < 4 := by
  obtain ⟨re, -⟩ := reset_event_early flags
  obtain ⟨se, -⟩ := stop_event_early w
  rcases run_trace ops hops w flags st plan hplan with h | h | h | h
  · exfalso
    rcases h.2 with h2 | h2
    · rw [h2, hst] at hreach
      simp at hreach
    · rw [h2, emit_events, hst] at hreach
      simp at hreach
  · exfalso
    obtain ⟨pre, hpre, -, -, hev⟩ := h
    rw [hev, afterReset_events, hst, List.nil_append] at hreach
    rcases List.mem_append.1 hreach with hm | hm
    · exact absurd (not_trigger_of_early re _ hm) (by simp [Event.isTriggerWord])
    · exact absurd (not_trigger_of_early hpre _ hm) (by simp [Event.isTriggerWord])
  · exfalso
    obtain ⟨pre, c, hpre, -, -, -, -, hev, -⟩ := h
    rw [hev, afterReset_events, hst, List.nil_append] at hreach
    simp only [List.mem_append, List.mem_singleton] at hreach
    rcases hreach with ((hm | hm) | hm) | hm
    · exact absurd (not_trigger_of_early re _ hm) (by simp [Event.isTriggerWord])
    · exact absurd (not_trigger_of_early hpre _ hm) (by simp [Event.isTriggerWord])
    · cases hm
    · exact absurd (not_trigger_of_early se _ hm) (by simp [Event.isTriggerWord])
  · obtain ⟨pre, c, hpre, -, -, hret, hev, -⟩ := h
    have hw : triggerWords (cmd_rev_c_compat ops w flags st).2.events
        = startWords ops plan.lockout_time
            (expected_triggers plan.line_count plan.iterations.toNat plan.final_zero_trigger) := by
      rw [hev, triggerWords_append, triggerWords_append, triggerWords_append,
        triggerWords_early _ hpre, afterReset_events, hst, List.nil_append,
        triggerWords_early _ re, triggerWords_map]
      rfl
    refine ⟨hret, hw, ?_⟩
    rw [hw]
    unfold startWords
    rcases hrej with hr | hr
    · rw [if_neg (by omega)]
      split_ifs <;> simp
    · rw [if_neg (by omega : ¬ expected_triggers plan.line_count plan.iterations.toNat
        plan.final_zero_trigger < 2 ^ 28)]
      split_ifs <;> simp

/-- C13 (witness): the run with a lockout of 268436000 cycles. -/
theorem C13_codec_rejection_unreported_witness :
    (cmd_rev_c_compat exampleOpcodes worldLongLockout [] RunState.init).1 = .returned 0 ∧
    (triggerWords
      (cmd_rev_c_compat exampleOpcodes worldLongLockout [] RunState.init).2.events).length < 4 :=
  have h := C13_codec_rejection_unreported exampleOpcodes (by decide) worldLongLockout []
    RunState.init
    planLongLockout
    rfl (by decide!) 0x20000000 (by decide!) (Or.inl (by decide))
  ⟨h.1, h.2.2⟩

/-- C14 (counterexample).  With the two-line file and `2^28 + 1` iterations the
product `I · lines_in_file` exceeds `2^28`, yet the runner returns 0 after it
has added the stoppers, provisioned the five drain workers and started the
two producer threads; only the EXPECT_EXT codec refuses the count. -/
theorem C14_counterexample :
    validate_rev_c_file_format_amps worldManyIterations.dac_file = some 2 ∧
    worldManyIterations.iterations = some (2 ^ 28 + 1) ∧
    (2 ^ 28 + 1) * 2 > 2 ^ 28 ∧
    (cmd_rev_c_compat exampleOpcodes worldManyIterations [] RunState.init).1 = .returned 0 ∧
    ((cmd_rev_c_compat exampleOpcodes worldManyIterations [] RunState.init).2.events.filter
      Event.starts).length = 19 ∧
    (drainFlags
      (cmd_rev_c_compat exampleOpcodes worldManyIterations [] RunState.init).2.events).length
      = 5 ∧
    triggerWords (cmd_rev_c_compat exampleOpcodes worldManyIterations [] RunState.init).2.events
      = [0x20000000, 0xC0000000, 0x400186A0] := by
  decide!

/-- C14 (amended).  The only check of the runner on the iteration count is
`I ≥ 1`: for every iteration count `I < 1` it returns -1 before any stopper,
drain worker or producer is started (the only thing it may have done is the
buffer reset). -/
theorem C14_iteration_check (ops : TrigOpcodes) (w : World) (flags : List command_flag_t)
    (st : RunState) (i : Int) (hw : w.iterations = some i) (hi : i < 1) :
    (cmd_rev_c_compat ops w flags st).1 = .returned (-1) ∧
    ((cmd_rev_c_compat ops w flags st).2 = st ∨
     (cmd_rev_c_compat ops w flags st).2 = st.emit .safe_buffer_reset) ∧
    ((cmd_rev_c_compat ops w flags st).2.events.drop st.events.length).all
      (fun e => !e.starts) = true := by
  have h := run_no_plan ops w flags st (readPlan_none_of_iterations hw hi)
  refine ⟨h.1, h.2, ?_⟩
  rcases h.2 with h2 | h2
  · rw [h2]; simp
  · rw [h2, emit_events]; simp [Event.starts]

/-- C14 (witness): with 0 iterations the runner returns -1 and has only reset
the buffers. -/
theorem C14_iteration_check_witness :
    (cmd_rev_c_compat exampleOpcodes worldNoIterations [] RunState.init).1 = .returned (-1) ∧
    (cmd_rev_c_compat exampleOpcodes worldNoIterations [] RunState.init).2.events
      = [.safe_buffer_reset] :=
  have h := C14_iteration_check exampleOpcodes worldNoIterations [] RunState.init 0 rfl
    (by decide)
  ⟨h.1, by decide!⟩
/-! ## Claims about the ramp delay -/

/-- C15 (counterexample).  With a clock of 1/32 MHz, one ramp sample and a ramp
time of 0.02 ms, the frequency, the sample count and the ramp time pass the
prompts, and the computed `ramp_delay_cycles` is 0, which is less than
`20 · f_MHz = 0.625`: the quotient 0.625 is truncated toward zero. -/
theorem C15_counterexample :
    promptSpiFreq worldSlowClock = some (F64.fin false (2 ^ 1069)) ∧
    promptRampSamples worldSlowClock = some 1 ∧
    promptRampTime worldSlowClock (F64.fin false (2 ^ 1069)) 1 = some 0 ∧
    ¬ ((20 : Int) * 2 ^ 1069 ≤ 0 * 2 ^ 1074) := by
  decide!

set_option exponentiation.threshold 4000 in
/-- C15 (amended).  For every accepted input with `R > 0` ramp samples, a
finite SPI frequency `f` (`f` is `mf · 2^-1074`) and a ramp time that is
a number, whose quotient `ramp_time_ms * spi_freq_mhz * 1000.0 / ramp_samples`
is a double `q` below `2^31` (`q` is `m · 2^-1074`; the conversion to `int` is
then defined), the computed `ramp_delay_cycles` is the integral part `c` of
`q`, a non-negative integer with `c + 1 > 20 · f · (1 - 2^-53)^4`, and hence
`c + 2 > 20 · f`. -/
theorem C15_ramp_delay_bound (w : World) (t : F64) (mf m : Nat) (R cycles : Int)
    (hR1 : 0 < R) (hR2 : R < 2 ^ 31)
    (ht : w.ramp_time_ms = some t) (htn : t.IsNumber)
    (hq : F64.div (F64.mul (F64.mul t (.fin false mf)) F64.c1000) (F64.ofInt R)
      = .fin false m) (hm : m < 2 ^ 31 * 2 ^ 1074)
    (hacc : promptRampTime w (.fin false mf) R = some cycles) :
    cycles = ((m / 2 ^ 1074 : Nat) : Int) ∧
      20 * mf * (2 ^ 53 - 1) ^ 4 < (m / 2 ^ 1074 + 1) * 2 ^ 1074 * (2 ^ 53) ^ 4 ∧
      20 * mf < (m / 2 ^ 1074 + 2) * 2 ^ 1074 := by
  obtain ⟨Rn, rfl⟩ : ∃ Rn : Nat, R = (Rn : Int) := ⟨R.toNat, by omega⟩
  have hRn1 : 1 ≤ Rn := by omega
  have hRn2 : Rn < 2 ^ 31 := by exact_mod_cast hR2
  unfold promptRampTime at hacc
  rw [if_pos hR1, ht] at hacc
  simp only at hacc
  by_cases hlt : F64.lt t (F64.mul F64.c0_02 (F64.ofInt (Rn : Int))) = true
  · rw [if_pos hlt] at hacc
    cases hacc
  rw [if_neg hlt] at hacc
  obtain ⟨hc, hmain⟩ := ramp_delay_cycles_lower w t mf Rn m htn hRn1 hRn2
    (by simpa using hlt) hq hm
  rw [hc] at hacc
  have hcyc : cycles = ((m / 2 ^ 1074 : Nat) : Int) := (Option.some.inj hacc).symm
  have hUpos : 0 < (2 : Nat) ^ 1074 := Nat.two_pow_pos 1074
  have hd : m / 2 ^ 1074 < 2 ^ 31 := (Nat.div_lt_iff_lt_mul hUpos).2 hm
  generalize m / 2 ^ 1074 = c at hmain hcyc hd ⊢
  have e4 : ((2 : Nat) ^ 53 - 1) * (2 ^ 53 - 1) * (2 ^ 53 - 1) * (2 ^ 53 - 1)
      = 6582018229284821245616602068424052390391765670022426078541250561 := by norm_num
  have E4 : (2 : Nat) ^ 53 * 2 ^ 53 * 2 ^ 53 * 2 ^ 53
      = 6582018229284824168619876730229402019930943462534319453394436096 := by norm_num
  have e4p : ((2 : Nat) ^ 53 - 1) ^ 4
      = 6582018229284821245616602068424052390391765670022426078541250561 := by norm_num
  have E4p : ((2 : Nat) ^ 53) ^ 4
      = 6582018229284824168619876730229402019930943462534319453394436096 := by norm_num
  rw [e4, E4] at hmain
  refine ⟨hcyc, by rw [e4p, E4p]; exact hmain, ?_⟩
  by_contra hcon
  have hcon' : (c + 2) * 2 ^ 1074 ≤ 20 * mf := not_lt.1 hcon
  have h1 : (c + 2) * 6582018229284821245616602068424052390391765670022426078541250561
      * 2 ^ 1074
      < (c + 1) * 6582018229284824168619876730229402019930943462534319453394436096
      * 2 ^ 1074 := by
    calc (c + 2) * 6582018229284821245616602068424052390391765670022426078541250561 * 2 ^ 1074
        = (c + 2) * 2 ^ 1074 *
            6582018229284821245616602068424052390391765670022426078541250561 := by ring
      _ ≤ 20 * mf * 6582018229284821245616602068424052390391765670022426078541250561 :=
          Nat.mul_le_mul_right _ hcon'
      _ < (c + 1) * 2 ^ 1074 *
            6582018229284824168619876730229402019930943462534319453394436096 := hmain
      _ = (c + 1) * 6582018229284824168619876730229402019930943462534319453394436096
            * 2 ^ 1074 := by ring
  have h3 := Nat.lt_of_mul_lt_mul_right h1
  have e31 : (2 : Nat) ^ 31 = 2147483648 := by norm_num
  rw [e31] at hd
  omega

/-- C15 (witness): 10 ramp samples in 1 ms at 50 MHz give 5000 cycles per
sample, and `20 · 50 < 5000 + 2`. -/
theorem C15_ramp_delay_bound_witness :
    promptRampTime worldRamp (F64.nat 50) 10 = some 5000 ∧
    (5000 : Int) = (((5000 * 2 ^ 1074) / 2 ^ 1074 : Nat) : Int) ∧
    20 * (50 * 2 ^ 1074) < ((5000 * 2 ^ 1074) / 2 ^ 1074 + 2) * 2 ^ 1074 :=
  have h := C15_ramp_delay_bound worldRamp (F64.nat 1) (50 * 2 ^ 1074) (5000 * 2 ^ 1074) 10 5000
    (by decide) (by decide) rfl (by show 1 * 2 ^ 1074 < 2 ^ 2098; decide!)
    (by decide!) (by decide!) (by decide!)
  ⟨by decide!, h.1, h.2.2⟩
/-- C16 (counterexample).  At 1 MHz a lockout time of `2^-10` ms is positive
and passes the prompt, the computed lockout is 0 cycles, and the runner does
not reject it: it adds the stoppers, provisions the drain workers, starts the
producers, writes SET_LOCKOUT with value 0 and returns 0. -/
theorem C16_counterexample :
    cycles_of_ms worldShortLockout (F64.dyadic 1 10) (F64.nat 1) = 0 ∧
    (∃ plan, readPlan worldShortLockout = some plan ∧ plan.lockout_time = 0) ∧
    (cmd_rev_c_compat exampleOpcodes worldShortLockout [] RunState.init).1 = .returned 0 ∧
    ((cmd_rev_c_compat exampleOpcodes worldShortLockout [] RunState.init).2.events.filter
      Event.starts).length = 20 ∧
    triggerWords (cmd_rev_c_compat exampleOpcodes worldShortLockout [] RunState.init).2.events
      = [0x20000000, 0xC0000000, 0x40000000, 0x70000002] := by
  refine ⟨by decide!, ⟨planShortLockout, by decide!, rfl⟩, by decide!, by decide!, by decide!⟩

/-- C16 (amended).  The runner rejects a lockout time that is not positive:
for every lockout time `lockout_ms ≤ 0` it returns -1 and starts nothing (the
only thing it may have done is the buffer reset). -/
theorem C16_lockout_check (ops : TrigOpcodes) (w : World) (flags : List command_flag_t)
    (st : RunState) (lockout_ms : F64) (hw : w.lockout_ms = some lockout_ms)
    (hl : F64.le lockout_ms F64.zero = true) :
    (cmd_rev_c_compat ops w flags st).1 = .returned (-1) ∧
    ((cmd_rev_c_compat ops w flags st).2 = st ∨
     (cmd_rev_c_compat ops w flags st).2 = st.emit .safe_buffer_reset) ∧
    ((cmd_rev_c_compat ops w flags st).2.events.drop st.events.length).all
      (fun e => !e.starts) = true := by
  have h := run_no_plan ops w flags st (readPlan_none_of_lockout hw hl)
  refine ⟨h.1, h.2, ?_⟩
  rcases h.2 with h2 | h2
  · rw [h2]; simp
  · rw [h2, emit_events]; simp [Event.starts]

/-- C16 (witness): with a lockout of 0 ms the runner returns -1 and has only
reset the buffers. -/
theorem C16_lockout_check_witness :
    (cmd_rev_c_compat exampleOpcodes worldZeroLockout [] RunState.init).1 = .returned (-1) ∧
    (cmd_rev_c_compat exampleOpcodes worldZeroLockout [] RunState.init).2.events
      = [.safe_buffer_reset] :=
  have h := C16_lockout_check exampleOpcodes worldZeroLockout [] RunState.init F64.zero rfl
    (by decide)
  ⟨h.1, by decide!⟩

/-- C17.  With the flag `--bin` (`FLAG_BIN`) the runner computes
`binary_mode = true` and prints `Output format: binary`, but each of the five
drain workers (four ADC data streams, the trigger data stream) is started
with no flag at all (`NULL, 0`): the flag does not reach
`cmd_stream_adc_data_to_file` and `cmd_stream_trig_data_to_file`. -/
theorem C17_bin_flag_not_passed :
    has_flag [command_flag_t.FLAG_BIN] .FLAG_BIN = true ∧
    (cmd_rev_c_compat exampleOpcodes exampleWorld [.FLAG_BIN] RunState.init).1 = .returned 0 ∧
    Event.print_output_format true ∈
      (cmd_rev_c_compat exampleOpcodes exampleWorld [.FLAG_BIN] RunState.init).2.events ∧
    drainFlags (cmd_rev_c_compat exampleOpcodes exampleWorld [.FLAG_BIN] RunState.init).2.events
      = [[], [], [], [], []] ∧
    (cmd_rev_c_compat exampleOpcodes exampleWorld [.FLAG_BIN] RunState.init).2.events.filter
        (fun e => !e.isTriggerWord && !e.isPreloadEnd && e.starts)
      = (cmd_rev_c_compat exampleOpcodes exampleWorld [] RunState.init).2.events.filter
        (fun e => !e.isTriggerWord && !e.isPreloadEnd && e.starts) := by
  decide!
/-! ## Claims about `trigger_read` -/

/-- C18.  `trigger_read` consumes exactly the two oldest words `w0`, `w1` of
the trigger data FIFO and returns the 64-bit value `r` with `r mod 2^32 = w0`
(the first word read is the low half) and `r / 2^32 = w1` (the second word
read is the high half). -/
theorem C18_trigger_read (w0 w1 : Nat) (rest : List Nat) (h0 : w0 < 2 ^ 32) (h1 : w1 < 2 ^ 32) :
    (trigger_read (w0 :: w1 :: rest)).2 = rest ∧
    (trigger_read (w0 :: w1 :: rest)).1 % 2 ^ 32 = w0 ∧
    (trigger_read (w0 :: w1 :: rest)).1 / 2 ^ 32 = w1 ∧
    (trigger_read (w0 :: w1 :: rest)).1 < 2 ^ 64 := by
  have e32 : (2 : Nat) ^ 32 = 4294967296 := by norm_num
  have e64 : (2 : Nat) ^ 64 = 18446744073709551616 := by norm_num
  have hv : (trigger_read (w0 :: w1 :: rest)).1 = 2 ^ 32 * w1 + w0 := by
    simp only [trigger_read, fifoRead, u32]
    have a : w1 % 2 ^ 64 = w1 := Nat.mod_eq_of_lt (by rw [e32] at h1; rw [e64]; omega)
    have b : w1 * 2 ^ 32 % 2 ^ 64 = w1 * 2 ^ 32 :=
      Nat.mod_eq_of_lt (by rw [e32] at h1 ⊢; rw [e64]; omega)
    rw [Nat.mod_eq_of_lt h0, Nat.mod_eq_of_lt h1, Nat.shiftLeft_eq, a, b, Nat.mul_comm w1,
      ← Nat.mul_add_lt_is_or h0]
    apply Nat.mod_eq_of_lt
    rw [e32] at h0 h1 ⊢
    rw [e64]
    omega
  refine ⟨rfl, ?_, ?_, ?_⟩
  · rw [hv, Nat.mul_add_mod, Nat.mod_eq_of_lt h0]
  · rw [hv, Nat.mul_add_div (by norm_num), Nat.div_eq_of_lt h0, Nat.add_zero]
  · rw [hv]
    rw [e32] at h0 h1 ⊢
    rw [e64]
    omega

/-- C18 (witness): the words `0xDEADBEEF` then `0x00000012` give
`0x00000012DEADBEEF`, and the third word stays in the FIFO. -/
theorem C18_trigger_read_witness :
    trigger_read [0xDEADBEEF, 0x12, 7] = (0x12DEADBEEF, [7]) ∧
    (trigger_read [0xDEADBEEF, 0x12, 7]).1 % 2 ^ 32 = 0xDEADBEEF ∧
    (trigger_read [0xDEADBEEF, 0x12, 7]).1 / 2 ^ 32 = 0x12 :=
  have h := C18_trigger_read 0xDEADBEEF 0x12 [7] (by decide) (by decide)
  ⟨by decide!, h.2.1, h.2.2.1⟩
/-! ## Claims about the DAC_WR commands -/

/-- C19.  For the file with the rows `[4,…,4]` and `[2,…,2]`, one iteration and
one ramp sample (`R = 1`, DAC units equal to the current), the DAC thread
sends to board 0 the values 2, 4 for the first row and 1, 2 for the second
row: the ramp of the second row starts from 0, not from the targets 4 of the
first row (from which the first step would be 3).  The array
`prev_line_dac_vals` is never assigned. -/
theorem C19_prev_not_updated :
    (rev_c_dac_cmd_stream_thread runningEnv exampleHw paramsRamp 50 (some rampFile)
      (DacState.init fun _ => 0)).1 = Flow.next ∧
    valuesOfBoard 0 (rev_c_dac_cmd_stream_thread runningEnv exampleHw paramsRamp 50
        (some rampFile) (DacState.init fun _ => 0)).2.cmds
      = [List.replicate 8 2, List.replicate 8 4, List.replicate 8 1, List.replicate 8 2] ∧
    ramped_val 4 2 0 1 = 3 ∧ ramped_val 0 2 0 1 = 1 := by
  decide!

theorem adcPush_writes (env : Env) (hw : AdcHw) (site : AdcSite) (st : AdcState) (cmd : AdcCmd) :
    (adcPush env hw site st cmd).writes = st.writes ++ [(site, cmd)] := by
  simp [adcPush, AdcState.writes, AdcState.tick, AdcEvent.sent]

theorem adcTick_fillOK (env : Env) (hw : AdcHw) (st : AdcState) (h : AdcFillOK hw st) :
    AdcFillOK hw (st.tick env) := by
  intro b
  have := h b
  show st.fill b - env.drain st.time b ≤ _
  omega

theorem adcPush_fillOK (env : Env) (hw : AdcHw) (site : AdcSite) (st : AdcState) (cmd : AdcCmd)
    (h : AdcFillOK hw st) : AdcFillOK hw (adcPush env hw site st cmd) := by
  intro b
  have := h b
  show (if b = cmd.board then min hw.ADC_CMD_FIFO_WORDCOUNT (st.fill b + 1) else st.fill b)
    - env.drain st.time b ≤ _
  split_ifs <;> omega

theorem adcWait_frame (env : Env) (hw : AdcHw) (board need : Nat) :
    ∀ (fuel : Nat) (st : AdcState),
      (adcWaitForSpace env hw board need fuel st).2.writes = st.writes ∧
      (AdcFillOK hw st → AdcFillOK hw (adcWaitForSpace env hw board need fuel st).2) := by
  intro fuel
  induction fuel with
  | zero => intro st; exact ⟨rfl, id⟩
  | succ fuel ih =>
    intro st
    rw [adcWaitForSpace]
    simp only
    have t1 : AdcFillOK hw st → AdcFillOK hw (st.tick env) := adcTick_fillOK env hw st
    have t2 : AdcFillOK hw st → AdcFillOK hw ((st.tick env).tick env) := fun h =>
      adcTick_fillOK env hw _ (t1 h)
    split_ifs
    · exact ⟨rfl, t1⟩
    · exact ⟨rfl, t2⟩
    · exact ⟨by simp [AdcState.writes, AdcState.tick, AdcEvent.sent], fun h b => t2 h b⟩
    · obtain ⟨h1, h2⟩ := ih
        { (st.tick env).tick env with
          log := .poll board (sub32 hw.ADC_CMD_FIFO_WORDCOUNT ((st.tick env).fill board))
                   :: ((st.tick env).tick env).log }
      refine ⟨?_, fun h => h2 (fun b => t2 h b)⟩
      rw [h1]
      simp [AdcState.writes, AdcState.tick, AdcEvent.sent]

theorem range_foldl_const {α : Type} (f : α → AdcCmd → α) (c : AdcCmd) :
    ∀ (n : Nat) (a : α),
      (List.range n).foldl (fun s _ => f s c) a = (List.replicate n c).foldl f a := by
  intro n
  induction n with
  | zero => intro a; rfl
  | succ n ih =>
    intro a
    rw [List.range_succ, List.foldl_append, ih, List.replicate_succ', List.foldl_append]
    rfl

theorem adcSequence_eq (env : Env) (hw : AdcHw) (p : rev_c_params_t) (site : AdcSite)
    (board : Nat) (st : AdcState) :
    adcSequence env hw p site board st
      = (adcSequenceCmds p board).foldl (adcPush env hw site) st := by
  unfold adcSequence adcSequenceCmds
  simp only
  split_ifs
  · rw [List.foldl_cons, List.foldl_append, range_foldl_const]
    rfl
  · rfl

theorem foldlPush_writes (env : Env) (hw : AdcHw) (site : AdcSite) :
    ∀ (cmds : List AdcCmd) (st : AdcState),
      (cmds.foldl (adcPush env hw site) st).writes = st.writes ++ cmds.map fun c => (site, c) := by
  intro cmds
  induction cmds with
  | nil => intro st; simp
  | cons c cmds ih =>
    intro st
    rw [List.foldl_cons, ih, adcPush_writes, List.map_cons, List.append_assoc]
    rfl

theorem foldlPush_fillOK (env : Env) (hw : AdcHw) (site : AdcSite) :
    ∀ (cmds : List AdcCmd) (st : AdcState), AdcFillOK hw st →
      AdcFillOK hw (cmds.foldl (adcPush env hw site) st) := by
  intro cmds
  induction cmds with
  | nil => intro st h; exact h
  | cons c cmds ih =>
    intro st h
    rw [List.foldl_cons]
    exact ih _ (adcPush_fillOK env hw site st c h)

theorem adcSequence_frame (env : Env) (hw : AdcHw) (p : rev_c_params_t) (site : AdcSite)
    (board : Nat) (st : AdcState) :
    (adcSequence env hw p site board st).writes = st.writes ++ seqWrites p site board ∧
    (AdcFillOK hw st → AdcFillOK hw (adcSequence env hw p site board st)) := by
  rw [adcSequence_eq]
  exact ⟨foldlPush_writes env hw site _ st, foldlPush_fillOK env hw site _ st⟩

/-! ### The waits end when the hardware consumes commands -/

theorem adcWait_ready (env : Env) (hw : AdcHw) (board need : Nat)
    (hns : ∀ t, env.stop t = false) (hpres : ∀ t b, env.present t b = true)
    (hdrain : ∀ t b, 1 ≤ env.drain t b) (hC : hw.ADC_CMD_FIFO_WORDCOUNT < 2 ^ 32)
    (hneed : need ≤ hw.ADC_CMD_FIFO_WORDCOUNT) :
    ∀ (fuel : Nat) (st : AdcState), AdcFillOK hw st →
    st.fill board + need ≤ hw.ADC_CMD_FIFO_WORDCOUNT + 2 * fuel + 1 →
    (adcWaitForSpace env hw board need (fuel + 1) st).1 = Wait.ready := by
  intro fuel
  induction fuel with
  | zero =>
    intro st hfill hb
    rw [adcWaitForSpace]
    have h1 := hfill board
    have hd := hdrain st.time board
    have hf1 : (st.tick env).fill board = st.fill board - env.drain st.time board := rfl
    have hle : (st.tick env).fill board ≤ hw.ADC_CMD_FIFO_WORDCOUNT := by omega
    simp only [hns, hpres, Bool.false_eq_true, if_false, Bool.not_true]
    rw [sub32_eq _ _ hC hle, if_pos]
    omega
  | succ fuel ih =>
    intro st hfill hb
    rw [adcWaitForSpace]
    have h1 := hfill board
    have hd := hdrain st.time board
    have hd2 := hdrain (st.tick env).time board
    have hf1 : (st.tick env).fill board = st.fill board - env.drain st.time board := rfl
    have hf2 : ((st.tick env).tick env).fill board =
        (st.tick env).fill board - env.drain (st.tick env).time board := rfl
    have hle : (st.tick env).fill board ≤ hw.ADC_CMD_FIFO_WORDCOUNT := by omega
    simp only [hns, hpres, Bool.false_eq_true, if_false, Bool.not_true]
    rw [sub32_eq _ _ hC hle]
    by_cases hr : need ≤ hw.ADC_CMD_FIFO_WORDCOUNT - (st.tick env).fill board
    · rw [if_pos hr]
    · rw [if_neg hr]
      apply ih
      · exact fun b => adcTick_fillOK env hw _ (adcTick_fillOK env hw st hfill) b
      · show ((st.tick env).tick env).fill board + need ≤ _
        omega

theorem adcWait_ready_of_fillOK (env : Env) (hw : AdcHw) (board need fuel : Nat) (st : AdcState)
    (hns : ∀ t, env.stop t = false) (hpres : ∀ t b, env.present t b = true)
    (hdrain : ∀ t b, 1 ≤ env.drain t b) (hC : hw.ADC_CMD_FIFO_WORDCOUNT < 2 ^ 32)
    (hneed : need ≤ hw.ADC_CMD_FIFO_WORDCOUNT)
    (hfuel : need + 1 ≤ 2 * fuel) (hfill : AdcFillOK hw st) :
    (adcWaitForSpace env hw board need fuel st).1 = Wait.ready := by
  obtain ⟨f, rfl⟩ : ∃ f, fuel = f + 1 := ⟨fuel - 1, by omega⟩
  apply adcWait_ready env hw board need hns hpres hdrain hC hneed f st hfill
  have := hfill board
  omega

/-! ### The loops over the boards -/

theorem adcSetOrdLoop_cons (env : Env) (hw : AdcHw) (fuel board : Nat) (boards : List Nat)
    (st : AdcState) :
    adcSetOrdLoop env hw fuel (board :: boards) st =
      match adcWaitForSpace env hw board 1 fuel st with
      | (.absent, st1) => (.cleanup, st1)
      | (.timeout, st1) => (.timeout, st1)
      | (_, st1) =>
          adcSetOrdLoop env hw fuel boards
            (adcPush env hw .set_ord st1 (.set_ord board [0, 1, 2, 3, 4, 5, 6, 7])) :=
  adcSetOrdLoop.eq_2 env hw fuel st board boards

theorem adcBoardLoop_cons (env : Env) (hw : AdcHw) (p : rev_c_params_t)
    (fuel iteration line_num board : Nat) (boards : List Nat) (st : AdcState) :
    adcBoardLoop env hw p fuel iteration line_num (board :: boards) st =
      match adcWaitForSpace env hw board (adcRowNeed p) fuel st with
      | (.absent, st1) => (.cleanup, st1)
      | (.timeout, st1) => (.timeout, st1)
      | (_, st1) =>
          adcBoardLoop env hw p fuel iteration line_num boards
            (adcSequence env hw p (.row iteration line_num) board st1) :=
  adcBoardLoop.eq_2 env hw p fuel iteration line_num st board boards

theorem adcFinalZeroLoop_cons (env : Env) (hw : AdcHw) (p : rev_c_params_t)
    (fuel board : Nat) (boards : List Nat) (st : AdcState) :
    adcFinalZeroLoop env hw p fuel (board :: boards) st =
      match adcWaitForSpace env hw board 3 fuel st with
      | (.absent, st1) => (.cleanup, st1)
      | (.timeout, st1) => (.timeout, st1)
      | (_, st1) =>
          adcFinalZeroLoop env hw p fuel boards
            (adcSequence env hw p .final_zero board st1) :=
  adcFinalZeroLoop.eq_2 env hw p fuel st board boards

/-! ### The commands of a served run -/

theorem adcSetOrdLoop_exact (env : Env) (hw : AdcHw) (p : rev_c_params_t) (fuel : Nat)
    (h : AdcServed env hw p fuel) :
    ∀ (boards : List Nat) (st : AdcState), AdcFillOK hw st →
      (adcSetOrdLoop env hw fuel boards st).1 = Flow.next ∧
      AdcFillOK hw (adcSetOrdLoop env hw fuel boards st).2 ∧
      (adcSetOrdLoop env hw fuel boards st).2.writes = st.writes ++
        boards.map fun b => (AdcSite.set_ord, AdcCmd.set_ord b [0, 1, 2, 3, 4, 5, 6, 7]) := by
  obtain ⟨hns, hpres, hdrain, hC, -, h3, -, hf3⟩ := h
  intro boards
  induction boards with
  | nil => intro st hfill; exact ⟨rfl, hfill, by simp [adcSetOrdLoop]⟩
  | cons b boards ih =>
    intro st hfill
    have hr := adcWait_ready_of_fillOK env hw b 1 fuel st hns hpres hdrain hC (by omega)
      (by omega) hfill
    obtain ⟨hw1, hw2⟩ := adcWait_frame env hw b 1 fuel st
    rw [adcSetOrdLoop]
    rcases hres : adcWaitForSpace env hw b 1 fuel st with ⟨r, st1⟩
    rw [hres] at hr hw1 hw2
    simp only at hr hw1 hw2
    subst hr
    simp only
    obtain ⟨i1, i2, i3⟩ := ih _ (adcPush_fillOK env hw .set_ord st1
      (.set_ord b [0, 1, 2, 3, 4, 5, 6, 7]) (hw2 hfill))
    refine ⟨i1, i2, ?_⟩
    rw [i3, adcPush_writes, hw1, List.map_cons, List.append_assoc]
    rfl

theorem adcSeqLoop_exact (env : Env) (hw : AdcHw) (p : rev_c_params_t) (fuel need : Nat)
    (site : AdcSite) (loop : List Nat → AdcState → Flow × AdcState)
    (hloop : ∀ board boards st, loop (board :: boards) st =
      match adcWaitForSpace env hw board need fuel st with
      | (.absent, st1) => (.cleanup, st1)
      | (.timeout, st1) => (.timeout, st1)
      | (_, st1) => loop boards (adcSequence env hw p site board st1))
    (hnil : ∀ st, loop [] st = (.next, st))
    (hns : ∀ t, env.stop t = false) (hpres : ∀ t b, env.present t b = true)
    (hdrain : ∀ t b, 1 ≤ env.drain t b) (hC : hw.ADC_CMD_FIFO_WORDCOUNT < 2 ^ 32)
    (hneed : need ≤ hw.ADC_CMD_FIFO_WORDCOUNT) (hfuel : need + 1 ≤ 2 * fuel) :
    ∀ (boards : List Nat) (st : AdcState), AdcFillOK hw st →
      (loop boards st).1 = Flow.next ∧ AdcFillOK hw (loop boards st).2 ∧
      (loop boards st).2.writes = st.writes ++ boards.flatMap (seqWrites p site) := by
  intro boards
  induction boards with
  | nil => intro st hfill; rw [hnil]; exact ⟨rfl, hfill, by simp⟩
  | cons b boards ih =>
    intro st hfill
    have hr := adcWait_ready_of_fillOK env hw b need fuel st hns hpres hdrain hC hneed hfuel hfill
    obtain ⟨hw1, hw2⟩ := adcWait_frame env hw b need fuel st
    rw [hloop]
    rcases hres : adcWaitForSpace env hw b need fuel st with ⟨r, st1⟩
    rw [hres] at hr hw1 hw2
    simp only at hr hw1 hw2
    subst hr
    simp only
    obtain ⟨s1, s2⟩ := adcSequence_frame env hw p site b st1
    obtain ⟨i1, i2, i3⟩ := ih _ (s2 (hw2 hfill))
    refine ⟨i1, i2, ?_⟩
    rw [i3, s1, hw1, List.flatMap_cons, List.append_assoc]

theorem adcBoardLoop_exact (env : Env) (hw : AdcHw) (p : rev_c_params_t)
    (fuel iteration line_num : Nat) (h : AdcServed env hw p fuel)
    (st : AdcState) (hfill : AdcFillOK hw st) :
    (adcBoardLoop env hw p fuel iteration line_num [0, 1, 2, 3] st).1 = Flow.next ∧
    AdcFillOK hw (adcBoardLoop env hw p fuel iteration line_num [0, 1, 2, 3] st).2 ∧
    (adcBoardLoop env hw p fuel iteration line_num [0, 1, 2, 3] st).2.writes
      = st.writes ++ rowWrites p (iteration, line_num) := by
  obtain ⟨hns, hpres, hdrain, hC, hn, -, hf, -⟩ := h
  exact adcSeqLoop_exact env hw p fuel (adcRowNeed p) (.row iteration line_num)
    (adcBoardLoop env hw p fuel iteration line_num)
    (adcBoardLoop_cons env hw p fuel iteration line_num) (fun st => by rw [adcBoardLoop])
    hns hpres hdrain hC hn hf [0, 1, 2, 3] st hfill

theorem adcFinalZeroLoop_exact (env : Env) (hw : AdcHw) (p : rev_c_params_t) (fuel : Nat)
    (h : AdcServed env hw p fuel) (st : AdcState) (hfill : AdcFillOK hw st) :
    (adcFinalZeroLoop env hw p fuel [0, 1, 2, 3] st).1 = Flow.next ∧
    AdcFillOK hw (adcFinalZeroLoop env hw p fuel [0, 1, 2, 3] st).2 ∧
    (adcFinalZeroLoop env hw p fuel [0, 1, 2, 3] st).2.writes
      = st.writes ++ [0, 1, 2, 3].flatMap (seqWrites p .final_zero) := by
  obtain ⟨hns, hpres, hdrain, hC, -, h3, -, hf3⟩ := h
  exact adcSeqLoop_exact env hw p fuel 3 .final_zero (adcFinalZeroLoop env hw p fuel)
    (adcFinalZeroLoop_cons env hw p fuel) (fun st => by rw [adcFinalZeroLoop])
    hns hpres hdrain hC h3 (by omega) [0, 1, 2, 3] st hfill

theorem adcLineLoop_exact (env : Env) (hw : AdcHw) (p : rev_c_params_t) (fuel iteration : Nat)
    (h : AdcServed env hw p fuel) :
    ∀ (todo line_num : Nat) (st : AdcState), AdcFillOK hw st →
      (adcLineLoop env hw p fuel iteration todo line_num st).1 = Flow.next ∧
      AdcFillOK hw (adcLineLoop env hw p fuel iteration todo line_num st).2 ∧
      (adcLineLoop env hw p fuel iteration todo line_num st).2.writes = st.writes ++
        ((List.range todo).map fun k => (iteration, line_num + k)).flatMap (rowWrites p) := by
  intro todo
  induction todo with
  | zero => intro line_num st hfill; exact ⟨rfl, hfill, by simp [adcLineLoop]⟩
  | succ todo ih =>
    intro line_num st hfill
    rw [adcLineLoop]
    simp only [h.1, Bool.false_eq_true, if_false]
    obtain ⟨b1, b2, b3⟩ := adcBoardLoop_exact env hw p fuel iteration line_num h (st.tick env)
      (adcTick_fillOK env hw st hfill)
    rcases hres : adcBoardLoop env hw p fuel iteration line_num [0, 1, 2, 3] (st.tick env)
      with ⟨fl, st2⟩
    rw [hres] at b1 b2 b3
    simp only at b1 b2 b3
    subst b1
    simp only
    obtain ⟨i1, i2, i3⟩ := ih (line_num + 1) st2 b2
    refine ⟨i1, i2, ?_⟩
    rw [i3, b3, List.range_succ_eq_map, List.map_cons, List.flatMap_cons, List.map_map,
      List.append_assoc]
    have e : (fun k => (iteration, line_num + 1 + k)) =
        (fun k => (iteration, line_num + k)) ∘ Nat.succ := by
      funext k
      simp only [Function.comp, Nat.succ_eq_add_one]
      congr 1
      omega
    rw [e]
    rfl

theorem adcIterationLoop_exact (env : Env) (hw : AdcHw) (p : rev_c_params_t) (fuel : Nat)
    (h : AdcServed env hw p fuel) :
    ∀ (todo iteration : Nat) (st : AdcState), AdcFillOK hw st →
      (adcIterationLoop env hw p fuel todo iteration st).1 = Flow.next ∧
      AdcFillOK hw (adcIterationLoop env hw p fuel todo iteration st).2 ∧
      (adcIterationLoop env hw p fuel todo iteration st).2.writes = st.writes ++
        (adcRows p.line_count iteration todo).flatMap (rowWrites p) := by
  intro todo
  induction todo with
  | zero => intro iteration st hfill; exact ⟨rfl, hfill, by simp [adcRows, adcIterationLoop]⟩
  | succ todo ih =>
    intro iteration st hfill
    rw [adcIterationLoop]
    simp only [h.1, Bool.false_eq_true, if_false]
    obtain ⟨b1, b2, b3⟩ := adcLineLoop_exact env hw p fuel iteration h p.line_count 1
      (st.tick env) (adcTick_fillOK env hw st hfill)
    rcases hres : adcLineLoop env hw p fuel iteration p.line_count 1 (st.tick env)
      with ⟨fl, st2⟩
    rw [hres] at b1 b2 b3
    simp only at b1 b2 b3
    subst b1
    simp only
    obtain ⟨i1, i2, i3⟩ := ih (iteration + 1) st2 b2
    refine ⟨i1, i2, ?_⟩
    rw [i3, b3, adcRows, List.flatMap_append, List.append_assoc]
    rfl

/-- A served run of the ADC thread ends by itself and sends the set_ord
commands, the sequences of all rows of all iterations for boards 0 to 3 and,
when requested, the final-zero sequences. -/
theorem adc_thread_exact (env : Env) (hw : AdcHw) (p : rev_c_params_t) (fuel : Nat)
    (h : AdcServed env hw p fuel) (st : AdcState) (hfill : AdcFillOK hw st) :
    (rev_c_adc_cmd_stream_thread env hw p fuel st).1 = Flow.next ∧
    (rev_c_adc_cmd_stream_thread env hw p fuel st).2.writes = st.writes ++
      (setOrdWrites ++ (adcRows p.line_count 0 p.iterations).flatMap (rowWrites p) ++
        finalZeroWrites p) := by
  unfold rev_c_adc_cmd_stream_thread
  obtain ⟨a1, a2, a3⟩ := adcSetOrdLoop_exact env hw p fuel h [0, 1, 2, 3] st hfill
  rcases hres : adcSetOrdLoop env hw fuel [0, 1, 2, 3] st with ⟨fl, st1⟩
  rw [hres] at a1 a2 a3
  simp only at a1 a2 a3
  subst a1
  simp only
  obtain ⟨b1, b2, b3⟩ := adcIterationLoop_exact env hw p fuel h p.iterations 0 st1 a2
  rcases hres2 : adcIterationLoop env hw p fuel p.iterations 0 st1 with ⟨fl2, st2⟩
  rw [hres2] at b1 b2 b3
  simp only at b1 b2 b3
  subst b1
  simp only
  unfold adcFinalZero finalZeroWrites
  by_cases hz : p.final_zero_trigger = true
  · simp only [hz, if_true, h.1, Bool.false_eq_true, if_false]
    obtain ⟨c1, -, c3⟩ := adcFinalZeroLoop_exact env hw p fuel h (st2.tick env)
      (adcTick_fillOK env hw st2 b2)
    refine ⟨c1, ?_⟩
    rw [c3]
    show st2.writes ++ _ = _
    rw [b3, a3]
    simp only [setOrdWrites, List.append_assoc]
  · simp only [hz, Bool.false_eq_true, if_false]
    rw [b3, a3]
    simp only [setOrdWrites, List.append_assoc, List.append_nil, true_and]

/-! ### The poll that precedes the commands of a row -/

theorem rowPolled_tail (need : Nat) (e : AdcEvent) (log : List AdcEvent)
    (h : RowPolled need (e :: log)) : RowPolled need log := by
  cases e with
  | poll b a => simpa [RowPolled] using h
  | write t f site cmd =>
    cases site with
    | set_ord => simpa [RowPolled] using h
    | row i l =>
      simp only [RowPolled] at h
      exact h.2
    | final_zero => simpa [RowPolled] using h

theorem rowPolled_split (need : Nat) :
    ∀ (pre : List AdcEvent) (log post : List AdcEvent) (t f i l : Nat) (cmd : AdcCmd),
      RowPolled need log → log = pre ++ AdcEvent.write t f (.row i l) cmd :: post →
      PolledFor need cmd.board (.row i l) post := by
  intro pre
  induction pre with
  | nil =>
    intro log post t f i l cmd h e
    subst e
    simp only [List.nil_append, RowPolled] at h
    exact h.1
  | cons x pre ih =>
    intro log post t f i l cmd h e
    subst e
    exact ih _ post t f i l cmd (rowPolled_tail need x _ h) rfl

/-- What `PolledFor` says of a log: commands of the place for the board, then the poll. -/
theorem polledFor_split (need board : Nat) (site : AdcSite) :
    ∀ log : List AdcEvent, PolledFor need board site log →
      ∃ ws a rest, log = ws ++ AdcEvent.poll board a :: rest ∧ need ≤ a ∧
        ∀ e ∈ ws, ∃ t f c, e = AdcEvent.write t f site c ∧ c.board = board := by
  intro log
  induction log with
  | nil => intro h; simp [PolledFor] at h
  | cons e log ih =>
    intro h
    cases e with
    | poll b a =>
      simp only [PolledFor] at h
      obtain ⟨rfl, ha⟩ := h
      exact ⟨[], a, log, rfl, ha, by simp⟩
    | write t f s cmd =>
      simp only [PolledFor] at h
      obtain ⟨rfl, hb, hrest⟩ := h
      obtain ⟨ws, a, rest, e1, e2, e3⟩ := ih hrest
      refine ⟨AdcEvent.write t f s cmd :: ws, a, rest, by rw [e1]; rfl, e2, ?_⟩
      intro e he
      rcases List.mem_cons.1 he with rfl | he
      · exact ⟨t, f, cmd, rfl, hb⟩
      · exact e3 e he

theorem adcPush_guard_row (env : Env) (hw : AdcHw) (need i l : Nat) (st : AdcState)
    (cmd : AdcCmd) (hs : PolledFor need cmd.board (.row i l) st.log)
    (hg : RowPolled need st.log) :
    PolledFor need cmd.board (.row i l) (adcPush env hw (.row i l) st cmd).log ∧
    RowPolled need (adcPush env hw (.row i l) st cmd).log := by
  refine ⟨?_, ?_⟩
  · show PolledFor need cmd.board (.row i l) (AdcEvent.write _ _ (.row i l) cmd :: st.log)
    simp only [PolledFor]
    exact ⟨trivial, trivial, hs⟩
  · show RowPolled need (AdcEvent.write _ _ (.row i l) cmd :: st.log)
    simp only [RowPolled]
    exact ⟨hs, hg⟩

theorem adcPush_guard_other (env : Env) (hw : AdcHw) (need : Nat) (site : AdcSite)
    (hsite : ∀ i l, site ≠ .row i l) (st : AdcState) (cmd : AdcCmd)
    (hg : RowPolled need st.log) : RowPolled need (adcPush env hw site st cmd).log := by
  show RowPolled need (AdcEvent.write _ _ site cmd :: st.log)
  cases site with
  | set_ord => simpa [RowPolled] using hg
  | row i l => exact absurd rfl (hsite i l)
  | final_zero => simpa [RowPolled] using hg

theorem adcWait_guard (env : Env) (hw : AdcHw) (board need n : Nat) (site : AdcSite)
    (hns : ∀ t, env.stop t = false) :
    ∀ (fuel : Nat) (st : AdcState), RowPolled n st.log →
      RowPolled n (adcWaitForSpace env hw board need fuel st).2.log ∧
      ((adcWaitForSpace env hw board need fuel st).1 = Wait.ready →
        PolledFor need board site (adcWaitForSpace env hw board need fuel st).2.log) ∧
      (adcWaitForSpace env hw board need fuel st).1 ≠ Wait.stopped := by
  intro fuel
  induction fuel with
  | zero =>
    intro st hg
    exact ⟨hg, fun h => by simp [adcWaitForSpace] at h, by simp [adcWaitForSpace]⟩
  | succ fuel ih =>
    intro st hg
    rw [adcWaitForSpace]
    simp only [hns, Bool.false_eq_true, if_false]
    split_ifs with hp hr
    · exact ⟨hg, fun h => by simp at h, by simp⟩
    · refine ⟨?_, fun _ => ?_, by simp⟩
      · show RowPolled n (AdcEvent.poll _ _ :: st.log)
        simpa [RowPolled] using hg
      · show PolledFor need board site (AdcEvent.poll board _ :: st.log)
        simp only [PolledFor]
        exact ⟨trivial, hr⟩
    · apply ih
      show RowPolled n (AdcEvent.poll _ _ :: st.log)
      simpa [RowPolled] using hg

theorem adcSequenceCmds_board (p : rev_c_params_t) (board : Nat) :
    ∀ c ∈ adcSequenceCmds p board, c.board = board := by
  intro c hc
  unfold adcSequenceCmds at hc
  split_ifs at hc
  · simp only [List.mem_cons, List.mem_append, List.mem_nil_iff, or_false] at hc
    rcases hc with rfl | hc | rfl
    · rfl
    · rw [List.eq_of_mem_replicate hc]
      rfl
    · rfl
  · simp only [List.mem_cons, List.mem_singleton, List.mem_nil_iff, or_false] at hc
    rcases hc with rfl | rfl | rfl <;> rfl

theorem foldlPush_guard_row (env : Env) (hw : AdcHw) (need i l board : Nat) :
    ∀ (cmds : List AdcCmd) (st : AdcState), (∀ c ∈ cmds, c.board = board) →
      PolledFor need board (.row i l) st.log → RowPolled need st.log →
      RowPolled need (cmds.foldl (adcPush env hw (.row i l)) st).log := by
  intro cmds
  induction cmds with
  | nil => intro st _ _ hg; exact hg
  | cons c cmds ih =>
    intro st hb hs hg
    have hc : c.board = board := hb c (List.mem_cons_self _ _)
    rw [List.foldl_cons]
    have := adcPush_guard_row env hw need i l st c (by rw [hc]; exact hs) hg
    rw [hc] at this
    exact ih _ (fun c' h' => hb c' (List.mem_cons_of_mem _ h')) this.1 this.2

theorem foldlPush_guard_other (env : Env) (hw : AdcHw) (need : Nat) (site : AdcSite)
    (hsite : ∀ i l, site ≠ .row i l) :
    ∀ (cmds : List AdcCmd) (st : AdcState), RowPolled need st.log →
      RowPolled need (cmds.foldl (adcPush env hw site) st).log := by
  intro cmds
  induction cmds with
  | nil => intro st hg; exact hg
  | cons c cmds ih =>
    intro st hg
    rw [List.foldl_cons]
    exact ih _ (adcPush_guard_other env hw need site hsite st c hg)

theorem adcBoardLoop_guard (env : Env) (hw : AdcHw) (p : rev_c_params_t)
    (fuel iteration line_num : Nat) (hns : ∀ t, env.stop t = false) :
    ∀ (boards : List Nat) (st : AdcState), RowPolled (adcRowNeed p) st.log →
      RowPolled (adcRowNeed p) (adcBoardLoop env hw p fuel iteration line_num boards st).2.log := by
  intro boards
  induction boards with
  | nil => intro st hg; exact hg
  | cons b boards ih =>
    intro st hg
    obtain ⟨g1, g2, g3⟩ := adcWait_guard env hw b (adcRowNeed p) (adcRowNeed p)
      (.row iteration line_num) hns fuel st hg
    rw [adcBoardLoop]
    rcases hres : adcWaitForSpace env hw b (adcRowNeed p) fuel st with ⟨r, st1⟩
    rw [hres] at g1 g2 g3
    simp only at g1 g2 g3
    cases r with
    | absent => exact g1
    | timeout => exact g1
    | stopped => exact absurd rfl g3
    | ready =>
      simp only
      apply ih
      rw [adcSequence_eq]
      exact foldlPush_guard_row env hw _ iteration line_num b _ st1
        (adcSequenceCmds_board p b) (g2 rfl) g1

theorem adcOtherLoop_guard (env : Env) (hw : AdcHw) (fuel need n : Nat)
    (step : Nat → AdcState → AdcState)
    (hstep : ∀ b st, RowPolled n st.log → RowPolled n (step b st).log)
    (loop : List Nat → AdcState → Flow × AdcState)
    (hloop : ∀ board boards st, loop (board :: boards) st =
      match adcWaitForSpace env hw board need fuel st with
      | (.absent, st1) => (.cleanup, st1)
      | (.timeout, st1) => (.timeout, st1)
      | (_, st1) => loop boards (step board st1))
    (hnil : ∀ st, loop [] st = (.next, st))
    (hns : ∀ t, env.stop t = false) :
    ∀ (boards : List Nat) (st : AdcState), RowPolled n st.log →
      RowPolled n (loop boards st).2.log := by
  intro boards
  induction boards with
  | nil => intro st hg; rw [hnil]; exact hg
  | cons b boards ih =>
    intro st hg
    obtain ⟨g1, -, g3⟩ := adcWait_guard env hw b need n .set_ord hns fuel st hg
    rw [hloop]
    rcases hres : adcWaitForSpace env hw b need fuel st with ⟨r, st1⟩
    rw [hres] at g1 g3
    simp only at g1 g3
    cases r with
    | absent => exact g1
    | timeout => exact g1
    | stopped => exact absurd rfl g3
    | ready => exact ih _ (hstep b st1 g1)

theorem adcLineLoop_guard (env : Env) (hw : AdcHw) (p : rev_c_params_t) (fuel iteration : Nat)
    (hns : ∀ t, env.stop t = false) :
    ∀ (todo line_num : Nat) (st : AdcState), RowPolled (adcRowNeed p) st.log →
      RowPolled (adcRowNeed p) (adcLineLoop env hw p fuel iteration todo line_num st).2.log := by
  intro todo
  induction todo with
  | zero => intro line_num st hg; exact hg
  | succ todo ih =>
    intro line_num st hg
    rw [adcLineLoop]
    simp only [hns, Bool.false_eq_true, if_false]
    have hb := adcBoardLoop_guard env hw p fuel iteration line_num hns [0, 1, 2, 3]
      (st.tick env) hg
    rcases hres : adcBoardLoop env hw p fuel iteration line_num [0, 1, 2, 3] (st.tick env)
      with ⟨fl, st2⟩
    rw [hres] at hb
    simp only at hb
    cases fl with
    | next => exact ih _ _ hb
    | cleanup => exact hb
    | timeout => exact hb

theorem adcIterationLoop_guard (env : Env) (hw : AdcHw) (p : rev_c_params_t) (fuel : Nat)
    (hns : ∀ t, env.stop t = false) :
    ∀ (todo iteration : Nat) (st : AdcState), RowPolled (adcRowNeed p) st.log →
      RowPolled (adcRowNeed p) (adcIterationLoop env hw p fuel todo iteration st).2.log := by
  intro todo
  induction todo with
  | zero => intro iteration st hg; exact hg
  | succ todo ih =>
    intro iteration st hg
    rw [adcIterationLoop]
    simp only [hns, Bool.false_eq_true, if_false]
    have hb := adcLineLoop_guard env hw p fuel iteration hns p.line_count 1 (st.tick env) hg
    rcases hres : adcLineLoop env hw p fuel iteration p.line_count 1 (st.tick env)
      with ⟨fl, st2⟩
    rw [hres] at hb
    simp only at hb
    cases fl with
    | next => exact ih _ _ hb
    | cleanup => exact hb
    | timeout => exact hb

/-- While the stop flag is not set, the commands of a row for a board are
sent directly after a poll of that board that saw at least `adcRowNeed p`
free words. -/
theorem adc_thread_guard (env : Env) (hw : AdcHw) (p : rev_c_params_t) (fuel : Nat)
    (hns : ∀ t, env.stop t = false) (st : AdcState) (hg : RowPolled (adcRowNeed p) st.log) :
    RowPolled (adcRowNeed p) (rev_c_adc_cmd_stream_thread env hw p fuel st).2.log := by
  unfold rev_c_adc_cmd_stream_thread
  have h1 := adcOtherLoop_guard env hw fuel 1 (adcRowNeed p)
    (fun b s => adcPush env hw .set_ord s (.set_ord b [0, 1, 2, 3, 4, 5, 6, 7]))
    (fun b s hs => adcPush_guard_other env hw _ .set_ord (fun _ _ => by simp) s _ hs)
    (adcSetOrdLoop env hw fuel)
    (adcSetOrdLoop_cons env hw fuel) (fun st => by rw [adcSetOrdLoop])
    hns [0, 1, 2, 3] st hg
  rcases hres : adcSetOrdLoop env hw fuel [0, 1, 2, 3] st with ⟨fl, st1⟩
  rw [hres] at h1
  simp only at h1
  cases fl with
  | cleanup => exact h1
  | timeout => exact h1
  | next =>
    simp only
    have h2 := adcIterationLoop_guard env hw p fuel hns p.iterations 0 st1 h1
    rcases hres2 : adcIterationLoop env hw p fuel p.iterations 0 st1 with ⟨fl2, st2⟩
    rw [hres2] at h2
    simp only at h2
    cases fl2 with
    | cleanup => exact h2
    | timeout => exact h2
    | next =>
      simp only
      unfold adcFinalZero
      simp only [hns, Bool.false_eq_true, if_false]
      split_ifs
      · exact adcOtherLoop_guard env hw fuel 3 (adcRowNeed p)
          (fun b s => adcSequence env hw p .final_zero b s)
          (fun b s hs => by
            show RowPolled (adcRowNeed p) (adcSequence env hw p .final_zero b s).log
            rw [adcSequence_eq]
            exact foldlPush_guard_other env hw _ .final_zero (fun _ _ => by simp) _ s hs)
          (adcFinalZeroLoop env hw p fuel)
          (adcFinalZeroLoop_cons env hw p fuel) (fun st => by rw [adcFinalZeroLoop])
          hns [0, 1, 2, 3] (st2.tick env) h2
      · exact h2

/-! ### The sequence in terms of the ramp-sample count -/

theorem toInt32_of_lt (n : Nat) (h : n < 2 ^ 31) : toInt32 n = (n : Int) := by
  unfold toInt32
  have e : n % 2 ^ 32 = n := Nat.mod_eq_of_lt (by
    have : (2 : Nat) ^ 31 < 2 ^ 32 := by norm_num
    omega)
  rw [e, if_pos h]

theorem adcSequenceCmds_ramp (p : rev_c_params_t) (board : Nat) (hR : 1 ≤ p.ramp_samples)
    (hint : p.ramp_samples < 2 ^ 31) :
    adcSequenceCmds p board =
      [AdcCmd.adc_rd board true false 1 0] ++
        List.replicate (p.ramp_samples - 2)
          (AdcCmd.adc_rd board false false p.ramp_delay_cycles 0) ++
        [AdcCmd.adc_rd board false false
          (((u32OfInt p.ramp_delay_cycles + p.delay_cycles) % 2 ^ 32 : Nat) : Int) 0] := by
  unfold adcSequenceCmds
  rw [toInt32_of_lt _ hint, if_pos (by omega)]
  have e : ((p.ramp_samples : Int) - 1 - 1).toNat = p.ramp_samples - 2 := by omega
  rw [e]
  rfl

theorem adcSequenceCmds_zero (p : rev_c_params_t) (board : Nat) (hR : p.ramp_samples = 0) :
    adcSequenceCmds p board =
      [AdcCmd.noop board true false 1, AdcCmd.noop board false false (p.delay_cycles : Nat),
        AdcCmd.adc_rd board true false 0 0] := by
  unfold adcSequenceCmds
  rw [hR]
  rfl

theorem adcRowNeed_eq (p : rev_c_params_t) (hint : p.ramp_samples < 2 ^ 31) :
    adcRowNeed p = if 0 < p.ramp_samples then p.ramp_samples else 3 := by
  unfold adcRowNeed
  rw [toInt32_of_lt _ hint]
  by_cases h : 0 < p.ramp_samples
  · rw [if_pos (by omega), if_pos h]
    unfold u32OfInt
    have e : (2 : Int) ^ 32 = 4294967296 := by norm_num
    have e2 : (2 : Nat) ^ 31 = 2147483648 := by norm_num
    rw [e]
    rw [e2] at hint
    omega
  · rw [if_neg (by omega), if_neg h]

/-! ### The commands of a run that reaches its end -/

theorem adcSetOrdLoop_end (env : Env) (hw : AdcHw) (fuel : Nat) :
    ∀ (boards : List Nat) (st : AdcState),
      (adcSetOrdLoop env hw fuel boards st).1 = Flow.next →
      (adcSetOrdLoop env hw fuel boards st).2.writes = st.writes ++
        boards.map fun b => (AdcSite.set_ord, AdcCmd.set_ord b [0, 1, 2, 3, 4, 5, 6, 7]) := by
  intro boards
  induction boards with
  | nil => intro st _; simp [adcSetOrdLoop]
  | cons b boards ih =>
    intro st
    obtain ⟨hw1, -⟩ := adcWait_frame env hw b 1 fuel st
    rw [adcSetOrdLoop]
    rcases hres : adcWaitForSpace env hw b 1 fuel st with ⟨r, st1⟩
    rw [hres] at hw1
    simp only at hw1
    have hcont : (adcSetOrdLoop env hw fuel boards
          (adcPush env hw .set_ord st1 (.set_ord b [0, 1, 2, 3, 4, 5, 6, 7]))).1 = Flow.next →
        (adcSetOrdLoop env hw fuel boards
          (adcPush env hw .set_ord st1 (.set_ord b [0, 1, 2, 3, 4, 5, 6, 7]))).2.writes
          = st.writes ++ (b :: boards).map fun b =>
              (AdcSite.set_ord, AdcCmd.set_ord b [0, 1, 2, 3, 4, 5, 6, 7]) := by
      intro h
      rw [ih _ h, adcPush_writes, hw1, List.map_cons, List.append_assoc]
      rfl
    cases r with
    | ready => exact hcont
    | stopped => exact hcont
    | absent => intro h; simp at h
    | timeout => intro h; simp at h

theorem adcSeqLoop_end (env : Env) (hw : AdcHw) (p : rev_c_params_t) (fuel need : Nat)
    (site : AdcSite) (loop : List Nat → AdcState → Flow × AdcState)
    (hloop : ∀ board boards st, loop (board :: boards) st =
      match adcWaitForSpace env hw board need fuel st with
      | (.absent, st1) => (.cleanup, st1)
      | (.timeout, st1) => (.timeout, st1)
      | (_, st1) => loop boards (adcSequence env hw p site board st1))
    (hnil : ∀ st, loop [] st = (.next, st)) :
    ∀ (boards : List Nat) (st : AdcState), (loop boards st).1 = Flow.next →
      (loop boards st).2.writes = st.writes ++ boards.flatMap (seqWrites p site) := by
  intro boards
  induction boards with
  | nil => intro st _; rw [hnil]; simp
  | cons b boards ih =>
    intro st
    obtain ⟨hw1, -⟩ := adcWait_frame env hw b need fuel st
    rw [hloop]
    rcases hres : adcWaitForSpace env hw b need fuel st with ⟨r, st1⟩
    rw [hres] at hw1
    simp only at hw1
    have hcont : (loop boards (adcSequence env hw p site b st1)).1 = Flow.next →
        (loop boards (adcSequence env hw p site b st1)).2.writes
          = st.writes ++ (b :: boards).flatMap (seqWrites p site) := by
      intro h
      rw [ih _ h, (adcSequence_frame env hw p site b st1).1, hw1, List.flatMap_cons,
        List.append_assoc]
    cases r with
    | ready => exact hcont
    | stopped => exact hcont
    | absent => intro h; simp at h
    | timeout => intro h; simp at h

theorem adcLineLoop_end (env : Env) (hw : AdcHw) (p : rev_c_params_t) (fuel iteration : Nat)
    (hns : ∀ t, env.stop t = false) :
    ∀ (todo line_num : Nat) (st : AdcState),
      (adcLineLoop env hw p fuel iteration todo line_num st).1 = Flow.next →
      (adcLineLoop env hw p fuel iteration todo line_num st).2.writes = st.writes ++
        ((List.range todo).map fun k => (iteration, line_num + k)).flatMap (rowWrites p) := by
  intro todo
  induction todo with
  | zero => intro line_num st _; simp [adcLineLoop]
  | succ todo ih =>
    intro line_num st
    rw [adcLineLoop]
    simp only [hns, Bool.false_eq_true, if_false]
    have hb := adcSeqLoop_end env hw p fuel (adcRowNeed p) (.row iteration line_num)
      (adcBoardLoop env hw p fuel iteration line_num)
      (adcBoardLoop_cons env hw p fuel iteration line_num) (fun st => by rw [adcBoardLoop])
      [0, 1, 2, 3] (st.tick env)
    rcases hres : adcBoardLoop env hw p fuel iteration line_num [0, 1, 2, 3] (st.tick env)
      with ⟨fl, st2⟩
    rw [hres] at hb
    simp only at hb
    cases fl with
    | next =>
      simp only
      intro h
      rw [ih (line_num + 1) st2 h, hb rfl, List.range_succ_eq_map, List.map_cons,
        List.flatMap_cons, List.map_map, List.append_assoc]
      have e : (fun k => (iteration, line_num + 1 + k)) =
          (fun k => (iteration, line_num + k)) ∘ Nat.succ := by
        funext k
        simp only [Function.comp, Nat.succ_eq_add_one]
        congr 1
        omega
      rw [e]
      rfl
    | cleanup => intro h; simp at h
    | timeout => intro h; simp at h

theorem adcIterationLoop_end (env : Env) (hw : AdcHw) (p : rev_c_params_t) (fuel : Nat)
    (hns : ∀ t, env.stop t = false) :
    ∀ (todo iteration : Nat) (st : AdcState),
      (adcIterationLoop env hw p fuel todo iteration st).1 = Flow.next →
      (adcIterationLoop env hw p fuel todo iteration st).2.writes = st.writes ++
        (adcRows p.line_count iteration todo).flatMap (rowWrites p) := by
  intro todo
  induction todo with
  | zero => intro iteration st _; simp [adcRows, adcIterationLoop]
  | succ todo ih =>
    intro iteration st
    rw [adcIterationLoop]
    simp only [hns, Bool.false_eq_true, if_false]
    have hb := adcLineLoop_end env hw p fuel iteration hns p.line_count 1 (st.tick env)
    rcases hres : adcLineLoop env hw p fuel iteration p.line_count 1 (st.tick env)
      with ⟨fl, st2⟩
    rw [hres] at hb
    simp only at hb
    cases fl with
    | next =>
      simp only
      intro h
      rw [ih (iteration + 1) st2 h, hb rfl, adcRows, List.flatMap_append, List.append_assoc]
      rfl
    | cleanup => intro h; simp at h
    | timeout => intro h; simp at h

/-- A run of the ADC thread whose stop flag is never set and that reaches its
end has sent the set_ord commands, the sequences of all rows of all iterations
for boards 0 to 3 and, when requested, the final-zero sequences. -/
theorem adc_thread_end (env : Env) (hw : AdcHw) (p : rev_c_params_t) (fuel : Nat)
    (hns : ∀ t, env.stop t = false) (st : AdcState)
    (h : (rev_c_adc_cmd_stream_thread env hw p fuel st).1 = Flow.next) :
    (rev_c_adc_cmd_stream_thread env hw p fuel st).2.writes = st.writes ++
      (setOrdWrites ++ (adcRows p.line_count 0 p.iterations).flatMap (rowWrites p) ++
        finalZeroWrites p) := by
  unfold rev_c_adc_cmd_stream_thread at h ⊢
  have a := adcSetOrdLoop_end env hw fuel [0, 1, 2, 3] st
  rcases hres : adcSetOrdLoop env hw fuel [0, 1, 2, 3] st with ⟨fl, st1⟩
  rw [hres] at a h
  simp only at a h
  cases fl with
  | cleanup => simp at h
  | timeout => simp at h
  | next =>
    simp only at h ⊢
    have b := adcIterationLoop_end env hw p fuel hns p.iterations 0 st1
    rcases hres2 : adcIterationLoop env hw p fuel p.iterations 0 st1 with ⟨fl2, st2⟩
    rw [hres2] at b h
    simp only at b h
    cases fl2 with
    | cleanup => simp at h
    | timeout => simp at h
    | next =>
      simp only at h ⊢
      unfold adcFinalZero finalZeroWrites at *
      by_cases hz : p.final_zero_trigger = true
      · simp only [hz, if_true, hns, Bool.false_eq_true, if_false] at h ⊢
        have c := adcSeqLoop_end env hw p fuel 3 .final_zero (adcFinalZeroLoop env hw p fuel)
          (adcFinalZeroLoop_cons env hw p fuel) (fun st => by rw [adcFinalZeroLoop])
          [0, 1, 2, 3] (st2.tick env) h
        rw [c]
        show st2.writes ++ _ = _
        rw [b rfl, a rfl]
        simp only [setOrdWrites, List.append_assoc]
      · simp only [hz, Bool.false_eq_true, if_false]
        rw [b rfl, a rfl]
        simp only [setOrdWrites, List.append_assoc, List.append_nil]
/-! ## The last step of a ramp -/

theorem lineLoop_rows (env : Env) (hw : Hw) (p : rev_c_params_t) (fuel iteration : Nat)
    (hns : ∀ t, env.stop t = false) :
    ∀ (rest : List (List Char)) (k : Nat) (st : DacState),
      (lineLoop env hw p fuel iteration (List.replicate 32 0) rest k st).1 = Flow.next →
      (lineLoop env hw p fuel iteration (List.replicate 32 0) rest k st).2.cmds
        = st.cmds ++ passCmds hw p iteration (numberedRows k (dataRows rest)) := by
  intro rest
  induction rest with
  | nil => intro k st _; simp [lineLoop, dataRows, numberedRows, passCmds]
  | cons line rest ih =>
    intro k st
    unfold lineLoop
    simp only [hns, Bool.false_eq_true, if_false]
    by_cases hskip : isSkippedLine line = true
    · rw [if_pos hskip]
      intro h
      have hd : dataRows (line :: rest) = dataRows rest := by
        simp [dataRows, List.filter_cons, hskip]
      rw [hd, ih k (st.tick env) h, tick_cmds]
    rw [if_neg hskip]
    have hd : dataRows (line :: rest) = line :: dataRows rest := by
      simp [dataRows, List.filter_cons, hskip]
    obtain ⟨bs, -, b2, b3⟩ := boardLoop_cmds env hw p fuel iteration (k + 1)
      (parseDacValues hw 32 (skipBlanks line)) (List.replicate 32 0) [0, 1, 2, 3] (st.tick env)
    rcases hres : boardLoop env hw p fuel iteration (k + 1)
      (parseDacValues hw 32 (skipBlanks line)) (List.replicate 32 0) [0, 1, 2, 3] (st.tick env)
      with ⟨fl, st2⟩
    rw [hres] at b2 b3
    simp only at b2 b3
    cases fl with
    | next =>
      simp only
      intro h
      rw [ih (k + 1) st2 h, b2, b3 rfl, tick_cmds, hd, List.append_assoc]
      rfl
    | cleanup => intro h; simp at h
    | timeout => intro h; simp at h

theorem iterationLoop_rows (env : Env) (hw : Hw) (p : rev_c_params_t) (fuel : Nat)
    (lines : List (List Char)) (hns : ∀ t, env.stop t = false) :
    ∀ (todo iteration : Nat) (st : DacState),
      (iterationLoop env hw p fuel lines todo iteration st).1 = Flow.next →
      (iterationLoop env hw p fuel lines todo iteration st).2.cmds
        = st.cmds ++ iterationCmds hw p lines iteration todo := by
  intro todo
  induction todo with
  | zero => intro iteration st _; simp [iterationLoop, iterationCmds]
  | succ todo ih =>
    intro iteration st
    unfold iterationLoop
    simp only [hns, Bool.false_eq_true, if_false]
    have hl := lineLoop_rows env hw p fuel iteration hns lines 0 (st.tick env)
    rcases hres : lineLoop env hw p fuel iteration (List.replicate 32 0) lines 0 (st.tick env)
      with ⟨fl, st2⟩
    rw [hres] at hl
    simp only at hl
    cases fl with
    | next =>
      simp only
      intro h
      rw [ih (iteration + 1) st2 h, hl rfl, tick_cmds, List.append_assoc]
      rfl
    | cleanup => intro h; simp at h
    | timeout => intro h; simp at h

/-- A run of the DAC thread without final zero whose stop flag is never set
and that reaches its end has sent the ramps of all data lines of all
iterations. -/
theorem thread_rows (env : Env) (hw : Hw) (p : rev_c_params_t) (fuel : Nat)
    (content : List Char) (st : DacState)
    (hns : ∀ t, env.stop t = false) (hz : p.final_zero_trigger = false)
    (hn : (rev_c_dac_cmd_stream_thread env hw p fuel (some content) st).1 = Flow.next) :
    (rev_c_dac_cmd_stream_thread env hw p fuel (some content) st).2.cmds
      = st.cmds ++ iterationCmds hw p (fgetsLines 2048 content []) 0 p.iterations := by
  unfold rev_c_dac_cmd_stream_thread at hn ⊢
  simp only at hn ⊢
  have hi := iterationLoop_rows env hw p fuel (fgetsLines 2048 content []) hns p.iterations 0 st
  rcases hres : iterationLoop env hw p fuel (fgetsLines 2048 content []) p.iterations 0 st
    with ⟨fl, st2⟩
  rw [hres] at hi hn
  simp only at hi hn
  cases fl with
  | next =>
    simp only
    unfold finalZero
    rw [hz]
    simp only [Bool.false_eq_true, if_false]
    exact hi rfl
  | cleanup => simp at hn
  | timeout => simp at hn

/-! ### The DAC_WR that closes the stream of a board -/

theorem cmdsOfBoard_append (b : Nat) (xs ys : List DacCmd) :
    cmdsOfBoard b (xs ++ ys) = cmdsOfBoard b xs ++ cmdsOfBoard b ys := by
  unfold cmdsOfBoard
  rw [List.filter_append]

theorem rowCmds_board (p : rev_c_params_t) (it k : Nat) (v pv : List Int) (b : Nat) :
    ∀ c ∈ rowCmds p it k v pv b, c.board = b := by
  intro c hc
  unfold rowCmds at hc
  obtain ⟨s, -, rfl⟩ := List.mem_map.1 hc
  rfl

theorem cmdsOfBoard_rowCmds (p : rev_c_params_t) (it k : Nat) (v pv : List Int) (b b' : Nat) :
    cmdsOfBoard b (rowCmds p it k v pv b') = if b' = b then rowCmds p it k v pv b' else [] := by
  unfold cmdsOfBoard
  by_cases h : b' = b
  · rw [if_pos h, List.filter_eq_self]
    intro c hc
    rw [rowCmds_board p it k v pv b' c hc]
    exact decide_eq_true h
  · rw [if_neg h, List.filter_eq_nil_iff]
    intro c hc
    rw [rowCmds_board p it k v pv b' c hc]
    simpa using h

theorem cmdsOfBoard_boards (p : rev_c_params_t) (it k : Nat) (v pv : List Int) (b : Nat)
    (hb : b < 4) :
    cmdsOfBoard b ([0, 1, 2, 3].flatMap (rowCmds p it k v pv)) = rowCmds p it k v pv b := by
  simp only [List.flatMap_cons, List.flatMap_nil, cmdsOfBoard_append, cmdsOfBoard_rowCmds,
    List.append_nil]
  have : b = 0 ∨ b = 1 ∨ b = 2 ∨ b = 3 := by omega
  rcases this with rfl | rfl | rfl | rfl <;> simp

theorem cmdsOfBoard_pass (hw : Hw) (p : rev_c_params_t) (it b : Nat) (hb : b < 4) :
    ∀ rows : List (Nat × List Char),
      cmdsOfBoard b (passCmds hw p it rows) = rows.flatMap fun r =>
        rowCmds p it r.1 (parseDacValues hw 32 (skipBlanks r.2)) (List.replicate 32 0) b := by
  intro rows
  induction rows with
  | nil => rfl
  | cons r rows ih =>
    unfold passCmds at ih ⊢
    rw [List.flatMap_cons, cmdsOfBoard_append, cmdsOfBoard_boards p it r.1 _ _ b hb, ih]
    rfl

theorem rowCmds_cont (p : rev_c_params_t) (it k : Nat) (v pv : List Int) (b : Nat)
    (h : ¬(it + 1 = p.iterations ∧ k = p.line_count)) :
    ∀ c ∈ rowCmds p it k v pv b, c.cont = true := by
  intro c hc
  unfold rowCmds at hc
  obtain ⟨s, -, rfl⟩ := List.mem_map.1 hc
  simp only [stepCmd, Bool.not_eq_true', Bool.and_eq_false_imp, Bool.and_eq_true,
    decide_eq_true_eq, decide_eq_false_iff_not]
  intro h1
  exact absurd h1 h

theorem rowCmds_last (p : rev_c_params_t) (it k : Nat) (v pv : List Int) (b : Nat)
    (h1 : it + 1 = p.iterations) (h2 : k = p.line_count) :
    ∃ init last, rowCmds p it k v pv b = init ++ [last] ∧ last.cont = false ∧
      ∀ c ∈ init, c.cont = true := by
  refine ⟨(List.range p.ramp_samples).map (stepCmd p it k v pv b),
    stepCmd p it k v pv b p.ramp_samples, ?_, ?_, ?_⟩
  · unfold rowCmds
    rw [List.range_succ, List.map_append]
    rfl
  · simp [stepCmd, h1, h2]
  · intro c hc
    obtain ⟨s, hs, rfl⟩ := List.mem_map.1 hc
    have hlt : s < p.ramp_samples := List.mem_range.1 hs
    have hne : s ≠ p.ramp_samples := by omega
    simp [stepCmd, hne]

theorem numberedRows_bounds : ∀ (rows : List (List Char)) (first : Nat),
    ∀ r ∈ numberedRows first rows, first < r.1 ∧ r.1 ≤ first + rows.length := by
  intro rows
  induction rows with
  | nil => intro first r hr; simp [numberedRows] at hr
  | cons l rows ih =>
    intro first r hr
    rw [numberedRows, List.mem_cons] at hr
    rcases hr with rfl | hr
    · simp only [List.length_cons]
      omega
    · have := ih (first + 1) r hr
      simp only [List.length_cons]
      omega

theorem numberedRows_append : ∀ (a b : List (List Char)) (first : Nat),
    numberedRows first (a ++ b) = numberedRows first a ++ numberedRows (first + a.length) b := by
  intro a
  induction a with
  | nil => intro b first; rfl
  | cons l a ih =>
    intro b first
    rw [List.cons_append, numberedRows, numberedRows, ih, List.cons_append, List.length_cons]
    congr 3
    omega

theorem numberedRows_fst : ∀ (rows : List (List Char)) (first : Nat),
    (numberedRows first rows).map Prod.fst = List.range' (first + 1) rows.length := by
  intro rows
  induction rows with
  | nil => intro first; rfl
  | cons l rows ih =>
    intro first
    rw [numberedRows, List.map_cons, ih, List.length_cons, List.range'_succ]

theorem pass_cont (hw : Hw) (p : rev_c_params_t) (it b : Nat)
    (rows : List (Nat × List Char))
    (h : ∀ r ∈ rows, ¬(it + 1 = p.iterations ∧ r.1 = p.line_count)) :
    ∀ c ∈ rows.flatMap (fun r =>
        rowCmds p it r.1 (parseDacValues hw 32 (skipBlanks r.2)) (List.replicate 32 0) b),
      c.cont = true := by
  intro c hc
  obtain ⟨r, hr, hcr⟩ := List.mem_flatMap.1 hc
  exact rowCmds_cont p it r.1 _ _ b (h r hr) c hcr

theorem pass_last (hw : Hw) (p : rev_c_params_t) (it b : Nat) (data : List (List Char))
    (h1 : it + 1 = p.iterations) (h2 : data.length = p.line_count) (h3 : 1 ≤ p.line_count) :
    ∃ init last,
      (numberedRows 0 data).flatMap (fun r =>
        rowCmds p it r.1 (parseDacValues hw 32 (skipBlanks r.2)) (List.replicate 32 0) b)
        = init ++ [last] ∧ last.cont = false ∧ ∀ c ∈ init, c.cont = true := by
  have hne : data ≠ [] := by
    intro h0
    rw [h0] at h2
    simp at h2
    omega
  obtain ⟨data', x, rfl⟩ : ∃ d x, data = d ++ [x] :=
    ⟨data.dropLast, data.getLast hne, (List.dropLast_append_getLast hne).symm⟩
  rw [List.length_append, List.length_singleton] at h2
  rw [numberedRows_append, List.flatMap_append]
  have hx : numberedRows (0 + data'.length) [x] = [(data'.length + 1, x)] := by
    simp [numberedRows]
  rw [hx, List.flatMap_cons, List.flatMap_nil, List.append_nil]
  obtain ⟨init, last, e, hl, hi⟩ := rowCmds_last p it (data'.length + 1)
    (parseDacValues hw 32 (skipBlanks x)) (List.replicate 32 0) b h1 h2
  refine ⟨_ ++ init, last, by rw [e, List.append_assoc], hl, ?_⟩
  intro c hc
  rcases List.mem_append.1 hc with hc | hc
  · refine pass_cont hw p it b (numberedRows 0 data') ?_ c hc
    intro r hr hcon
    have := numberedRows_bounds data' 0 r hr
    omega
  · exact hi c hc

theorem iterationCmds_succ (hw : Hw) (p : rev_c_params_t) (lines : List (List Char)) :
    ∀ (todo first : Nat),
      iterationCmds hw p lines first (todo + 1) =
        iterationCmds hw p lines first todo ++
          passCmds hw p (first + todo) (numberedRows 0 (dataRows lines)) := by
  intro todo
  induction todo with
  | zero => intro first; simp [iterationCmds]
  | succ todo ih =>
    intro first
    rw [iterationCmds, ih (first + 1), iterationCmds, List.append_assoc]
    congr 3
    omega

theorem iterationCmds_cont (hw : Hw) (p : rev_c_params_t) (lines : List (List Char)) (b : Nat)
    (hb : b < 4) :
    ∀ (todo first : Nat), first + todo < p.iterations →
      ∀ c ∈ cmdsOfBoard b (iterationCmds hw p lines first todo), c.cont = true := by
  intro todo
  induction todo with
  | zero => intro first _ c hc; simp [iterationCmds, cmdsOfBoard] at hc
  | succ todo ih =>
    intro first hlt c hc
    rw [iterationCmds, cmdsOfBoard_append, List.mem_append] at hc
    rcases hc with hc | hc
    · rw [cmdsOfBoard_pass hw p first b hb] at hc
      exact pass_cont hw p first b _ (fun r _ hcon => by omega) c hc
    · exact ih (first + 1) (by omega) c hc

/-- In the commands of all iterations over a file with `line_count ≥ 1` data
lines, the DAC_WRs of a board end with the one DAC_WR that has `cont = false`. -/
theorem iterationCmds_last (hw : Hw) (p : rev_c_params_t) (lines : List (List Char)) (b : Nat)
    (hb : b < 4) (hit : 1 ≤ p.iterations) (hn : (dataRows lines).length = p.line_count)
    (h1 : 1 ≤ p.line_count) :
    ∃ init last, cmdsOfBoard b (iterationCmds hw p lines 0 p.iterations) = init ++ [last] ∧
      last.cont = false ∧ ∀ c ∈ init, c.cont = true := by
  obtain ⟨m, hm⟩ : ∃ m, p.iterations = m + 1 := ⟨p.iterations - 1, by omega⟩
  rw [hm, iterationCmds_succ, cmdsOfBoard_append, cmdsOfBoard_pass hw p (0 + m) b hb]
  obtain ⟨init, last, e, hl, hi⟩ := pass_last hw p (0 + m) b (dataRows lines) (by omega) hn h1
  refine ⟨_ ++ init, last, by rw [e, List.append_assoc], hl, ?_⟩
  intro c hc
  rcases List.mem_append.1 hc with hc | hc
  · exact iterationCmds_cont hw p lines b hb m 0 (by omega) c hc
  · exact hi c hc

theorem validate_pos (content : List Char) (n : Nat)
    (h : validate_rev_c_file_format_amps (some content) = some n) : 1 ≤ n := by
  unfold validate_rev_c_file_format_amps at h
  simp only at h
  cases hv : validateLines (fgetsLines 2048 content []) 0 with
  | none => rw [hv] at h; simp at h
  | some m =>
    rw [hv] at h
    simp only at h
    by_cases hm : m = 0
    · simp [hm] at h
    · simp only [hm, if_false, Option.some.injEq] at h
      omega
/-! ## The expected trigger count in the trace of the runner -/

theorem trigDrainCounts_append (a b : List Event) :
    trigDrainCounts (a ++ b) = trigDrainCounts a ++ trigDrainCounts b := by
  unfold trigDrainCounts
  rw [List.filterMap_append]

theorem monitorCounts_append (a b : List Event) :
    monitorCounts (a ++ b) = monitorCounts a ++ monitorCounts b := by
  unfold monitorCounts
  rw [List.filterMap_append]

theorem counts_words (ws : List Nat) :
    trigDrainCounts (ws.map Event.trigger_word) = [] ∧
    monitorCounts (ws.map Event.trigger_word) = [] := by
  induction ws with
  | nil => exact ⟨rfl, rfl⟩
  | cons x ws ih => exact ⟨ih.1, ih.2⟩

theorem counts_stop (w : World) :
    trigDrainCounts (if w.is_trigger_monitor_active then [Event.stop_trigger_monitor] else [])
      = [] ∧
    monitorCounts (if w.is_trigger_monitor_active then [Event.stop_trigger_monitor] else [])
      = [] := by
  split_ifs <;> exact ⟨rfl, rfl⟩

theorem counts_reset (flags : List command_flag_t) :
    trigDrainCounts (if has_flag flags .FLAG_NO_RESET then [] else [Event.safe_buffer_reset])
      = [] ∧
    monitorCounts (if has_flag flags .FLAG_NO_RESET then [] else [Event.safe_buffer_reset])
      = [] := by
  split_ifs <;> exact ⟨rfl, rfl⟩

theorem startAdcDataStreams_counts (w : World) (plan : Plan) :
    ∀ (boards : List Nat) (st : RunState),
      trigDrainCounts (startAdcDataStreams w plan boards st).2.events
        = trigDrainCounts st.events ∧
      monitorCounts (startAdcDataStreams w plan boards st).2.events = monitorCounts st.events := by
  intro boards
  induction boards with
  | nil => intro st; exact ⟨rfl, rfl⟩
  | cons board boards ih =>
    intro st
    simp only [startAdcDataStreams]
    split_ifs with h
    · simp only [emit_events, trigDrainCounts_append, monitorCounts_append]
      exact ⟨by simp [trigDrainCounts, Event.trigDrainCount],
        by simp [monitorCounts, Event.monitorCount]⟩
    · obtain ⟨h1, h2⟩ := ih
        { st.emit (.cmd_stream_adc_data_to_file board (expected_samples_per_board plan)
            (board_output_file plan.base_output_file board) [])
          with ctx := (w.cmd_stream_adc_data_to_file board (expected_samples_per_board plan)
            (board_output_file plan.base_output_file board) [] st.ctx).2 }
      rw [h1, h2]
      simp only [emit_events, trigDrainCounts_append, monitorCounts_append]
      exact ⟨by simp [trigDrainCounts, Event.trigDrainCount],
        by simp [monitorCounts, Event.monitorCount]⟩

theorem startTrigDataStream_counts (w : World) (plan : Plan) (st : RunState) :
    trigDrainCounts (startTrigDataStream w plan st).2.events
      = trigDrainCounts st.events ++
        (if 0 < expected_triggers plan.line_count plan.iterations.toNat plan.final_zero_trigger
         then [expected_triggers plan.line_count plan.iterations.toNat plan.final_zero_trigger]
         else []) ∧
    monitorCounts (startTrigDataStream w plan st).2.events = monitorCounts st.events := by
  unfold startTrigDataStream
  simp only
  split_ifs with h
  · simp only [emit_events, trigDrainCounts_append, monitorCounts_append]
    exact ⟨rfl, by simp [monitorCounts, Event.monitorCount]⟩
  · simp

theorem provisioned_counts (w : World) (binary_mode : Bool) (plan : Plan) (st : RunState) :
    trigDrainCounts (provisioned w binary_mode plan st).events
      = trigDrainCounts st.events ++
        (if 0 < expected_triggers plan.line_count plan.iterations.toNat plan.final_zero_trigger
         then [expected_triggers plan.line_count plan.iterations.toNat plan.final_zero_trigger]
         else []) ∧
    monitorCounts (provisioned w binary_mode plan st).events = monitorCounts st.events := by
  unfold provisioned
  obtain ⟨t1, t2⟩ := startTrigDataStream_counts w plan
    (startAdcDataStreams w plan [0, 1, 2, 3]
      (addStoppers (st.emit (.print_output_format binary_mode)))).2
  obtain ⟨a1, a2⟩ := startAdcDataStreams_counts w plan [0, 1, 2, 3]
    (addStoppers (st.emit (.print_output_format binary_mode)))
  obtain ⟨s1, -⟩ := addStoppers_spec (st.emit (.print_output_format binary_mode))
  rw [t1, t2, a1, a2, s1, emit_events]
  simp only [trigDrainCounts_append, monitorCounts_append]
  exact ⟨by simp [trigDrainCounts, Event.trigDrainCount, stopperEvents],
    by simp [monitorCounts, Event.monitorCount, stopperEvents]⟩

/-- Every count the part after the prompts gives to the trigger drain and to
the trigger monitor is `expected_triggers`; a run that returns 0 has started
the monitor once, and the trigger drain once when the count is positive. -/
theorem startExperiment_counts (ops : TrigOpcodes) (hops : ops.Fit) (w : World)
    (binary_mode : Bool) (plan : Plan) (st : RunState) :
    ∃ X Y,
      trigDrainCounts (startExperiment ops w binary_mode plan st).2.events
        = trigDrainCounts st.events ++ X ∧
      monitorCounts (startExperiment ops w binary_mode plan st).2.events
        = monitorCounts st.events ++ Y ∧
      (∀ c ∈ X, c = expected_triggers plan.line_count plan.iterations.toNat
        plan.final_zero_trigger) ∧
      (∀ c ∈ Y, c = expected_triggers plan.line_count plan.iterations.toNat
        plan.final_zero_trigger) ∧
      ((startExperiment ops w binary_mode plan st).1 = .returned 0 →
        X = (if 0 < expected_triggers plan.line_count plan.iterations.toNat
              plan.final_zero_trigger
             then [expected_triggers plan.line_count plan.iterations.toNat
              plan.final_zero_trigger] else []) ∧
        Y = [expected_triggers plan.line_count plan.iterations.toNat
              plan.final_zero_trigger]) := by
  generalize hn : expected_triggers plan.line_count plan.iterations.toNat
    plan.final_zero_trigger = n
  obtain ⟨s1, -⟩ := addStoppers_spec (st.emit (.print_output_format binary_mode))
  obtain ⟨a1, a2⟩ := startAdcDataStreams_counts w plan [0, 1, 2, 3]
    (addStoppers (st.emit (.print_output_format binary_mode)))
  rw [s1, emit_events] at a1 a2
  have a1' : trigDrainCounts (startAdcDataStreams w plan [0, 1, 2, 3]
      (addStoppers (st.emit (.print_output_format binary_mode)))).2.events
      = trigDrainCounts st.events := by
    rw [a1]
    simp [trigDrainCounts, Event.trigDrainCount, stopperEvents]
  have a2' : monitorCounts (startAdcDataStreams w plan [0, 1, 2, 3]
      (addStoppers (st.emit (.print_output_format binary_mode)))).2.events
      = monitorCounts st.events := by
    rw [a2]
    simp [monitorCounts, Event.monitorCount, stopperEvents]
  have hX : ∀ c ∈ (if 0 < n then [n] else []), c = n := by
    intro c hc
    split_ifs at hc
    · simpa using hc
    · simp at hc
  unfold startExperiment
  by_cases hz : plan.ramp_samples > 0 ∧ u32OfInt plan.ramp_delay_cycles = 0
  · rw [if_pos hz]
    exact ⟨[], [], by simp, by simp, by simp, by simp, by simp⟩
  rw [if_neg hz]
  simp only
  rcases hA : startAdcDataStreams w plan [0, 1, 2, 3]
    (addStoppers (st.emit (.print_output_format binary_mode))) with ⟨okA, stA⟩
  rw [hA] at a1' a2'
  simp only at a1' a2'
  cases okA
  · exact ⟨[], [], by simp [a1'], by simp [a2'], by simp, by simp, by simp⟩
  simp only
  obtain ⟨t1, t2⟩ := startTrigDataStream_counts w plan stA
  rw [hn, a1'] at t1
  rw [a2'] at t2
  rcases hT : startTrigDataStream w plan stA with ⟨okT, stT⟩
  rw [hT] at t1 t2
  simp only at t1 t2
  cases okT
  · exact ⟨_, [], t1, by simp [t2], hX, by simp, by simp⟩
  simp only
  rw [hn]
  obtain ⟨c1, c2⟩ := counts_stop w
  by_cases hm : w.start_trigger_monitor n ≠ 0
  · rw [if_pos hm]
    refine ⟨_, [n], ?_, ?_, hX, by simp, by simp⟩
    · show trigDrainCounts (stT.emit (Event.start_trigger_monitor n)).events = _
      rw [emit_events, trigDrainCounts_append, t1]
      simp [trigDrainCounts, Event.trigDrainCount]
    · show monitorCounts (stT.emit (Event.start_trigger_monitor n)).events = _
      rw [emit_events, monitorCounts_append, t2]
      rfl
  rw [if_neg hm]
  by_cases hd : w.pthread_create_dac ≠ 0
  · rw [if_pos hd]
    refine ⟨_, [n], ?_, ?_, hX, by simp, by simp⟩
    · rw [stopMonitor_events, trigDrainCounts_append, c1]
      show trigDrainCounts (stT.emit (Event.start_trigger_monitor n)).events ++ [] = _
      rw [emit_events, trigDrainCounts_append, t1]
      simp [trigDrainCounts, Event.trigDrainCount]
    · rw [stopMonitor_events, monitorCounts_append, c2]
      show monitorCounts (stT.emit (Event.start_trigger_monitor n)).events ++ [] = _
      rw [emit_events, monitorCounts_append, t2]
      simp [monitorCounts, Event.monitorCount]
  rw [if_neg hd]
  by_cases ha : w.pthread_create_adc ≠ 0
  · rw [if_pos ha]
    refine ⟨_, [n], ?_, ?_, hX, by simp, by simp⟩
    · rw [stopMonitor_events, trigDrainCounts_append, c1]
      show trigDrainCounts ((stT.emit (Event.start_trigger_monitor n)).events ++
        [Event.dac_thread (dac_cmd_stream_data plan)]) ++ [] = _
      rw [emit_events, trigDrainCounts_append, trigDrainCounts_append, t1]
      simp [trigDrainCounts, Event.trigDrainCount]
    · rw [stopMonitor_events, monitorCounts_append, c2]
      show monitorCounts ((stT.emit (Event.start_trigger_monitor n)).events ++
        [Event.dac_thread (dac_cmd_stream_data plan)]) ++ [] = _
      rw [emit_events, monitorCounts_append, monitorCounts_append, t2]
      simp [monitorCounts, Event.monitorCount]
  rw [if_neg ha]
  have e7 : ∀ c, trigDrainCounts ((stT.emit (Event.start_trigger_monitor n)).events ++
      [Event.dac_thread (dac_cmd_stream_data plan)] ++
      [Event.adc_thread (adc_cmd_stream_data plan)] ++ [Event.preload_wait_end c])
      = trigDrainCounts st.events ++ (if 0 < n then [n] else []) := by
    intro c
    rw [emit_events, trigDrainCounts_append, trigDrainCounts_append, trigDrainCounts_append,
      trigDrainCounts_append, t1]
    simp [trigDrainCounts, Event.trigDrainCount]
  have m7 : ∀ c, monitorCounts ((stT.emit (Event.start_trigger_monitor n)).events ++
      [Event.dac_thread (dac_cmd_stream_data plan)] ++
      [Event.adc_thread (adc_cmd_stream_data plan)] ++ [Event.preload_wait_end c])
      = monitorCounts st.events ++ [n] := by
    intro c
    rw [emit_events, monitorCounts_append, monitorCounts_append, monitorCounts_append,
      monitorCounts_append, t2]
    simp [monitorCounts, Event.monitorCount]
  by_cases hab : preloadWait w 500 0 ≥ 500 ∧ abortAnswer w = true
  · rw [if_pos hab]
    refine ⟨_, [n], ?_, ?_, hX, by simp, by simp⟩
    · rw [stopMonitor_events, trigDrainCounts_append, c1, List.append_nil]
      exact e7 _
    · rw [stopMonitor_events, monitorCounts_append, c2, List.append_nil]
      exact m7 _
  · rw [if_neg hab]
    refine ⟨_, [n], ?_, ?_, hX, by simp, fun _ => ⟨rfl, rfl⟩⟩
    · rw [sendTriggerCommands_spec ops hops]
      show trigDrainCounts (_ ++ List.map Event.trigger_word _) = _
      rw [trigDrainCounts_append, (counts_words _).1, List.append_nil]
      exact e7 _
    · rw [sendTriggerCommands_spec ops hops]
      show monitorCounts (_ ++ List.map Event.trigger_word _) = _
      rw [monitorCounts_append, (counts_words _).2, List.append_nil]
      exact m7 _

/-- The counts in the trace of a call of the runner that has a plan. -/
theorem run_counts (ops : TrigOpcodes) (hops : ops.Fit) (w : World)
    (flags : List command_flag_t) (plan : Plan) (h : readPlan w = some plan) :
    (∀ c ∈ trigDrainCounts (cmd_rev_c_compat ops w flags RunState.init).2.events,
      c = expected_triggers plan.line_count plan.iterations.toNat plan.final_zero_trigger) ∧
    (∀ c ∈ monitorCounts (cmd_rev_c_compat ops w flags RunState.init).2.events,
      c = expected_triggers plan.line_count plan.iterations.toNat plan.final_zero_trigger) ∧
    ((cmd_rev_c_compat ops w flags RunState.init).1 = .returned 0 →
      trigDrainCounts (cmd_rev_c_compat ops w flags RunState.init).2.events
        = (if 0 < expected_triggers plan.line_count plan.iterations.toNat
              plan.final_zero_trigger
           then [expected_triggers plan.line_count plan.iterations.toNat
              plan.final_zero_trigger] else []) ∧
      monitorCounts (cmd_rev_c_compat ops w flags RunState.init).2.events
        = [expected_triggers plan.line_count plan.iterations.toNat
              plan.final_zero_trigger]) := by
  rcases run_plan ops w flags RunState.init plan h with ⟨h1, h2⟩ | ⟨-, -, h2⟩
  · refine ⟨?_, ?_, fun h0 => ?_⟩
    · intro c hc
      rcases h2 with h2 | h2 <;> rw [h2] at hc <;> simp [trigDrainCounts, RunState.init,
        RunState.emit, Event.trigDrainCount] at hc
    · intro c hc
      rcases h2 with h2 | h2 <;> rw [h2] at hc <;> simp [monitorCounts, RunState.init,
        RunState.emit, Event.monitorCount] at hc
    · rw [h1] at h0
      exact absurd h0 (by decide)
  · rw [h2]
    obtain ⟨X, Y, e1, e2, hX, hY, h0⟩ := startExperiment_counts ops hops w
      (has_flag flags .FLAG_BIN) plan (afterReset flags RunState.init)
    have r1 : trigDrainCounts (afterReset flags RunState.init).events = [] := by
      rw [afterReset_events]
      exact (counts_reset flags).1
    have r2 : monitorCounts (afterReset flags RunState.init).events = [] := by
      rw [afterReset_events]
      exact (counts_reset flags).2
    rw [r1, List.nil_append] at e1
    rw [r2, List.nil_append] at e2
    rw [e1, e2]
    exact ⟨hX, hY, h0⟩

theorem expected_triggers_eq (lines iterations : Nat) (z : Bool)
    (hn : lines * iterations + (if z then 1 else 0) < 2 ^ 32) :
    expected_triggers lines iterations z = lines * iterations + (if z then 1 else 0) := by
  have e32 : (2 : Nat) ^ 32 = 4294967296 := by norm_num
  have e64 : (2 : Nat) ^ 64 = 18446744073709551616 := by norm_num
  unfold expected_triggers total_lines u32
  generalize lines * iterations = m at hn ⊢
  rw [e32] at hn ⊢
  rw [e64]
  split_ifs at hn ⊢ <;> omega

theorem plan_counts_pos {w : World} {plan : Plan} (h : readPlan w = some plan) :
    1 ≤ plan.line_count ∧ 1 ≤ plan.iterations.toNat := by
  obtain ⟨-, h1, h2, -⟩ := readPlan_some h
  refine ⟨?_, ?_⟩
  · cases hf : w.dac_file with
    | none =>
      rw [hf] at h1
      simp [validate_rev_c_file_format_amps] at h1
    | some content =>
      rw [hf] at h1
      exact validate_pos content _ h1
  · unfold promptIterations at h2
    cases hi : w.iterations with
    | none => rw [hi] at h2; simp at h2
    | some i =>
      rw [hi] at h2
      simp only at h2
      split_ifs at h2 with hlt
      have := Option.some.inj h2
      omega

/-- The words in the trigger command FIFO after a call of the runner that returns 0. -/
theorem run_triggerWords (ops : TrigOpcodes) (hops : ops.Fit) (w : World)
    (flags : List command_flag_t) (plan : Plan) (h : readPlan w = some plan)
    (hret : (cmd_rev_c_compat ops w flags RunState.init).1 = .returned 0) :
    triggerWords (cmd_rev_c_compat ops w flags RunState.init).2.events
      = startWords ops plan.lockout_time
          (expected_triggers plan.line_count plan.iterations.toNat plan.final_zero_trigger) := by
  rcases run_trace ops hops w flags RunState.init plan h with h | h | h | h
  · rw [h.1] at hret
    exact absurd hret (by decide)
  · obtain ⟨pre, -, -, hne, -⟩ := h
    exact absurd hret hne
  · obtain ⟨pre, c, -, -, -, -, hm, -⟩ := h
    rw [hm] at hret
    exact absurd hret (by decide)
  · obtain ⟨pre, c, hpre, -, -, -, hev, -⟩ := h
    obtain ⟨re, -⟩ := reset_event_early flags
    have hall : ((if has_flag flags .FLAG_NO_RESET then [] else [Event.safe_buffer_reset])
        ++ pre).all Event.early = true := by
      rw [List.all_append, re, hpre]; rfl
    rw [afterReset_events] at hev
    have hnil : RunState.init.events = [] := rfl
    rw [hnil, List.nil_append] at hev
    rw [hev, triggerWords_append, triggerWords_append, triggerWords_early _ hall,
      triggerWords_map]
    rfl
/-! ## Claims about the ADC command thread -/

/-- C21 (counterexample).  With `ramp_samples = 3` a served run sends to board 0
for row 1 of iteration 0 three ADC_RDs, not four: the trigger-waiting one, one
with the ramp delay cycles (not two) and the final one. -/
theorem C21_counterexample :
    paramsAdcR3.ramp_samples = 3 ∧
    (rev_c_adc_cmd_stream_thread runningEnv exampleAdcHw paramsAdcR3 8
      (AdcState.init fun _ => 0)).1 = Flow.next ∧
    ((rev_c_adc_cmd_stream_thread runningEnv exampleAdcHw paramsAdcR3 8
      (AdcState.init fun _ => 0)).2.writes.filter
        fun w => decide (w.1 = AdcSite.row 0 1) && decide (w.2.board = 0)).map Prod.snd
      = [AdcCmd.adc_rd 0 true false 1 0, AdcCmd.adc_rd 0 false false 7 0,
         AdcCmd.adc_rd 0 false false 1007 0] := by
  decide!

/-- C21 (amended).  For every ramp-sample count `R > 0` (an `int`) and every
run of the ADC thread whose stop flag is never set: when the thread function
runs to its end (`Flow.next`: no board found absent, no wait out of fuel) it
has sent, after the four set_ord commands, for every iteration, every row
`1..line_count` and every board `0..3` in this order one
ADC_RD(trig = true, count 1), then `R - 2` ADC_RDs (none when `R = 1`) with
trig = false and the ramp delay cycles, then one ADC_RD with trig = false and
ramp delay cycles + ADC delay cycles (the sum as `uint32_t`): `R` commands
when `R ≥ 2` and 2 commands when `R = 1`.  It does run to its end when all
boards stay present, the hardware consumes at least one word per step, the
FIFOs hold what the waits ask for and the fuel covers the polls of a full
FIFO. -/
theorem C21_ramp_commands (env : Env) (hw : AdcHw) (p : rev_c_params_t) (fuel : Nat)
    (fill : Nat → Nat) (hns : ∀ t, env.stop t = false)
    (hR : 1 ≤ p.ramp_samples) (hint : p.ramp_samples < 2 ^ 31) :
    ((rev_c_adc_cmd_stream_thread env hw p fuel (AdcState.init fill)).1 = Flow.next →
      (rev_c_adc_cmd_stream_thread env hw p fuel (AdcState.init fill)).2.writes =
        setOrdWrites ++
        (adcRows p.line_count 0 p.iterations).flatMap (fun row =>
          [0, 1, 2, 3].flatMap fun board =>
            ([AdcCmd.adc_rd board true false 1 0] ++
              List.replicate (p.ramp_samples - 2)
                (AdcCmd.adc_rd board false false p.ramp_delay_cycles 0) ++
              [AdcCmd.adc_rd board false false
                (((u32OfInt p.ramp_delay_cycles + p.delay_cycles) % 2 ^ 32 : Nat) : Int) 0]).map
              fun c => (AdcSite.row row.1 row.2, c)) ++
        finalZeroWrites p) ∧
    (AdcServed env hw p fuel → (∀ b, fill b ≤ hw.ADC_CMD_FIFO_WORDCOUNT) →
      (rev_c_adc_cmd_stream_thread env hw p fuel (AdcState.init fill)).1 = Flow.next) ∧
    ∀ board : Nat,
      ([AdcCmd.adc_rd board true false 1 0] ++
        List.replicate (p.ramp_samples - 2)
          (AdcCmd.adc_rd board false false p.ramp_delay_cycles 0) ++
        [AdcCmd.adc_rd board false false
          (((u32OfInt p.ramp_delay_cycles + p.delay_cycles) % 2 ^ 32 : Nat) : Int) 0]).length
        = if p.ramp_samples = 1 then 2 else p.ramp_samples := by
  refine ⟨fun h1 => ?_, fun hserved hfill =>
    (adc_thread_exact env hw p fuel hserved (AdcState.init fill) hfill).1, ?_⟩
  · rw [adc_thread_end env hw p fuel hns (AdcState.init fill) h1]
    have e : rowWrites p = fun row : Nat × Nat =>
        [0, 1, 2, 3].flatMap fun board =>
          ([AdcCmd.adc_rd board true false 1 0] ++
            List.replicate (p.ramp_samples - 2)
              (AdcCmd.adc_rd board false false p.ramp_delay_cycles 0) ++
            [AdcCmd.adc_rd board false false
              (((u32OfInt p.ramp_delay_cycles + p.delay_cycles) % 2 ^ 32 : Nat) : Int) 0]).map
            fun c => (AdcSite.row row.1 row.2, c) := by
      funext row
      unfold rowWrites seqWrites
      simp only [adcSequenceCmds_ramp p _ hR hint]
    rw [e]
    rfl
  · intro board
    simp only [List.length_append, List.length_replicate, List.length_singleton]
    split_ifs <;> omega

/-- C21 (witness): one row with one ramp sample, with hardware that consumes
nothing and FIFOs of 1024 words: the run reaches its end and each sequence
has 2 commands. -/
theorem C21_ramp_commands_witness :
    (rev_c_adc_cmd_stream_thread idleEnv exampleAdcHw paramsAdcR1 8
      (AdcState.init fun _ => 0)).1 = Flow.next ∧
    ([AdcCmd.adc_rd 0 true false 1 0] ++
        List.replicate (paramsAdcR1.ramp_samples - 2)
          (AdcCmd.adc_rd 0 false false paramsAdcR1.ramp_delay_cycles 0) ++
        [AdcCmd.adc_rd 0 false false
          (((u32OfInt paramsAdcR1.ramp_delay_cycles + paramsAdcR1.delay_cycles) % 2 ^ 32 :
            Nat) : Int) 0]).length
      = if paramsAdcR1.ramp_samples = 1 then 2 else paramsAdcR1.ramp_samples :=
  ⟨by decide!,
   (C21_ramp_commands idleEnv exampleAdcHw paramsAdcR1 8 (fun _ => 0) (fun _ => rfl)
    (by decide!) (by decide!)).2.2 0⟩

/-- C22.  With a ramp-sample count of 0 and a stop flag that is never set:
when the thread function of the ADC thread runs to its end (`Flow.next`) it
has sent, after the four set_ord commands, for every iteration, every row and
every board in this order exactly three commands: NOOP(trig = true, 1),
NOOP(trig = false, ADC delay cycles), ADC_RD(trig = true, 0); the final-zero
block, when requested, sends the same three commands once per board; with 2
lines and 1 iteration the rows make 24 commands.  It does run to its end when
all boards stay present, the hardware consumes at least one word per step, the
FIFOs hold 3 words and the fuel covers the polls of a full FIFO. -/
theorem C22_no_ramp_commands (env : Env) (hw : AdcHw) (p : rev_c_params_t) (fuel : Nat)
    (fill : Nat → Nat) (hns : ∀ t, env.stop t = false) (hR : p.ramp_samples = 0) :
    ((rev_c_adc_cmd_stream_thread env hw p fuel (AdcState.init fill)).1 = Flow.next →
      (rev_c_adc_cmd_stream_thread env hw p fuel (AdcState.init fill)).2.writes =
        setOrdWrites ++
        (adcRows p.line_count 0 p.iterations).flatMap (fun row =>
          [0, 1, 2, 3].flatMap fun board =>
            [(AdcSite.row row.1 row.2, AdcCmd.noop board true false 1),
             (AdcSite.row row.1 row.2, AdcCmd.noop board false false (p.delay_cycles : Nat)),
             (AdcSite.row row.1 row.2, AdcCmd.adc_rd board true false 0 0)]) ++
        (if p.final_zero_trigger then
          [0, 1, 2, 3].flatMap fun board =>
            [(AdcSite.final_zero, AdcCmd.noop board true false 1),
             (AdcSite.final_zero, AdcCmd.noop board false false (p.delay_cycles : Nat)),
             (AdcSite.final_zero, AdcCmd.adc_rd board true false 0 0)]
         else []) ∧
      (p.line_count = 2 → p.iterations = 1 →
        ((rev_c_adc_cmd_stream_thread env hw p fuel (AdcState.init fill)).2.writes.filter
          fun w => w.1.isRow).length = 24)) ∧
    (AdcServed env hw p fuel → (∀ b, fill b ≤ hw.ADC_CMD_FIFO_WORDCOUNT) →
      (rev_c_adc_cmd_stream_thread env hw p fuel (AdcState.init fill)).1 = Flow.next) := by
  refine ⟨fun h1 => ?_, fun hserved hfill =>
    (adc_thread_exact env hw p fuel hserved (AdcState.init fill) hfill).1⟩
  have h2 := adc_thread_end env hw p fuel hns (AdcState.init fill) h1
  have e : rowWrites p = fun row : Nat × Nat =>
      [0, 1, 2, 3].flatMap fun board =>
        [(AdcSite.row row.1 row.2, AdcCmd.noop board true false 1),
         (AdcSite.row row.1 row.2, AdcCmd.noop board false false (p.delay_cycles : Nat)),
         (AdcSite.row row.1 row.2, AdcCmd.adc_rd board true false 0 0)] := by
    funext row
    unfold rowWrites seqWrites
    simp only [adcSequenceCmds_zero p _ hR]
    rfl
  have ez : finalZeroWrites p =
      if p.final_zero_trigger then
        [0, 1, 2, 3].flatMap fun board =>
          [(AdcSite.final_zero, AdcCmd.noop board true false 1),
           (AdcSite.final_zero, AdcCmd.noop board false false (p.delay_cycles : Nat)),
           (AdcSite.final_zero, AdcCmd.adc_rd board true false 0 0)]
      else [] := by
    unfold finalZeroWrites seqWrites
    simp only [adcSequenceCmds_zero p _ hR]
    rfl
  rw [e, ez] at h2
  refine ⟨?_, ?_⟩
  · rw [h2]
    rfl
  · intro hl hi
    rw [h2, hl, hi]
    cases p.final_zero_trigger <;>
      simp [AdcState.init, AdcState.writes, setOrdWrites, adcRows, List.range_succ,
        AdcSite.isRow, List.filter]

/-- C22 (witness): the example plan (two rows, one iteration, no ramp) with
hardware that consumes nothing and FIFOs of 1024 words: the run reaches its
end and its rows make 24 commands. -/
theorem C22_no_ramp_commands_witness :
    ((rev_c_adc_cmd_stream_thread idleEnv exampleAdcHw (adc_cmd_stream_data examplePlan) 8
      (AdcState.init fun _ => 0)).2.writes.filter fun w => w.1.isRow).length = 24 :=
  ((C22_no_ramp_commands idleEnv exampleAdcHw (adc_cmd_stream_data examplePlan) 8 (fun _ => 0)
    (fun _ => rfl) (by decide!)).1 (by decide!)).2 (by decide!) (by decide!)

/-- C23 (counterexample).  With `ramp_samples = 3` and ADC command FIFOs of 4
words, no poll of the run ever sees `R + 2 = 5` free words (the largest
`available_words` seen is 4), and the run ends by itself after sending the 12
commands of its row. -/
theorem C23_counterexample :
    paramsAdcR3.ramp_samples = 3 ∧
    (rev_c_adc_cmd_stream_thread runningEnv smallAdcHw paramsAdcR3 8
      (AdcState.init fun _ => 0)).1 = Flow.next ∧
    maxSeen (rev_c_adc_cmd_stream_thread runningEnv smallAdcHw paramsAdcR3 8
      (AdcState.init fun _ => 0)).2.log = 4 ∧
    ((rev_c_adc_cmd_stream_thread runningEnv smallAdcHw paramsAdcR3 8
      (AdcState.init fun _ => 0)).2.writes.filter fun w => w.1.isRow).length = 12 := by
  decide!

/-- C23 (amended).  In a run of the ADC thread whose stop flag is not set,
the commands of a row for a board are enqueued directly after a poll of that
board's ADC command FIFO that saw free space for at least `R` commands when
the ramp-sample count `R` is positive, and for at least 3 commands when
`R = 0`: if the log of the run (latest first) is `pre ++ write :: post` with a
write of the line loop, then `post` begins with writes of the same row to the
same board only, followed by a poll of that board whose `available_words` is
at least the threshold. -/
theorem C23_row_headroom (env : Env) (hw : AdcHw) (p : rev_c_params_t) (fuel : Nat)
    (fill : Nat → Nat) (hns : ∀ t, env.stop t = false) (hint : p.ramp_samples < 2 ^ 31)
    (pre post : List AdcEvent) (t f i l : Nat) (cmd : AdcCmd)
    (hlog : (rev_c_adc_cmd_stream_thread env hw p fuel (AdcState.init fill)).2.log
      = pre ++ AdcEvent.write t f (.row i l) cmd :: post) :
    ∃ ws a rest, post = ws ++ AdcEvent.poll cmd.board a :: rest ∧
      (if 0 < p.ramp_samples then p.ramp_samples else 3) ≤ a ∧
      ∀ e ∈ ws, ∃ t1 f1 c, e = AdcEvent.write t1 f1 (.row i l) c ∧ c.board = cmd.board := by
  have hg := adc_thread_guard env hw p fuel hns (AdcState.init fill) (by
    show RowPolled _ []
    simp [RowPolled])
  have hs := rowPolled_split _ pre _ post t f i l cmd hg hlog
  rw [adcRowNeed_eq p hint] at hs
  exact polledFor_split _ _ _ post hs

/-- C23 (witness): the last command of the row for board 1 in the run with
three ramp samples against FIFOs of 4 words; two commands of the same row for
board 1 and then the poll of board 1 precede it. -/
theorem C23_row_headroom_witness :
    ∃ ws a rest,
      (rev_c_adc_cmd_stream_thread runningEnv smallAdcHw paramsAdcR3 8
          (AdcState.init fun _ => 0)).2.log.drop 9
        = ws ++ AdcEvent.poll 1 a :: rest ∧
      3 ≤ a ∧
      ∀ e ∈ ws, ∃ t1 f1 c, e = AdcEvent.write t1 f1 (.row 0 1) c ∧ c.board = 1 :=
  C23_row_headroom runningEnv smallAdcHw paramsAdcR3 8 (fun _ => 0) (fun _ => rfl) (by decide!)
    ((rev_c_adc_cmd_stream_thread runningEnv smallAdcHw paramsAdcR3 8
      (AdcState.init fun _ => 0)).2.log.take 8)
    ((rev_c_adc_cmd_stream_thread runningEnv smallAdcHw paramsAdcR3 8
      (AdcState.init fun _ => 0)).2.log.drop 9)
    23 4 0 1 (AdcCmd.adc_rd 1 false false 1007 0) (by decide!)

/-- C26.  In the world with one ramp sample and an ADC delay shorter than the
ramp step, the runner computes `adc_ramp_samples = 1`, gives every ADC drain
worker the quota `expected_samples_per_board = 8` (2 lines, 4 samples each)
and starts the ADC thread with `ramp_samples = 1`; a served run of the thread
with these parameters sends 4 ADC_RDs to board 0, two per row, which is 16
samples: twice the quota. -/
theorem C26_quota_mismatch :
    readPlan worldOneSample = some planOneSample ∧
    adc_ramp_samples planOneSample = 1 ∧
    expected_samples_per_board planOneSample = 8 ∧
    Event.cmd_stream_adc_data_to_file 0 8 "out_bd_0.csv".toList [] ∈
      (cmd_rev_c_compat exampleOpcodes worldOneSample [] RunState.init).2.events ∧
    Event.adc_thread (adc_cmd_stream_data planOneSample) ∈
      (cmd_rev_c_compat exampleOpcodes worldOneSample [] RunState.init).2.events ∧
    (rev_c_adc_cmd_stream_thread runningEnv exampleAdcHw (adc_cmd_stream_data planOneSample) 8
      (AdcState.init fun _ => 0)).1 = Flow.next ∧
    adcRdsOfBoard 0
      (rev_c_adc_cmd_stream_thread runningEnv exampleAdcHw (adc_cmd_stream_data planOneSample) 8
        (AdcState.init fun _ => 0)).2.cmds
      = [AdcCmd.adc_rd 0 true false 1 0, AdcCmd.adc_rd 0 false false 150000 0,
         AdcCmd.adc_rd 0 true false 1 0, AdcCmd.adc_rd 0 false false 150000 0] ∧
    4 * 4 ≠ expected_samples_per_board planOneSample := by
  decide!

/-- C27.  With `ramp_samples = 10`, FIFOs of 16 words that are not consumed
and the final zero requested, the wait of the final-zero block asks for 3
free words, its poll of board 0 sees 5, and the thread then sends 10 commands
to that board, the last of them with no free word in the FIFO.  With
`ramp_samples = 1` and FIFOs of 2 words the wait of the row asks for 1 free
word, the poll sees 1, and the thread sends 2 commands, the second with no
free word. -/
theorem C27_more_commands_than_headroom :
    (rev_c_adc_cmd_stream_thread idleEnv adcHw16 paramsAdcR10 8
      (AdcState.init fun _ => 0)).1 = Flow.next ∧
    lastPoll 0 (rev_c_adc_cmd_stream_thread idleEnv adcHw16 paramsAdcR10 8
      (AdcState.init fun _ => 0)).2.log = some 5 ∧
    sentSincePoll 0 (rev_c_adc_cmd_stream_thread idleEnv adcHw16 paramsAdcR10 8
      (AdcState.init fun _ => 0)).2.log = 10 ∧
    minFree 0 (rev_c_adc_cmd_stream_thread idleEnv adcHw16 paramsAdcR10 8
      (AdcState.init fun _ => 0)).2.log = some 0 ∧
    adcRowNeed paramsAdcR1 = 1 ∧
    (rev_c_adc_cmd_stream_thread idleEnv adcHw2 paramsAdcR1 8
      (AdcState.init fun _ => 0)).1 = Flow.next ∧
    lastPoll 0 (rev_c_adc_cmd_stream_thread idleEnv adcHw2 paramsAdcR1 8
      (AdcState.init fun _ => 0)).2.log = some 1 ∧
    sentSincePoll 0 (rev_c_adc_cmd_stream_thread idleEnv adcHw2 paramsAdcR1 8
      (AdcState.init fun _ => 0)).2.log = 2 ∧
    minFree 0 (rev_c_adc_cmd_stream_thread idleEnv adcHw2 paramsAdcR1 8
      (AdcState.init fun _ => 0)).2.log = some 0 := by
  decide!
/-! ## Claims about the derived cycle counts -/

/-- C24 (counterexample).  At 1 MHz an ADC delay and a lockout of `7 · 2^-12` ms
are 7000/4096 = 1.708984375 cycles, which rounds to 2; the runner uses
`delay_cycles = 1` and `lockout_time = 1`: the conversion to `uint32_t`
truncates. -/
theorem C24_counterexample :
    readPlan worldFractionalDelay = some planFractionalDelay ∧
    planFractionalDelay.delay_cycles = 1 ∧ planFractionalDelay.lockout_time = 1 ∧
    worldFractionalDelay.adc_delay_ms = some (F64.fin false (7 * 2 ^ 1062)) ∧
    worldFractionalDelay.spi_freq_mhz = some (F64.fin false (1 * 2 ^ 1074)) ∧
    roundNearest (7 * 1 * 1000) (2 ^ 12) = 2 := by
  decide!

set_option exponentiation.threshold 4000 in
/-- C24 (amended).  The derived cycle counts are computed by truncation toward
zero: for the ADC delay `d` and the lockout `l` that pass the prompts,
`delay_cycles` and `lockout_time` are the conversions to `uint32_t` of the
double products `d * f * 1000.0` and `l * f * 1000.0`; and where such a
product is a non-negative double `p` below `2^32`, the cycle count `c` is its
integral part, `c ≤ p < c + 1`, whatever the implementation yields for the
conversions that ISO C leaves undefined. -/
theorem C24_cycles_truncated (w : World) (plan : Plan) (d l : F64)
    (hplan : readPlan w = some plan) (hd : w.adc_delay_ms = some d)
    (hl : w.lockout_ms = some l) :
    plan.delay_cycles = cycles_of_ms w d plan.spi_freq_mhz ∧
    plan.lockout_time = cycles_of_ms w l plan.spi_freq_mhz ∧
    ∀ (ms : F64) (m : Nat),
      F64.mul (F64.mul ms plan.spi_freq_mhz) F64.c1000 = .fin false m → m < 2 ^ 32 * 2 ^ 1074 →
      cycles_of_ms w ms plan.spi_freq_mhz * 2 ^ 1074 ≤ m ∧
      m < (cycles_of_ms w ms plan.spi_freq_mhz + 1) * 2 ^ 1074 := by
  obtain ⟨-, -, -, -, -, -, h7, h8, -, -⟩ := readPlan_some hplan
  refine ⟨?_, ?_, ?_⟩
  · unfold promptAdcDelay at h7
    rw [hd] at h7
    simp only at h7
    split_ifs at h7
    exact (Option.some.inj h7).symm
  · unfold promptLockout at h8
    rw [hl] at h8
    simp only at h8
    split_ifs at h8
    exact (Option.some.inj h8).symm
  · intro ms m hm hlt
    have hUpos : 0 < (2 : Nat) ^ 1074 := Nat.two_pow_pos 1074
    have hdiv : m / 2 ^ 1074 < 2 ^ 32 := (Nat.div_lt_iff_lt_mul hUpos).2 hlt
    have hc : cycles_of_ms w ms plan.spi_freq_mhz = m / 2 ^ 1074 := by
      unfold cycles_of_ms
      rw [hm]
      simp only [F64.toUInt32, Bool.false_eq_true, if_false, if_pos hdiv]
    rw [hc]
    exact ⟨Nat.div_mul_le_self m _, by
      rw [Nat.mul_comm]
      exact Nat.lt_mul_div_succ m hUpos⟩

/-- C24 (witness): the world with the fractional delay. -/
theorem C24_cycles_truncated_witness :
    planFractionalDelay.delay_cycles = cycles_of_ms worldFractionalDelay (F64.dyadic 7 12) (F64.nat 1) ∧
    planFractionalDelay.lockout_time = cycles_of_ms worldFractionalDelay (F64.dyadic 7 12) (F64.nat 1) ∧
    cycles_of_ms worldFractionalDelay (F64.dyadic 7 12) (F64.nat 1) = 1 :=
  have h := C24_cycles_truncated worldFractionalDelay planFractionalDelay (F64.dyadic 7 12)
    (F64.dyadic 7 12) (by decide!) rfl rfl
  ⟨h.1, h.2.1, by decide!⟩

/-- C25.  With a clock of 1/32 MHz, one ramp sample and a ramp time of 0.02 ms
all prompts are passed with `ramp_samples = 1 > 0`, the computed
`ramp_delay_cycles` is 0, and the runner evaluates
`delay_cycles / ramp_delay_cycles`: an integer division by zero, before any
stopper is added. -/
theorem C25_division_by_zero :
    readPlan worldSlowClock = some planSlowClock ∧
    planSlowClock.ramp_samples = 1 ∧ planSlowClock.ramp_delay_cycles = 0 ∧
    (cmd_rev_c_compat exampleOpcodes worldSlowClock [] RunState.init).1
      = .division_by_zero ∧
    (cmd_rev_c_compat exampleOpcodes worldSlowClock [] RunState.init).2.events
      = [.safe_buffer_reset] := by
  decide!
/-! ## Claims about the end of a ramp and of a run of the DAC thread -/

/-- C29.  The validator and the DAC thread agree on what a data line is: for
a file the validator accepts with the count `line_count`, the counter
`line_num` of the thread takes on the data lines of the file the values
`1, …, line_count`; and in a run without final zero over `iterations ≥ 1`
iterations whose stop flag is never set, when the thread function runs to its
end (`Flow.next`: no board found absent, no wait out of fuel) it has sent the
ramps of these numbered lines in every iteration, and among the DAC_WRs of
each board exactly one has `cont = false`, the last one sent to the board.
The thread function does run to its end when all boards stay present, the
hardware consumes at least one word per step, the FIFOs hold a ramp and the
fuel covers the polls of a full FIFO. -/
theorem C29_validator_and_thread_agree (env : Env) (hw : Hw) (p : rev_c_params_t) (fuel : Nat)
    (content : List Char) (fill : Nat → Nat)
    (hval : validate_rev_c_file_format_amps (some content) = some p.line_count)
    (hns : ∀ t, env.stop t = false)
    (hit : 1 ≤ p.iterations) (hz : p.final_zero_trigger = false) :
    (numberedRows 0 (dataRows (fgetsLines 2048 content []))).map Prod.fst
      = List.range' 1 p.line_count ∧
    ((rev_c_dac_cmd_stream_thread env hw p fuel (some content) (DacState.init fill)).1
        = Flow.next →
      (rev_c_dac_cmd_stream_thread env hw p fuel (some content) (DacState.init fill)).2.cmds
        = iterationCmds hw p (fgetsLines 2048 content []) 0 p.iterations ∧
      ∀ board, board < 4 → ∃ init last,
        cmdsOfBoard board
            (rev_c_dac_cmd_stream_thread env hw p fuel (some content)
              (DacState.init fill)).2.cmds
          = init ++ [last] ∧
        last.cont = false ∧ ∀ c ∈ init, c.cont = true) ∧
    (DacServed env hw p fuel → (∀ b, fill b ≤ hw.DAC_CMD_FIFO_WORDCOUNT) →
      (rev_c_dac_cmd_stream_thread env hw p fuel (some content) (DacState.init fill)).1
        = Flow.next) := by
  have hn : (dataRows (fgetsLines 2048 content [])).length = p.line_count :=
    validate_rowCount content p.line_count hval
  have h1 : 1 ≤ p.line_count := validate_pos content p.line_count hval
  refine ⟨?_, fun hnext => ?_, fun hserved hfill => ?_⟩
  · rw [numberedRows_fst, hn]
  · have t2 := thread_rows env hw p fuel content (DacState.init fill) hns hz hnext
    have e0 : (DacState.init fill).cmds = [] := rfl
    rw [e0, List.nil_append] at t2
    refine ⟨t2, fun board hb => ?_⟩
    rw [t2]
    exact iterationCmds_last hw p (fgetsLines 2048 content []) board hb hit hn h1
  · obtain ⟨-, hpres, hdrain, hC, hneed, hfuel⟩ := hserved
    exact thread_next env hw p fuel content (DacState.init fill) hns hpres hdrain hC hneed
      hfuel hfill

/-- C29 (witness): the two-line file, one iteration, no ramp, board 0, with
hardware that consumes nothing. -/
theorem C29_validator_and_thread_agree_witness :
    ∃ init last,
      cmdsOfBoard 0
          (rev_c_dac_cmd_stream_thread idleEnv exampleHw paramsS1 8 (some twoLineFile)
            (DacState.init fun _ => 0)).2.cmds
        = init ++ [last] ∧
      last.cont = false ∧ ∀ c ∈ init, c.cont = true :=
  ((C29_validator_and_thread_agree idleEnv exampleHw paramsS1 8 twoLineFile (fun _ => 0)
    (by decide!) (fun _ => rfl) (by decide!) rfl).2.1 (by decide!)).2 0 (by decide!)
/-! ## Claims about the output files -/

/-- C30.  For the base output path `./out` the runner starts the drain workers
with the file names `_bd_0./out`, …, `_bd_3./out` and `_trig./out`: the tag is
inserted before the last `.` of the whole path, which here belongs to the
directory part, so the files are not in the directory of the base path and
are not named `./out_bd_<N>` and `./out_trig`.  For `run.1/out` the name for
board 2 is `run_bd_2.1/out`. -/
theorem C30_dot_in_directory :
    board_output_file "./out".toList 0 = "_bd_0./out".toList ∧
    trigger_output_file "./out".toList = "_trig./out".toList ∧
    board_output_file "./out".toList 0 ≠ "./out_bd_0".toList ∧
    board_output_file "run.1/out".toList 2 = "run_bd_2.1/out".toList ∧
    Event.cmd_stream_adc_data_to_file 0 8 "_bd_0./out".toList [] ∈
      (cmd_rev_c_compat exampleOpcodes worldDotPath [] RunState.init).2.events ∧
    Event.cmd_stream_trig_data_to_file 2 "_trig./out".toList [] ∈
      (cmd_rev_c_compat exampleOpcodes worldDotPath [] RunState.init).2.events := by
  decide!
/-! ## The expected trigger count of the runner -/

/-- C8 (counterexample).  With the four-line file and `2^30` iterations the
product `lines · I` is `2^32`; the runner returns 0, has started no trigger
drain and has told the trigger monitor to expect 0 triggers.  With the two-line
file and `2^28 + 1` iterations the trigger drain and the monitor get
`2^29 + 2`, but no EXPECT_EXT word is written: the trigger command FIFO holds
SYNC_CH, RESET_COUNT and SET_LOCKOUT only. -/
theorem C8_counterexample :
    (readPlan worldWrapIterations).map (fun p => (p.line_count, p.iterations, p.final_zero_trigger))
      = some (4, 2 ^ 30, false) ∧
    (cmd_rev_c_compat exampleOpcodes worldWrapIterations [] RunState.init).1 = .returned 0 ∧
    trigDrainCounts (cmd_rev_c_compat exampleOpcodes worldWrapIterations [] RunState.init).2.events
      = [] ∧
    monitorCounts (cmd_rev_c_compat exampleOpcodes worldWrapIterations [] RunState.init).2.events
      = [0] ∧
    4 * 2 ^ 30 ≠ 0 ∧
    (readPlan worldManyIterations).map (fun p => (p.line_count, p.iterations, p.final_zero_trigger))
      = some (2, 2 ^ 28 + 1, false) ∧
    (cmd_rev_c_compat exampleOpcodes worldManyIterations [] RunState.init).1 = .returned 0 ∧
    trigDrainCounts (cmd_rev_c_compat exampleOpcodes worldManyIterations [] RunState.init).2.events
      = [2 ^ 29 + 2] ∧
    monitorCounts (cmd_rev_c_compat exampleOpcodes worldManyIterations [] RunState.init).2.events
      = [2 ^ 29 + 2] ∧
    triggerWords (cmd_rev_c_compat exampleOpcodes worldManyIterations [] RunState.init).2.events
      = [0x20000000, 0xC0000000, 0x400186A0] := by
  decide!

/-- C8 (amended).  For a call of `cmd_rev_c_compat` whose prompts yield a plan
(a validated file with `lines` data lines, `I ≥ 1` iterations, final-zero flag
Z), let `n = lines · I`, plus 1 when Z is set.  If `n < 2^32`, the count
`expected_triggers` the runner computes is `n`, and every sample count it
gives to the trigger drain and every count it gives to the trigger monitor is
`n`; a call that returns 0 has started the trigger drain once and the trigger
monitor once, both with `n`, and if moreover `n < 2^28` the last word it has
written to the trigger command FIFO is EXPECT_EXT with the log bit and the
value `n`. -/
theorem C8_expected_triggers (ops : TrigOpcodes) (hops : ops.Fit) (w : World)
    (flags : List command_flag_t) (plan : Plan) (n : Nat)
    (hplan : readPlan w = some plan)
    (hdef : n = plan.line_count * plan.iterations.toNat +
      (if plan.final_zero_trigger then 1 else 0))
    (hn : n < 2 ^ 32) :
    expected_triggers plan.line_count plan.iterations.toNat plan.final_zero_trigger = n ∧
    (∀ c ∈ trigDrainCounts (cmd_rev_c_compat ops w flags RunState.init).2.events, c = n) ∧
    (∀ c ∈ monitorCounts (cmd_rev_c_compat ops w flags RunState.init).2.events, c = n) ∧
    ((cmd_rev_c_compat ops w flags RunState.init).1 = .returned 0 →
      trigDrainCounts (cmd_rev_c_compat ops w flags RunState.init).2.events = [n] ∧
      monitorCounts (cmd_rev_c_compat ops w flags RunState.init).2.events = [n] ∧
      (n < 2 ^ 28 →
        triggerWords (cmd_rev_c_compat ops w flags RunState.init).2.events
          = [trigWord ops.TRIG_CMD_SYNC_CH 0 0, trigWord ops.TRIG_CMD_RESET_COUNT 0 0] ++
            (if plan.lockout_time < 2 ^ 28
             then [trigWord ops.TRIG_CMD_SET_LOCKOUT 0 plan.lockout_time] else []) ++
            [trigWord ops.TRIG_CMD_EXPECT_EXT 1 n] ∧
        opcodeField (trigWord ops.TRIG_CMD_EXPECT_EXT 1 n) = ops.TRIG_CMD_EXPECT_EXT ∧
        logField (trigWord ops.TRIG_CMD_EXPECT_EXT 1 n) = 1 ∧
        valueField (trigWord ops.TRIG_CMD_EXPECT_EXT 1 n) = n)) := by
  have key : expected_triggers plan.line_count plan.iterations.toNat plan.final_zero_trigger
      = n := by
    rw [hdef]
    exact expected_triggers_eq _ _ _ (by rw [← hdef]; exact hn)
  obtain ⟨p1, p2⟩ := plan_counts_pos hplan
  have hpos : 0 < n := by
    have := Nat.mul_pos p1 p2
    omega
  obtain ⟨c1, c2, c3⟩ := run_counts ops hops w flags plan hplan
  rw [key] at c1 c2 c3
  refine ⟨key, c1, c2, fun hret => ?_⟩
  obtain ⟨d1, d2⟩ := c3 hret
  rw [if_pos hpos] at d1
  refine ⟨d1, d2, fun h28 => ?_⟩
  have hf := trigWord_fields ops.TRIG_CMD_EXPECT_EXT 1 n hops.2.2.1 (by decide) h28
  refine ⟨?_, hf.2.1, hf.2.2.1, hf.2.2.2⟩
  rw [run_triggerWords ops hops w flags plan hplan hret, key]
  unfold startWords
  rw [if_pos h28]

/-- C8 (witness): scenario S1 in the example world (two lines, one iteration,
no final zero): the trigger drain and the monitor get 2 and the EXPECT_EXT
word carries 2; the counts of the scenarios S2 and S3 are 6 and 3. -/
theorem C8_expected_triggers_witness :
    trigDrainCounts (cmd_rev_c_compat exampleOpcodes exampleWorld [] RunState.init).2.events
      = [2] ∧
    monitorCounts (cmd_rev_c_compat exampleOpcodes exampleWorld [] RunState.init).2.events
      = [2] ∧
    valueField (trigWord exampleOpcodes.TRIG_CMD_EXPECT_EXT 1 2) = 2 ∧
    expected_triggers 2 3 false = 6 ∧ expected_triggers 2 1 true = 3 :=
  have h := (C8_expected_triggers exampleOpcodes (by decide) exampleWorld [] examplePlan 2
    (by decide!) (by decide!) (by decide!)).2.2.2 (by decide!)
  ⟨h.1, h.2.1, (h.2.2 (by decide!)).2.2.2, by decide!, by decide!⟩
end RevC
